import Mathlib

/-!
Verification development for the eqlog compiler (equational logic → native model
code).  Each section shallowly embeds one part of the source:

* `IndexSel` embeds `src/eqlog/src/index_selection.rs` (query specs, chain
  cover, index synthesis).
* `Llam` embeds the conclusion lowering of `src/eqlog/src/llam.rs`.
* `ModelGen` embeds the runtime model whose code `src/eqlog/src/rust_gen.rs`
  emits (union-find, tables, weights, equate/insert/define/canonicalize/close).
* `Flatten` embeds `src/eqlog/src/flat_ast.rs` (sequent flattening).

Rust `BTreeSet`/`BTreeMap` values are represented as strictly ascending lists,
which is exactly the ordered-iteration view the source relies on.
-/

namespace IndexSel

/-- Embeds `QuerySpec` from `index_selection.rs`.  `projections` is the
ascending element list of the `BTreeSet<usize>`, `diagonals` the ascending list
of ascending lists of the `BTreeSet<BTreeSet<usize>>`. -/
structure QuerySpec where
  projections : List Nat
  diagonals : List (List Nat)
  only_dirty : Bool
deriving DecidableEq, Repr, Inhabited

/-- Embeds `QuerySpec::all`. -/
def QuerySpec.all : QuerySpec :=
  { projections := [], diagonals := [], only_dirty := false }

/-- Embeds `QuerySpec::all_dirty`. -/
def QuerySpec.all_dirty : QuerySpec :=
  { projections := [], diagonals := [], only_dirty := true }

/-- Embeds `QuerySpec::le_restrictive`: same diagonals, same dirty flag, and
set inclusion of projections. -/
def QuerySpec.le_restrictive (a b : QuerySpec) : Bool :=
  if a.diagonals ≠ b.diagonals ∨ a.only_dirty ≠ b.only_dirty then false
  else a.projections.all (fun x => b.projections.contains x)

/-- Stable insertion (used by `sortByProjCount`): `x` goes after all entries
whose key is `≤` its own, mirroring the stability of Rust's `sort_by_key`. -/
def insertByProjCount (x : QuerySpec) : List QuerySpec → List QuerySpec
  | [] => [x]
  | y :: ys =>
    if y.projections.length ≤ x.projections.length then y :: insertByProjCount x ys
    else x :: y :: ys

/-- Embeds `specs.sort_by_key(|index| index.projections.len())` (a stable sort
by projection count). -/
def sortByProjCount : List QuerySpec → List QuerySpec
  | [] => []
  | x :: xs => insertByProjCount x (sortByProjCount xs)

/-- One step of the greedy chain cover of `query_spec_chains`: append `spec` to
the first chain whose last element is `le_restrictive` than it, else start a
new chain at the end. -/
def pushSpec : List (List QuerySpec) → QuerySpec → List (List QuerySpec)
  | [], spec => [[spec]]
  | c :: cs, spec =>
    if (c.getLastD QuerySpec.all).le_restrictive spec then (c ++ [spec]) :: cs
    else c :: pushSpec cs spec

/-- Embeds `query_spec_chains`: sort by projection count, then greedily extend
chains.  The input list stands for the iteration order of the
`BTreeSet<QuerySpec>` argument. -/
def query_spec_chains (specs : List QuerySpec) : List (List QuerySpec) :=
  (sortByProjCount specs).foldl pushSpec []

/-- Embeds `IndexSpec` from `index_selection.rs`. -/
structure IndexSpec where
  order : List Nat
  diagonals : List (List Nat)
  only_dirty : Bool
deriving DecidableEq, Repr, Inhabited

/-- Embeds the free function `is_prefix` of `index_selection.rs`: the number
of leading entries of `order` lying in `pfx` equals the size of `pfx`. -/
def isPrefixOfOrder (pfx : List Nat) (order : List Nat) : Bool :=
  (order.takeWhile (fun el => pfx.contains el)).length == pfx.length

/-- Embeds `IndexSpec::can_serve`. -/
def IndexSpec.can_serve (i : IndexSpec) (query : QuerySpec) : Bool :=
  i.only_dirty == query.only_dirty &&
    decide (query.diagonals = i.diagonals) &&
    isPrefixOfOrder query.projections i.order

/-- Set difference `next - prev` on ascending lists, in iteration order. -/
def setDiff (prev next : List Nat) : List Nat :=
  next.filter (fun x => !prev.contains x)

/-- Embeds `IndexSpec::from_query_spec_chain`: successive differences of the
projection sets along the chain (with `{}` prepended and the full position set
appended), flattened in chain order; diagonals and dirty flag come from the
last chain element. -/
def IndexSpec.from_query_spec_chain (arity_len : Nat) (chain : List QuerySpec) :
    IndexSpec :=
  let proj_chain := chain.map QuerySpec.projections
  let bot_chain := [] :: proj_chain
  let top_chain := proj_chain ++ [List.range arity_len]
  let order := (List.zipWith setDiff bot_chain top_chain).flatten
  let last := chain.getLastD QuerySpec.all
  { order := order, diagonals := last.diagonals, only_dirty := last.only_dirty }

/-- The per-relation body of `select_indices`: build the chains, synthesize one
index per chain, and pair every spec of a chain with that chain's index (the
`queries.into_iter().zip(repeat(index))` step). -/
def select_rel_indices (arity_len : Nat) (specs : List QuerySpec) :
    List (QuerySpec × IndexSpec) :=
  (query_spec_chains specs).flatMap
    (fun chain =>
      chain.map (fun q => (q, IndexSpec.from_query_spec_chain arity_len chain)))

/-- The restrictiveness order as a proposition. -/
def LeR (a b : QuerySpec) : Prop := a.le_restrictive b = true

theorem le_restrictive_iff {a b : QuerySpec} :
    LeR a b ↔
      a.diagonals = b.diagonals ∧ a.only_dirty = b.only_dirty ∧
        ∀ x ∈ a.projections, x ∈ b.projections := by
  unfold LeR QuerySpec.le_restrictive
  by_cases h : a.diagonals ≠ b.diagonals ∨ a.only_dirty ≠ b.only_dirty
  · rw [if_pos h]
    constructor
    · intro hfalse; cases hfalse
    · rintro ⟨h1, h2, -⟩; exact absurd h (by simp [h1, h2])
  · push_neg at h
    rw [if_neg (by simp [h.1, h.2])]
    simp only [List.all_eq_true, h.1, h.2, true_and]
    constructor
    · intro hall x hx
      simpa [List.contains] using hall x hx
    · intro hall x hx
      simpa [List.contains] using hall x hx

/-- Set inclusion on plain lists. -/
def Sub (a b : List Nat) : Prop := ∀ x ∈ a, x ∈ b

theorem LeR.sub {a b : QuerySpec} (h : LeR a b) : Sub a.projections b.projections :=
  (le_restrictive_iff.mp h).2.2

theorem LeR.trans' {a b c : QuerySpec} (h1 : LeR a b) (h2 : LeR b c) : LeR a c := by
  rcases le_restrictive_iff.mp h1 with ⟨d1, o1, s1⟩
  rcases le_restrictive_iff.mp h2 with ⟨d2, o2, s2⟩
  exact le_restrictive_iff.mpr ⟨d1.trans d2, o1.trans o2, fun x hx => s2 x (s1 x hx)⟩

/-- Recursive form of the flattened difference sequence of
`from_query_spec_chain`. -/
def joinDiffs (prev : List Nat) (rng : List Nat) : List (List Nat) → List Nat
  | [] => setDiff prev rng
  | p :: ps => setDiff prev p ++ joinDiffs p rng ps

theorem zip_diffs_eq_joinDiffs (rng : List Nat) :
    ∀ (ps : List (List Nat)) (prev : List Nat),
      (List.zipWith setDiff (prev :: ps) (ps ++ [rng])).flatten = joinDiffs prev rng ps := by
  intro ps
  induction ps with
  | nil => intro prev; simp [joinDiffs]
  | cons p ps ih =>
      intro prev
      simp only [List.cons_append, List.zipWith_cons_cons, List.flatten_cons, joinDiffs]
      rw [ih p]

theorem mem_setDiff {prev next : List Nat} {x : Nat} :
    x ∈ setDiff prev next ↔ x ∈ next ∧ x ∉ prev := by
  simp [setDiff, List.mem_filter, List.contains]

theorem toFinset_setDiff (prev next : List Nat) :
    (setDiff prev next).toFinset = next.toFinset \ prev.toFinset := by
  ext x
  simp [mem_setDiff]

theorem not_mem_joinDiffs :
    ∀ (ps : List (List Nat)) (p rng : List Nat), List.Chain' Sub (p :: ps) →
      ∀ x ∈ joinDiffs p rng ps, x ∉ p := by
  intro ps
  induction ps with
  | nil =>
      intro p rng _ x hx
      exact (mem_setDiff.mp hx).2
  | cons q ps ih =>
      intro p rng hc x hx
      rcases List.mem_append.mp hx with hx | hx
      · exact (mem_setDiff.mp hx).2
      · have hsub : Sub p q := (List.chain'_cons.mp hc).1
        have hq : x ∉ q := ih q rng (List.chain'_cons.mp hc).2 x hx
        exact fun hp => hq (hsub x hp)

theorem takeWhile_append_of_all {p : Nat → Bool} {A B : List Nat}
    (hA : ∀ a ∈ A, p a = true) :
    (A ++ B).takeWhile p = A ++ B.takeWhile p := by
  induction A with
  | nil => simp
  | cons a A ih =>
      simp only [List.cons_append, List.takeWhile_cons,
        hA a (List.mem_cons_self a A), if_true]
      rw [ih (fun x hx => hA x (List.mem_cons_of_mem a hx))]

theorem takeWhile_eq_nil_of_all {p : Nat → Bool} {A : List Nat}
    (hA : ∀ a ∈ A, p a = false) : A.takeWhile p = [] := by
  cases A with
  | nil => rfl
  | cons a A => simp [List.takeWhile_cons, hA a (List.mem_cons_self a A)]

theorem chain_sub_of_mem :
    ∀ {l : List (List Nat)} {a b : List Nat}, List.Chain' Sub (a :: l) → b ∈ l → Sub a b := by
  intro l
  induction l with
  | nil => intro a b _ hb; cases hb
  | cons c l ih =>
      intro a b hc hb
      have h1 : Sub a c := (List.chain'_cons.mp hc).1
      rcases List.mem_cons.mp hb with rfl | hb
      · exact h1
      · exact fun x hx => ih (List.chain'_cons.mp hc).2 hb x (h1 x hx)

theorem takeWhile_joinDiffs :
    ∀ (ps : List (List Nat)) (prev rng q : List Nat),
      (∀ p ∈ prev :: ps, List.Nodup p) →
      List.Chain' Sub (prev :: ps) →
      q ∈ ps →
      ((joinDiffs prev rng ps).takeWhile (fun x => q.contains x)).toFinset
          = q.toFinset \ prev.toFinset ∧
        ((joinDiffs prev rng ps).takeWhile (fun x => q.contains x)).Nodup := by
  intro ps
  induction ps with
  | nil => intro prev rng q _ _ hq; cases hq
  | cons p ps ih =>
      intro prev rng q hn hc hq
      have hprev_p : Sub prev p := (List.chain'_cons.mp hc).1
      have hc' : List.Chain' Sub (p :: ps) := (List.chain'_cons.mp hc).2
      have hnp : p.Nodup := hn p (by simp)
      have hnprev : prev.Nodup := hn prev (by simp)
      rcases List.mem_cons.mp hq with rfl | hq
      · -- q is the first chain element: takeWhile eats exactly `setDiff prev q`.
        have hall : ∀ a ∈ setDiff prev q, (fun x => q.contains x) a = true := by
          intro a ha
          simp [List.contains, (mem_setDiff.mp ha).1]
        have hrest : ∀ a ∈ joinDiffs q rng ps, (fun x => q.contains x) a = false := by
          intro a ha
          have := not_mem_joinDiffs ps q rng hc' a ha
          simp [List.contains, this]
        rw [joinDiffs, takeWhile_append_of_all hall, takeWhile_eq_nil_of_all hrest,
          List.append_nil]
        refine ⟨toFinset_setDiff prev q, ?_⟩
        exact List.Nodup.filter _ hnp
      · -- q sits deeper in the chain.
        have hpq : Sub p q := chain_sub_of_mem hc' hq
        have hall : ∀ a ∈ setDiff prev p, (fun x => q.contains x) a = true := by
          intro a ha
          simp [List.contains, hpq a (mem_setDiff.mp ha).1]
        have ihres := ih p rng q (fun r hr => hn r (List.mem_cons_of_mem prev hr)) hc' hq
        rw [joinDiffs, takeWhile_append_of_all hall]
        constructor
        · rw [List.toFinset_append, toFinset_setDiff, ihres.1]
          ext x
          simp only [Finset.mem_union, Finset.mem_sdiff, List.mem_toFinset]
          constructor
          · rintro (⟨hxp, hxprev⟩ | ⟨hxq, hxp⟩)
            · exact ⟨hpq x hxp, hxprev⟩
            · exact ⟨hxq, fun hxprev => hxp (hprev_p x hxprev)⟩
          · rintro ⟨hxq, hxprev⟩
            by_cases hxp : x ∈ p
            · exact Or.inl ⟨hxp, hxprev⟩
            · exact Or.inr ⟨hxq, hxp⟩
        · refine List.Nodup.append (List.Nodup.filter _ hnp) ihres.2 ?_
          intro x hx1 hx2
          have hxp : x ∈ p := (mem_setDiff.mp hx1).1
          have hsub : x ∈ joinDiffs p rng ps :=
            (List.takeWhile_sublist (fun y => q.contains y)).subset hx2
          exact not_mem_joinDiffs ps p rng hc' x hsub hxp

theorem chain_last_spec :
    ∀ (chain : List QuerySpec) (q : QuerySpec), List.Chain' LeR chain → q ∈ chain →
      q.diagonals = (chain.getLastD QuerySpec.all).diagonals ∧
        q.only_dirty = (chain.getLastD QuerySpec.all).only_dirty ∧
        Sub q.projections (chain.getLastD QuerySpec.all).projections := by
  intro chain
  induction chain with
  | nil => intro q _ hq; cases hq
  | cons a l ih =>
      intro q hc hq
      cases l with
      | nil =>
          rcases List.mem_cons.mp hq with rfl | h
          · exact ⟨rfl, rfl, fun x hx => hx⟩
          · cases h
      | cons b t =>
          have hab : LeR a b := (List.chain'_cons.mp hc).1
          have hc' : List.Chain' LeR (b :: t) := (List.chain'_cons.mp hc).2
          have hlast : (a :: b :: t).getLastD QuerySpec.all
              = (b :: t).getLastD QuerySpec.all := rfl
          rcases List.mem_cons.mp hq with rfl | hq
          · have hb := ih b hc' (by simp)
            rcases le_restrictive_iff.mp hab with ⟨d1, o1, s1⟩
            rw [hlast]
            exact ⟨d1.trans hb.1, o1.trans hb.2.1, fun x hx => hb.2.2 x (s1 x hx)⟩
          · rw [hlast]
            exact ih q hc' hq

/-- An index synthesized from a `le_restrictive`-chain can serve every member
of the chain. -/
theorem from_chain_serves (n : Nat) (chain : List QuerySpec) (q : QuerySpec)
    (hc : List.Chain' LeR chain)
    (hwf : ∀ s ∈ chain, s.projections.Nodup) (hq : q ∈ chain) :
    (IndexSpec.from_query_spec_chain n chain).can_serve q = true := by
  have hlast := chain_last_spec chain q hc hq
  unfold IndexSpec.can_serve IndexSpec.from_query_spec_chain
  simp only [Bool.and_eq_true, beq_iff_eq, decide_eq_true_eq]
  refine ⟨⟨hlast.2.1.symm, hlast.1⟩, ?_⟩
  -- the prefix condition
  have horder :
      (List.zipWith setDiff ([] :: chain.map QuerySpec.projections)
          (chain.map QuerySpec.projections ++ [List.range n])).flatten
        = joinDiffs [] (List.range n) (chain.map QuerySpec.projections) :=
    zip_diffs_eq_joinDiffs (List.range n) (chain.map QuerySpec.projections) []
  have hnodups : ∀ p ∈ ([] : List Nat) :: chain.map QuerySpec.projections, List.Nodup p := by
    intro p hp
    rcases List.mem_cons.mp hp with rfl | hp
    · exact List.nodup_nil
    · rcases List.mem_map.mp hp with ⟨s, hs, rfl⟩
      exact hwf s hs
  have hchain : List.Chain' Sub (([] : List Nat) :: chain.map QuerySpec.projections) := by
    refine List.chain'_cons'.mpr ⟨?_, ?_⟩
    · intro y _ x hx; cases hx
    · exact List.chain'_map_of_chain' _ (fun a b h => h.sub) hc
  have hmem : q.projections ∈ chain.map QuerySpec.projections :=
    List.mem_map.mpr ⟨q, hq, rfl⟩
  have hTW := takeWhile_joinDiffs (chain.map QuerySpec.projections) [] (List.range n)
    q.projections hnodups hchain hmem
  have hqn : q.projections.Nodup := hwf q hq
  have hlen :
      ((joinDiffs [] (List.range n) (chain.map QuerySpec.projections)).takeWhile
          (fun x => q.projections.contains x)).length = q.projections.length := by
    have h1 := hTW.1
    rw [List.toFinset_nil, Finset.sdiff_empty] at h1
    calc ((joinDiffs [] (List.range n) (chain.map QuerySpec.projections)).takeWhile
            (fun x => q.projections.contains x)).length
        = ((joinDiffs [] (List.range n) (chain.map QuerySpec.projections)).takeWhile
            (fun x => q.projections.contains x)).toFinset.card :=
          (List.toFinset_card_of_nodup hTW.2).symm
      _ = q.projections.toFinset.card := by rw [h1]
      _ = q.projections.length := List.toFinset_card_of_nodup hqn
  unfold isPrefixOfOrder
  rw [horder, hlen]
  exact beq_self_eq_true _

theorem chain'_append_single {R : QuerySpec → QuerySpec → Prop} {c : List QuerySpec}
    {x : QuerySpec} (hc : List.Chain' R c) (hne : c ≠ [])
    (hlast : R (c.getLastD QuerySpec.all) x) : List.Chain' R (c ++ [x]) := by
  refine List.chain'_append.mpr ⟨hc, List.chain'_singleton x, ?_⟩
  intro a ha y hy
  have hsome : c.getLast? = some (c.getLastD QuerySpec.all) := by
    obtain ⟨l, hl⟩ := Option.isSome_iff_exists.mp (List.getLast?_isSome.mpr hne)
    rw [hl, List.getLastD_eq_getLast?, hl]; rfl
  rw [hsome] at ha
  cases ha
  cases hy
  exact hlast

theorem pushSpec_good {chains : List (List QuerySpec)} {spec : QuerySpec}
    (h : ∀ c ∈ chains, c ≠ [] ∧ List.Chain' LeR c) :
    ∀ c ∈ pushSpec chains spec, c ≠ [] ∧ List.Chain' LeR c := by
  induction chains with
  | nil =>
      intro c hc
      rcases List.mem_singleton.mp hc with rfl
      exact ⟨by simp, List.chain'_singleton spec⟩
  | cons c0 cs ih =>
      intro c hc
      unfold pushSpec at hc
      by_cases hle : (c0.getLastD QuerySpec.all).le_restrictive spec = true
      · rw [if_pos hle] at hc
        rcases List.mem_cons.mp hc with rfl | hmem
        · have h0 := h c0 (by simp)
          exact ⟨by simp [h0.1], chain'_append_single h0.2 h0.1 hle⟩
        · exact h c (List.mem_cons_of_mem c0 hmem)
      · rw [if_neg hle] at hc
        rcases List.mem_cons.mp hc with rfl | hmem
        · exact h c (by simp)
        · exact ih (fun d hd => h d (List.mem_cons_of_mem c0 hd)) c hmem

theorem foldl_pushSpec_good :
    ∀ (ss : List QuerySpec) (chains : List (List QuerySpec)),
      (∀ c ∈ chains, c ≠ [] ∧ List.Chain' LeR c) →
      ∀ c ∈ List.foldl pushSpec chains ss, c ≠ [] ∧ List.Chain' LeR c := by
  intro ss
  induction ss with
  | nil => intro chains h; simpa using h
  | cons s ss ih =>
      intro chains h
      exact ih (pushSpec chains s) (pushSpec_good h)

theorem mem_pushSpec_elim {chains : List (List QuerySpec)} {spec x : QuerySpec}
    {c : List QuerySpec} (hc : c ∈ pushSpec chains spec) (hx : x ∈ c) :
    x = spec ∨ ∃ c0 ∈ chains, x ∈ c0 := by
  induction chains with
  | nil =>
      rcases List.mem_singleton.mp hc with rfl
      rcases List.mem_singleton.mp hx with rfl
      exact Or.inl rfl
  | cons c0 cs ih =>
      unfold pushSpec at hc
      by_cases hle : (c0.getLastD QuerySpec.all).le_restrictive spec = true
      · rw [if_pos hle] at hc
        rcases List.mem_cons.mp hc with rfl | hmem
        · rcases List.mem_append.mp hx with hx0 | hx0
          · exact Or.inr ⟨c0, by simp, hx0⟩
          · exact Or.inl (List.mem_singleton.mp hx0)
        · exact Or.inr ⟨c, List.mem_cons_of_mem c0 hmem, hx⟩
      · rw [if_neg hle] at hc
        rcases List.mem_cons.mp hc with rfl | hmem
        · exact Or.inr ⟨c, by simp [hx], hx⟩
        · rcases ih hmem with h | ⟨d, hd, hxd⟩
          · exact Or.inl h
          · exact Or.inr ⟨d, List.mem_cons_of_mem c0 hd, hxd⟩

theorem foldl_pushSpec_members :
    ∀ (ss : List QuerySpec) (chains : List (List QuerySpec)) (c : List QuerySpec)
      (x : QuerySpec), c ∈ List.foldl pushSpec chains ss → x ∈ c →
      x ∈ ss ∨ ∃ c0 ∈ chains, x ∈ c0 := by
  intro ss
  induction ss with
  | nil =>
      intro chains c x hc hx
      exact Or.inr ⟨c, by simpa using hc, hx⟩
  | cons s ss ih =>
      intro chains c x hc hx
      rcases ih (pushSpec chains s) c x hc hx with h | ⟨c0, hc0, hxc0⟩
      · exact Or.inl (List.mem_cons_of_mem s h)
      · rcases mem_pushSpec_elim hc0 hxc0 with rfl | ⟨d, hd, hxd⟩
        · exact Or.inl (by simp)
        · exact Or.inr ⟨d, hd, hxd⟩

theorem spec_mem_pushSpec (chains : List (List QuerySpec)) (spec : QuerySpec) :
    ∃ c ∈ pushSpec chains spec, spec ∈ c := by
  induction chains with
  | nil => exact ⟨[spec], by simp [pushSpec]⟩
  | cons c0 cs ih =>
      unfold pushSpec
      by_cases hle : (c0.getLastD QuerySpec.all).le_restrictive spec = true
      · rw [if_pos hle]
        exact ⟨c0 ++ [spec], by simp⟩
      · rw [if_neg hle]
        obtain ⟨c, hc, hs⟩ := ih
        exact ⟨c, List.mem_cons_of_mem c0 hc, hs⟩

theorem old_mem_pushSpec {chains : List (List QuerySpec)} {c : List QuerySpec}
    {x : QuerySpec} (spec : QuerySpec) (hc : c ∈ chains) (hx : x ∈ c) :
    ∃ c' ∈ pushSpec chains spec, x ∈ c' := by
  induction chains with
  | nil => cases hc
  | cons c0 cs ih =>
      unfold pushSpec
      by_cases hle : (c0.getLastD QuerySpec.all).le_restrictive spec = true
      · rw [if_pos hle]
        rcases List.mem_cons.mp hc with rfl | hmem
        · exact ⟨c ++ [spec], by simp, List.mem_append_left _ hx⟩
        · exact ⟨c, List.mem_cons_of_mem (c0 ++ [spec]) hmem, hx⟩
      · rw [if_neg hle]
        rcases List.mem_cons.mp hc with rfl | hmem
        · exact ⟨c, by simp, hx⟩
        · obtain ⟨c', hc', hx'⟩ := ih hmem
          exact ⟨c', List.mem_cons_of_mem c0 hc', hx'⟩

theorem foldl_pushSpec_covers :
    ∀ (ss : List QuerySpec) (chains : List (List QuerySpec)) (x : QuerySpec),
      (x ∈ ss ∨ ∃ c ∈ chains, x ∈ c) →
      ∃ c ∈ List.foldl pushSpec chains ss, x ∈ c := by
  intro ss
  induction ss with
  | nil =>
      intro chains x h
      rcases h with h | h
      · cases h
      · simpa using h
  | cons s ss ih =>
      intro chains x h
      rcases h with h | ⟨c, hc, hx⟩
      · rcases List.mem_cons.mp h with rfl | h
        · exact ih (pushSpec chains x) x (Or.inr (spec_mem_pushSpec chains x))
        · exact ih (pushSpec chains s) x (Or.inl h)
      · exact ih (pushSpec chains s) x (Or.inr (old_mem_pushSpec s hc hx))

theorem mem_insertByProjCount {x y : QuerySpec} :
    ∀ {l : List QuerySpec}, (y ∈ insertByProjCount x l ↔ y = x ∨ y ∈ l) := by
  intro l
  induction l with
  | nil => simp [insertByProjCount]
  | cons a l ih =>
      unfold insertByProjCount
      by_cases h : a.projections.length ≤ x.projections.length
      · rw [if_pos h]
        simp only [List.mem_cons, ih]
        tauto
      · rw [if_neg h]
        simp only [List.mem_cons]

theorem mem_sortByProjCount {y : QuerySpec} :
    ∀ {l : List QuerySpec}, (y ∈ sortByProjCount l ↔ y ∈ l) := by
  intro l
  induction l with
  | nil => simp [sortByProjCount]
  | cons a l ih =>
      unfold sortByProjCount
      rw [mem_insertByProjCount]
      simp [ih]

/-- C2: every query spec fed to the per-relation index selection is assigned an
index by the chain cover, and every assigned index can serve its query spec:
same diagonals, same dirty flag, and the projection set is a prefix set of the
index order.  The spec list stands for the relation's collected
`BTreeSet<QuerySpec>` (premise queries, insert-tuple actions, and the `all` /
`all_dirty` baselines) in iteration order, so each entry has strictly
ascending (hence nodup) projections. -/
theorem c2_select_indices_can_serve (n : Nat) (specs : List QuerySpec)
    (hwf : ∀ s ∈ specs, s.projections.Nodup) :
    (∀ s ∈ specs, ∃ idx, (s, idx) ∈ select_rel_indices n specs) ∧
      ∀ qi ∈ select_rel_indices n specs, qi.2.can_serve qi.1 = true := by
  constructor
  · intro s hs
    have hs' : s ∈ sortByProjCount specs := mem_sortByProjCount.mpr hs
    obtain ⟨c, hc, hsc⟩ := foldl_pushSpec_covers (sortByProjCount specs) [] s (Or.inl hs')
    refine ⟨IndexSpec.from_query_spec_chain n c, ?_⟩
    unfold select_rel_indices query_spec_chains
    exact List.mem_flatMap.mpr ⟨c, hc, List.mem_map.mpr ⟨s, hsc, rfl⟩⟩
  · intro qi hqi
    unfold select_rel_indices query_spec_chains at hqi
    obtain ⟨chain, hchain, hmem⟩ := List.mem_flatMap.mp hqi
    obtain ⟨q, hq, rfl⟩ := List.mem_map.mp hmem
    have hgood := foldl_pushSpec_good (sortByProjCount specs) [] (by simp) chain hchain
    have hmembers : ∀ x ∈ chain, x.projections.Nodup := by
      intro x hx
      rcases foldl_pushSpec_members (sortByProjCount specs) [] chain x hchain hx with
        h | ⟨c0, hc0, -⟩
      · exact hwf x (mem_sortByProjCount.mp h)
      · cases hc0
    exact from_chain_serves n chain q hgood.2 hmembers hq

/-- Witness for C2: a concrete spec collection (the `all` and `all_dirty`
baselines plus two projection queries) for an arity-3 relation. -/
theorem c2_select_indices_can_serve_witness :
    (∀ s ∈ [QuerySpec.all, QuerySpec.all_dirty,
        { projections := [1], diagonals := [], only_dirty := false },
        { projections := [0, 1], diagonals := [[0, 2]], only_dirty := false }],
        s.projections.Nodup) ∧
      ((∀ s ∈ [QuerySpec.all, QuerySpec.all_dirty,
          { projections := [1], diagonals := [], only_dirty := false },
          { projections := [0, 1], diagonals := [[0, 2]], only_dirty := false }],
          ∃ idx, (s, idx) ∈ select_rel_indices 3
            [QuerySpec.all, QuerySpec.all_dirty,
             { projections := [1], diagonals := [], only_dirty := false },
             { projections := [0, 1], diagonals := [[0, 2]], only_dirty := false }]) ∧
        ∀ qi ∈ select_rel_indices 3
            [QuerySpec.all, QuerySpec.all_dirty,
             { projections := [1], diagonals := [], only_dirty := false },
             { projections := [0, 1], diagonals := [[0, 2]], only_dirty := false }],
          qi.2.can_serve qi.1 = true) :=
  ⟨by decide,
   c2_select_indices_can_serve 3
     [QuerySpec.all, QuerySpec.all_dirty,
      { projections := [1], diagonals := [], only_dirty := false },
      { projections := [0, 1], diagonals := [[0, 2]], only_dirty := false }]
     (by decide)⟩

/-- C9: with collected projection sets `{}`, `{0}`, `{0,1}` (empty diagonals,
`only_dirty = false`) for a relation of arity 3, `query_spec_chains` yields a
single chain holding all three specs, and `IndexSpec::from_query_spec_chain`
turns that chain into the index with order `[0, 1, 2]`, empty diagonals and
`only_dirty = false`. -/
theorem c9_chain_arity3 :
    query_spec_chains
        [QuerySpec.all,
         { projections := [0], diagonals := [], only_dirty := false },
         { projections := [0, 1], diagonals := [], only_dirty := false }] =
      [[QuerySpec.all,
        { projections := [0], diagonals := [], only_dirty := false },
        { projections := [0, 1], diagonals := [], only_dirty := false }]] ∧
    IndexSpec.from_query_spec_chain 3
        [QuerySpec.all,
         { projections := [0], diagonals := [], only_dirty := false },
         { projections := [0, 1], diagonals := [], only_dirty := false }] =
      { order := [0, 1, 2], diagonals := [], only_dirty := false } := by
  constructor <;> rfl

end IndexSel

namespace Llam

/-- Embeds `FlatAtom` from `flat_ast.rs` (`FlatTerm` is a plain numeral). -/
inductive FlatAtom where
  | Equal (lhs rhs : Nat)
  | Relation (rel : String) (args : List Nat)
  | Unconstrained (tm : Nat) (sort : String)
deriving DecidableEq, Repr

/-- Embeds `Action` from `llam.rs`. -/
inductive Action where
  | AddTerm (function : String) (args : List Nat) (result : Nat)
  | AddTuple (relation : String) (args : List Nat)
  | Equate (sort : String) (lhs rhs : Nat)
deriving DecidableEq, Repr

/-- Modelled from the spec: `crate::module::Module` is not under `src/`; the
spec says a module carries function declarations (domain sorts, codomain sort)
and predicate declarations (argument sorts), and `module.arity(rel)` returns
the argument-sort list of a relation (for a function, domain followed by
codomain). -/
structure Module where
  functions : List (String × List String)
  predicates : List (String × List String)
deriving DecidableEq, Repr

/-- Modelled from the spec: `Module::arity` looks the relation name up among
functions and predicates. -/
def Module.arity (m : Module) (r : String) : Option (List String) :=
  (List.lookup r m.functions).orElse (fun _ => List.lookup r m.predicates)

/-- Lookup in the `fixed_terms` map (`HashMap<FlatTerm, String>`). -/
def fixedGet (fixed : List (Nat × String)) (tm : Nat) : Option String :=
  List.lookup tm fixed

/-- Insert into the `fixed_terms` map. -/
def fixedInsert (fixed : List (Nat × String)) (tm : Nat) (sort : String) :
    List (Nat × String) :=
  (tm, sort) :: fixed

/-- Embeds `translate_conclusion` from `llam.rs`.  Rust panics (`unwrap`,
`assert!`, explicit `panic!` on `Unconstrained`) are modelled as `none`. -/
def translate_conclusion (m : Module) :
    List (Nat × String) → List FlatAtom → Option (List Action)
  | _, [] => some []
  | fixed, atom :: rest =>
    match atom with
    | .Equal lhs rhs =>
      match fixedGet fixed lhs, fixedGet fixed rhs with
      | some s1, some s2 =>
          if s1 = s2 then
            (translate_conclusion m fixed rest).map
              (fun acts => Action.Equate s1 lhs rhs :: acts)
          else none
      | _, _ => none
    | .Relation rel args =>
      if args.isEmpty then
        (translate_conclusion m fixed rest).map
          (fun acts => Action.AddTuple rel [] :: acts)
      else
        let args' := args.take (args.length - 1)
        if args'.all (fun a => (fixedGet fixed a).isSome) then
          let result := args.getLastD 0
          if (fixedGet fixed result).isSome then
            (translate_conclusion m fixed rest).map
              (fun acts => Action.AddTuple rel (args' ++ [result]) :: acts)
          else
            match m.arity rel with
            | none => none
            | some ar =>
              match ar.getLast? with
              | none => none
              | some cod =>
                (translate_conclusion m (fixedInsert fixed result cod) rest).map
                  (fun acts => Action.AddTerm rel args' result :: acts)
        else none
    | .Unconstrained _ _ => none

/-- C4 counterexample: `translate_conclusion` never asks whether the relation
symbol is a predicate.  For the predicate `p` (arity `["s"]`) and a conclusion
atom `p(t0)` whose argument is not yet fixed, the code emits `AddTerm`, not the
`AddTuple` the claim promises for predicate symbols. -/
theorem c4_counterexample :
    ("p", ["s"]) ∈ (Module.mk [] [("p", ["s"])]).predicates ∧
      translate_conclusion (Module.mk [] [("p", ["s"])]) []
          [FlatAtom.Relation "p" [0]]
        = some [Action.AddTerm "p" [] 0] ∧
      translate_conclusion (Module.mk [] [("p", ["s"])]) []
          [FlatAtom.Relation "p" [0]]
        ≠ some [Action.AddTuple "p" [0]] := by
  refine ⟨by decide, by decide, by decide⟩

/-- C4 amended: in `translate_conclusion`, a conclusion `Relation` atom with an
empty argument list lowers to `AddTuple`; with a nonempty argument list whose
non-last arguments are all fixed, it lowers to `AddTuple` with the full
argument list when the last argument is already fixed, and otherwise to
`AddTerm` over the arguments without the last, marking the last argument fixed
at the last sort of the relation's arity — irrespective of whether the symbol
is a predicate or a function. -/
theorem c4_conclusion_relation_cases (m : Module) (fixed : List (Nat × String))
    (rel : String) (args : List Nat) (rest : List FlatAtom) :
    (args = [] →
      translate_conclusion m fixed (FlatAtom.Relation rel args :: rest)
        = (translate_conclusion m fixed rest).map
            (fun acts => Action.AddTuple rel [] :: acts)) ∧
    (∀ (init : List Nat) (result : Nat), args = init ++ [result] →
      (∀ a ∈ init, (fixedGet fixed a).isSome = true) →
      ((fixedGet fixed result).isSome = true →
        translate_conclusion m fixed (FlatAtom.Relation rel args :: rest)
          = (translate_conclusion m fixed rest).map
              (fun acts => Action.AddTuple rel (init ++ [result]) :: acts)) ∧
      ((fixedGet fixed result).isSome = false →
        ∀ ar, m.arity rel = some ar → ∀ cod, ar.getLast? = some cod →
          translate_conclusion m fixed (FlatAtom.Relation rel args :: rest)
            = (translate_conclusion m (fixedInsert fixed result cod) rest).map
                (fun acts => Action.AddTerm rel init result :: acts))) := by
  constructor
  · rintro rfl
    rfl
  · rintro init result rfl hinit
    have hne : init ++ [result] ≠ [] := by simp
    have htake : (init ++ [result]).take ((init ++ [result]).length - 1) = init := by
      simp only [List.length_append, List.length_singleton, Nat.add_sub_cancel]
      exact List.take_left init [result]
    have hlast : (init ++ [result]).getLastD 0 = result := by simp
    have hall : (init.all (fun a => (fixedGet fixed a).isSome)) = true := by
      simp only [List.all_eq_true]
      exact fun a ha => hinit a ha
    constructor
    · intro hres
      simp only [translate_conclusion, List.isEmpty_eq_true, hne, if_false, htake,
        hall, if_true, hlast, hres]
    · intro hres ar har cod hcod
      simp only [translate_conclusion, List.isEmpty_eq_true, hne, if_false, htake,
        hall, if_true, hlast, hres, Bool.false_eq_true, har, hcod]

/-- Witness for C4's amended theorem: lowering `f(t0) = t1` (last argument not
yet fixed) produces `AddTerm` and fixes `t1` at the codomain sort. -/
theorem c4_conclusion_relation_cases_witness :
    translate_conclusion (Module.mk [("f", ["s", "t"])] []) [(0, "s")]
        [FlatAtom.Relation "f" [0, 1]]
      = some [Action.AddTerm "f" [0] 1] := by
  have h := ((c4_conclusion_relation_cases (Module.mk [("f", ["s", "t"])] [])
      [(0, "s")] "f" [0, 1] []).2 [0] 1 rfl (by decide)).2 (by decide)
      ["s", "t"] (by decide) "t" (by decide)
  rw [h]
  rfl

end Llam

namespace ModelGen

/-!
Embedding of the model code emitted by `rust_gen.rs`, for a theory with
`sortsCount` sorts and the relations described by `rels`.  Every relation
table carries at least the two baseline indices (`QuerySpec::all` and
`QuerySpec::all_dirty`); further indices hold permutations of the same tuple
set, are kept in lockstep by `insert` and `drain_with_element`, and are not
observable through the operations the claims mention, so the table is
represented by its master index, its dirty index and its per-sort element
indices.  `BTreeSet` and `BTreeMap` are represented as strictly ascending
lists.  The `eqlog_runtime::Unification` primitive is not under `src/` and is
modelled from the spec ("union-find over element ids") as an idempotent root
map: entry `i` holds the canonical representative of `i`.

`usize` arithmetic uses the source's `saturating_add` / `saturating_sub`.
-/

/-- `usize::MAX` of the 64-bit target. -/
def USIZE_MAX : Nat := 2 ^ 64 - 1

/-- `usize::saturating_add`. -/
def satAdd (a b : Nat) : Nat := min (a + b) USIZE_MAX

/-- `usize::saturating_sub` (on `Nat`, truncated subtraction). -/
def satSub (a b : Nat) : Nat := a - b

/-- Static description of one relation: the sort index of every tuple
position, and the compile-time `WEIGHT` constant of its generated table. -/
structure RelInfo where
  arity : List Nat
  weight : Nat
deriving DecidableEq, Repr, Inhabited

/-- Static description of a theory's generated module. -/
structure Sig where
  sortsCount : Nat
  rels : List RelInfo
deriving DecidableEq, Repr, Inhabited

/-- `BTreeSet::insert`: returns the new set and whether the value was new. -/
def setInsert [LinearOrder α] (x : α) : List α → List α × Bool
  | [] => ([x], true)
  | y :: ys =>
    if x < y then (x :: y :: ys, true)
    else if x = y then (y :: ys, false)
    else
      let r := setInsert x ys
      (y :: r.1, r.2)

/-- `BTreeSet::remove`: returns the new set and whether the value was there. -/
def setRemove [LinearOrder α] (x : α) : List α → List α × Bool
  | [] => ([], false)
  | y :: ys =>
    if x = y then (ys, true)
    else if x < y then (y :: ys, false)
    else
      let r := setRemove x ys
      (y :: r.1, r.2)

/-- Per-sort state of the generated model (`write_sort_fields`). -/
structure SortSt where
  parents : List Nat
  dirty : List Nat
  all : List Nat
  weights : List Nat
  uprooted : List Nat
deriving DecidableEq, Repr

instance : Inhabited SortSt := ⟨⟨[], [], [], [], []⟩⟩

/-- Per-relation table state: master index, dirty index, and the per-sort
`element_index` maps (outer position = sort index). -/
structure RelSt where
  master : List (List Nat)
  dirtyIdx : List (List Nat)
  elemIdx : List (List (Nat × List (List Nat)))
deriving DecidableEq, Repr

instance : Inhabited RelSt := ⟨⟨[], [], []⟩⟩

/-- The generated model struct (`write_theory_struct`). -/
structure Model where
  sorts : List SortSt
  rels : List RelSt
  empty_join_is_dirty : Bool
deriving DecidableEq, Repr

/-- Modelled from the spec: `Unification::root` follows the union-find to the
canonical representative; in the root-map representation this is one lookup.
Out-of-range ids are returned unchanged. -/
def unifRoot (parents : List Nat) (el : Nat) : Nat := parents.getD el el

/-- Modelled from the spec: `Unification::union_roots_into(child, root)`
redirects the child's class into the root's class. -/
def unifUnionRootsInto (parents : List Nat) (child root : Nat) : List Nat :=
  parents.map (fun x => if x = child then root else x)

def Model.sortAt (m : Model) (s : Nat) : SortSt := m.sorts.getD s default

def Model.relAt (m : Model) (r : Nat) : RelSt := m.rels.getD r default

def Model.setSortAt (m : Model) (s : Nat) (st : SortSt) : Model :=
  { m with sorts := m.sorts.set s st }

def Model.setRelAt (m : Model) (r : Nat) (rs : RelSt) : Model :=
  { m with rels := m.rels.set r rs }

/-- Embeds the generated `root_{sort}` (`write_root_fn`): ids at or beyond the
union-find's size are returned unchanged, otherwise `root_const` runs.  The
out-of-range guard is what keeps the lookup from failing. -/
def rootPub (m : Model) (s el : Nat) : Option Nat :=
  let p := (m.sortAt s).parents
  if p.length ≤ el then some el else p[el]?

/-- Total version of `root_{sort}` used by the other generated functions. -/
def rootTotal (m : Model) (s el : Nat) : Nat :=
  let p := (m.sortAt s).parents
  if p.length ≤ el then el else unifRoot p el

/-- Embeds the generated `are_equal_{sort}` (`write_are_equal_fn`). -/
def areEqualSort (m : Model) (s a b : Nat) : Bool :=
  rootTotal m s a == rootTotal m s b

/-- Embeds the generated `new_{sort}_internal` (`write_new_element_internal`):
extend the union-find by one self-rooted id, mark it dirty and live, give it
weight 0.  (The generated code aborts at `u32::MAX` elements; the bound is
immaterial to the claims and not modelled.) -/
def newElementInternal (m : Model) (s : Nat) : Model × Nat :=
  let st := m.sortAt s
  let el := st.parents.length
  (m.setSortAt s
    { st with
      parents := st.parents ++ [el]
      dirty := (setInsert el st.dirty).1
      all := (setInsert el st.all).1
      weights := st.weights ++ [0] },
   el)

/-- Embeds the generated public `new_{sort}` (`write_new_element`). -/
def newElement (m : Model) (s : Nat) : Model × Nat := newElementInternal m s

/-- Push a tuple onto the `element_index_{sort}` entry of `el`
(the `get_mut … push / insert vec![t]` step of the generated table insert). -/
def elemIdxPush (el : Nat) (t : List Nat) :
    List (Nat × List (List Nat)) → List (Nat × List (List Nat))
  | [] => [(el, [t])]
  | (k, ts) :: rest =>
    if el < k then (el, [t]) :: (k, ts) :: rest
    else if el = k then (k, ts ++ [t]) :: rest
    else (k, ts) :: elemIdxPush el t rest

/-- `element_index_{sort}.remove(&tm)`: returns the remaining map and the
stored tuple vector (empty when the key is absent). -/
def elemIdxRemove (el : Nat) :
    List (Nat × List (List Nat)) → List (Nat × List (List Nat)) × List (List Nat)
  | [] => ([], [])
  | (k, ts) :: rest =>
    if el = k then (rest, ts)
    else if el < k then ((k, ts) :: rest, [])
    else
      let r := elemIdxRemove el rest
      ((k, ts) :: r.1, r.2)

/-- Embeds the generated table `insert` (`write_table_insert_fn`): insert into
the master index; if new, cascade into the dirty index and the element
indices and report `true`. -/
def tableInsert (ri : RelInfo) (t : List Nat) (rs : RelSt) : RelSt × Bool :=
  let ins := setInsert t rs.master
  if ins.2 then
    ({ master := ins.1
       dirtyIdx := (setInsert t rs.dirtyIdx).1
       elemIdx :=
         (ri.arity.zip t).foldl
           (fun acc st =>
             acc.set st.1 (elemIdxPush st.2 t (acc.getD st.1 [])))
           rs.elemIdx },
     true)
  else (rs, false)

/-- One saturating weight charge: `weights[el] += WEIGHT` for the element at
one tuple position (`update_weights` in `write_pub_insert_relation`). -/
def chargeWeight (m : Model) (s el w : Nat) : Model :=
  let st := m.sortAt s
  m.setSortAt s { st with weights := st.weights.set el (satAdd (st.weights.getD el 0) w) }

/-- One saturating weight discharge (`reduce_weights` in
`write_canonicalize_rel_block`). -/
def dischargeWeight (m : Model) (s el w : Nat) : Model :=
  let st := m.sortAt s
  m.setSortAt s { st with weights := st.weights.set el (satSub (st.weights.getD el 0) w) }

/-- Charge `WEIGHT` to every position of a tuple, position by position. -/
def chargeTuple (m : Model) (ri : RelInfo) (t : List Nat) : Model :=
  (ri.arity.zip t).foldl (fun acc st => chargeWeight acc st.1 st.2 ri.weight) m

/-- Discharge `WEIGHT` from every position of a tuple, position by position. -/
def dischargeTuple (m : Model) (ri : RelInfo) (t : List Nat) : Model :=
  (ri.arity.zip t).foldl (fun acc st => dischargeWeight acc st.1 st.2 ri.weight) m

/-- Embeds the generated public `insert_{rel}` (`write_pub_insert_relation`):
canonicalize every argument through the union-find, insert through the table,
and charge the per-position weights only when the tuple was new. -/
def insertRel (sig : Sig) (m : Model) (r : Nat) (args : List Nat) : Model :=
  let ri := sig.rels.getD r default
  let t := (ri.arity.zip args).map (fun st => unifRoot (m.sortAt st.1).parents st.2)
  let ins := tableInsert ri t (m.relAt r)
  let m' := m.setRelAt r ins.1
  if ins.2 then chargeTuple m' ri t else m'

/-- Embeds the generated `equate_{sort}` (`write_equate_elements`). -/
def equateSort (m : Model) (s lhs rhs : Nat) : Model :=
  let st := m.sortAt s
  let lhs := unifRoot st.parents lhs
  let rhs := unifRoot st.parents rhs
  if lhs = rhs then m
  else
    let lhs_weight := st.weights.getD lhs 0
    let rhs_weight := st.weights.getD rhs 0
    let root := if lhs_weight ≥ rhs_weight then lhs else rhs
    let child := if lhs_weight ≥ rhs_weight then rhs else lhs
    m.setSortAt s
      { st with
        parents := unifUnionRootsInto st.parents child root
        all := (setRemove child st.all).1
        dirty := (setRemove child st.dirty).1
        uprooted := st.uprooted ++ [child] }

/-- Embeds the generated predicate-holds test
(`write_pub_predicate_holds_fn`): canonicalize via `root_{sort}` and test
master-index membership. -/
def relHolds (sig : Sig) (m : Model) (r : Nat) (args : List Nat) : Bool :=
  let ri := sig.rels.getD r default
  let t := (ri.arity.zip args).map (fun st => rootTotal m st.1 st.2)
  (m.relAt r).master.contains t

/-- Embeds the generated function evaluation (`write_pub_function_eval_fn`):
canonicalize the domain arguments, scan the index serving the all-domain
projection query for the first tuple with that prefix, and return its last
position.  On the ascending master index this is the first matching tuple. -/
def funcEval (sig : Sig) (m : Model) (r : Nat) (args : List Nat) : Option Nat :=
  let ri := sig.rels.getD r default
  let domLen := ri.arity.length - 1
  let cargs := ((ri.arity.take domLen).zip args).map (fun st => rootTotal m st.1 st.2)
  ((m.relAt r).master.filter (fun t => t.take domLen == cargs)).head?.map
    (fun t => t.getD domLen 0)

/-- Embeds the generated `define_{func}` (`write_define_fn`): return the
existing image if the graph lookup finds one, else adjoin a fresh codomain
element and insert the full graph tuple. -/
def defineFunc (sig : Sig) (m : Model) (r : Nat) (args : List Nat) : Model × Nat :=
  match funcEval sig m r args with
  | some result => (m, result)
  | none =>
    let ri := sig.rels.getD r default
    let cod := ri.arity.getLastD 0
    let fresh := newElementInternal m cod
    (insertRel sig fresh.1 r (args ++ [fresh.2]), fresh.2)

/-- `Vec::swap_remove(i)`: replace entry `i` with the last entry and shrink. -/
def swapRemove (l : List (List Nat)) (i : Nat) : List (List Nat) :=
  (l.set i (l.getLastD [])).dropLast

/-- The filtering loop of the generated `drain_with_element_{sort}`: keep the
drained tuples that are still in the master index, removing each from every
index; stale entries are discarded with `swap_remove`. -/
def drainLoop (rs : RelSt) (ts : List (List Nat)) (i : Nat) : RelSt × List (List Nat) :=
  if h : i < ts.length then
    let t := ts.getD i []
    let rem := setRemove t rs.master
    if rem.2 then
      drainLoop { rs with master := rem.1, dirtyIdx := (setRemove t rs.dirtyIdx).1 }
        ts (i + 1)
    else drainLoop rs (swapRemove ts i) i
  else (rs, ts)
termination_by ts.length - i
decreasing_by
  · omega
  · have hlen : (swapRemove ts i).length = ts.length - 1 := by
      simp [swapRemove]
    omega

/-- Embeds the generated `drain_with_element_{sort}` (`write_table_drain_with_element`). -/
def drainWithElement (rs : RelSt) (s el : Nat) : RelSt × List (List Nat) :=
  let rem := elemIdxRemove el (rs.elemIdx.getD s [])
  drainLoop { rs with elemIdx := rs.elemIdx.set s rem.1 } rem.2 0

/-- The per-tuple body of `write_canonicalize_rel_block`: discharge the
weights of the stale tuple, rewrite every position to its root, reinsert, and
recharge the weights when the rewritten tuple is new. -/
def canonTuple (sig : Sig) (r : Nat) (m : Model) (t : List Nat) : Model :=
  let ri := sig.rels.getD r default
  let m1 := dischargeTuple m ri t
  let t' := (ri.arity.zip t).map (fun st => rootTotal m1 st.1 st.2)
  let ins := tableInsert ri t' (m1.relAt r)
  let m2 := m1.setRelAt r ins.1
  if ins.2 then chargeTuple m2 ri t' else m2

/-- Process one uprooted element of one sort for one relation. -/
def canonRelSortEl (sig : Sig) (r s : Nat) (m : Model) (el : Nat) : Model :=
  let dr := drainWithElement (m.relAt r) s el
  let m1 := m.setRelAt r dr.1
  dr.2.foldl (canonTuple sig r) m1

/-- Process every uprooted element of one sort for one relation. -/
def canonRelSort (sig : Sig) (r : Nat) (m : Model) (s : Nat) : Model :=
  (m.sortAt s).uprooted.foldl (canonRelSortEl sig r s) m

/-- The distinct sorts of an arity in ascending order (the
`BTreeSet<&str>` loop of `write_canonicalize_rel_block`). -/
def sortsOfArity (ar : List Nat) : List Nat :=
  ar.foldr (fun s acc => (setInsert s acc).1) []

/-- One relation block of the generated `canonicalize`. -/
def canonRel (sig : Sig) (m : Model) (r : Nat) : Model :=
  (sortsOfArity (sig.rels.getD r default).arity).foldl (canonRelSort sig r) m

/-- Embeds the generated `canonicalize` (`write_canonicalize_fn`): all
relation blocks, then clear every `uprooted` list. -/
def canonicalize (sig : Sig) (m : Model) : Model :=
  let m1 := (List.range sig.rels.length).foldl (canonRel sig) m
  { m1 with sorts := m1.sorts.map (fun st => { st with uprooted := [] }) }

/-- Embeds the generated `is_dirty` (`write_is_dirty_fn`). -/
def isDirty (m : Model) : Bool :=
  m.empty_join_is_dirty || m.rels.any (fun rs => !rs.dirtyIdx.isEmpty) ||
    m.sorts.any (fun st => !st.dirty.isEmpty) ||
    m.sorts.any (fun st => !st.uprooted.isEmpty)

/-- Embeds the generated `drop_dirt` (`write_drop_dirt_fn`). -/
def dropDirt (m : Model) : Model :=
  { sorts := m.sorts.map (fun st => { st with dirty := [] })
    rels := m.rels.map (fun rs => { rs with dirtyIdx := [] })
    empty_join_is_dirty := false }

/-- Embeds the generated `ModelDelta` (`write_model_delta_struct`): pending
tuples per relation, pending equalities per sort, pending definedness
requests per function. -/
structure Delta where
  newTuples : List (List (List Nat))
  newEqualities : List (List (Nat × Nat))
  newDefs : List (List (List Nat))
deriving DecidableEq, Repr

/-- Embeds `ModelDelta::new`. -/
def Delta.new (sig : Sig) : Delta :=
  { newTuples := List.replicate sig.rels.length []
    newEqualities := List.replicate sig.sortsCount []
    newDefs := List.replicate sig.rels.length [] }

/-- Embeds `ModelDelta::apply_equalities`: iterate (without draining) the
pending equalities of every sort in order. -/
def applyEqualities (d : Delta) (m : Model) : Model :=
  d.newEqualities.enum.foldl
    (fun acc se => se.2.foldl (fun mm pr => equateSort mm se.1 pr.1 pr.2) acc) m

/-- Embeds `ModelDelta::apply_tuples`: drain the pending tuples of every
relation in order through `insert_{rel}`. -/
def applyTuples (sig : Sig) (d : Delta) (m : Model) : Delta × Model :=
  ({ d with newTuples := List.replicate d.newTuples.length [] },
   d.newTuples.enum.foldl
     (fun acc rts => rts.2.foldl (fun mm t => insertRel sig mm rts.1 t) acc) m)

/-- Embeds `ModelDelta::apply_surjective`: equalities, then tuples. -/
def applySurjective (sig : Sig) (d : Delta) (m : Model) : Delta × Model :=
  applyTuples sig d (applyEqualities d m)

/-- Embeds `ModelDelta::apply_non_surjective` / `apply_func_defs`: drain the
pending definedness requests through `define_{func}`. -/
def applyFuncDefs (sig : Sig) (d : Delta) (m : Model) : Delta × Model :=
  ({ d with newDefs := List.replicate d.newDefs.length [] },
   d.newDefs.enum.foldl
     (fun acc ras => ras.2.foldl (fun mm args => (defineFunc sig mm ras.1 args).1) acc) m)

/-- The loop structure of the generated `close_until` (`write_close_until_fn`)
with explicit fuel; `phase = false` is the outer `while is_dirty` check,
`phase = true` one iteration of the inner `loop`.  `rules` stands for the
generated matcher functions, which read the model and push into the delta. -/
def closeGo (sig : Sig) (rules : Model → Delta → Delta) (cond : Model → Bool) :
    Nat → Bool → Delta → Model → Option (Bool × Model)
  | 0, false, _, m => if isDirty m then none else some (false, m)
  | 0, true, _, _ => none
  | fuel + 1, false, delta, m =>
    if isDirty m then closeGo sig rules cond fuel true delta m else some (false, m)
  | fuel + 1, true, delta, m =>
    let delta1 := rules m delta
    let m1 := dropDirt m
    let p := applySurjective sig delta1 m1
    let m2 := canonicalize sig p.2
    if cond m2 then some (true, m2)
    else if isDirty m2 then closeGo sig rules cond fuel true p.1 m2
    else
      let q := applyFuncDefs sig p.1 m2
      if cond q.2 then some (true, q.2)
      else closeGo sig rules cond fuel false q.1 q.2

/-- Embeds the generated `close_until`. -/
def close_until (sig : Sig) (rules : Model → Delta → Delta) (cond : Model → Bool)
    (fuel : Nat) (m : Model) : Option (Bool × Model) :=
  let m1 := canonicalize sig m
  if cond m1 then some (true, m1)
  else closeGo sig rules cond fuel false (Delta.new sig) m1

/-- Embeds the generated `close` (`write_close_fn`). -/
def close (sig : Sig) (rules : Model → Delta → Delta) (fuel : Nat) (m : Model) :
    Option (Bool × Model) :=
  close_until sig rules (fun _ => false) fuel m

/-- Embeds the generated `new` (`write_new_fn`): empty sorts and tables,
`empty_join_is_dirty` set. -/
def modelNew (sig : Sig) : Model :=
  { sorts := List.replicate sig.sortsCount ⟨[], [], [], [], []⟩
    rels := sig.rels.map (fun _ => ⟨[], [], List.replicate sig.sortsCount []⟩)
    empty_join_is_dirty := true }

theorem foldl_fixed {α β : Type} {f : α → β → α} {a : α} (h : ∀ b, f a b = a) :
    ∀ l : List β, List.foldl f a l = a := by
  intro l
  induction l with
  | nil => rfl
  | cons x l ih => rw [List.foldl_cons, h x]; exact ih

theorem sortSt_clear_uprooted_eq {st : SortSt} (h : st.uprooted = []) :
    { st with uprooted := [] } = st := by
  cases st
  simp only at h
  rw [h]

theorem sortAt_uprooted_nil {m : Model} (h : ∀ st ∈ m.sorts, st.uprooted = [])
    (s : Nat) : (m.sortAt s).uprooted = [] := by
  unfold Model.sortAt
  by_cases hs : s < m.sorts.length
  · have : m.sorts.getD s default = m.sorts[s] := List.getD_eq_getElem m.sorts default hs
    rw [this]
    exact h _ (m.sorts.getElem_mem hs)
  · rw [List.getD_eq_default _ _ (Nat.le_of_not_lt hs)]
    rfl

theorem canonicalize_of_uprooted_nil {sig : Sig} {m : Model}
    (h : ∀ st ∈ m.sorts, st.uprooted = []) : canonicalize sig m = m := by
  have hsort : ∀ r s, canonRelSort sig r m s = m := by
    intro r s
    unfold canonRelSort
    rw [sortAt_uprooted_nil h s]
    rfl
  have hrel : ∀ r, canonRel sig m r = m := by
    intro r
    unfold canonRel
    exact foldl_fixed (hsort r) _
  unfold canonicalize
  dsimp only
  rw [foldl_fixed hrel]
  have hmap : m.sorts.map (fun st => { st with uprooted := [] }) = m.sorts := by
    conv_rhs => rw [← List.map_id m.sorts]
    exact List.map_congr_left (fun st hst => sortSt_clear_uprooted_eq (h st hst))
  rw [hmap]

theorem isDirty_false_uprooted {m : Model} (h : isDirty m = false) :
    ∀ st ∈ m.sorts, st.uprooted = [] := by
  intro st hst
  unfold isDirty at h
  simp only [Bool.or_eq_false_iff, List.any_eq_false] at h
  have := h.2 st hst
  simpa [List.isEmpty_iff] using this

theorem closeGo_some (sig : Sig) (rules : Model → Delta → Delta)
    (cond : Model → Bool) (hcond : ∀ x, cond x = false) :
    ∀ (fuel : Nat) (phase : Bool) (delta : Delta) (m : Model) (b : Bool) (m' : Model),
      closeGo sig rules cond fuel phase delta m = some (b, m') →
      b = false ∧ isDirty m' = false := by
  intro fuel
  induction fuel with
  | zero =>
      intro phase delta m b m' h
      cases phase
      · simp only [closeGo] at h
        by_cases hd : isDirty m
        · rw [if_pos hd] at h; cases h
        · rw [if_neg hd] at h
          cases h
          exact ⟨rfl, Bool.of_not_eq_true hd⟩
      · simp only [closeGo] at h
        cases h
  | succ fuel ih =>
      intro phase delta m b m' h
      cases phase
      · simp only [closeGo] at h
        by_cases hd : isDirty m
        · rw [if_pos hd] at h
          exact ih true delta m b m' h
        · rw [if_neg hd] at h
          cases h
          exact ⟨rfl, Bool.of_not_eq_true hd⟩
      · simp only [closeGo] at h
        rw [hcond] at h
        simp only [Bool.false_eq_true, if_false] at h
        by_cases hd2 :
            isDirty (canonicalize sig (applySurjective sig (rules m delta) (dropDirt m)).2)
        · rw [if_pos hd2] at h
          exact ih true _ _ b m' h
        · rw [if_neg hd2] at h
          rw [hcond] at h
          simp only [Bool.false_eq_true, if_false] at h
          exact ih false _ _ b m' h

/-- C3: when `close()` returns, `is_dirty()` is false (so all `uprooted` lists
are empty), `canonicalize` writes nothing, and a second `close()` with any
fuel returns `false` immediately with the model unchanged: the second run
performs no insertions, no equalities, no fresh elements and no weight
changes. -/
theorem c3_close_idempotent (sig : Sig) (rules : Model → Delta → Delta)
    (fuel : Nat) (m : Model) (b : Bool) (m' : Model)
    (h : close sig rules fuel m = some (b, m')) :
    b = false ∧ isDirty m' = false ∧ canonicalize sig m' = m' ∧
      ∀ fuel', close sig rules fuel' m' = some (false, m') := by
  unfold close close_until at h
  simp only [Bool.false_eq_true, if_false] at h
  obtain ⟨hb, hdirty⟩ := closeGo_some sig rules _ (fun _ => rfl) fuel false _ _ b m' h
  have hcanon : canonicalize sig m' = m' :=
    canonicalize_of_uprooted_nil (isDirty_false_uprooted hdirty)
  refine ⟨hb, hdirty, hcanon, ?_⟩
  intro fuel'
  unfold close close_until
  simp only [Bool.false_eq_true, if_false]
  rw [hcanon]
  cases fuel' with
  | zero => simp only [closeGo, hdirty, Bool.false_eq_true, if_false]
  | succ f => simp only [closeGo, hdirty, Bool.false_eq_true, if_false]

/-- A one-sort, one-relation signature for concrete runs. -/
def sigW : Sig := { sortsCount := 1, rels := [{ arity := [0, 0], weight := 6 }] }

/-- Matchers of a theory with no rules. -/
def rulesW : Model → Delta → Delta := fun _ d => d

/-- Witness for C3: run `close` on the empty model of `sigW` (it converges in
one outer iteration, consuming the initial `empty_join_is_dirty`), then apply
the theorem to the result. -/
theorem c3_close_idempotent_witness :
    close sigW rulesW 2 (modelNew sigW) = some (false, dropDirt (modelNew sigW)) ∧
      (false = false ∧ isDirty (dropDirt (modelNew sigW)) = false ∧
        canonicalize sigW (dropDirt (modelNew sigW)) = dropDirt (modelNew sigW) ∧
        ∀ fuel', close sigW rulesW fuel' (dropDirt (modelNew sigW))
          = some (false, dropDirt (modelNew sigW))) :=
  ⟨by decide,
   c3_close_idempotent sigW rulesW 2 (modelNew sigW) false (dropDirt (modelNew sigW))
     (by decide)⟩

/-- C10: the generated `root_{sort}` never fails: on ids at or beyond the
union-find's length the guard returns the element itself without touching the
union-find, and below the length it returns the stored canonical
representative (`root_const` in the root-map model). -/
theorem c10_root_total (m : Model) (s el : Nat) :
    (rootPub m s el).isSome = true ∧
      ((m.sortAt s).parents.length ≤ el → rootPub m s el = some el) ∧
      (el < (m.sortAt s).parents.length →
        rootPub m s el = some (unifRoot (m.sortAt s).parents el)) := by
  unfold rootPub
  by_cases h : (m.sortAt s).parents.length ≤ el
  · rw [if_pos h]
    exact ⟨rfl, fun _ => rfl, fun hlt => absurd h (Nat.not_le_of_lt hlt)⟩
  · rw [if_neg h]
    have hlt : el < (m.sortAt s).parents.length := Nat.lt_of_not_le h
    have hget : (m.sortAt s).parents[el]? = some ((m.sortAt s).parents[el]) :=
      List.getElem?_eq_getElem hlt
    have hval : unifRoot (m.sortAt s).parents el = (m.sortAt s).parents[el] := by
      unfold unifRoot
      exact List.getD_eq_getElem _ _ hlt
    refine ⟨by rw [hget]; rfl, fun hle => absurd hle h, fun _ => ?_⟩
    rw [hget, hval]

/-- A concrete three-element model state for the C10 witness. -/
def mW : Model :=
  { sorts := [⟨[0, 0, 2], [], [0, 2], [12, 0, 6], [1]⟩]
    rels := []
    empty_join_is_dirty := false }

/-- Witness for C10: the guard case at id 5 (beyond the union-find) and the
lookup case at id 1. -/
theorem c10_root_total_witness :
    ((mW.sortAt 0).parents.length ≤ 5 ∧ rootPub mW 0 5 = some 5) ∧
      (1 < (mW.sortAt 0).parents.length ∧
        rootPub mW 0 1 = some (unifRoot (mW.sortAt 0).parents 1)) :=
  ⟨⟨by decide, (c10_root_total mW 0 5).2.1 (by decide)⟩,
   ⟨by decide, (c10_root_total mW 0 1).2.2 (by decide)⟩⟩

section SetLemmas

variable {α : Type} [LinearOrder α]

theorem mem_setInsert (x y : α) :
    ∀ l : List α, (y ∈ (setInsert x l).1 ↔ y = x ∨ y ∈ l) := by
  intro l
  induction l with
  | nil => simp [setInsert]
  | cons z zs ih =>
      unfold setInsert
      by_cases h1 : x < z
      · rw [if_pos h1]
        simp only [List.mem_cons]
      · rw [if_neg h1]
        by_cases h2 : x = z
        · rw [if_pos h2]
          subst h2
          simp only [List.mem_cons]
          tauto
        · rw [if_neg h2]
          simp only [List.mem_cons, ih]
          tauto

theorem setInsert_sorted {x : α} :
    ∀ {l : List α}, l.Sorted (· < ·) → (setInsert x l).1.Sorted (· < ·) := by
  intro l
  induction l with
  | nil => intro _; simp [setInsert]
  | cons z zs ih =>
      intro hs
      have hz : ∀ b ∈ zs, z < b := (List.sorted_cons.mp hs).1
      have hzs : zs.Sorted (· < ·) := (List.sorted_cons.mp hs).2
      unfold setInsert
      by_cases h1 : x < z
      · rw [if_pos h1]
        exact List.sorted_cons.mpr
          ⟨fun b hb => by
            rcases List.mem_cons.mp hb with rfl | hb
            · exact h1
            · exact h1.trans (hz b hb), hs⟩
      · rw [if_neg h1]
        by_cases h2 : x = z
        · rw [if_pos h2]; exact hs
        · rw [if_neg h2]
          have hzx : z < x := lt_of_le_of_ne (le_of_not_lt h1) (Ne.symm h2)
          refine List.sorted_cons.mpr ⟨?_, ih hzs⟩
          intro b hb
          rcases (mem_setInsert x b zs).mp hb with rfl | hb
          · exact hzx
          · exact hz b hb

theorem setInsert_of_mem_sorted {x : α} :
    ∀ {l : List α}, l.Sorted (· < ·) → x ∈ l → setInsert x l = (l, false) := by
  intro l
  induction l with
  | nil => intro _ hx; cases hx
  | cons z zs ih =>
      intro hs hx
      have hz : ∀ b ∈ zs, z < b := (List.sorted_cons.mp hs).1
      unfold setInsert
      rcases List.mem_cons.mp hx with rfl | hx
      · rw [if_neg (lt_irrefl x), if_pos rfl]
      · have hzx : z < x := hz x hx
        rw [if_neg (not_lt_of_gt hzx), if_neg (ne_of_gt hzx),
          ih (List.sorted_cons.mp hs).2 hx]

theorem setInsert_false {x : α} :
    ∀ {l : List α}, (setInsert x l).2 = false → (setInsert x l).1 = l ∧ x ∈ l := by
  intro l
  induction l with
  | nil => intro h; simp [setInsert] at h
  | cons z zs ih =>
      intro h
      unfold setInsert at h ⊢
      by_cases h1 : x < z
      · rw [if_pos h1] at h; cases h
      · rw [if_neg h1] at h ⊢
        by_cases h2 : x = z
        · rw [if_pos h2] at h ⊢
          exact ⟨rfl, by simp [h2]⟩
        · rw [if_neg h2] at h ⊢
          simp only at h ⊢
          obtain ⟨h3, h4⟩ := ih h
          exact ⟨by rw [h3], List.mem_cons_of_mem z h4⟩

theorem setInsert_true {x : α} :
    ∀ {l : List α}, (setInsert x l).2 = true →
      ∃ l₁ l₂, l = l₁ ++ l₂ ∧ (setInsert x l).1 = l₁ ++ x :: l₂ := by
  intro l
  induction l with
  | nil => intro _; exact ⟨[], [], rfl, rfl⟩
  | cons z zs ih =>
      intro h
      unfold setInsert at h ⊢
      by_cases h1 : x < z
      · rw [if_pos h1] at h ⊢
        exact ⟨[], z :: zs, rfl, rfl⟩
      · rw [if_neg h1] at h ⊢
        by_cases h2 : x = z
        · rw [if_pos h2] at h; cases h
        · rw [if_neg h2] at h ⊢
          simp only at h ⊢
          obtain ⟨l₁, l₂, hl, hr⟩ := ih h
          exact ⟨z :: l₁, l₂, by rw [hl]; rfl, by rw [hr]; rfl⟩

theorem mem_setRemove_of_ne {x y : α} (hne : y ≠ x) :
    ∀ {l : List α}, (y ∈ (setRemove x l).1 ↔ y ∈ l) := by
  intro l
  induction l with
  | nil => simp [setRemove]
  | cons z zs ih =>
      unfold setRemove
      by_cases h1 : x = z
      · rw [if_pos h1]
        subst h1
        simp only [List.mem_cons]
        constructor
        · exact Or.inr
        · rintro (rfl | h)
          · exact absurd rfl hne
          · exact h
      · rw [if_neg h1]
        by_cases h2 : x < z
        · rw [if_pos h2]
        · rw [if_neg h2]
          simp only [List.mem_cons, ih]

theorem not_mem_setRemove {x : α} :
    ∀ {l : List α}, l.Sorted (· < ·) → x ∉ (setRemove x l).1 := by
  intro l
  induction l with
  | nil => intro _; simp [setRemove]
  | cons z zs ih =>
      intro hs
      have hz : ∀ b ∈ zs, z < b := (List.sorted_cons.mp hs).1
      have hzs : zs.Sorted (· < ·) := (List.sorted_cons.mp hs).2
      unfold setRemove
      by_cases h1 : x = z
      · rw [if_pos h1]
        subst h1
        intro hx
        exact lt_irrefl x (hz x hx)
      · rw [if_neg h1]
        by_cases h2 : x < z
        · rw [if_pos h2]
          intro hx
          rcases List.mem_cons.mp hx with rfl | hx
          · exact h1 rfl
          · exact absurd (h2.trans (hz x hx)) (lt_irrefl x)
        · rw [if_neg h2]
          intro hx
          rcases List.mem_cons.mp hx with rfl | hx
          · exact h1 rfl
          · exact ih hzs hx

theorem setRemove_sorted {x : α} :
    ∀ {l : List α}, l.Sorted (· < ·) → (setRemove x l).1.Sorted (· < ·) := by
  intro l
  induction l with
  | nil => intro _; simp [setRemove]
  | cons z zs ih =>
      intro hs
      have hz : ∀ b ∈ zs, z < b := (List.sorted_cons.mp hs).1
      have hzs : zs.Sorted (· < ·) := (List.sorted_cons.mp hs).2
      unfold setRemove
      by_cases h1 : x = z
      · rw [if_pos h1]; exact hzs
      · rw [if_neg h1]
        by_cases h2 : x < z
        · rw [if_pos h2]; exact hs
        · rw [if_neg h2]
          refine List.sorted_cons.mpr ⟨?_, ih hzs⟩
          intro b hb
          by_cases hbx : b = x
          · subst hbx
            exact lt_of_le_of_ne (le_of_not_lt h2) (Ne.symm h1)
          · exact hz b ((mem_setRemove_of_ne hbx).mp hb)

end SetLemmas

theorem list_set_getD_self {α : Type} (d : α) :
    ∀ (l : List α) (i : Nat), i < l.length → l.set i (l.getD i d) = l := by
  intro l
  induction l with
  | nil => intro i h; cases h
  | cons a t ih =>
      intro i h
      cases i with
      | zero => rfl
      | succ i =>
          simp only [List.set_cons_succ, List.getD_cons_succ]
          rw [ih i (Nat.lt_of_succ_lt_succ h)]

theorem sortAt_setSortAt_self {m : Model} {st : SortSt} {s : Nat}
    (h : s < m.sorts.length) : (m.setSortAt s st).sortAt s = st := by
  unfold Model.setSortAt Model.sortAt
  simp only [List.getD_eq_getElem?_getD]
  rw [List.getElem?_set_self']
  simp [h]

theorem sortAt_setSortAt_ne {m : Model} {st : SortSt} {s s' : Nat} (h : s' ≠ s) :
    (m.setSortAt s st).sortAt s' = m.sortAt s' := by
  unfold Model.setSortAt Model.sortAt
  simp only [List.getD_eq_getElem?_getD]
  rw [List.getElem?_set_ne (Ne.symm h)]

theorem setSortAt_sortAt_self {m : Model} {s : Nat} :
    m.setSortAt s (m.sortAt s) = m := by
  unfold Model.setSortAt Model.sortAt
  by_cases h : s < m.sorts.length
  · rw [list_set_getD_self default m.sorts s h]
  · rw [List.set_eq_of_length_le (Nat.le_of_not_lt h)]

/-- The new union-find root picked by `equate_{sort}`: the root whose weight
is not smaller (ties go to the canonicalised `lhs`). -/
def equateRoot (m : Model) (s a b : Nat) : Nat :=
  let st := m.sortAt s
  let ra := unifRoot st.parents a
  let rb := unifRoot st.parents b
  if st.weights.getD ra 0 ≥ st.weights.getD rb 0 then ra else rb

/-- The element uprooted by `equate_{sort}`. -/
def equateChild (m : Model) (s a b : Nat) : Nat :=
  let st := m.sortAt s
  let ra := unifRoot st.parents a
  let rb := unifRoot st.parents b
  if st.weights.getD ra 0 ≥ st.weights.getD rb 0 then rb else ra

theorem equateSort_eq (m : Model) (s a b : Nat) :
    equateSort m s a b =
      if unifRoot (m.sortAt s).parents a = unifRoot (m.sortAt s).parents b then m
      else
        m.setSortAt s
          { m.sortAt s with
            parents := unifUnionRootsInto (m.sortAt s).parents (equateChild m s a b)
              (equateRoot m s a b)
            all := (setRemove (equateChild m s a b) (m.sortAt s).all).1
            dirty := (setRemove (equateChild m s a b) (m.sortAt s).dirty).1
            uprooted := (m.sortAt s).uprooted ++ [equateChild m s a b] } := rfl

/-- C6: `equate_{sort}` first canonicalises both arguments; with equal roots
it changes nothing; otherwise the root with the (strictly) larger weight
becomes the new union-find root, the other root (the child) is removed from
`S_all` and `S_dirty` and pushed onto `S_uprooted`, weights are untouched, and
no relation table changes (tuple rewriting is left to `canonicalize`). -/
theorem c6_equate_behavior (m : Model) (s a b : Nat)
    (hs : s < m.sorts.length)
    (hall : (m.sortAt s).all.Sorted (· < ·))
    (hdirty : (m.sortAt s).dirty.Sorted (· < ·)) :
    (unifRoot (m.sortAt s).parents a = unifRoot (m.sortAt s).parents b →
      equateSort m s a b = m) ∧
    (unifRoot (m.sortAt s).parents a ≠ unifRoot (m.sortAt s).parents b →
      ((m.sortAt s).weights.getD (unifRoot (m.sortAt s).parents a) 0 >
          (m.sortAt s).weights.getD (unifRoot (m.sortAt s).parents b) 0 →
        equateRoot m s a b = unifRoot (m.sortAt s).parents a) ∧
      ((m.sortAt s).weights.getD (unifRoot (m.sortAt s).parents b) 0 >
          (m.sortAt s).weights.getD (unifRoot (m.sortAt s).parents a) 0 →
        equateRoot m s a b = unifRoot (m.sortAt s).parents b) ∧
      (equateSort m s a b).rels = m.rels ∧
      (∀ s', s' ≠ s → (equateSort m s a b).sortAt s' = m.sortAt s') ∧
      ((equateSort m s a b).sortAt s).parents
          = unifUnionRootsInto (m.sortAt s).parents (equateChild m s a b)
              (equateRoot m s a b) ∧
      equateChild m s a b ∉ ((equateSort m s a b).sortAt s).all ∧
      equateChild m s a b ∉ ((equateSort m s a b).sortAt s).dirty ∧
      (∀ x, x ≠ equateChild m s a b →
        (x ∈ ((equateSort m s a b).sortAt s).all ↔ x ∈ (m.sortAt s).all)) ∧
      (∀ x, x ≠ equateChild m s a b →
        (x ∈ ((equateSort m s a b).sortAt s).dirty ↔ x ∈ (m.sortAt s).dirty)) ∧
      ((equateSort m s a b).sortAt s).uprooted
          = (m.sortAt s).uprooted ++ [equateChild m s a b] ∧
      ((equateSort m s a b).sortAt s).weights = (m.sortAt s).weights) := by
  constructor
  · intro heq
    rw [equateSort_eq, if_pos heq]
  · intro hne
    rw [equateSort_eq, if_neg hne]
    have hself := @sortAt_setSortAt_self m
      { m.sortAt s with
        parents := unifUnionRootsInto (m.sortAt s).parents (equateChild m s a b)
          (equateRoot m s a b)
        all := (setRemove (equateChild m s a b) (m.sortAt s).all).1
        dirty := (setRemove (equateChild m s a b) (m.sortAt s).dirty).1
        uprooted := (m.sortAt s).uprooted ++ [equateChild m s a b] } s hs
    refine ⟨?_, ?_, rfl, ?_, ?_, ?_, ?_, ?_, ?_, ?_, ?_⟩
    · intro hgt
      unfold equateRoot
      rw [if_pos (le_of_lt hgt)]
    · intro hgt
      unfold equateRoot
      rw [if_neg (not_le_of_gt hgt)]
    · intro s' hs'
      exact sortAt_setSortAt_ne hs'
    · rw [hself]
    · rw [hself]
      exact not_mem_setRemove hall
    · rw [hself]
      exact not_mem_setRemove hdirty
    · intro x hx
      rw [hself]
      exact mem_setRemove_of_ne hx
    · intro x hx
      rw [hself]
      exact mem_setRemove_of_ne hx
    · rw [hself]
    · rw [hself]

/-- An equate scenario for the C6 witness: roots 0 and 1 are distinct, the
heavier element 1 wins. -/
def mW6 : Model :=
  { sorts := [⟨[0, 1], [0], [0, 1], [5, 9], []⟩]
    rels := [⟨[[0, 1]], [], [[(0, [[0, 1]]), (1, [[0, 1]])]]⟩]
    empty_join_is_dirty := false }

/-- Witness for C6 at `equate_{sort}(0, 1)` on `mW6`. -/
theorem c6_equate_behavior_witness :
    (unifRoot (mW6.sortAt 0).parents 0 ≠ unifRoot (mW6.sortAt 0).parents 1) ∧
      ((mW6.sortAt 0).weights.getD (unifRoot (mW6.sortAt 0).parents 1) 0 >
        (mW6.sortAt 0).weights.getD (unifRoot (mW6.sortAt 0).parents 0) 0) ∧
      equateRoot mW6 0 0 1 = unifRoot (mW6.sortAt 0).parents 1 ∧
      (equateSort mW6 0 0 1).rels = mW6.rels ∧
      equateChild mW6 0 0 1 ∉ ((equateSort mW6 0 0 1).sortAt 0).all ∧
      ((equateSort mW6 0 0 1).sortAt 0).uprooted
        = (mW6.sortAt 0).uprooted ++ [equateChild mW6 0 0 1] := by
  have h := (c6_equate_behavior mW6 0 0 1 (by decide) (by decide) (by decide)).2
    (by decide)
  exact ⟨by decide, by decide, h.2.1 (by decide), h.2.2.1, h.2.2.2.2.2.1,
    h.2.2.2.2.2.2.2.2.2.1⟩

theorem rootTotal_eq_unifRoot (m : Model) (s el : Nat) :
    rootTotal m s el = unifRoot (m.sortAt s).parents el := by
  unfold rootTotal unifRoot
  by_cases h : (m.sortAt s).parents.length ≤ el
  · rw [if_pos h, List.getD_eq_default _ _ h]
  · rw [if_neg h]

theorem relAt_setRelAt_self {m : Model} {rs : RelSt} {r : Nat}
    (h : r < m.rels.length) : (m.setRelAt r rs).relAt r = rs := by
  unfold Model.setRelAt Model.relAt
  simp only [List.getD_eq_getElem?_getD]
  rw [List.getElem?_set_self']
  simp [h]

theorem setRelAt_relAt_self {m : Model} {r : Nat} :
    m.setRelAt r (m.relAt r) = m := by
  unfold Model.setRelAt Model.relAt
  by_cases h : r < m.rels.length
  · rw [list_set_getD_self default m.rels r h]
  · rw [List.set_eq_of_length_le (Nat.le_of_not_lt h)]

theorem sortAt_setRelAt (m : Model) (r : Nat) (rs : RelSt) (s : Nat) :
    ((m.setRelAt r rs).sortAt s) = m.sortAt s := rfl

theorem rels_length_setRelAt (m : Model) (r : Nat) (rs : RelSt) :
    (m.setRelAt r rs).rels.length = m.rels.length := by
  unfold Model.setRelAt
  exact List.length_set m.rels r rs

theorem setSortAt_oob {m : Model} {st : SortSt} {s : Nat}
    (h : m.sorts.length ≤ s) : m.setSortAt s st = m := by
  unfold Model.setSortAt
  rw [List.set_eq_of_length_le h]

theorem setRelAt_oob {m : Model} {rs : RelSt} {r : Nat}
    (h : m.rels.length ≤ r) : m.setRelAt r rs = m := by
  unfold Model.setRelAt
  rw [List.set_eq_of_length_le h]

theorem parents_chargeWeight (m : Model) (s el w : Nat) (s' : Nat) :
    ((chargeWeight m s el w).sortAt s').parents = (m.sortAt s').parents := by
  unfold chargeWeight
  dsimp only
  by_cases hs : s < m.sorts.length
  · by_cases hss : s' = s
    · subst hss
      rw [sortAt_setSortAt_self hs]
    · rw [sortAt_setSortAt_ne hss]
  · rw [setSortAt_oob (Nat.le_of_not_lt hs)]

theorem rels_chargeWeight (m : Model) (s el w : Nat) :
    (chargeWeight m s el w).rels = m.rels := rfl

theorem parents_chargeTuple (m : Model) (ri : RelInfo) (t : List Nat) (s' : Nat) :
    ((chargeTuple m ri t).sortAt s').parents = (m.sortAt s').parents := by
  unfold chargeTuple
  generalize ri.arity.zip t = l
  induction l generalizing m with
  | nil => rfl
  | cons p l ih =>
      rw [List.foldl_cons]
      rw [ih (chargeWeight m p.1 p.2 ri.weight)]
      exact parents_chargeWeight m p.1 p.2 ri.weight s'

theorem rels_chargeTuple (m : Model) (ri : RelInfo) (t : List Nat) :
    (chargeTuple m ri t).rels = m.rels := by
  unfold chargeTuple
  generalize ri.arity.zip t = l
  induction l generalizing m with
  | nil => rfl
  | cons p l ih =>
      rw [List.foldl_cons, ih (chargeWeight m p.1 p.2 ri.weight)]
      rfl

/-- The canonicalised tuple that `insert_{rel}` stores. -/
def canonTupleOf (sig : Sig) (m : Model) (r : Nat) (args : List Nat) : List Nat :=
  ((sig.rels.getD r default).arity.zip args).map
    (fun st => unifRoot (m.sortAt st.1).parents st.2)

theorem insertRel_of_mem {sig : Sig} {m : Model} {r : Nat} {args : List Nat}
    (hsort : (m.relAt r).master.Sorted (· < ·))
    (hmem : canonTupleOf sig m r args ∈ (m.relAt r).master) :
    insertRel sig m r args = m := by
  unfold insertRel tableInsert
  dsimp only
  have h := setInsert_of_mem_sorted hsort hmem
  unfold canonTupleOf at h
  rw [h]
  exact setRelAt_relAt_self

theorem insertRel_parents (sig : Sig) (m : Model) (r : Nat) (args : List Nat)
    (s : Nat) :
    ((insertRel sig m r args).sortAt s).parents = (m.sortAt s).parents := by
  unfold insertRel
  dsimp only
  by_cases h :
      (tableInsert (sig.rels.getD r default)
        (((sig.rels.getD r default).arity.zip args).map
          (fun st => unifRoot (m.sortAt st.1).parents st.2)) (m.relAt r)).2 = true
  · rw [if_pos h, parents_chargeTuple, sortAt_setRelAt]
  · rw [if_neg h, sortAt_setRelAt]

theorem insertRel_canonTuple (sig : Sig) (m : Model) (r : Nat) (args : List Nat) :
    canonTupleOf sig (insertRel sig m r args) r args = canonTupleOf sig m r args := by
  unfold canonTupleOf
  refine List.map_congr_left ?_
  intro st _
  rw [insertRel_parents]

theorem relAt_chargeTuple (m : Model) (ri : RelInfo) (t : List Nat) (r : Nat) :
    (chargeTuple m ri t).relAt r = m.relAt r := by
  unfold Model.relAt
  rw [rels_chargeTuple]

theorem tableInsert_master (ri : RelInfo) (t : List Nat) (rs : RelSt) :
    (tableInsert ri t rs).1.master = (setInsert t rs.master).1 := by
  unfold tableInsert
  dsimp only
  by_cases h : (setInsert t rs.master).2 = true
  · rw [if_pos h]
  · rw [if_neg h]
    simp only [Bool.not_eq_true] at h
    exact (setInsert_false h).1.symm

theorem tableInsert_false {ri : RelInfo} {t : List Nat} {rs : RelSt}
    (h : (tableInsert ri t rs).2 = false) : (tableInsert ri t rs).1 = rs := by
  unfold tableInsert at h ⊢
  dsimp only at h ⊢
  by_cases h2 : (setInsert t rs.master).2 = true
  · rw [if_pos h2] at h; cases h
  · rw [if_neg h2]

theorem insertRel_master (sig : Sig) (m : Model) (r : Nat) (args : List Nat)
    (hr : r < m.rels.length) :
    ((insertRel sig m r args).relAt r).master
      = (setInsert (canonTupleOf sig m r args) (m.relAt r).master).1 := by
  unfold insertRel
  dsimp only
  by_cases h :
      (tableInsert (sig.rels.getD r default)
        (((sig.rels.getD r default).arity.zip args).map
          (fun st => unifRoot (m.sortAt st.1).parents st.2)) (m.relAt r)).2 = true
  · rw [if_pos h, relAt_chargeTuple, relAt_setRelAt_self hr, tableInsert_master]
    rfl
  · rw [if_neg h]
    simp only [Bool.not_eq_true] at h
    rw [relAt_setRelAt_self hr, tableInsert_false h]
    have h2 : (setInsert (canonTupleOf sig m r args) (m.relAt r).master).2 = false := by
      have := h
      unfold tableInsert at this
      dsimp only at this
      by_cases h3 : (setInsert (canonTupleOf sig m r args) (m.relAt r).master).2 = true
      · unfold canonTupleOf at h3
        rw [if_pos h3] at this
        cases this
      · simpa using h3
    exact ((setInsert_false h2).1).symm

theorem insertRel_rels_length (sig : Sig) (m : Model) (r : Nat) (args : List Nat) :
    (insertRel sig m r args).rels.length = m.rels.length := by
  unfold insertRel
  by_cases h :
      (tableInsert (sig.rels.getD r default)
        (((sig.rels.getD r default).arity.zip args).map
          (fun st => unifRoot (m.sortAt st.1).parents st.2)) (m.relAt r)).2 = true
  · rw [if_pos h, rels_chargeTuple]
    exact rels_length_setRelAt m r _
  · rw [if_neg h]
    exact rels_length_setRelAt m r _

/-- C7: `insert_{rel}` is idempotent — the second of two identical calls
changes nothing; after the call the generated membership test holds on the
arguments; and when the canonicalised tuple was already present the call
leaves the whole model (weights included) unchanged. -/
theorem c7_insert_idempotent (sig : Sig) (m : Model) (r : Nat) (args : List Nat)
    (hr : r < m.rels.length)
    (hsort : (m.relAt r).master.Sorted (· < ·)) :
    insertRel sig (insertRel sig m r args) r args = insertRel sig m r args ∧
      relHolds sig (insertRel sig m r args) r args = true ∧
      (canonTupleOf sig m r args ∈ (m.relAt r).master → insertRel sig m r args = m) := by
  have hct1 : canonTupleOf sig (insertRel sig m r args) r args
      = canonTupleOf sig m r args := insertRel_canonTuple sig m r args
  have hmaster1 := insertRel_master sig m r args hr
  have hmem1 : canonTupleOf sig m r args ∈ ((insertRel sig m r args).relAt r).master := by
    rw [hmaster1]
    exact (mem_setInsert _ _ _).mpr (Or.inl rfl)
  have hsort1 : ((insertRel sig m r args).relAt r).master.Sorted (· < ·) := by
    rw [hmaster1]
    exact setInsert_sorted hsort
  refine ⟨?_, ?_, fun hmem => insertRel_of_mem hsort hmem⟩
  · apply insertRel_of_mem hsort1
    rw [hct1]
    exact hmem1
  · unfold relHolds
    dsimp only
    have hmap :
        ((sig.rels.getD r default).arity.zip args).map
            (fun st => rootTotal (insertRel sig m r args) st.1 st.2)
          = canonTupleOf sig m r args := by
      rw [← hct1]
      unfold canonTupleOf
      exact List.map_congr_left (fun st _ => rootTotal_eq_unifRoot _ _ _)
    rw [hmap]
    exact List.elem_iff.mpr hmem1

/-- The one-element model used by the C7 and C8 witnesses. -/
def mW7 : Model := (newElement (modelNew sigW) 0).1

/-- Witness for C7: inserting the tuple `(0, 0)` into `mW7`. -/
theorem c7_insert_idempotent_witness :
    (0 < mW7.rels.length ∧ (mW7.relAt 0).master.Sorted (· < ·)) ∧
      (insertRel sigW (insertRel sigW mW7 0 [0, 0]) 0 [0, 0]
          = insertRel sigW mW7 0 [0, 0] ∧
        relHolds sigW (insertRel sigW mW7 0 [0, 0]) 0 [0, 0] = true ∧
        (canonTupleOf sigW mW7 0 [0, 0] ∈ (mW7.relAt 0).master →
          insertRel sigW mW7 0 [0, 0] = mW7)) :=
  ⟨⟨by decide, by decide⟩,
   c7_insert_idempotent sigW mW7 0 [0, 0] (by decide) (by decide)⟩

theorem unifRoot_snoc (p : List Nat) (x : Nat) :
    unifRoot (p ++ [p.length]) x = unifRoot p x := by
  unfold unifRoot
  rcases Nat.lt_trichotomy x p.length with h | h | h
  · exact List.getD_append p [p.length] x x h
  · rw [h]
    rw [List.getD_eq_default p p.length (Nat.le_refl _)]
    have hlt : p.length < (p ++ [p.length]).length := by simp
    rw [List.getD_eq_getElem _ _ hlt, List.getElem_append_right (Nat.le_refl _)]
    simp
  · rw [List.getD_eq_default p x (Nat.le_of_lt h),
      List.getD_eq_default _ x (by simp; omega)]

theorem rels_newElementInternal (m : Model) (s : Nat) :
    (newElementInternal m s).1.rels = m.rels := rfl

theorem rootTotal_newElement (m : Model) (s s' x : Nat) :
    rootTotal (newElementInternal m s).1 s' x = rootTotal m s' x := by
  by_cases hs : s < m.sorts.length
  · by_cases hss : s' = s
    · subst hss
      unfold rootTotal
      unfold newElementInternal
      dsimp only
      rw [sortAt_setSortAt_self hs]
      dsimp only
      rcases Nat.lt_trichotomy x (m.sortAt s').parents.length with h | h | h
      · rw [if_neg (by simp; omega), if_neg (by omega), unifRoot_snoc]
      · subst h
        rw [if_neg (by simp), if_pos (Nat.le_refl _), unifRoot_snoc]
        unfold unifRoot
        rw [List.getD_eq_default _ _ (Nat.le_refl _)]
      · rw [if_pos (by simp; omega), if_pos (by omega)]
    · unfold rootTotal
      unfold newElementInternal
      dsimp only
      rw [sortAt_setSortAt_ne hss]
  · unfold newElementInternal
    dsimp only
    rw [setSortAt_oob (Nat.le_of_not_lt hs)]

theorem rootTotal_insertRel (sig : Sig) (m : Model) (r : Nat) (args : List Nat)
    (s x : Nat) :
    rootTotal (insertRel sig m r args) s x = rootTotal m s x := by
  unfold rootTotal
  rw [insertRel_parents]

/-- C8: calling `define_{func}` twice in a row with the same arguments
returns the same element both times, and the second call neither allocates a
fresh element nor changes the model at all: the first call either finds the
image (changing nothing) or inserts the graph tuple, which the second call's
lookup then finds. -/
theorem funcEval_decomp (sig : Sig) (mm : Model) (r : Nat) (args : List Nat)
    (dom : List Nat) (cod : Nat)
    (hA : (sig.rels.getD r default).arity = dom ++ [cod]) :
    funcEval sig mm r args =
      ((mm.relAt r).master.filter
        (fun t => t.take dom.length
          == (dom.zip args).map (fun st => rootTotal mm st.1 st.2))).head?.map
        (fun t => t.getD dom.length 0) := by
  unfold funcEval
  dsimp only
  rw [hA]
  have h1 : (dom ++ [cod]).length - 1 = dom.length := by simp
  rw [h1, List.take_left dom [cod]]

/-- C8: calling `define_{func}` twice in a row with the same arguments
returns the same element both times, and the second call neither allocates a
fresh element nor changes the model at all: the first call either finds the
image (changing nothing) or inserts the graph tuple, which the second call's
lookup then finds and whose last position it returns. -/
theorem c8_define_twice (sig : Sig) (m : Model) (r : Nat) (args : List Nat)
    (hr : r < m.rels.length)
    (hcod : (sig.rels.getD r default).arity.getLastD 0 < m.sorts.length)
    (hn : (sig.rels.getD r default).arity ≠ [])
    (hlen : args.length = (sig.rels.getD r default).arity.length - 1) :
    (defineFunc sig (defineFunc sig m r args).1 r args).2
        = (defineFunc sig m r args).2 ∧
      (defineFunc sig (defineFunc sig m r args).1 r args).1
        = (defineFunc sig m r args).1 := by
  rcases heval : funcEval sig m r args with _ | res
  · -- the first call allocates a codomain element and inserts the graph tuple
    obtain ⟨dom, cod, hA⟩ : ∃ dom cod,
        (sig.rels.getD r default).arity = dom ++ [cod] := by
      rcases List.eq_nil_or_concat (sig.rels.getD r default).arity with h1 | h1
      · exact absurd h1 hn
      · obtain ⟨L, b, hb⟩ := h1
        exact ⟨L, b, by simpa [List.concat_eq_append] using hb⟩
    have hgetLast : (sig.rels.getD r default).arity.getLastD 0 = cod := by
      rw [hA]; simp
    have hcodlt : cod < m.sorts.length := by rw [hgetLast] at hcod; exact hcod
    have hdomlen : args.length = dom.length := by
      rw [hA] at hlen; simpa using hlen
    -- the state and element produced by the first call
    have hd1 : defineFunc sig m r args
        = (insertRel sig (newElementInternal m cod).1 r
            (args ++ [(m.sortAt cod).parents.length]),
           (m.sortAt cod).parents.length) := by
      unfold defineFunc
      rw [heval]
      dsimp only
      rw [hgetLast]
      rfl
    -- the canonical prefix, computed before the call
    have hfilter : (m.relAt r).master.filter
        (fun t => t.take dom.length
          == (dom.zip args).map (fun st => rootTotal m st.1 st.2)) = [] := by
      rw [funcEval_decomp sig m r args dom cod hA] at heval
      rcases hh : (m.relAt r).master.filter
          (fun t => t.take dom.length
            == (dom.zip args).map (fun st => rootTotal m st.1 st.2)) with _ | ⟨t0, ts⟩
      · exact hh
      · rw [hh] at heval
        simp at heval
    -- the tuple the first call stores
    have hct : canonTupleOf sig (newElementInternal m cod).1 r
        (args ++ [(m.sortAt cod).parents.length])
        = (dom.zip args).map (fun st => rootTotal m st.1 st.2)
            ++ [(m.sortAt cod).parents.length] := by
      unfold canonTupleOf
      rw [hA, List.zip_append hdomlen.symm, List.map_append]
      congr 1
      · refine List.map_congr_left ?_
        intro st _
        rw [← rootTotal_eq_unifRoot, rootTotal_newElement]
      · simp only [List.zip_cons_cons, List.zip_nil_right, List.map_cons, List.map_nil]
        congr 1
        unfold newElementInternal
        dsimp only
        rw [sortAt_setSortAt_self hcodlt]
        dsimp only
        rw [unifRoot_snoc]
        unfold unifRoot
        exact List.getD_eq_default _ _ (Nat.le_refl _)
    have hclen : ((dom.zip args).map (fun st => rootTotal m st.1 st.2)).length
        = dom.length := by
      simp [hdomlen]
    -- the second lookup finds exactly the stored tuple
    have hrFresh : r < (newElementInternal m cod).1.rels.length := by
      rw [rels_newElementInternal]; exact hr
    have hrelAtFresh : (newElementInternal m cod).1.relAt r = m.relAt r := by
      unfold Model.relAt
      rw [rels_newElementInternal]
    have hmaster2 :
        ((insertRel sig (newElementInternal m cod).1 r
            (args ++ [(m.sortAt cod).parents.length])).relAt r).master
          = (setInsert ((dom.zip args).map (fun st => rootTotal m st.1 st.2)
              ++ [(m.sortAt cod).parents.length]) (m.relAt r).master).1 := by
      rw [insertRel_master sig _ r _ hrFresh, hrelAtFresh, hct]
    have heval2 : funcEval sig (insertRel sig (newElementInternal m cod).1 r
        (args ++ [(m.sortAt cod).parents.length])) r args
        = some ((m.sortAt cod).parents.length) := by
      rw [funcEval_decomp sig _ r args dom cod hA]
      have hcmap : (dom.zip args).map
            (fun st => rootTotal (insertRel sig (newElementInternal m cod).1 r
              (args ++ [(m.sortAt cod).parents.length])) st.1 st.2)
          = (dom.zip args).map (fun st => rootTotal m st.1 st.2) :=
        List.map_congr_left (fun st _ => by
          rw [rootTotal_insertRel, rootTotal_newElement])
      rw [hcmap, hmaster2]
      have hpct : ((dom.zip args).map (fun st => rootTotal m st.1 st.2)
            ++ [(m.sortAt cod).parents.length]).take dom.length
          = (dom.zip args).map (fun st => rootTotal m st.1 st.2) := by
        rw [← hclen]
        exact List.take_left _ _
      rcases hins : (setInsert ((dom.zip args).map (fun st => rootTotal m st.1 st.2)
          ++ [(m.sortAt cod).parents.length]) (m.relAt r).master).2 with _ | _
      · obtain ⟨-, hmem⟩ := setInsert_false hins
        have hp := List.filter_eq_nil_iff.mp hfilter _ hmem
        rw [hpct] at hp
        simp at hp
      · obtain ⟨l₁, l₂, hsplit, hres⟩ := setInsert_true hins
        rw [hres]
        have hf12 := hfilter
        rw [hsplit, List.filter_append] at hf12
        obtain ⟨hf1, hf2⟩ := List.append_eq_nil.mp hf12
        rw [List.filter_append, hf1, List.filter_cons,
          if_pos (by rw [hpct]; exact beq_self_eq_true _), hf2]
        simp only [List.nil_append, List.head?_cons, Option.map_some']
        congr 1
        rw [← hclen]
        have hlt : ((dom.zip args).map (fun st => rootTotal m st.1 st.2)).length
            < (((dom.zip args).map (fun st => rootTotal m st.1 st.2))
              ++ [(m.sortAt cod).parents.length]).length := by
          simp
        rw [List.getD_eq_getElem _ _ hlt,
          List.getElem_append_right (Nat.le_refl _)]
        simp
    -- assemble
    rw [hd1]
    have hd2 : defineFunc sig (insertRel sig (newElementInternal m cod).1 r
        (args ++ [(m.sortAt cod).parents.length])) r args
        = (insertRel sig (newElementInternal m cod).1 r
            (args ++ [(m.sortAt cod).parents.length]),
           (m.sortAt cod).parents.length) := by
      unfold defineFunc
      rw [heval2]
    rw [hd2]
    exact ⟨rfl, rfl⟩
  · -- the first call found an image: it did not change the model at all
    have hd1 : defineFunc sig m r args = (m, res) := by
      unfold defineFunc
      rw [heval]
    rw [hd1]
    rw [hd1]
    exact ⟨rfl, rfl⟩

/-- Witness for C8: defining `f(0)` twice on the one-element model. -/
theorem c8_define_twice_witness :
    (0 < mW7.rels.length ∧
      (sigW.rels.getD 0 default).arity.getLastD 0 < mW7.sorts.length ∧
      (sigW.rels.getD 0 default).arity ≠ [] ∧
      ([0] : List Nat).length = (sigW.rels.getD 0 default).arity.length - 1) ∧
      ((defineFunc sigW (defineFunc sigW mW7 0 [0]).1 0 [0]).2
          = (defineFunc sigW mW7 0 [0]).2 ∧
        (defineFunc sigW (defineFunc sigW mW7 0 [0]).1 0 [0]).1
          = (defineFunc sigW mW7 0 [0]).1) :=
  ⟨⟨by decide, by decide, by decide, by decide⟩,
   c8_define_twice sigW mW7 0 [0] (by decide) (by decide) (by decide) (by decide)⟩
/-!
Weight accounting.  `pairCount L s e` counts the positions of a
(sort, element) pair list that hold element `e` at a position of sort `s`;
`occSum` is the weight-weighted occurrence count over all master indices, and
`claimSum` is the formula of the spec (weight times number of tuples that
contain the element, each tuple counted once).
-/

def pairCount (L : List (Nat × Nat)) (s e : Nat) : Nat :=
  (L.filter (fun p => p.1 == s && p.2 == e)).length

/-- Occurrences of element `e` of sort `s` in tuple `t` (with multiplicity). -/
def occCount (ar : List Nat) (s e : Nat) (t : List Nat) : Nat :=
  pairCount (ar.zip t) s e

/-- Weighted occurrence count of one relation table. -/
def relOccSum (ri : RelInfo) (rs : RelSt) (s e : Nat) : Nat :=
  ri.weight * (rs.master.map (occCount ri.arity s e)).sum

/-- Weighted occurrence count over all relation tables. -/
def occSum (sig : Sig) (m : Model) (s e : Nat) : Nat :=
  ((sig.rels.zip m.rels).map (fun p => relOccSum p.1 p.2 s e)).sum

/-- The stored weight of element `e` of sort `s`. -/
def weightOf (m : Model) (s e : Nat) : Nat := (m.sortAt s).weights.getD e 0

/-- The spec's accounting formula: weight times the number of tuples that
contain the element (each tuple counted once). -/
def claimSum (sig : Sig) (m : Model) (s e : Nat) : Nat :=
  ((sig.rels.zip m.rels).map
    (fun p => p.1.weight *
      (p.2.master.countP
        (fun t => (p.1.arity.zip t).any (fun q => q.1 == s && q.2 == e))))).sum

theorem weightOf_setRelAt (m : Model) (r : Nat) (rs : RelSt) (s e : Nat) :
    weightOf (m.setRelAt r rs) s e = weightOf m s e := rfl

theorem pairCount_nil (s e : Nat) : pairCount [] s e = 0 := rfl

theorem pairCount_cons (p : Nat × Nat) (L : List (Nat × Nat)) (s e : Nat) :
    pairCount (p :: L) s e
      = (if p.1 = s ∧ p.2 = e then 1 else 0) + pairCount L s e := by
  unfold pairCount
  rw [List.filter_cons]
  by_cases h : p.1 = s ∧ p.2 = e
  · rw [if_pos (by simp [h.1, h.2]), if_pos h]
    simp [Nat.add_comm]
  · rw [if_neg (by simpa using h), if_neg h]
    simp

/-- Effect of a charge fold (`chargeWeight` over a pair list) on one weight
cell, assuming the touched cells are in range and the final values stay below
`usize::MAX`. -/
theorem chargeFold_weightOf (w : Nat) :
    ∀ (L : List (Nat × Nat)) (m : Model),
      (∀ p ∈ L, p.2 < (m.sortAt p.1).weights.length) →
      (∀ s e, weightOf m s e + w * pairCount L s e ≤ USIZE_MAX) →
      ∀ s e,
        weightOf (L.foldl (fun acc st => chargeWeight acc st.1 st.2 w) m) s e
          = weightOf m s e + w * pairCount L s e := by
  intro L
  induction L with
  | nil =>
      intro m _ _ s e
      rw [List.foldl_nil, pairCount_nil, Nat.mul_zero, Nat.add_zero]
  | cons p L ih =>
      intro m hin hb s e
      rw [List.foldl_cons]
      have hlen : ∀ s', (chargeWeight m p.1 p.2 w).sortAt s' = m.sortAt s' ∨
          ((chargeWeight m p.1 p.2 w).sortAt s').weights.length
            = (m.sortAt s').weights.length := by
        intro s'
        unfold chargeWeight
        dsimp only
        by_cases hs : p.1 < m.sorts.length
        · by_cases hss : s' = p.1
          · subst hss
            rw [sortAt_setSortAt_self hs]
            right
            exact List.length_set _ _ _
          · rw [sortAt_setSortAt_ne hss]
            left; rfl
        · rw [setSortAt_oob (Nat.le_of_not_lt hs)]
          left; rfl
      have hwlen : ∀ s' e', e' < (m.sortAt s').weights.length →
          e' < ((chargeWeight m p.1 p.2 w).sortAt s').weights.length := by
        intro s' e' he
        rcases hlen s' with h | h
        · rw [h]; exact he
        · rw [h]; exact he
      -- the single charge
      have hw1 : ∀ s' e', weightOf (chargeWeight m p.1 p.2 w) s' e'
          = if p.1 = s' ∧ p.2 = e' ∧ p.1 < m.sorts.length ∧
              p.2 < (m.sortAt p.1).weights.length
            then satAdd (weightOf m s' e') w else weightOf m s' e' := by
        intro s' e'
        unfold chargeWeight weightOf
        dsimp only
        by_cases hs : p.1 < m.sorts.length
        · by_cases hss : p.1 = s'
          · subst hss
            rw [sortAt_setSortAt_self hs]
            by_cases hee : p.2 = e'
            · subst hee
              rw [if_pos ⟨rfl, rfl, hs, hin p (by simp)⟩]
              dsimp only
              rw [List.getD_eq_getElem?_getD, List.getElem?_set_self',
                List.getElem?_eq_getElem (hin p (by simp))]
              rfl
            · rw [if_neg (by intro hc; exact hee hc.2.1)]
              dsimp only
              rw [List.getD_eq_getElem?_getD, List.getElem?_set_ne hee,
                ← List.getD_eq_getElem?_getD]
          · rw [sortAt_setSortAt_ne (Ne.symm hss), if_neg (by intro hc; exact hss hc.1)]
        · rw [setSortAt_oob (Nat.le_of_not_lt hs),
            if_neg (by intro hc; exact hs hc.2.2.1)]
      have hinL : ∀ q ∈ L, q.2 < ((chargeWeight m p.1 p.2 w).sortAt q.1).weights.length := by
        intro q hq
        exact hwlen q.1 q.2 (hin q (List.mem_cons_of_mem p hq))
      have hbL : ∀ s' e',
          weightOf (chargeWeight m p.1 p.2 w) s' e' + w * pairCount L s' e'
            ≤ USIZE_MAX := by
        intro s' e'
        rw [hw1 s' e']
        by_cases hc : p.1 = s' ∧ p.2 = e' ∧ p.1 < m.sorts.length ∧
            p.2 < (m.sortAt p.1).weights.length
        · rw [if_pos hc]
          have := hb s' e'
          rw [pairCount_cons, if_pos ⟨hc.1, hc.2.1⟩] at this
          unfold satAdd
          calc min (weightOf m s' e' + w) USIZE_MAX + w * pairCount L s' e'
              ≤ (weightOf m s' e' + w) + w * pairCount L s' e' :=
                Nat.add_le_add_right (Nat.min_le_left _ _) _
            _ ≤ USIZE_MAX := by
                rw [Nat.mul_add, Nat.mul_one] at this
                omega
        · rw [if_neg hc]
          have := hb s' e'
          rw [pairCount_cons] at this
          by_cases hc2 : p.1 = s' ∧ p.2 = e'
          · rw [if_pos hc2, Nat.mul_add, Nat.mul_one] at this
            omega
          · rw [if_neg hc2, Nat.zero_add] at this
            exact this
      rw [ih (chargeWeight m p.1 p.2 w) hinL hbL s e, hw1 s e, pairCount_cons]
      by_cases hc : p.1 = s ∧ p.2 = e
      · have hc' : p.1 = s ∧ p.2 = e ∧ p.1 < m.sorts.length ∧
            p.2 < (m.sortAt p.1).weights.length := by
          refine ⟨hc.1, hc.2, ?_, hin p (by simp)⟩
          by_contra hno
          have hthis := hin p (by simp)
          have hdef : m.sortAt p.1 = default := by
            unfold Model.sortAt
            exact List.getD_eq_default _ _ (Nat.le_of_not_lt hno)
          rw [hdef] at hthis
          simp [default] at hthis
        rw [if_pos hc', if_pos hc]
        have hbb := hb s e
        rw [pairCount_cons, if_pos hc] at hbb
        unfold satAdd
        rw [Nat.min_eq_left (by rw [Nat.mul_add, Nat.mul_one] at hbb; omega)]
        ring
      · rw [if_neg (by intro hx; exact hc ⟨hx.1, hx.2.1⟩), if_neg hc]
        ring

/-- Effect of a discharge fold (`dischargeWeight` over a pair list) on one
weight cell, assuming the touched cells are in range and hold at least the
total amount to subtract. -/
theorem dischargeFold_weightOf (w : Nat) :
    ∀ (L : List (Nat × Nat)) (m : Model),
      (∀ p ∈ L, p.2 < (m.sortAt p.1).weights.length) →
      (∀ s e, w * pairCount L s e ≤ weightOf m s e) →
      ∀ s e,
        weightOf (L.foldl (fun acc st => dischargeWeight acc st.1 st.2 w) m) s e
          = weightOf m s e - w * pairCount L s e := by
  intro L
  induction L with
  | nil =>
      intro m _ _ s e
      rw [List.foldl_nil, pairCount_nil, Nat.mul_zero, Nat.sub_zero]
  | cons p L ih =>
      intro m hin hb s e
      rw [List.foldl_cons]
      have hw1 : ∀ s' e', weightOf (dischargeWeight m p.1 p.2 w) s' e'
          = if p.1 = s' ∧ p.2 = e' ∧ p.1 < m.sorts.length ∧
              p.2 < (m.sortAt p.1).weights.length
            then satSub (weightOf m s' e') w else weightOf m s' e' := by
        intro s' e'
        unfold dischargeWeight weightOf
        dsimp only
        by_cases hs : p.1 < m.sorts.length
        · by_cases hss : p.1 = s'
          · subst hss
            rw [sortAt_setSortAt_self hs]
            by_cases hee : p.2 = e'
            · subst hee
              rw [if_pos ⟨rfl, rfl, hs, hin p (by simp)⟩]
              dsimp only
              rw [List.getD_eq_getElem?_getD, List.getElem?_set_self',
                List.getElem?_eq_getElem (hin p (by simp))]
              rfl
            · rw [if_neg (by intro hc; exact hee hc.2.1)]
              dsimp only
              rw [List.getD_eq_getElem?_getD, List.getElem?_set_ne hee,
                ← List.getD_eq_getElem?_getD]
          · rw [sortAt_setSortAt_ne (Ne.symm hss), if_neg (by intro hc; exact hss hc.1)]
        · rw [setSortAt_oob (Nat.le_of_not_lt hs),
            if_neg (by intro hc; exact hs hc.2.2.1)]
      have hlen : ∀ s', ((dischargeWeight m p.1 p.2 w).sortAt s').weights.length
          = (m.sortAt s').weights.length := by
        intro s'
        unfold dischargeWeight
        dsimp only
        by_cases hs : p.1 < m.sorts.length
        · by_cases hss : s' = p.1
          · subst hss
            rw [sortAt_setSortAt_self hs]
            exact List.length_set _ _ _
          · rw [sortAt_setSortAt_ne hss]
        · rw [setSortAt_oob (Nat.le_of_not_lt hs)]
      have hinL : ∀ q ∈ L, q.2 < ((dischargeWeight m p.1 p.2 w).sortAt q.1).weights.length := by
        intro q hq
        rw [hlen q.1]
        exact hin q (List.mem_cons_of_mem p hq)
      have hbL : ∀ s' e',
          w * pairCount L s' e' ≤ weightOf (dischargeWeight m p.1 p.2 w) s' e' := by
        intro s' e'
        rw [hw1 s' e']
        have := hb s' e'
        rw [pairCount_cons] at this
        by_cases hc : p.1 = s' ∧ p.2 = e' ∧ p.1 < m.sorts.length ∧
            p.2 < (m.sortAt p.1).weights.length
        · rw [if_pos hc, if_pos ⟨hc.1, hc.2.1⟩, Nat.mul_add, Nat.mul_one] at *
          unfold satSub
          omega
        · rw [if_neg hc]
          by_cases hc2 : p.1 = s' ∧ p.2 = e'
          · rw [if_pos hc2, Nat.mul_add, Nat.mul_one] at this
            omega
          · rw [if_neg hc2, Nat.zero_add] at this
            exact this
      rw [ih (dischargeWeight m p.1 p.2 w) hinL hbL s e, hw1 s e, pairCount_cons]
      by_cases hc : p.1 = s ∧ p.2 = e
      · have hc' : p.1 = s ∧ p.2 = e ∧ p.1 < m.sorts.length ∧
            p.2 < (m.sortAt p.1).weights.length := by
          refine ⟨hc.1, hc.2, ?_, hin p (by simp)⟩
          by_contra hno
          have hthis := hin p (by simp)
          have hdef : m.sortAt p.1 = default := by
            unfold Model.sortAt
            exact List.getD_eq_default _ _ (Nat.le_of_not_lt hno)
          rw [hdef] at hthis
          simp [default] at hthis
        rw [if_pos hc', if_pos hc]
        have hbb := hb s e
        rw [pairCount_cons, if_pos hc, Nat.mul_add, Nat.mul_one] at hbb
        rw [Nat.mul_add, Nat.mul_one]
        unfold satSub
        omega
      · rw [if_neg (by intro hx; exact hc ⟨hx.1, hx.2.1⟩), if_neg hc, Nat.zero_add]

/-!
Root-class occurrence counts.  `rootVia par` is `rootTotal` phrased over the
per-sort parents maps alone, so that root-class sums are visibly unaffected by
weight updates.
-/

/-- The per-sort parents maps of a model. -/
def Model.par (m : Model) : Nat → List Nat := fun s => (m.sortAt s).parents

/-- `rootTotal` as a function of the parents maps alone. -/
def rootVia (par : Nat → List Nat) (s el : Nat) : Nat :=
  if (par s).length ≤ el then el else unifRoot (par s) el

theorem rootTotal_eq_rootVia (m : Model) (s el : Nat) :
    rootTotal m s el = rootVia m.par s el := rfl

/-- The position list of a tuple with every element replaced by its root. -/
def rootPairs (par : Nat → List Nat) (ar t : List Nat) : List (Nat × Nat) :=
  (ar.zip t).map (fun p => (p.1, rootVia par p.1 p.2))

/-- Root-class occurrences of `(s, e)` in a tuple. -/
def classOcc (par : Nat → List Nat) (ar : List Nat) (s e : Nat) (t : List Nat) : Nat :=
  pairCount (rootPairs par ar t) s e

/-- Weighted root-class occurrence count of one relation table. -/
def classRelSum (par : Nat → List Nat) (ri : RelInfo) (rs : RelSt) (s e : Nat) : Nat :=
  ri.weight * (rs.master.map (classOcc par ri.arity s e)).sum

/-- Weighted root-class occurrence count over all relation tables. -/
def classSum (sig : Sig) (par : Nat → List Nat) (rels : List RelSt) (s e : Nat) : Nat :=
  ((sig.rels.zip rels).map (fun p => classRelSum par p.1 p.2 s e)).sum

/-- Well-formed parents map of one sort: weights aligned, entries in range and
idempotent. -/
def WFparents (st : SortSt) : Prop :=
  st.weights.length = st.parents.length ∧
  ∀ i, i < st.parents.length →
    st.parents.getD i 0 < st.parents.length ∧
    st.parents.getD (st.parents.getD i 0) 0 = st.parents.getD i 0

/-- Well-formed tuple for an arity: full length, sorts in range, entries in
range of their sort's union-find. -/
def WFtuple (sc : Nat) (par : Nat → List Nat) (ar t : List Nat) : Prop :=
  t.length = ar.length ∧
  ∀ p ∈ ar.zip t, p.1 < sc ∧ p.2 < (par p.1).length

/-- Static signature sanity: all arity entries name existing sorts. -/
def SigWF (sig : Sig) : Prop :=
  ∀ ri ∈ sig.rels, ∀ a ∈ ri.arity, a < sig.sortsCount

/-- The model invariants that the weight-accounting argument maintains. -/
def WFc5 (sig : Sig) (m : Model) : Prop :=
  m.sorts.length = sig.sortsCount ∧
  m.rels.length = sig.rels.length ∧
  (∀ s, s < sig.sortsCount → WFparents (m.sortAt s)) ∧
  (∀ r, r < sig.rels.length → (m.relAt r).master.Sorted (· < ·) ∧
    ∀ t ∈ (m.relAt r).master, WFtuple sig.sortsCount m.par (sig.rels.getD r default).arity t) ∧
  (∀ s e, weightOf m s e ≤ USIZE_MAX)

theorem getD_self_eq_getD_zero {l : List Nat} {i : Nat} (h : i < l.length) (d : Nat) :
    l.getD i d = l.getD i 0 := by
  rw [List.getD_eq_getElem?_getD, List.getD_eq_getElem?_getD,
    List.getElem?_eq_getElem h]
  rfl

theorem rootVia_of_lt {par : Nat → List Nat} {s x : Nat} (h : x < (par s).length) :
    rootVia par s x = (par s).getD x 0 := by
  unfold rootVia unifRoot
  rw [if_neg (Nat.not_le_of_lt h)]
  exact getD_self_eq_getD_zero h x

theorem rootVia_of_le {par : Nat → List Nat} {s x : Nat} (h : (par s).length ≤ x) :
    rootVia par s x = x := by
  unfold rootVia
  rw [if_pos h]

theorem rootVia_idem {par : Nat → List Nat} {s : Nat}
    (hwf : ∀ i, i < (par s).length →
      (par s).getD i 0 < (par s).length ∧
      (par s).getD ((par s).getD i 0) 0 = (par s).getD i 0)
    (x : Nat) : rootVia par s (rootVia par s x) = rootVia par s x := by
  by_cases hx : (par s).length ≤ x
  · rw [rootVia_of_le hx, rootVia_of_le hx]
  · have hlt := Nat.lt_of_not_le hx
    rcases hwf x hlt with ⟨hv, hid⟩
    rw [rootVia_of_lt hlt, rootVia_of_lt hv, hid]

theorem rootVia_lt {par : Nat → List Nat} {s : Nat}
    (hwf : ∀ i, i < (par s).length →
      (par s).getD i 0 < (par s).length ∧
      (par s).getD ((par s).getD i 0) 0 = (par s).getD i 0)
    {x : Nat} (hx : x < (par s).length) : rootVia par s x < (par s).length := by
  rw [rootVia_of_lt hx]
  exact (hwf x hx).1

/-- Zipping an arity against the image of its own zip: the mapped pair list. -/
theorem zip_map_zip (f : Nat × Nat → Nat) :
    ∀ (ar args : List Nat),
      ar.zip ((ar.zip args).map f) = (ar.zip args).map (fun p => (p.1, f p))
  | [], _ => by simp
  | _ :: _, [] => by simp
  | a :: ar, b :: args => by
      simp only [List.zip_cons_cons, List.map_cons]
      rw [zip_map_zip f ar args]

/-- Rewriting a tuple to roots does not change its root-class pairs. -/
theorem rootPairs_rewrite {par : Nat → List Nat} {ar t : List Nat}
    (hwf : ∀ p ∈ ar.zip t, ∀ i, i < (par p.1).length →
      (par p.1).getD i 0 < (par p.1).length ∧
      (par p.1).getD ((par p.1).getD i 0) 0 = (par p.1).getD i 0) :
    rootPairs par ar ((ar.zip t).map (fun p => rootVia par p.1 p.2))
      = rootPairs par ar t := by
  unfold rootPairs
  rw [zip_map_zip, List.map_map]
  refine List.map_congr_left ?_
  intro p hp
  show (p.1, rootVia par p.1 (rootVia par p.1 p.2)) = (p.1, rootVia par p.1 p.2)
  rw [rootVia_idem (hwf p hp)]

/-- Raw occurrences are at most class occurrences at a root. -/
theorem pairCount_le_map {s e : Nat} (g : Nat × Nat → Nat × Nat)
    (hg : ∀ p, p.1 = s → p.2 = e → g p = (s, e)) :
    ∀ L : List (Nat × Nat), pairCount L s e ≤ pairCount (L.map g) s e := by
  intro L
  induction L with
  | nil => simp [pairCount]
  | cons p L ih =>
      rw [List.map_cons, pairCount_cons, pairCount_cons]
      by_cases hp : p.1 = s ∧ p.2 = e
      · rw [if_pos hp, if_pos (by rw [hg p hp.1 hp.2]; exact ⟨rfl, rfl⟩)]
        exact Nat.add_le_add_left ih 1
      · rw [if_neg hp]
        calc 0 + pairCount L s e ≤ pairCount (L.map g) s e := by
              rw [Nat.zero_add]; exact ih
          _ ≤ (if (g p).1 = s ∧ (g p).2 = e then 1 else 0) + pairCount (L.map g) s e :=
              Nat.le_add_left _ _

theorem occCount_le_classOcc {par : Nat → List Nat} {ar t : List Nat} {s e : Nat}
    (he : rootVia par s e = e) :
    occCount ar s e t ≤ classOcc par ar s e t := by
  unfold occCount classOcc rootPairs
  refine pairCount_le_map _ ?_ _
  intro p h1 h2
  rw [h1, h2, he]

/-!
Sum bookkeeping over master indices.
-/

theorem masterSum_insert (f : List Nat → Nat) {ct : List Nat} {mst : List (List Nat)}
    (h : (setInsert ct mst).2 = true) :
    (((setInsert ct mst).1.map f)).sum = (mst.map f).sum + f ct := by
  rcases setInsert_true h with ⟨l₁, l₂, hdec, hins⟩
  rw [hins, hdec]
  simp [List.sum_append]
  ring

theorem setRemove_true_mem [LinearOrder α] {x : α} :
    ∀ {l : List α}, (setRemove x l).2 = true → x ∈ l := by
  intro l
  induction l with
  | nil => intro h; simp [setRemove] at h
  | cons y ys ih =>
      intro h
      unfold setRemove at h
      by_cases hxy : x = y
      · exact hxy ▸ List.mem_cons_self _ _
      · rw [if_neg hxy] at h
        by_cases hlt : x < y
        · rw [if_pos hlt] at h
          simp at h
        · rw [if_neg hlt] at h
          exact List.mem_cons_of_mem y (ih h)

theorem setRemove_sorted_eq_filter [LinearOrder α] {x : α} :
    ∀ {l : List α}, l.Sorted (· < ·) →
      (setRemove x l).1 = l.filter (fun y => decide (y ≠ x)) := by
  intro l
  induction l with
  | nil => intro _; simp [setRemove]
  | cons y ys ih =>
      intro hs
      have hys : ys.Sorted (· < ·) := hs.of_cons
      unfold setRemove
      by_cases hxy : x = y
      · subst hxy
        rw [if_pos rfl]
        dsimp only
        rw [List.filter_cons]
        rw [if_neg (by simp)]
        symm
        rw [List.filter_eq_self]
        intro a ha
        have := (List.sorted_cons.mp hs).1 a ha
        simp [ne_of_gt this]
      · rw [if_neg hxy]
        by_cases hlt : x < y
        · rw [if_pos hlt]
          dsimp only
          rw [List.filter_cons, if_pos (by simp [Ne.symm hxy])]
          congr 1
          symm
          rw [List.filter_eq_self]
          intro a ha
          have hya := (List.sorted_cons.mp hs).1 a ha
          have : x < a := lt_trans hlt hya
          simp [ne_of_gt this]
        · rw [if_neg hlt]
          dsimp only
          rw [List.filter_cons, if_pos (by simp [Ne.symm hxy]), ih hys]

/-- Setting one entry of a list: additive effect on a mapped sum. -/
theorem map_sum_set {β : Type} (f : β → Nat) (d : β) :
    ∀ (l : List β) (r : Nat) (x : β), r < l.length →
      ((l.set r x).map f).sum + f (l.getD r d) = (l.map f).sum + f x := by
  intro l
  induction l with
  | nil => intro r x h; simp at h
  | cons b l ih =>
      intro r x h
      cases r with
      | zero => simp [List.set]; ring
      | succ r =>
          rw [List.set_cons_succ, List.map_cons, List.map_cons, List.sum_cons,
            List.sum_cons]
          have hr : r < l.length := by simpa using h
          have := ih r x hr
          have hgd : (b :: l).getD (r + 1) d = l.getD r d := by
            simp [List.getD]
          rw [hgd]
          omega

/-- Setting an entry of the right list of a zip. -/
theorem zip_set_right {β γ : Type} (d : β) :
    ∀ (l1 : List β) (l2 : List γ) (r : Nat) (x : γ),
      r < l1.length → r < l2.length →
      l1.zip (l2.set r x) = (l1.zip l2).set r (l1.getD r d, x) := by
  intro l1
  induction l1 with
  | nil => intro l2 r x h _; simp at h
  | cons b l1 ih =>
      intro l2 r x h1 h2
      cases l2 with
      | nil => simp at h2
      | cons c l2 =>
          cases r with
          | zero =>
              rw [List.set_cons_zero, List.zip_cons_cons, List.zip_cons_cons,
                List.set_cons_zero]
              simp [List.getD]
          | succ r =>
              rw [List.set_cons_succ, List.zip_cons_cons, List.zip_cons_cons,
                List.set_cons_succ]
              congr 1
              exact ih l2 r x (by simpa using h1) (by simpa using h2)

theorem zip_getD {β γ : Type} (d1 : β) (d2 : γ) :
    ∀ (l1 : List β) (l2 : List γ) (r : Nat),
      r < l1.length → r < l2.length →
      (l1.zip l2).getD r (d1, d2) = (l1.getD r d1, l2.getD r d2) := by
  intro l1
  induction l1 with
  | nil => intro l2 r h _; simp at h
  | cons b l1 ih =>
      intro l2 r h1 h2
      cases l2 with
      | nil => simp at h2
      | cons c l2 =>
          cases r with
          | zero => simp [List.getD]
          | succ r =>
              rw [List.zip_cons_cons]
              have hgd : ∀ {δ : Type} (z : δ) (zs : List δ) (dd : δ),
                  (z :: zs).getD (r + 1) dd = zs.getD r dd := by
                intro δ z zs dd
                simp [List.getD]
              rw [hgd, hgd, hgd]
              exact ih l2 r (by simpa using h1) (by simpa using h2)

theorem zip_mem_index {β γ : Type} (d1 : β) (d2 : γ) :
    ∀ {l1 : List β} {l2 : List γ} {p : β × γ}, p ∈ l1.zip l2 →
      ∃ i, i < l1.length ∧ i < l2.length ∧ l1.getD i d1 = p.1 ∧ l2.getD i d2 = p.2 := by
  intro l1
  induction l1 with
  | nil => intro l2 p h; simp at h
  | cons b l1 ih =>
      intro l2 p h
      cases l2 with
      | nil => simp at h
      | cons c l2 =>
          rw [List.zip_cons_cons] at h
          rcases List.mem_cons.mp h with h | h
          · exact ⟨0, Nat.succ_pos _, Nat.succ_pos _, by simp [h, List.getD],
              by simp [h, List.getD]⟩
          · rcases ih h with ⟨i, hi1, hi2, hv1, hv2⟩
            exact ⟨i + 1, Nat.succ_lt_succ hi1, Nat.succ_lt_succ hi2,
              by simpa [List.getD] using hv1, by simpa [List.getD] using hv2⟩

theorem occSum_congr_rels {sig : Sig} {m m2 : Model} (h : m.rels = m2.rels)
    (s e : Nat) : occSum sig m s e = occSum sig m2 s e := by
  unfold occSum
  rw [h]

theorem classSum_congr_rels {sig : Sig} {par : Nat → List Nat}
    {rels rels2 : List RelSt} (h : rels = rels2) (s e : Nat) :
    classSum sig par rels s e = classSum sig par rels2 s e := by
  rw [h]

theorem relOccSum_congr_master {ri : RelInfo} {rs rs2 : RelSt}
    (h : rs.master = rs2.master) (s e : Nat) :
    relOccSum ri rs s e = relOccSum ri rs2 s e := by
  unfold relOccSum
  rw [h]

theorem classRelSum_congr_master {par : Nat → List Nat} {ri : RelInfo}
    {rs rs2 : RelSt} (h : rs.master = rs2.master) (s e : Nat) :
    classRelSum par ri rs s e = classRelSum par ri rs2 s e := by
  unfold classRelSum
  rw [h]

/-- Replacing one relation state: additive effect on `occSum`. -/
theorem occSum_setRelAt (sig : Sig) (m : Model) (r : Nat) (rs' : RelSt)
    (h1 : r < sig.rels.length) (h2 : r < m.rels.length) (s e : Nat) :
    occSum sig (m.setRelAt r rs') s e
        + relOccSum (sig.rels.getD r default) (m.relAt r) s e
      = occSum sig m s e + relOccSum (sig.rels.getD r default) rs' s e := by
  unfold occSum Model.setRelAt Model.relAt
  dsimp only
  rw [zip_set_right default sig.rels m.rels r rs' h1 h2]
  have := map_sum_set (fun p : RelInfo × RelSt => relOccSum p.1 p.2 s e)
    (default, default) (sig.rels.zip m.rels) r (sig.rels.getD r default, rs')
    (by rw [List.length_zip]; omega)
  rw [zip_getD default default sig.rels m.rels r h1 h2] at this
  exact this

/-- Replacing one relation state: additive effect on `classSum`. -/
theorem classSum_setRels (sig : Sig) (par : Nat → List Nat) (rels : List RelSt)
    (r : Nat) (rs' : RelSt) (h1 : r < sig.rels.length) (h2 : r < rels.length)
    (s e : Nat) :
    classSum sig par (rels.set r rs') s e
        + classRelSum par (sig.rels.getD r default) (rels.getD r default) s e
      = classSum sig par rels s e
        + classRelSum par (sig.rels.getD r default) rs' s e := by
  unfold classSum
  rw [zip_set_right default sig.rels rels r rs' h1 h2]
  have := map_sum_set (fun p : RelInfo × RelSt => classRelSum par p.1 p.2 s e)
    (default, default) (sig.rels.zip rels) r (sig.rels.getD r default, rs')
    (by rw [List.length_zip]; omega)
  rw [zip_getD default default sig.rels rels r h1 h2] at this
  exact this

theorem occCount_eq_zero_of_oob {sc : Nat} {par : Nat → List Nat}
    {ar t : List Nat} {s e : Nat} (hwf : WFtuple sc par ar t)
    (h : sc ≤ s ∨ (par s).length ≤ e) : occCount ar s e t = 0 := by
  unfold occCount pairCount
  rw [List.length_eq_zero, List.filter_eq_nil_iff]
  intro p hp hmatch
  simp only [Bool.and_eq_true, beq_iff_eq] at hmatch
  rcases hwf.2 p hp with ⟨hs, he⟩
  rw [hmatch.1] at hs
  rw [hmatch.1, hmatch.2] at he
  rcases h with h | h
  · omega
  · omega

theorem take_set_self {β : Type} (l : List β) (i : Nat) (a : β) :
    (l.set i a).take i = l.take i := by
  apply List.ext_getElem
  · simp
  · intro n h1 h2
    rw [List.length_take] at h1
    have hn : n < i := lt_of_lt_of_le h1 (min_le_left _ _)
    simp only [List.getElem_take]
    rw [List.getElem_set_ne (by omega)]

theorem take_swapRemove (ts : List (List Nat)) (i : Nat) (h : i < ts.length) :
    (swapRemove ts i).take i = ts.take i := by
  unfold swapRemove
  rw [List.dropLast_eq_take, List.take_take, List.length_set]
  have : min i (ts.length - 1) = i := by omega
  rw [this, take_set_self]

theorem take_succ_getD (ts : List (List Nat)) (i : Nat) (h : i < ts.length) :
    ts.take (i + 1) = ts.take i ++ [ts.getD i []] := by
  rw [List.take_succ]
  simp [List.getElem?_eq_getElem h, List.getD_eq_getElem?_getD]

/-- Splitting a mapped sum along a Boolean filter. -/
theorem map_sum_filter_split (f : List Nat → Nat) (P : List Nat → Bool) :
    ∀ mst : List (List Nat),
      ((mst.filter P).map f).sum + ((mst.filter (fun t => !P t)).map f).sum
        = (mst.map f).sum := by
  intro mst
  induction mst with
  | nil => simp
  | cons t mst ih =>
      rw [List.filter_cons, List.filter_cons]
      cases hP : P t with
      | true => simp only [hP, if_pos, Bool.not_true]; simp [← ih]; ring
      | false => simp only [hP, Bool.not_false]; simp [← ih]; ring

/-- The members of a duplicate-free list picked out of a duplicate-free list
carry the same mapped sum. -/
theorem map_sum_filter_mem (f : List Nat → Nat) (mst removed : List (List Nat))
    (h1 : mst.Nodup) (h2 : removed.Nodup) (hsub : ∀ t ∈ removed, t ∈ mst) :
    ((mst.filter (fun t => decide (t ∈ removed))).map f).sum
      = (removed.map f).sum := by
  have hperm : List.Perm (mst.filter (fun t => decide (t ∈ removed))) removed := by
    refine (List.perm_ext_iff_of_nodup (h1.filter _) h2).mpr ?_
    intro a
    constructor
    · intro ha
      have := List.mem_filter.mp ha
      simpa using this.2
    · intro ha
      exact List.mem_filter.mpr ⟨hsub a ha, by simpa using ha⟩
  exact (hperm.map f).sum_eq

/-- What the drain loop of `write_table_drain_with_element` does to the master
index: some duplicate-free sublist of master tuples is removed from the master
index and handed back, and the element indices are untouched. -/
theorem drainLoop_spec (rs : RelSt) (ts : List (List Nat)) (i : Nat) :
    rs.master.Sorted (· < ·) →
    ∃ removed : List (List Nat),
      (drainLoop rs ts i).2 = ts.take i ++ removed ∧
      removed.Nodup ∧
      (∀ t ∈ removed, t ∈ rs.master) ∧
      (drainLoop rs ts i).1.master
        = rs.master.filter (fun t => decide (t ∉ removed)) ∧
      (drainLoop rs ts i).1.elemIdx = rs.elemIdx := by
  induction rs, ts, i using drainLoop.induct with
  | case1 rs ts i h t rem hrem ih =>
      intro hs
      rw [drainLoop, dif_pos h]
      dsimp only
      rw [if_pos (show (setRemove (ts.getD i []) rs.master).2 = true from hrem)]
      have hmst := @setRemove_sorted_eq_filter _ _ (ts.getD i []) _ hs
      have hs' : ((setRemove (ts.getD i []) rs.master).1).Sorted (· < ·) :=
        setRemove_sorted hs
      rcases ih (by exact hs') with ⟨removed, h2, hnd, hsub, hmaster, hidx⟩
      refine ⟨ts.getD i [] :: removed, ?_, ?_, ?_, ?_, ?_⟩
      · rw [h2, take_succ_getD ts i h]
        simp
      · refine List.nodup_cons.mpr ⟨?_, hnd⟩
        intro hmem
        have hy : ts.getD i [] ∈ (setRemove (ts.getD i []) rs.master).1 :=
          hsub _ hmem
        rw [hmst] at hy
        have := (List.mem_filter.mp hy).2
        simp at this
      · intro y hy
        rcases List.mem_cons.mp hy with hy | hy
        · subst hy
          exact setRemove_true_mem hrem
        · have hy2 : y ∈ (setRemove (ts.getD i []) rs.master).1 := hsub y hy
          rw [hmst] at hy2
          exact (List.mem_filter.mp hy2).1
      · rw [hmaster]
        have hgoal : List.filter (fun y => decide (y ∉ removed))
              ((setRemove (ts.getD i []) rs.master).1)
            = List.filter (fun y => decide (y ∉ ts.getD i [] :: removed))
              rs.master := by
          rw [hmst, List.filter_filter]
          congr 1
          funext y
          by_cases h1 : y = ts.getD i [] <;> by_cases h2 : y ∈ removed <;>
            simp [h1, h2]
        exact hgoal
      · exact hidx
  | case2 rs ts i h t rem hrem ih =>
      intro hs
      rw [drainLoop, dif_pos h]
      dsimp only
      rw [if_neg (show ¬(setRemove (ts.getD i []) rs.master).2 = true from hrem)]
      rcases ih hs with ⟨removed, h2, hnd, hsub, hmaster, hidx⟩
      refine ⟨removed, ?_, hnd, hsub, hmaster, hidx⟩
      rw [h2, take_swapRemove ts i h]
  | case3 rs ts i h =>
      intro hs
      rw [drainLoop, dif_neg h]
      refine ⟨[], ?_, List.nodup_nil, ?_, ?_, rfl⟩
      · rw [List.take_of_length_le (Nat.le_of_not_lt h)]
        simp
      · intro y hy
        cases hy
      · simp

/-- What `drain_with_element` does to the master index. -/
theorem drainWithElement_spec (rs : RelSt) (s el : Nat)
    (hs : rs.master.Sorted (· < ·)) :
    ∃ removed : List (List Nat),
      (drainWithElement rs s el).2 = removed ∧
      removed.Nodup ∧
      (∀ t ∈ removed, t ∈ rs.master) ∧
      (drainWithElement rs s el).1.master
        = rs.master.filter (fun t => decide (t ∉ removed)) := by
  unfold drainWithElement
  dsimp only
  rcases drainLoop_spec
      { rs with elemIdx := rs.elemIdx.set s (elemIdxRemove el (rs.elemIdx.getD s [])).1 }
      (elemIdxRemove el (rs.elemIdx.getD s [])).2 0 (by exact hs) with
    ⟨removed, h2, hnd, hsub, hmaster, _⟩
  exact ⟨removed, by simpa using h2, hnd, hsub, by simpa using hmaster⟩

theorem sorts_length_setSortAt (m : Model) (s : Nat) (st : SortSt) :
    (m.setSortAt s st).sorts.length = m.sorts.length := List.length_set _ _ _

/-- A single weight charge only changes one weight value: every other sort
field survives. -/
theorem sortFields_chargeWeight (m : Model) (s el w s' : Nat) :
    ((chargeWeight m s el w).sortAt s').parents = (m.sortAt s').parents ∧
    ((chargeWeight m s el w).sortAt s').all = (m.sortAt s').all ∧
    ((chargeWeight m s el w).sortAt s').dirty = (m.sortAt s').dirty ∧
    ((chargeWeight m s el w).sortAt s').uprooted = (m.sortAt s').uprooted ∧
    ((chargeWeight m s el w).sortAt s').weights.length
      = (m.sortAt s').weights.length ∧
    (chargeWeight m s el w).sorts.length = m.sorts.length := by
  unfold chargeWeight
  dsimp only
  by_cases hs : s < m.sorts.length
  · by_cases hss : s' = s
    · subst hss
      rw [sortAt_setSortAt_self hs]
      exact ⟨rfl, rfl, rfl, rfl, List.length_set _ _ _, sorts_length_setSortAt m _ _⟩
    · rw [sortAt_setSortAt_ne hss]
      exact ⟨rfl, rfl, rfl, rfl, rfl, sorts_length_setSortAt m _ _⟩
  · rw [setSortAt_oob (Nat.le_of_not_lt hs)]
    exact ⟨rfl, rfl, rfl, rfl, rfl, rfl⟩

theorem sortFields_dischargeWeight (m : Model) (s el w s' : Nat) :
    ((dischargeWeight m s el w).sortAt s').parents = (m.sortAt s').parents ∧
    ((dischargeWeight m s el w).sortAt s').all = (m.sortAt s').all ∧
    ((dischargeWeight m s el w).sortAt s').dirty = (m.sortAt s').dirty ∧
    ((dischargeWeight m s el w).sortAt s').uprooted = (m.sortAt s').uprooted ∧
    ((dischargeWeight m s el w).sortAt s').weights.length
      = (m.sortAt s').weights.length ∧
    (dischargeWeight m s el w).sorts.length = m.sorts.length := by
  unfold dischargeWeight
  dsimp only
  by_cases hs : s < m.sorts.length
  · by_cases hss : s' = s
    · subst hss
      rw [sortAt_setSortAt_self hs]
      exact ⟨rfl, rfl, rfl, rfl, List.length_set _ _ _, sorts_length_setSortAt m _ _⟩
    · rw [sortAt_setSortAt_ne hss]
      exact ⟨rfl, rfl, rfl, rfl, rfl, sorts_length_setSortAt m _ _⟩
  · rw [setSortAt_oob (Nat.le_of_not_lt hs)]
    exact ⟨rfl, rfl, rfl, rfl, rfl, rfl⟩

theorem rels_dischargeWeight (m : Model) (s el w : Nat) :
    (dischargeWeight m s el w).rels = m.rels := rfl

/-- Charge folds over a pair list: every non-weight sort field survives. -/
theorem sortFields_chargeFold (w : Nat) :
    ∀ (L : List (Nat × Nat)) (m : Model) (s' : Nat),
      (((L.foldl (fun acc st => chargeWeight acc st.1 st.2 w) m)).sortAt s').parents
          = (m.sortAt s').parents ∧
      ((L.foldl (fun acc st => chargeWeight acc st.1 st.2 w) m).sortAt s').all
          = (m.sortAt s').all ∧
      ((L.foldl (fun acc st => chargeWeight acc st.1 st.2 w) m).sortAt s').dirty
          = (m.sortAt s').dirty ∧
      ((L.foldl (fun acc st => chargeWeight acc st.1 st.2 w) m).sortAt s').uprooted
          = (m.sortAt s').uprooted ∧
      ((L.foldl (fun acc st => chargeWeight acc st.1 st.2 w) m).sortAt s').weights.length
          = (m.sortAt s').weights.length ∧
      (L.foldl (fun acc st => chargeWeight acc st.1 st.2 w) m).sorts.length
          = m.sorts.length ∧
      (L.foldl (fun acc st => chargeWeight acc st.1 st.2 w) m).rels = m.rels := by
  intro L
  induction L with
  | nil => intro m s'; exact ⟨rfl, rfl, rfl, rfl, rfl, rfl, rfl⟩
  | cons p L ih =>
      intro m s'
      rw [List.foldl_cons]
      rcases ih (chargeWeight m p.1 p.2 w) s' with ⟨h1, h2, h3, h4, h5, h6, h7⟩
      rcases sortFields_chargeWeight m p.1 p.2 w s' with ⟨g1, g2, g3, g4, g5, g6⟩
      exact ⟨h1.trans g1, h2.trans g2, h3.trans g3, h4.trans g4, h5.trans g5,
        h6.trans g6, h7⟩

theorem sortFields_dischargeFold (w : Nat) :
    ∀ (L : List (Nat × Nat)) (m : Model) (s' : Nat),
      (((L.foldl (fun acc st => dischargeWeight acc st.1 st.2 w) m)).sortAt s').parents
          = (m.sortAt s').parents ∧
      ((L.foldl (fun acc st => dischargeWeight acc st.1 st.2 w) m).sortAt s').all
          = (m.sortAt s').all ∧
      ((L.foldl (fun acc st => dischargeWeight acc st.1 st.2 w) m).sortAt s').dirty
          = (m.sortAt s').dirty ∧
      ((L.foldl (fun acc st => dischargeWeight acc st.1 st.2 w) m).sortAt s').uprooted
          = (m.sortAt s').uprooted ∧
      ((L.foldl (fun acc st => dischargeWeight acc st.1 st.2 w) m).sortAt s').weights.length
          = (m.sortAt s').weights.length ∧
      (L.foldl (fun acc st => dischargeWeight acc st.1 st.2 w) m).sorts.length
          = m.sorts.length ∧
      (L.foldl (fun acc st => dischargeWeight acc st.1 st.2 w) m).rels = m.rels := by
  intro L
  induction L with
  | nil => intro m s'; exact ⟨rfl, rfl, rfl, rfl, rfl, rfl, rfl⟩
  | cons p L ih =>
      intro m s'
      rw [List.foldl_cons]
      rcases ih (dischargeWeight m p.1 p.2 w) s' with ⟨h1, h2, h3, h4, h5, h6, h7⟩
      rcases sortFields_dischargeWeight m p.1 p.2 w s' with ⟨g1, g2, g3, g4, g5, g6⟩
      exact ⟨h1.trans g1, h2.trans g2, h3.trans g3, h4.trans g4, h5.trans g5,
        h6.trans g6, h7⟩

theorem par_dischargeTuple (m : Model) (ri : RelInfo) (t : List Nat) :
    (dischargeTuple m ri t).par = m.par := by
  funext s'
  exact (sortFields_dischargeFold ri.weight (ri.arity.zip t) m s').1

theorem par_chargeTuple (m : Model) (ri : RelInfo) (t : List Nat) :
    (chargeTuple m ri t).par = m.par := by
  funext s'
  exact (sortFields_chargeFold ri.weight (ri.arity.zip t) m s').1

theorem par_setRelAt (m : Model) (r : Nat) (rs : RelSt) :
    (m.setRelAt r rs).par = m.par := by
  funext s'
  show ((m.setRelAt r rs).sortAt s').parents = _
  rw [sortAt_setRelAt]
  rfl

theorem relAt_setRelAt_ne {m : Model} {rs : RelSt} {r r' : Nat} (h : r' ≠ r) :
    (m.setRelAt r rs).relAt r' = m.relAt r' := by
  unfold Model.setRelAt Model.relAt
  simp only [List.getD_eq_getElem?_getD]
  rw [List.getElem?_set_ne (Ne.symm h)]

/-- Pending raw occurrences of a drained tuple list. -/
def pendOcc (ar : List Nat) (ts : List (List Nat)) (s e : Nat) : Nat :=
  (ts.map (occCount ar s e)).sum

/-- Pending root-class occurrences of a drained tuple list. -/
def pendClass (par : Nat → List Nat) (ar : List Nat) (ts : List (List Nat))
    (s e : Nat) : Nat :=
  (ts.map (classOcc par ar s e)).sum

theorem pendOcc_nil (ar : List Nat) (s e : Nat) : pendOcc ar [] s e = 0 := rfl

theorem pendOcc_cons (ar : List Nat) (t : List Nat) (ts : List (List Nat))
    (s e : Nat) : pendOcc ar (t :: ts) s e = occCount ar s e t + pendOcc ar ts s e := by
  unfold pendOcc
  simp

theorem pendClass_cons (par : Nat → List Nat) (ar t : List Nat)
    (ts : List (List Nat)) (s e : Nat) :
    pendClass par ar (t :: ts) s e
      = classOcc par ar s e t + pendClass par ar ts s e := by
  unfold pendClass
  simp

/-- At a root, raw occurrence sums are below root-class occurrence sums. -/
theorem occSum_le_classSum (sig : Sig) (m : Model) {s e : Nat}
    (he : rootVia m.par s e = e) :
    occSum sig m s e ≤ classSum sig m.par m.rels s e := by
  unfold occSum classSum
  refine List.sum_le_sum ?_
  intro p _
  unfold relOccSum classRelSum
  refine Nat.mul_le_mul_left _ ?_
  refine List.sum_le_sum ?_
  intro t _
  exact occCount_le_classOcc he

/-- At a root, pending raw occurrences are below pending class occurrences. -/
theorem pendOcc_le_pendClass {par : Nat → List Nat} {ar : List Nat}
    {ts : List (List Nat)} {s e : Nat} (he : rootVia par s e = e) :
    pendOcc ar ts s e ≤ pendClass par ar ts s e := by
  unfold pendOcc pendClass
  refine List.sum_le_sum ?_
  intro t _
  exact occCount_le_classOcc he

/-- The occurrence sum vanishes outside the live ranges. -/
theorem occSum_eq_zero_of_oob (sig : Sig) (m : Model) {s e : Nat}
    (hwf : ∀ r, r < sig.rels.length →
      ∀ t ∈ (m.relAt r).master,
        WFtuple sig.sortsCount m.par (sig.rels.getD r default).arity t)
    (h : sig.sortsCount ≤ s ∨ (m.par s).length ≤ e) : occSum sig m s e = 0 := by
  unfold occSum
  rw [List.sum_eq_zero]
  intro x hx
  rcases List.mem_map.mp hx with ⟨p, hp, hpx⟩
  rcases zip_mem_index default default hp with ⟨i, hi1, hi2, hv1, hv2⟩
  subst hpx
  unfold relOccSum
  have hmz : (p.2.master.map (occCount p.1.arity s e)).sum = 0 := by
    rw [List.sum_eq_zero]
    intro y hy
    rcases List.mem_map.mp hy with ⟨t, ht, hty⟩
    subst hty
    have hrel : (m.relAt i).master = p.2.master := by
      unfold Model.relAt
      rw [hv2]
    have := hwf i hi1 t (by rw [hrel]; exact ht)
    rw [hv1] at this
    exact occCount_eq_zero_of_oob this h
  rw [hmz, Nat.mul_zero]

theorem tableInsert_snd (ri : RelInfo) (t : List Nat) (rs : RelSt) :
    (tableInsert ri t rs).2 = (setInsert t rs.master).2 := by
  unfold tableInsert
  dsimp only
  by_cases h : (setInsert t rs.master).2 = true
  · rw [if_pos h, h]
  · rw [if_neg h]
    simp only [Bool.not_eq_true] at h
    rw [h]

theorem rels_dischargeTuple (m : Model) (ri : RelInfo) (t : List Nat) :
    (dischargeTuple m ri t).rels = m.rels :=
  (sortFields_dischargeFold ri.weight (ri.arity.zip t) m 0).2.2.2.2.2.2

theorem sorts_length_chargeTuple (m : Model) (ri : RelInfo) (t : List Nat) :
    (chargeTuple m ri t).sorts.length = m.sorts.length :=
  (sortFields_chargeFold ri.weight (ri.arity.zip t) m 0).2.2.2.2.2.1

theorem uprooted_chargeTuple (m : Model) (ri : RelInfo) (t : List Nat) (s' : Nat) :
    ((chargeTuple m ri t).sortAt s').uprooted = (m.sortAt s').uprooted :=
  (sortFields_chargeFold ri.weight (ri.arity.zip t) m s').2.2.2.1

theorem weightsLength_chargeTuple (m : Model) (ri : RelInfo) (t : List Nat) (s' : Nat) :
    ((chargeTuple m ri t).sortAt s').weights.length = (m.sortAt s').weights.length :=
  (sortFields_chargeFold ri.weight (ri.arity.zip t) m s').2.2.2.2.1

theorem getD_mem_of_lt {β : Type} (l : List β) (r : Nat) (d : β) (h : r < l.length) :
    l.getD r d ∈ l := by
  rw [List.getD_eq_getElem?_getD, List.getElem?_eq_getElem h]
  exact List.getElem_mem h

set_option maxHeartbeats 2000000 in
/-- One `canonTuple` step: discharging a pending stale tuple, reinserting its
root-rewrite, and recharging keeps the batch invariant. -/
theorem canonTuple_step (sig : Sig) (r : Nat) (hr : r < sig.rels.length)
    (m : Model) (t : List Nat) (ts' : List (List Nat))
    (hlen2 : m.rels.length = sig.rels.length)
    (hpar : ∀ s, s < sig.sortsCount → WFparents (m.sortAt s))
    (hrelr : (m.relAt r).master.Sorted (· < ·) ∧
      ∀ u ∈ (m.relAt r).master,
        WFtuple sig.sortsCount m.par (sig.rels.getD r default).arity u)
    (hw5 : ∀ s e, weightOf m s e ≤ USIZE_MAX)
    (hT : WFtuple sig.sortsCount m.par (sig.rels.getD r default).arity t)
    (hINV : ∀ s e, weightOf m s e = occSum sig m s e
      + (sig.rels.getD r default).weight *
        (occCount (sig.rels.getD r default).arity s e t
          + pendOcc (sig.rels.getD r default).arity ts' s e))
    (hB : ∀ s e, classSum sig m.par m.rels s e
      + (sig.rels.getD r default).weight *
        (classOcc m.par (sig.rels.getD r default).arity s e t
          + pendClass m.par (sig.rels.getD r default).arity ts' s e)
      ≤ USIZE_MAX) :
    (canonTuple sig r m t).par = m.par ∧
    (canonTuple sig r m t).sorts.length = m.sorts.length ∧
    (canonTuple sig r m t).rels.length = m.rels.length ∧
    (∀ s', ((canonTuple sig r m t).sortAt s').uprooted = (m.sortAt s').uprooted ∧
      ((canonTuple sig r m t).sortAt s').weights.length
        = (m.sortAt s').weights.length) ∧
    (∀ r', r' ≠ r → (canonTuple sig r m t).relAt r' = m.relAt r') ∧
    ((canonTuple sig r m t).relAt r).master.Sorted (· < ·) ∧
    (∀ u ∈ ((canonTuple sig r m t).relAt r).master,
      WFtuple sig.sortsCount m.par (sig.rels.getD r default).arity u) ∧
    (∀ s e, weightOf (canonTuple sig r m t) s e ≤ USIZE_MAX) ∧
    (∀ s e, weightOf (canonTuple sig r m t) s e
      = occSum sig (canonTuple sig r m t) s e
        + (sig.rels.getD r default).weight *
          pendOcc (sig.rels.getD r default).arity ts' s e) ∧
    (∀ s e, classSum sig m.par (canonTuple sig r m t).rels s e
      + (sig.rels.getD r default).weight *
        pendClass m.par (sig.rels.getD r default).arity ts' s e ≤ USIZE_MAX) ∧
    (∀ s e, classSum sig m.par (canonTuple sig r m t).rels s e
      ≤ classSum sig m.par m.rels s e
        + (sig.rels.getD r default).weight *
          classOcc m.par (sig.rels.getD r default).arity s e t) := by
  have hrm : r < m.rels.length := by omega
  -- the discharged model
  have hd_par : (dischargeTuple m (sig.rels.getD r default) t).par = m.par :=
    par_dischargeTuple m _ t
  have hd_rels : (dischargeTuple m (sig.rels.getD r default) t).rels = m.rels :=
    rels_dischargeTuple m _ t
  have hd_inrange : ∀ p ∈ (sig.rels.getD r default).arity.zip t,
      p.2 < (m.sortAt p.1).weights.length := by
    intro p hp
    rcases hT.2 p hp with ⟨h1, h2⟩
    rw [(hpar p.1 h1).1]
    exact h2
  have hd_le : ∀ s e,
      (sig.rels.getD r default).weight
        * pairCount ((sig.rels.getD r default).arity.zip t) s e ≤ weightOf m s e := by
    intro s e
    have := hINV s e
    rw [Nat.mul_add] at this
    have hpc : pairCount ((sig.rels.getD r default).arity.zip t) s e
        = occCount (sig.rels.getD r default).arity s e t := rfl
    rw [hpc]
    omega
  have hd_w : ∀ s e, weightOf (dischargeTuple m (sig.rels.getD r default) t) s e
      = occSum sig m s e
        + (sig.rels.getD r default).weight *
          pendOcc (sig.rels.getD r default).arity ts' s e := by
    intro s e
    have heq := dischargeFold_weightOf (sig.rels.getD r default).weight
      ((sig.rels.getD r default).arity.zip t) m hd_inrange hd_le s e
    have hiv := hINV s e
    rw [Nat.mul_add] at hiv
    have hpc : pairCount ((sig.rels.getD r default).arity.zip t) s e
        = occCount (sig.rels.getD r default).arity s e t := rfl
    rw [hpc] at heq
    unfold dischargeTuple
    rw [heq]
    omega
  have hd_w5 : ∀ s e, weightOf (dischargeTuple m (sig.rels.getD r default) t) s e
      ≤ weightOf m s e := by
    intro s e
    have heq := dischargeFold_weightOf (sig.rels.getD r default).weight
      ((sig.rels.getD r default).arity.zip t) m hd_inrange hd_le s e
    unfold dischargeTuple
    rw [heq]
    omega
  have hd_occ : ∀ s e, occSum sig (dischargeTuple m (sig.rels.getD r default) t) s e
      = occSum sig m s e := fun s e => occSum_congr_rels hd_rels s e
  -- the rewritten tuple
  have ht'eq : ((sig.rels.getD r default).arity.zip t).map
        (fun st => rootTotal (dischargeTuple m (sig.rels.getD r default) t) st.1 st.2)
      = ((sig.rels.getD r default).arity.zip t).map
        (fun p => rootVia m.par p.1 p.2) := by
    refine List.map_congr_left ?_
    intro p _
    rw [rootTotal_eq_rootVia, hd_par]
  have hzip : (sig.rels.getD r default).arity.zip
        (((sig.rels.getD r default).arity.zip t).map
          (fun p => rootVia m.par p.1 p.2))
      = rootPairs m.par (sig.rels.getD r default).arity t := by
    rw [zip_map_zip]
    rfl
  have hparwf : ∀ p ∈ (sig.rels.getD r default).arity.zip t,
      ∀ i, i < (m.par p.1).length →
        (m.par p.1).getD i 0 < (m.par p.1).length ∧
        (m.par p.1).getD ((m.par p.1).getD i 0) 0 = (m.par p.1).getD i 0 := by
    intro p hp
    exact (hpar p.1 (hT.2 p hp).1).2
  have hcls_t' : classOcc m.par (sig.rels.getD r default).arity
        = fun s e u => classOcc m.par (sig.rels.getD r default).arity s e u := rfl
  have hrootpairs : rootPairs m.par (sig.rels.getD r default).arity
        (((sig.rels.getD r default).arity.zip t).map
          (fun p => rootVia m.par p.1 p.2))
      = rootPairs m.par (sig.rels.getD r default).arity t :=
    rootPairs_rewrite hparwf
  -- unfold the step
  unfold canonTuple
  dsimp only
  rw [ht'eq]
  rw [tableInsert_snd]
  by_cases hins : (setInsert (((sig.rels.getD r default).arity.zip t).map
      (fun p => rootVia m.par p.1 p.2))
      ((dischargeTuple m (sig.rels.getD r default) t).relAt r).master).2 = true
  case neg =>
    -- the rewritten tuple was already present: no reinsertion, no recharge
    rw [if_neg hins]
    have hfalse : (setInsert (((sig.rels.getD r default).arity.zip t).map
        (fun p => rootVia m.par p.1 p.2))
        ((dischargeTuple m (sig.rels.getD r default) t).relAt r).master).2 = false := by
      simpa using hins
    have hins1 : (tableInsert (sig.rels.getD r default)
        (((sig.rels.getD r default).arity.zip t).map
          (fun p => rootVia m.par p.1 p.2))
        ((dischargeTuple m (sig.rels.getD r default) t).relAt r)).1
        = (dischargeTuple m (sig.rels.getD r default) t).relAt r := by
      apply tableInsert_false
      rw [tableInsert_snd]
      exact hfalse
    rw [hins1, setRelAt_relAt_self]
    have hrelsame : (dischargeTuple m (sig.rels.getD r default) t).relAt r
        = m.relAt r := by
      unfold Model.relAt
      rw [hd_rels]
    refine ⟨hd_par, (sortFields_dischargeFold _ _ m 0).2.2.2.2.2.1, by rw [hd_rels],
      ?_, ?_, ?_, ?_, ?_, ?_, ?_, ?_⟩
    · intro s'
      exact ⟨(sortFields_dischargeFold _ _ m s').2.2.2.1,
        (sortFields_dischargeFold _ _ m s').2.2.2.2.1⟩
    · intro r' _
      unfold Model.relAt
      rw [hd_rels]
    · rw [hrelsame]; exact hrelr.1
    · rw [hrelsame]; exact hrelr.2
    · intro s e
      exact le_trans (hd_w5 s e) (hw5 s e)
    · intro s e
      rw [hd_w s e, hd_occ s e]
    · intro s e
      have := hB s e
      rw [Nat.mul_add] at this
      rw [classSum_congr_rels hd_rels]
      omega
    · intro s e
      rw [classSum_congr_rels hd_rels]
      omega
  case pos =>
    rw [if_pos hins]
    set t2 := ((sig.rels.getD r default).arity.zip t).map
      (fun p => rootVia m.par p.1 p.2) with ht2
    set md := dischargeTuple m (sig.rels.getD r default) t with hmd
    have hrm1 : r < md.rels.length := by
      rw [hd_rels]
      exact hrm
    set ins1 := (tableInsert (sig.rels.getD r default) t2 (md.relAt r)).1 with hins1
    set m2 := md.setRelAt r ins1 with hm2def
    have hclsocc0 : ∀ s e, rootVia m.par s e ≠ e →
        classOcc m.par (sig.rels.getD r default).arity s e t = 0 := by
      intro s e hnr
      unfold classOcc pairCount
      rw [List.length_eq_zero, List.filter_eq_nil_iff]
      intro p hp hmatch
      simp only [Bool.and_eq_true, beq_iff_eq] at hmatch
      rcases List.mem_map.mp hp with ⟨q, hq, hqp⟩
      apply hnr
      have hq2 : rootVia m.par q.1 q.2 = e := by
        rw [← hmatch.2, ← hqp]
      have hq1 : q.1 = s := by
        rw [← hmatch.1, ← hqp]
      rw [← hq2, ← hq1]
      exact rootVia_idem (hparwf q hq) q.2
    have hmaster : ins1.master = (setInsert t2 (md.relAt r).master).1 := by
      rw [hins1]
      exact tableInsert_master _ _ _
    have hrelsame : md.relAt r = m.relAt r := by
      unfold Model.relAt
      rw [hd_rels]
    have hocc_t2 : ∀ s e, occCount (sig.rels.getD r default).arity s e t2
        = classOcc m.par (sig.rels.getD r default).arity s e t := by
      intro s e
      unfold occCount
      rw [hzip]
      rfl
    have hcls_t2 : ∀ s e, classOcc m.par (sig.rels.getD r default).arity s e t2
        = classOcc m.par (sig.rels.getD r default).arity s e t := by
      intro s e
      unfold classOcc
      rw [hrootpairs]
    have hocc2 : ∀ s e, occSum sig m2 s e
        = occSum sig m s e
          + (sig.rels.getD r default).weight *
            classOcc m.par (sig.rels.getD r default).arity s e t := by
      intro s e
      have h1 := occSum_setRelAt sig md r ins1 hr hrm1 s e
      rw [← hm2def] at h1
      have h2 : relOccSum (sig.rels.getD r default) ins1 s e
          = relOccSum (sig.rels.getD r default) (md.relAt r) s e
            + (sig.rels.getD r default).weight *
              classOcc m.par (sig.rels.getD r default).arity s e t := by
        unfold relOccSum
        rw [hmaster, masterSum_insert _ hins, Nat.mul_add, hocc_t2 s e]
      rw [h2] at h1
      have h3 := hd_occ s e
      omega
    have hcls2 : ∀ s e, classSum sig m.par m2.rels s e
        = classSum sig m.par m.rels s e
          + (sig.rels.getD r default).weight *
            classOcc m.par (sig.rels.getD r default).arity s e t := by
      intro s e
      have h1 := classSum_setRels sig m.par md.rels r ins1 hr hrm1 s e
      have h2 : classRelSum m.par (sig.rels.getD r default) ins1 s e
          = classRelSum m.par (sig.rels.getD r default) (md.relAt r) s e
            + (sig.rels.getD r default).weight *
              classOcc m.par (sig.rels.getD r default).arity s e t := by
        unfold classRelSum
        rw [hmaster, masterSum_insert _ hins, Nat.mul_add, hcls_t2 s e]
      rw [h2] at h1
      have h3 : classSum sig m.par md.rels s e = classSum sig m.par m.rels s e :=
        classSum_congr_rels hd_rels s e
      have h4 : md.rels.getD r default = md.relAt r := rfl
      rw [h4] at h1
      have h5 : m2.rels = md.rels.set r ins1 := by
        rw [hm2def]
        rfl
      rw [h5]
      omega
    have hw2eq : ∀ s e, weightOf m2 s e = weightOf md s e := by
      intro s e
      rw [hm2def]
      rfl
    have hchbound : ∀ s e, weightOf m2 s e
        + (sig.rels.getD r default).weight *
          pairCount ((sig.rels.getD r default).arity.zip t2) s e ≤ USIZE_MAX := by
      intro s e
      rw [hw2eq s e]
      have hpc : pairCount ((sig.rels.getD r default).arity.zip t2) s e
          = classOcc m.par (sig.rels.getD r default).arity s e t := by
        rw [hzip]
        rfl
      rw [hpc]
      by_cases hroot : rootVia m.par s e = e
      · have h1 := occSum_le_classSum sig m hroot
        have h2 := @pendOcc_le_pendClass m.par
          (sig.rels.getD r default).arity ts' s e hroot
        have h3 := hB s e
        rw [Nat.mul_add] at h3
        have h4 := hd_w s e
        have h5 : (sig.rels.getD r default).weight *
            pendOcc (sig.rels.getD r default).arity ts' s e
            ≤ (sig.rels.getD r default).weight *
              pendClass m.par (sig.rels.getD r default).arity ts' s e :=
          Nat.mul_le_mul_left _ h2
        omega
      · rw [hclsocc0 s e hroot, Nat.mul_zero, Nat.add_zero]
        exact le_trans (hd_w5 s e) (hw5 s e)
    have hchin : ∀ p ∈ (sig.rels.getD r default).arity.zip t2,
        p.2 < ((m2.sortAt p.1).weights.length) := by
      intro p hp
      rw [hzip] at hp
      rcases List.mem_map.mp hp with ⟨q, hq, hqp⟩
      have hq1 : p.1 = q.1 := by rw [← hqp]
      have hq2 : p.2 = rootVia m.par q.1 q.2 := by rw [← hqp]
      have hlt : rootVia m.par q.1 q.2 < (m.par q.1).length :=
        rootVia_lt (hparwf q hq) (hT.2 q hq).2
      have hwl : (m2.sortAt q.1).weights.length = (m.sortAt q.1).weights.length := by
        rw [hm2def, sortAt_setRelAt]
        exact (sortFields_dischargeFold _ _ m q.1).2.2.2.2.1
      rw [hq1, hq2, hwl, (hpar q.1 (hT.2 q hq).1).1]
      exact hlt
    have hchg := chargeFold_weightOf (sig.rels.getD r default).weight
      ((sig.rels.getD r default).arity.zip t2) m2 hchin hchbound
    have hreleq : (chargeTuple m2 (sig.rels.getD r default) t2).rels = m2.rels :=
      rels_chargeTuple m2 _ t2
    have hpcagain : ∀ s e,
        pairCount ((sig.rels.getD r default).arity.zip t2) s e
        = classOcc m.par (sig.rels.getD r default).arity s e t := by
      intro s e
      rw [hzip]
      rfl
    have hrelat : (chargeTuple m2 (sig.rels.getD r default) t2).relAt r = ins1 := by
      have h2 : (chargeTuple m2 (sig.rels.getD r default) t2).relAt r
          = m2.relAt r := by
        unfold Model.relAt
        rw [hreleq]
      rw [h2, hm2def]
      exact relAt_setRelAt_self hrm1
    refine ⟨?_, ?_, ?_, ?_, ?_, ?_, ?_, ?_, ?_, ?_, ?_⟩
    · rw [par_chargeTuple, hm2def, par_setRelAt, hd_par]
    · rw [sorts_length_chargeTuple]
      show md.sorts.length = m.sorts.length
      exact (sortFields_dischargeFold _ _ m 0).2.2.2.2.2.1
    · rw [hreleq, hm2def, rels_length_setRelAt]
      rw [hd_rels]
    · intro s'
      constructor
      · rw [uprooted_chargeTuple]
        show (md.sortAt s').uprooted = (m.sortAt s').uprooted
        exact (sortFields_dischargeFold _ _ m s').2.2.2.1
      · rw [weightsLength_chargeTuple]
        show (md.sortAt s').weights.length = (m.sortAt s').weights.length
        exact (sortFields_dischargeFold _ _ m s').2.2.2.2.1
    · intro r' hne
      have h1 : (chargeTuple m2 (sig.rels.getD r default) t2).relAt r'
          = m2.relAt r' := by
        unfold Model.relAt
        rw [hreleq]
      rw [h1, hm2def, relAt_setRelAt_ne hne]
      unfold Model.relAt
      rw [hd_rels]
    · rw [hrelat, hmaster]
      apply setInsert_sorted
      rw [hrelsame]
      exact hrelr.1
    · intro u hu
      rw [hrelat, hmaster] at hu
      rcases (mem_setInsert _ _ _).mp hu with hu | hu
      · subst hu
        constructor
        · rw [ht2, List.length_map, List.length_zip, hT.1, Nat.min_self]
        · intro p hp
          rw [hzip] at hp
          rcases List.mem_map.mp hp with ⟨q, hq, hqp⟩
          have hq1 : p.1 = q.1 := by rw [← hqp]
          have hq2 : p.2 = rootVia m.par q.1 q.2 := by rw [← hqp]
          rw [hq1, hq2]
          exact ⟨(hT.2 q hq).1, rootVia_lt (hparwf q hq) (hT.2 q hq).2⟩
      · rw [hrelsame] at hu
        exact hrelr.2 u hu
    · intro s e
      show weightOf (chargeTuple m2 (sig.rels.getD r default) t2) s e ≤ USIZE_MAX
      unfold chargeTuple
      rw [hchg s e]
      exact hchbound s e
    · intro s e
      show weightOf (chargeTuple m2 (sig.rels.getD r default) t2) s e
        = occSum sig (chargeTuple m2 (sig.rels.getD r default) t2) s e
          + (sig.rels.getD r default).weight *
            pendOcc (sig.rels.getD r default).arity ts' s e
      have hocc3 : occSum sig (chargeTuple m2 (sig.rels.getD r default) t2) s e
          = occSum sig m s e
            + (sig.rels.getD r default).weight *
              classOcc m.par (sig.rels.getD r default).arity s e t := by
        rw [occSum_congr_rels hreleq s e]
        exact hocc2 s e
      have hw3 : weightOf (chargeTuple m2 (sig.rels.getD r default) t2) s e
          = weightOf m2 s e
            + (sig.rels.getD r default).weight *
              pairCount ((sig.rels.getD r default).arity.zip t2) s e := by
        unfold chargeTuple
        rw [hchg s e]
      rw [hw3, hocc3, hw2eq s e, hd_w s e, hpcagain s e]
      ring
    · intro s e
      show classSum sig m.par (chargeTuple m2 (sig.rels.getD r default) t2).rels s e
        + (sig.rels.getD r default).weight *
          pendClass m.par (sig.rels.getD r default).arity ts' s e ≤ USIZE_MAX
      rw [classSum_congr_rels hreleq s e, hcls2 s e]
      have h3 := hB s e
      rw [Nat.mul_add] at h3
      omega
    · intro s e
      show classSum sig m.par (chargeTuple m2 (sig.rels.getD r default) t2).rels s e
        ≤ classSum sig m.par m.rels s e
          + (sig.rels.getD r default).weight *
            classOcc m.par (sig.rels.getD r default).arity s e t
      rw [classSum_congr_rels hreleq s e, hcls2 s e]

/-- The whole `canonTuple` batch over a drained tuple list keeps the
invariant, consuming the pending occurrences. -/
theorem canonTuple_fold (sig : Sig) (r : Nat) (hr : r < sig.rels.length) :
    ∀ (ts : List (List Nat)) (m : Model),
      m.rels.length = sig.rels.length →
      (∀ s, s < sig.sortsCount → WFparents (m.sortAt s)) →
      ((m.relAt r).master.Sorted (· < ·) ∧
        ∀ u ∈ (m.relAt r).master,
          WFtuple sig.sortsCount m.par (sig.rels.getD r default).arity u) →
      (∀ s e, weightOf m s e ≤ USIZE_MAX) →
      (∀ u ∈ ts, WFtuple sig.sortsCount m.par (sig.rels.getD r default).arity u) →
      (∀ s e, weightOf m s e = occSum sig m s e
        + (sig.rels.getD r default).weight *
          pendOcc (sig.rels.getD r default).arity ts s e) →
      (∀ s e, classSum sig m.par m.rels s e
        + (sig.rels.getD r default).weight *
          pendClass m.par (sig.rels.getD r default).arity ts s e ≤ USIZE_MAX) →
      (ts.foldl (canonTuple sig r) m).par = m.par ∧
      (ts.foldl (canonTuple sig r) m).sorts.length = m.sorts.length ∧
      (ts.foldl (canonTuple sig r) m).rels.length = m.rels.length ∧
      (∀ s', ((ts.foldl (canonTuple sig r) m).sortAt s').uprooted
          = (m.sortAt s').uprooted ∧
        ((ts.foldl (canonTuple sig r) m).sortAt s').weights.length
          = (m.sortAt s').weights.length) ∧
      (∀ r', r' ≠ r → (ts.foldl (canonTuple sig r) m).relAt r' = m.relAt r') ∧
      ((ts.foldl (canonTuple sig r) m).relAt r).master.Sorted (· < ·) ∧
      (∀ u ∈ ((ts.foldl (canonTuple sig r) m).relAt r).master,
        WFtuple sig.sortsCount m.par (sig.rels.getD r default).arity u) ∧
      (∀ s e, weightOf (ts.foldl (canonTuple sig r) m) s e ≤ USIZE_MAX) ∧
      (∀ s e, weightOf (ts.foldl (canonTuple sig r) m) s e
        = occSum sig (ts.foldl (canonTuple sig r) m) s e) ∧
      (∀ s e, classSum sig m.par (ts.foldl (canonTuple sig r) m).rels s e
        ≤ classSum sig m.par m.rels s e
          + (sig.rels.getD r default).weight *
            pendClass m.par (sig.rels.getD r default).arity ts s e) := by
  intro ts
  induction ts with
  | nil =>
      intro m hlen2 hpar hrelr hw5 _ hINV hB
      rw [List.foldl_nil]
      refine ⟨rfl, rfl, rfl, fun s' => ⟨rfl, rfl⟩, fun r' _ => rfl, hrelr.1,
        hrelr.2, hw5, ?_, ?_⟩
      · intro s e
        have := hINV s e
        rw [show pendOcc (sig.rels.getD r default).arity [] s e = 0 from rfl,
          Nat.mul_zero, Nat.add_zero] at this
        exact this
      · intro s e
        exact Nat.le_add_right _ _
  | cons t ts ih =>
      intro m hlen2 hpar hrelr hw5 hts hINV hB
      rw [List.foldl_cons]
      have hstep := canonTuple_step sig r hr m t ts hlen2 hpar hrelr hw5
        (hts t (List.mem_cons_self _ _))
        (by
          intro s e
          have := hINV s e
          rw [pendOcc_cons] at this
          exact this)
        (by
          intro s e
          have := hB s e
          rw [pendClass_cons] at this
          exact this)
      rcases hstep with ⟨c1, c2, c3, c4, c5, c6, c7, c8, c9, c10, c11⟩
      have hparstep : ∀ s, (canonTuple sig r m t).par s = m.par s := by
        intro s
        rw [c1]
      have hparfun : (canonTuple sig r m t).par = m.par := c1
      have hih := ih (canonTuple sig r m t)
        (by rw [c3, hlen2])
        (by
          intro s hs
          rcases hpar s hs with ⟨hw, hp⟩
          refine ⟨?_, ?_⟩
          · have h1 := (c4 s).2
            have h2 : (Model.sortAt (canonTuple sig r m t) s).parents = (m.sortAt s).parents :=
              congrFun hparfun s
            rw [h1, h2, hw]
          · have h2 : (Model.sortAt (canonTuple sig r m t) s).parents = (m.sortAt s).parents :=
              congrFun hparfun s
            rw [h2]
            exact hp)
        (by
          rw [hparfun]
          exact ⟨c6, c7⟩)
        c8
        (by
          rw [hparfun]
          intro u hu
          exact hts u (List.mem_cons_of_mem t hu))
        c9
        (by
          rw [hparfun]
          intro s e
          have h1 := c11 s e
          have h2 := hB s e
          rw [pendClass_cons, Nat.mul_add] at h2
          omega)
      rcases hih with ⟨d1, d2, d3, d4, d5, d6, d7, d8, d9, d10⟩
      refine ⟨d1.trans c1, d2.trans c2, d3.trans c3, ?_, ?_, d6, ?_, d8, d9, ?_⟩
      · intro s'
        exact ⟨(d4 s').1.trans (c4 s').1, (d4 s').2.trans (c4 s').2⟩
      · intro r' hne
        exact (d5 r' hne).trans (c5 r' hne)
      · rw [hparfun] at d7
        exact d7
      · intro s e
        have h1 := d10 s e
        rw [hparfun] at h1
        have h2 := c11 s e
        rw [pendClass_cons, Nat.mul_add]
        omega

theorem sortAt_dropDirt (m : Model) (s : Nat) :
    (dropDirt m).sortAt s = { (m.sortAt s) with dirty := [] } := by
  unfold dropDirt Model.sortAt
  dsimp only
  by_cases h : s < m.sorts.length
  · rw [List.getD_eq_getElem?_getD, List.getElem?_map,
      List.getElem?_eq_getElem h]
    rw [List.getD_eq_getElem?_getD, List.getElem?_eq_getElem h]
    rfl
  · rw [List.getD_eq_default _ _ (by
      rw [List.length_map]; exact Nat.le_of_not_lt h)]
    rw [List.getD_eq_default _ _ (Nat.le_of_not_lt h)]
    rfl

theorem relAt_dropDirt (m : Model) (r : Nat) :
    (dropDirt m).relAt r = { (m.relAt r) with dirtyIdx := [] } := by
  unfold dropDirt Model.relAt
  dsimp only
  by_cases h : r < m.rels.length
  · rw [List.getD_eq_getElem?_getD, List.getElem?_map,
      List.getElem?_eq_getElem h]
    rw [List.getD_eq_getElem?_getD, List.getElem?_eq_getElem h]
    rfl
  · rw [List.getD_eq_default _ _ (by
      rw [List.length_map]; exact Nat.le_of_not_lt h)]
    rw [List.getD_eq_default _ _ (Nat.le_of_not_lt h)]
    rfl

theorem par_dropDirt (m : Model) : (dropDirt m).par = m.par := by
  funext s
  show ((dropDirt m).sortAt s).parents = (m.sortAt s).parents
  rw [sortAt_dropDirt]

theorem weightOf_dropDirt (m : Model) (s e : Nat) :
    weightOf (dropDirt m) s e = weightOf m s e := by
  unfold weightOf
  rw [sortAt_dropDirt]

/-- The saturating-arithmetic weight value of a fresh element extension:
appending a zero weight changes no lookup. -/
theorem weightOf_newElementInternal (m : Model) (s : Nat) (s' e : Nat) :
    weightOf (newElementInternal m s).1 s' e = weightOf m s' e := by
  unfold newElementInternal weightOf
  dsimp only
  by_cases hs : s < m.sorts.length
  · by_cases hss : s' = s
    · subst hss
      rw [sortAt_setSortAt_self hs]
      dsimp only
      by_cases he : e < (m.sortAt s').weights.length
      · rw [List.getD_append _ _ 0 e he]
      · rw [List.getD_eq_default _ _ (Nat.le_of_not_lt he)]
        by_cases he2 : e = (m.sortAt s').weights.length
        · subst he2
          rw [List.getD_eq_getElem?_getD, List.getElem?_append_right (le_refl _)]
          simp
        · rw [List.getD_eq_default _ _ (by
            rw [List.length_append]
            simp only [List.length_cons, List.length_nil]
            omega)]
    · rw [sortAt_setSortAt_ne hss]
  · rw [setSortAt_oob (Nat.le_of_not_lt hs)]

theorem par_newElementInternal (m : Model) (s s' : Nat) :
    (newElementInternal m s).1.par s'
      = if s' = s ∧ s < m.sorts.length
        then (m.sortAt s).parents ++ [(m.sortAt s).parents.length]
        else m.par s' := by
  unfold newElementInternal Model.par
  dsimp only
  by_cases hs : s < m.sorts.length
  · by_cases hss : s' = s
    · subst hss
      rw [sortAt_setSortAt_self hs, if_pos ⟨rfl, hs⟩]
    · rw [sortAt_setSortAt_ne hss, if_neg (fun hc => hss hc.1)]
  · rw [setSortAt_oob (Nat.le_of_not_lt hs), if_neg (fun hc => hs hc.2)]

theorem getD_map_lt (l : List Nat) (f : Nat → Nat) (i : Nat) (h : i < l.length) :
    (l.map f).getD i 0 = f (l.getD i 0) := by
  rw [List.getD_eq_getElem?_getD, List.getElem?_map, List.getElem?_eq_getElem h,
    List.getD_eq_getElem?_getD, List.getElem?_eq_getElem h]
  rfl

theorem occSum_dropDirt (sig : Sig) (m : Model) (s e : Nat) :
    occSum sig (dropDirt m) s e = occSum sig m s e := by
  unfold occSum
  show ((sig.rels.zip (m.rels.map (fun rs => { rs with dirtyIdx := [] }))).map
    (fun p => relOccSum p.1 p.2 s e)).sum = _
  rw [List.zip_map_right, List.map_map]
  refine congrArg List.sum (List.map_congr_left ?_)
  intro p _
  exact relOccSum_congr_master rfl s e

/-- The top-level weight-accounting invariant of C5. -/
def INVC5 (sig : Sig) (m : Model) : Prop :=
  WFc5 sig m ∧ ∀ s e, weightOf m s e = occSum sig m s e

theorem dropDirt_INVC5 (sig : Sig) (m : Model) (h : INVC5 sig m) :
    INVC5 sig (dropDirt m) := by
  rcases h with ⟨⟨w1, w2, w3, w4, w5⟩, hinv⟩
  refine ⟨⟨?_, ?_, ?_, ?_, ?_⟩, ?_⟩
  · show (m.sorts.map _).length = sig.sortsCount
    rw [List.length_map]
    exact w1
  · show (m.rels.map _).length = sig.rels.length
    rw [List.length_map]
    exact w2
  · intro s hs
    rw [sortAt_dropDirt]
    exact w3 s hs
  · intro r hr
    rw [relAt_dropDirt, par_dropDirt]
    exact w4 r hr
  · intro s e
    rw [weightOf_dropDirt]
    exact w5 s e
  · intro s e
    rw [weightOf_dropDirt, occSum_dropDirt]
    exact hinv s e

theorem newElement_INVC5 (sig : Sig) (m : Model) (s : Nat)
    (hs : s < sig.sortsCount) (h : INVC5 sig m) :
    INVC5 sig (newElement m s).1 := by
  rcases h with ⟨⟨w1, w2, w3, w4, w5⟩, hinv⟩
  have hsl : s < m.sorts.length := by omega
  have hrels : (newElement m s).1.rels = m.rels := rfl
  have hparlen : ∀ s', ((newElement m s).1.par s').length = (m.par s').length
      ∨ (s' = s ∧ (newElement m s).1.par s'
          = (m.sortAt s).parents ++ [(m.sortAt s).parents.length]) := by
    intro s'
    by_cases hss : s' = s
    · subst hss
      right
      refine ⟨rfl, ?_⟩
      show (newElementInternal m s').1.par s' = _
      rw [par_newElementInternal, if_pos ⟨rfl, hsl⟩]
    · left
      show ((newElementInternal m s).1.par s').length = _
      rw [par_newElementInternal, if_neg (fun hc => hss hc.1)]
  have hparmono : ∀ s', (m.par s').length ≤ ((newElement m s).1.par s').length := by
    intro s'
    rcases hparlen s' with h | ⟨hss, hp⟩
    · omega
    · subst hss
      rw [hp, List.length_append]
      show (m.par s').length ≤ (m.par s').length + 1
      omega
  refine ⟨⟨?_, ?_, ?_, ?_, ?_⟩, ?_⟩
  · show (newElementInternal m s).1.sorts.length = sig.sortsCount
    unfold newElementInternal
    dsimp only
    rw [sorts_length_setSortAt]
    exact w1
  · rw [hrels]
    exact w2
  · intro s' hs'
    rcases w3 s' hs' with ⟨hw, hp⟩
    by_cases hss : s' = s
    · subst hss
      have hsort : (newElementInternal m s').1.sortAt s'
          = { (m.sortAt s') with
              parents := (m.sortAt s').parents ++ [(m.sortAt s').parents.length]
              dirty := (setInsert (m.sortAt s').parents.length (m.sortAt s').dirty).1
              all := (setInsert (m.sortAt s').parents.length (m.sortAt s').all).1
              weights := (m.sortAt s').weights ++ [0] } := by
        unfold newElementInternal
        dsimp only
        rw [sortAt_setSortAt_self hsl]
      show WFparents ((newElementInternal m s').1.sortAt s')
      rw [hsort]
      constructor
      · show ((m.sortAt s').weights ++ [0]).length = _
        rw [List.length_append, List.length_append]
        simp only [List.length_cons, List.length_nil]
        omega
      · intro i hi
        rw [List.length_append] at hi
        simp only [List.length_cons, List.length_nil] at hi
        show ((m.sortAt s').parents ++ [(m.sortAt s').parents.length]).getD i 0 < _ ∧ _
        by_cases hilt : i < (m.sortAt s').parents.length
        · rw [List.getD_append _ _ 0 i hilt]
          rcases hp i hilt with ⟨hv, hid⟩
          constructor
          · rw [List.length_append]
            simp only [List.length_cons, List.length_nil]
            omega
          · rw [List.getD_append _ _ 0 _ hv, hid]
        · have hieq : i = (m.sortAt s').parents.length := by omega
          subst hieq
          have hgd : ((m.sortAt s').parents ++ [(m.sortAt s').parents.length]).getD
              (m.sortAt s').parents.length 0 = (m.sortAt s').parents.length := by
            rw [List.getD_eq_getElem?_getD,
              List.getElem?_append_right (le_refl _)]
            simp
          rw [hgd]
          constructor
          · rw [List.length_append]
            simp only [List.length_cons, List.length_nil]
            omega
          · rw [hgd]
    · have hsort : (newElementInternal m s).1.sortAt s' = m.sortAt s' := by
        unfold newElementInternal
        dsimp only
        exact sortAt_setSortAt_ne hss
      show WFparents ((newElementInternal m s).1.sortAt s')
      rw [hsort]
      exact ⟨hw, hp⟩
  · intro r hr
    have hrelAt : (newElement m s).1.relAt r = m.relAt r := rfl
    rw [hrelAt]
    rcases w4 r hr with ⟨hsorted, hwf⟩
    refine ⟨hsorted, ?_⟩
    intro u hu
    rcases hwf u hu with ⟨hul, hup⟩
    refine ⟨hul, ?_⟩
    intro p hp
    rcases hup p hp with ⟨h1, h2⟩
    exact ⟨h1, lt_of_lt_of_le h2 (hparmono p.1)⟩
  · intro s' e
    show weightOf (newElementInternal m s).1 s' e ≤ USIZE_MAX
    rw [weightOf_newElementInternal]
    exact w5 s' e
  · intro s' e
    show weightOf (newElementInternal m s).1 s' e
      = occSum sig (newElement m s).1 s' e
    rw [weightOf_newElementInternal, occSum_congr_rels hrels]
    exact hinv s' e

theorem rels_equateSort (m : Model) (s a b : Nat) :
    (equateSort m s a b).rels = m.rels := by
  unfold equateSort
  dsimp only
  by_cases h : unifRoot (m.sortAt s).parents a = unifRoot (m.sortAt s).parents b
  · rw [if_pos h]
  · rw [if_neg h]
    rfl

theorem weightOf_equateSort (m : Model) (s a b s' e : Nat) :
    weightOf (equateSort m s a b) s' e = weightOf m s' e := by
  unfold equateSort
  dsimp only
  by_cases h : unifRoot (m.sortAt s).parents a = unifRoot (m.sortAt s).parents b
  · rw [if_pos h]
  · rw [if_neg h]
    unfold weightOf
    by_cases hss : s < m.sorts.length
    · by_cases hs' : s' = s
      · subst hs'
        rw [sortAt_setSortAt_self hss]
      · rw [sortAt_setSortAt_ne hs']
    · rw [setSortAt_oob (Nat.le_of_not_lt hss)]

theorem parlen_equateSort (m : Model) (s a b s' : Nat) :
    ((equateSort m s a b).par s').length = (m.par s').length := by
  unfold equateSort
  dsimp only
  by_cases h : unifRoot (m.sortAt s).parents a = unifRoot (m.sortAt s).parents b
  · rw [if_pos h]
  · rw [if_neg h]
    show ((Model.setSortAt m s _).sortAt s').parents.length = _
    by_cases hss : s < m.sorts.length
    · by_cases hs' : s' = s
      · subst hs'
        rw [sortAt_setSortAt_self hss]
        show (unifUnionRootsInto (m.sortAt s').parents _ _).length = _
        unfold unifUnionRootsInto
        rw [List.length_map]
        rfl
      · rw [sortAt_setSortAt_ne hs']
        rfl
    · rw [setSortAt_oob (Nat.le_of_not_lt hss)]
      rfl

theorem equate_INVC5 (sig : Sig) (m : Model) (s a b : Nat)
    (hs : s < sig.sortsCount)
    (ha : a < (m.sortAt s).parents.length)
    (hb : b < (m.sortAt s).parents.length)
    (h : INVC5 sig m) : INVC5 sig (equateSort m s a b) := by
  rcases h with ⟨⟨w1, w2, w3, w4, w5⟩, hinv⟩
  have hsl : s < m.sorts.length := by omega
  have hrels := rels_equateSort m s a b
  have hparwf : ∀ s', s' < sig.sortsCount → WFparents ((equateSort m s a b).sortAt s') := by
    intro s' hs'
    rcases w3 s' hs' with ⟨hw, hp⟩
    unfold equateSort
    dsimp only
    by_cases hroots : unifRoot (m.sortAt s).parents a = unifRoot (m.sortAt s).parents b
    · rw [if_pos hroots]
      exact ⟨hw, hp⟩
    · rw [if_neg hroots]
      by_cases hss : s' = s
      · subst hss
        rw [sortAt_setSortAt_self hsl]
        rcases w3 s' hs' with ⟨hw0, hp0⟩
        have hga : unifRoot (m.sortAt s').parents a = (m.sortAt s').parents.getD a 0 :=
          getD_self_eq_getD_zero ha a
        have hgb : unifRoot (m.sortAt s').parents b = (m.sortAt s').parents.getD b 0 :=
          getD_self_eq_getD_zero hb b
        have hlr : unifRoot (m.sortAt s').parents a < (m.sortAt s').parents.length := by
          rw [hga]
          exact (hp0 a ha).1
        have hrr : unifRoot (m.sortAt s').parents b < (m.sortAt s').parents.length := by
          rw [hgb]
          exact (hp0 b hb).1
        have hlid : (m.sortAt s').parents.getD (unifRoot (m.sortAt s').parents a) 0
            = unifRoot (m.sortAt s').parents a := by
          rw [hga]
          exact (hp0 a ha).2
        have hrid : (m.sortAt s').parents.getD (unifRoot (m.sortAt s').parents b) 0
            = unifRoot (m.sortAt s').parents b := by
          rw [hgb]
          exact (hp0 b hb).2
        -- abbreviate root and child
        set lhsr := unifRoot (m.sortAt s').parents a with hdefl
        set rhsr := unifRoot (m.sortAt s').parents b with hdefr
        set root := if (m.sortAt s').weights.getD lhsr 0 ≥ (m.sortAt s').weights.getD rhsr 0
          then lhsr else rhsr with hdefroot
        set child := if (m.sortAt s').weights.getD lhsr 0 ≥ (m.sortAt s').weights.getD rhsr 0
          then rhsr else lhsr with hdefchild
        have hrootlt : root < (m.sortAt s').parents.length := by
          rw [hdefroot]
          by_cases hcond : (m.sortAt s').weights.getD lhsr 0 ≥ (m.sortAt s').weights.getD rhsr 0
          · rw [if_pos hcond]; exact hlr
          · rw [if_neg hcond]; exact hrr
        have hrootid : (m.sortAt s').parents.getD root 0 = root := by
          rw [hdefroot]
          by_cases hcond : (m.sortAt s').weights.getD lhsr 0 ≥ (m.sortAt s').weights.getD rhsr 0
          · rw [if_pos hcond]; exact hlid
          · rw [if_neg hcond]; exact hrid
        have hne : root ≠ child := by
          rw [hdefroot, hdefchild]
          by_cases hcond : (m.sortAt s').weights.getD lhsr 0 ≥ (m.sortAt s').weights.getD rhsr 0
          · rw [if_pos hcond, if_pos hcond]; exact hroots
          · rw [if_neg hcond, if_neg hcond]; exact fun hc => hroots hc.symm
        constructor
        · show (m.sortAt s').weights.length
            = (unifUnionRootsInto (m.sortAt s').parents child root).length
          unfold unifUnionRootsInto
          rw [List.length_map]
          exact hw0
        · intro i hi
          unfold unifUnionRootsInto at hi ⊢
          rw [List.length_map] at hi
          have hmap : ∀ j, j < (m.sortAt s').parents.length →
              ((m.sortAt s').parents.map
                (fun x => if x = child then root else x)).getD j 0
              = (fun x => if x = child then root else x)
                  ((m.sortAt s').parents.getD j 0) :=
            fun j hj => getD_map_lt _ _ j hj
          rw [List.length_map, hmap i hi]
          dsimp only
          rcases hp0 i hi with ⟨hv, hvid⟩
          by_cases hvc : (m.sortAt s').parents.getD i 0 = child
          · rw [if_pos hvc]
            refine ⟨hrootlt, ?_⟩
            rw [hmap root hrootlt]
            dsimp only
            rw [hrootid, if_neg hne]
          · rw [if_neg hvc]
            refine ⟨hv, ?_⟩
            rw [hmap _ hv]
            dsimp only
            rw [hvid, if_neg hvc]
      · rw [sortAt_setSortAt_ne hss]
        exact ⟨hw, hp⟩
  refine ⟨⟨?_, ?_, hparwf, ?_, ?_⟩, ?_⟩
  · unfold equateSort
    dsimp only
    by_cases hroots : unifRoot (m.sortAt s).parents a = unifRoot (m.sortAt s).parents b
    · rw [if_pos hroots]
      exact w1
    · rw [if_neg hroots]
      show (m.setSortAt s _).sorts.length = _
      rw [sorts_length_setSortAt]
      exact w1
  · rw [hrels]
    exact w2
  · intro r hr
    have hrelAt : (equateSort m s a b).relAt r = m.relAt r := by
      unfold Model.relAt
      rw [hrels]
    rw [hrelAt]
    rcases w4 r hr with ⟨hsorted, hwf⟩
    refine ⟨hsorted, ?_⟩
    intro u hu
    rcases hwf u hu with ⟨hul, hup⟩
    refine ⟨hul, ?_⟩
    intro p hp
    rcases hup p hp with ⟨h1, h2⟩
    refine ⟨h1, ?_⟩
    rw [parlen_equateSort]
    exact h2
  · intro s' e
    rw [weightOf_equateSort]
    exact w5 s' e
  · intro s' e
    rw [weightOf_equateSort, occSum_congr_rels hrels]
    exact hinv s' e

set_option maxHeartbeats 1000000 in
/-- The generated public `insert_{rel}` preserves the weight-accounting
invariant when the post-insert occurrence sums fit in `usize`. -/
theorem insertRel_INVC5 (sig : Sig) (m : Model) (r : Nat) (args : List Nat)
    (hsig : SigWF sig)
    (hr : r < sig.rels.length)
    (hlen : args.length = (sig.rels.getD r default).arity.length)
    (hargs : ∀ p ∈ (sig.rels.getD r default).arity.zip args,
      p.2 < (m.sortAt p.1).parents.length)
    (hIB : ∀ s, s < sig.sortsCount → ∀ e, e < (m.sortAt s).parents.length →
      occSum sig (insertRel sig m r args) s e ≤ USIZE_MAX)
    (h : INVC5 sig m) : INVC5 sig (insertRel sig m r args) := by
  rcases h with ⟨⟨w1, w2, w3, w4, w5⟩, hinv⟩
  have hrm : r < m.rels.length := by omega
  have hrimem : sig.rels.getD r default ∈ sig.rels := getD_mem_of_lt _ r default hr
  have harsort : ∀ x ∈ (sig.rels.getD r default).arity, x < sig.sortsCount :=
    hsig _ hrimem
  have hctzip : (sig.rels.getD r default).arity.zip (canonTupleOf sig m r args)
      = ((sig.rels.getD r default).arity.zip args).map
        (fun p => (p.1, unifRoot (m.sortAt p.1).parents p.2)) := by
    unfold canonTupleOf
    exact zip_map_zip _ _ _
  have hctwf : WFtuple sig.sortsCount m.par (sig.rels.getD r default).arity
      (canonTupleOf sig m r args) := by
    constructor
    · unfold canonTupleOf
      rw [List.length_map, List.length_zip, hlen, Nat.min_self]
    · intro p hp
      rw [hctzip] at hp
      rcases List.mem_map.mp hp with ⟨q, hq, hqp⟩
      have hq1 : p.1 = q.1 := by rw [← hqp]
      have hq2 : p.2 = unifRoot (m.sortAt q.1).parents q.2 := by rw [← hqp]
      have hs1 : q.1 < sig.sortsCount := harsort q.1 (List.of_mem_zip hq).1
      have hq2r : q.2 < (m.sortAt q.1).parents.length := hargs q hq
      have hval : unifRoot (m.sortAt q.1).parents q.2
          < (m.sortAt q.1).parents.length := by
        have hval2 : unifRoot (m.sortAt q.1).parents q.2
            = (m.sortAt q.1).parents.getD q.2 0 := getD_self_eq_getD_zero hq2r q.2
        rw [hval2]
        exact ((w3 q.1 hs1).2 q.2 hq2r).1
      rw [hq1, hq2]
      exact ⟨hs1, hval⟩
  -- now the main case split on novelty of the canonical tuple
  by_cases hnew : (setInsert (canonTupleOf sig m r args) (m.relAt r).master).2 = true
  case neg =>
    have hmem : canonTupleOf sig m r args ∈ (m.relAt r).master :=
      (setInsert_false (by simpa using hnew)).2
    rw [insertRel_of_mem (w4 r hr).1 hmem]
    exact ⟨⟨w1, w2, w3, w4, w5⟩, hinv⟩
  case pos =>
    unfold insertRel
    dsimp only
    have hit : (tableInsert (sig.rels.getD r default)
        (((sig.rels.getD r default).arity.zip args).map
          (fun st => unifRoot (m.sortAt st.1).parents st.2)) (m.relAt r)).2 = true := by
      rw [tableInsert_snd]
      exact hnew
    rw [if_pos hit]
    set ct := ((sig.rels.getD r default).arity.zip args).map
      (fun st => unifRoot (m.sortAt st.1).parents st.2) with hctdef
    have hcteq : ct = canonTupleOf sig m r args := rfl
    set ins1 := (tableInsert (sig.rels.getD r default) ct (m.relAt r)).1 with hins1
    set m1 := m.setRelAt r ins1 with hm1def
    have hm1par : m1.par = m.par := par_setRelAt m r ins1
    have hm1w : ∀ s e, weightOf m1 s e = weightOf m s e := fun s e => rfl
    have hmaster : ins1.master = (setInsert ct (m.relAt r).master).1 := by
      rw [hins1]
      exact tableInsert_master _ _ _
    have hocc1 : ∀ s e, occSum sig m1 s e
        = occSum sig m s e
          + (sig.rels.getD r default).weight *
            occCount (sig.rels.getD r default).arity s e ct := by
      intro s e
      have h1 := occSum_setRelAt sig m r ins1 hr hrm s e
      rw [← hm1def] at h1
      have h2 : relOccSum (sig.rels.getD r default) ins1 s e
          = relOccSum (sig.rels.getD r default) (m.relAt r) s e
            + (sig.rels.getD r default).weight *
              occCount (sig.rels.getD r default).arity s e ct := by
        unfold relOccSum
        rw [hmaster, masterSum_insert _ (by rw [hcteq]; exact hnew),
          Nat.mul_add]
      rw [h2] at h1
      omega
    have hreleq : (chargeTuple m1 (sig.rels.getD r default) ct).rels = m1.rels :=
      rels_chargeTuple m1 _ ct
    have hfin_occ : ∀ s e, occSum sig (insertRel sig m r args) s e
        = occSum sig m s e
          + (sig.rels.getD r default).weight *
            occCount (sig.rels.getD r default).arity s e ct := by
      intro s e
      have hstep : insertRel sig m r args
          = chargeTuple m1 (sig.rels.getD r default) ct := by
        unfold insertRel
        dsimp only
        rw [if_pos hit]
      rw [hstep, occSum_congr_rels hreleq s e, hocc1 s e]
    have hIBfull : ∀ s e, occSum sig m s e
        + (sig.rels.getD r default).weight *
          occCount (sig.rels.getD r default).arity s e ct ≤ USIZE_MAX := by
      intro s e
      by_cases hin : s < sig.sortsCount ∧ e < (m.sortAt s).parents.length
      · have hpost := hIB s hin.1 e hin.2
        rw [hfin_occ s e] at hpost
        exact hpost
      · have hz1 : occSum sig m s e = 0 := by
          refine occSum_eq_zero_of_oob sig m (fun r' hr' u hu => (w4 r' hr').2 u hu) ?_
          show sig.sortsCount ≤ s ∨ ((m.sortAt s).parents).length ≤ e
          omega
        have hz2 : occCount (sig.rels.getD r default).arity s e ct = 0 := by
          rw [hcteq]
          refine occCount_eq_zero_of_oob hctwf ?_
          show sig.sortsCount ≤ s ∨ ((m.sortAt s).parents).length ≤ e
          omega
        rw [hz1, hz2, Nat.mul_zero]
        exact Nat.zero_le _
    have hchbound : ∀ s e, weightOf m1 s e
        + (sig.rels.getD r default).weight *
          pairCount ((sig.rels.getD r default).arity.zip ct) s e ≤ USIZE_MAX := by
      intro s e
      rw [hm1w s e, hinv s e]
      exact hIBfull s e
    have hchin : ∀ p ∈ (sig.rels.getD r default).arity.zip ct,
        p.2 < ((m1.sortAt p.1).weights.length) := by
      intro p hp
      rw [hcteq] at hp
      have := hctwf.2 p hp
      have hwl : (m1.sortAt p.1).weights.length = (m.sortAt p.1).weights.length := rfl
      rw [hwl, (w3 p.1 this.1).1]
      exact this.2
    have hchg := chargeFold_weightOf (sig.rels.getD r default).weight
      ((sig.rels.getD r default).arity.zip ct) m1 hchin hchbound
    have hparfin : (chargeTuple m1 (sig.rels.getD r default) ct).par = m.par :=
      (par_chargeTuple m1 _ ct).trans hm1par
    have hrelat : (chargeTuple m1 (sig.rels.getD r default) ct).relAt r = ins1 := by
      have h2 : (chargeTuple m1 (sig.rels.getD r default) ct).relAt r
          = m1.relAt r := by
        unfold Model.relAt
        rw [hreleq]
      rw [h2, hm1def]
      exact relAt_setRelAt_self hrm
    refine ⟨⟨?_, ?_, ?_, ?_, ?_⟩, ?_⟩
    · rw [sorts_length_chargeTuple]
      show m.sorts.length = sig.sortsCount
      exact w1
    · rw [hreleq, hm1def, rels_length_setRelAt]
      exact w2
    · intro s hs
      rcases w3 s hs with ⟨hw0, hp0⟩
      constructor
      · rw [weightsLength_chargeTuple]
        show (m.sortAt s).weights.length
          = ((chargeTuple m1 (sig.rels.getD r default) ct).sortAt s).parents.length
        rw [show ((chargeTuple m1 (sig.rels.getD r default) ct).sortAt s).parents
          = (chargeTuple m1 (sig.rels.getD r default) ct).par s from rfl, hparfin]
        exact hw0
      · rw [show ((chargeTuple m1 (sig.rels.getD r default) ct).sortAt s).parents
          = (chargeTuple m1 (sig.rels.getD r default) ct).par s from rfl, hparfin]
        exact hp0
    · intro r' hr'
      by_cases hrr : r' = r
      · subst hrr
        rw [hrelat, hmaster, hparfin]
        constructor
        · apply setInsert_sorted
          exact (w4 r' hr').1
        · intro u hu
          rcases (mem_setInsert _ _ _).mp hu with hu | hu
          · subst hu
            rw [hcteq]
            exact hctwf
          · exact (w4 r' hr').2 u hu
      · have h1 : (chargeTuple m1 (sig.rels.getD r default) ct).relAt r'
            = m.relAt r' := by
          have h2 : (chargeTuple m1 (sig.rels.getD r default) ct).relAt r'
              = m1.relAt r' := by
            unfold Model.relAt
            rw [hreleq]
          rw [h2, hm1def, relAt_setRelAt_ne hrr]
        rw [h1, hparfin]
        exact w4 r' hr'
    · intro s e
      show weightOf (chargeTuple m1 (sig.rels.getD r default) ct) s e ≤ USIZE_MAX
      unfold chargeTuple
      rw [hchg s e]
      exact hchbound s e
    · intro s e
      show weightOf (chargeTuple m1 (sig.rels.getD r default) ct) s e
        = occSum sig (chargeTuple m1 (sig.rels.getD r default) ct) s e
      have hw3 : weightOf (chargeTuple m1 (sig.rels.getD r default) ct) s e
          = weightOf m1 s e
            + (sig.rels.getD r default).weight *
              pairCount ((sig.rels.getD r default).arity.zip ct) s e := by
        unfold chargeTuple
        rw [hchg s e]
      rw [hw3, occSum_congr_rels hreleq s e, hocc1 s e, hm1w s e, hinv s e]
      rfl

theorem classOcc_eq_zero_of_oob {sc : Nat} {par : Nat → List Nat}
    {ar t : List Nat} {s e : Nat} (hwf : WFtuple sc par ar t)
    (hp : ∀ s', s' < sc → ∀ i, i < (par s').length →
      (par s').getD i 0 < (par s').length ∧
      (par s').getD ((par s').getD i 0) 0 = (par s').getD i 0)
    (h : sc ≤ s ∨ (par s).length ≤ e) : classOcc par ar s e t = 0 := by
  unfold classOcc pairCount
  rw [List.length_eq_zero, List.filter_eq_nil_iff]
  intro p hp2 hmatch
  simp only [Bool.and_eq_true, beq_iff_eq] at hmatch
  rcases List.mem_map.mp hp2 with ⟨q, hq, hqp⟩
  rcases hwf.2 q hq with ⟨hq1, hq2⟩
  have hv1 : p.1 = q.1 := by rw [← hqp]
  have hv2 : p.2 = rootVia par q.1 q.2 := by rw [← hqp]
  have hroot : rootVia par q.1 q.2 < (par q.1).length :=
    rootVia_lt (hp q.1 hq1) hq2
  rw [hv1] at hmatch
  rw [hv2] at hmatch
  rcases h with h | h
  · rw [hmatch.1] at hq1
    omega
  · have he : rootVia par s q.2 = e := by
      rw [← hmatch.1]
      exact hmatch.2
    rw [hmatch.1] at hroot
    rw [he] at hroot
    omega

/-- The root-class sum vanishes outside the live ranges. -/
theorem classSum_eq_zero_of_oob (sig : Sig) (m : Model) {s e : Nat}
    (hwf : ∀ r, r < sig.rels.length →
      ∀ t ∈ (m.relAt r).master,
        WFtuple sig.sortsCount m.par (sig.rels.getD r default).arity t)
    (hpar : ∀ s', s' < sig.sortsCount → WFparents (m.sortAt s'))
    (h : sig.sortsCount ≤ s ∨ (m.par s).length ≤ e) :
    classSum sig m.par m.rels s e = 0 := by
  unfold classSum
  rw [List.sum_eq_zero]
  intro x hx
  rcases List.mem_map.mp hx with ⟨p, hp, hpx⟩
  rcases zip_mem_index default default hp with ⟨i, hi1, hi2, hv1, hv2⟩
  subst hpx
  unfold classRelSum
  have hmz : (p.2.master.map (classOcc m.par p.1.arity s e)).sum = 0 := by
    rw [List.sum_eq_zero]
    intro y hy
    rcases List.mem_map.mp hy with ⟨t, ht, hty⟩
    subst hty
    have hrel : (m.relAt i).master = p.2.master := by
      unfold Model.relAt
      rw [hv2]
    have hwft := hwf i hi1 t (by rw [hrel]; exact ht)
    rw [hv1] at hwft
    exact classOcc_eq_zero_of_oob hwft (fun s' hs' => (hpar s' hs').2) h
  rw [hmz, Nat.mul_zero]

theorem parlen_newElement_mono (m : Model) (s s' : Nat) :
    (m.par s').length ≤ ((newElement m s).1.par s').length := by
  show (m.par s').length ≤ ((newElementInternal m s).1.par s').length
  rw [par_newElementInternal]
  by_cases hc : s' = s ∧ s < m.sorts.length
  · rw [if_pos hc]
    rw [List.length_append]
    have : m.par s' = (m.sortAt s).parents := by rw [hc.1]; rfl
    rw [this]
    omega
  · rw [if_neg hc]

theorem modelNew_INVC5 (sig : Sig) : INVC5 sig (modelNew sig) := by
  have hsort : ∀ s, (modelNew sig).sortAt s
      = (⟨[], [], [], [], []⟩ : SortSt) := by
    intro s
    unfold modelNew Model.sortAt
    dsimp only
    by_cases h : s < sig.sortsCount
    · rw [List.getD_eq_getElem?_getD,
        List.getElem?_eq_getElem (by rw [List.length_replicate]; exact h)]
      rw [List.getElem_replicate]
      rfl
    · rw [List.getD_eq_default _ _ (by rw [List.length_replicate]; omega)]
      rfl
  have hrel : ∀ r, r < sig.rels.length → (modelNew sig).relAt r
      = (⟨[], [], List.replicate sig.sortsCount []⟩ : RelSt) := by
    intro r h
    unfold modelNew Model.relAt
    dsimp only
    rw [List.getD_eq_getElem?_getD, List.getElem?_map,
      List.getElem?_eq_getElem h]
    rfl
  have hw : ∀ s e, weightOf (modelNew sig) s e = 0 := by
    intro s e
    unfold weightOf
    rw [hsort s]
    rfl
  have hocc : ∀ s e, occSum sig (modelNew sig) s e = 0 := by
    intro s e
    unfold occSum
    rw [List.sum_eq_zero]
    intro x hx
    rcases List.mem_map.mp hx with ⟨p, hp, hpx⟩
    subst hpx
    have hp2 := (List.of_mem_zip hp).2
    rcases List.mem_map.mp (show p.2 ∈ sig.rels.map
        (fun _ => (⟨[], [], List.replicate sig.sortsCount []⟩ : RelSt)) from hp2)
      with ⟨_, _, hq⟩
    unfold relOccSum
    rw [← hq]
    rfl
  refine ⟨⟨?_, ?_, ?_, ?_, ?_⟩, ?_⟩
  · show (List.replicate sig.sortsCount _).length = sig.sortsCount
    rw [List.length_replicate]
  · show (sig.rels.map _).length = sig.rels.length
    rw [List.length_map]
  · intro s hs
    rw [hsort s]
    exact ⟨rfl, by intro i hi; simp at hi⟩
  · intro r hr
    rw [hrel r hr]
    exact ⟨by simp, by intro t ht; simp at ht⟩
  · intro s e
    rw [hw]
    exact Nat.zero_le _
  · intro s e
    rw [hw, hocc]

/-- The invariant carried between canonicalize batches, relative to the
pre-canonicalize model `m0`. -/
def Jrel (sig : Sig) (m0 m : Model) : Prop :=
  m.par = m0.par ∧
  m.sorts.length = m0.sorts.length ∧
  m.rels.length = m0.rels.length ∧
  (∀ s', (m.sortAt s').uprooted = (m0.sortAt s').uprooted ∧
    (m.sortAt s').weights.length = (m0.sortAt s').weights.length) ∧
  (∀ r', r' < sig.rels.length → ((m.relAt r').master.Sorted (· < ·) ∧
    ∀ u ∈ (m.relAt r').master,
      WFtuple sig.sortsCount m0.par (sig.rels.getD r' default).arity u)) ∧
  (∀ s e, weightOf m s e ≤ USIZE_MAX) ∧
  (∀ s e, weightOf m s e = occSum sig m s e) ∧
  (∀ s e, classSum sig m0.par m.rels s e ≤ classSum sig m0.par m0.rels s e)

theorem Jrel_refl (sig : Sig) (m : Model)
    (hrel : ∀ r', r' < sig.rels.length → ((m.relAt r').master.Sorted (· < ·) ∧
      ∀ u ∈ (m.relAt r').master,
        WFtuple sig.sortsCount m.par (sig.rels.getD r' default).arity u))
    (hw5 : ∀ s e, weightOf m s e ≤ USIZE_MAX)
    (hINV : ∀ s e, weightOf m s e = occSum sig m s e) :
    Jrel sig m m :=
  ⟨rfl, rfl, rfl, fun _ => ⟨rfl, rfl⟩, hrel, hw5, hINV, fun _ _ => le_refl _⟩

theorem Jrel_trans {sig : Sig} {m0 m1 m2 : Model}
    (h1 : Jrel sig m0 m1) (h2 : Jrel sig m1 m2) : Jrel sig m0 m2 := by
  rcases h1 with ⟨a1, a2, a3, a4, a5, a6, a7, a8⟩
  rcases h2 with ⟨b1, b2, b3, b4, b5, b6, b7, b8⟩
  refine ⟨b1.trans a1, b2.trans a2, b3.trans a3, ?_, ?_, b6, b7, ?_⟩
  · intro s'
    exact ⟨(b4 s').1.trans (a4 s').1, (b4 s').2.trans (a4 s').2⟩
  · intro r' hlt
    rcases b5 r' hlt with ⟨hs, hu⟩
    rw [a1] at hu
    exact ⟨hs, hu⟩
  · intro s e
    have hb := b8 s e
    rw [a1] at hb
    exact le_trans hb (a8 s e)

/-- Folding a `Jrel`-preserving step preserves `Jrel`. -/
theorem Jrel_foldl {β : Type} (sig : Sig) (f : Model → β → Model) (m0 : Model)
    (l : List β)
    (hstep : ∀ m b, b ∈ l → Jrel sig m0 m → Jrel sig m0 (f m b)) :
    ∀ m, Jrel sig m0 m → Jrel sig m0 (l.foldl f m) := by
  induction l with
  | nil => intro m h; rw [List.foldl_nil]; exact h
  | cons b l ih =>
      intro m h
      rw [List.foldl_cons]
      exact ih (fun m' b' hb' => hstep m' b' (List.mem_cons_of_mem b hb'))
        (f m b) (hstep m b (List.mem_cons_self _ _) h)

set_option maxHeartbeats 1000000 in
/-- Processing one uprooted element of one sort for one relation preserves the
between-batch invariant. -/
theorem canonRelSortEl_J (sig : Sig) (r s0 : Nat) (hr : r < sig.rels.length)
    (m0 : Model)
    (hlen0 : m0.rels.length = sig.rels.length)
    (hpar0 : ∀ s, s < sig.sortsCount → WFparents (m0.sortAt s))
    (hB0 : ∀ s e, classSum sig m0.par m0.rels s e ≤ USIZE_MAX)
    (m : Model) (el : Nat) (hJ : Jrel sig m0 m) :
    Jrel sig m0 (canonRelSortEl sig r s0 m el) := by
  rcases hJ with ⟨a1, a2, a3, a4, a5, a6, a7, a8⟩
  have hlen2 : m.rels.length = sig.rels.length := a3.trans hlen0
  have hrmm : r < m.rels.length := by omega
  have hparm : ∀ s, s < sig.sortsCount → WFparents (m.sortAt s) := by
    intro s hs
    rcases hpar0 s hs with ⟨hw0, hp0⟩
    have hps : (m.sortAt s).parents = (m0.sortAt s).parents := congrFun a1 s
    exact ⟨((a4 s).2).trans (hw0.trans (congrArg List.length hps.symm)), by
      rw [hps]; exact hp0⟩
  unfold canonRelSortEl
  dsimp only
  rcases drainWithElement_spec (m.relAt r) s0 el (a5 r hr).1 with
    ⟨removed, hrem2, hnd, hsub, hmfilter⟩
  rw [hrem2]
  have hmnd : (m.relAt r).master.Nodup := (a5 r hr).1.nodup
  have hm1par : (m.setRelAt r (drainWithElement (m.relAt r) s0 el).1).par = m0.par :=
    (par_setRelAt m r _).trans a1
  have hm1rels : (m.setRelAt r (drainWithElement (m.relAt r) s0 el).1).rels.length
      = m.rels.length := rels_length_setRelAt m r _
  have hrelAt1 : (m.setRelAt r (drainWithElement (m.relAt r) s0 el).1).relAt r
      = (drainWithElement (m.relAt r) s0 el).1 := relAt_setRelAt_self hrmm
  have hfilternot : (fun t => !(decide (t ∉ removed)))
      = (fun t : List Nat => decide (t ∈ removed)) := by
    funext u
    by_cases h : u ∈ removed <;> simp [h]
  have hsplit : ∀ (f : List Nat → Nat),
      (((drainWithElement (m.relAt r) s0 el).1.master.map f)).sum
        + (removed.map f).sum = ((m.relAt r).master.map f).sum := by
    intro f
    rw [hmfilter]
    have h1 := map_sum_filter_split f (fun t => decide (t ∉ removed))
      (m.relAt r).master
    have h2 : ((m.relAt r).master.filter (fun t => !(decide (t ∉ removed)))).map f
        = ((m.relAt r).master.filter (fun t => decide (t ∈ removed))).map f := by
      rw [hfilternot]
    rw [h2] at h1
    rw [map_sum_filter_mem f (m.relAt r).master removed hmnd hnd hsub] at h1
    exact h1
  have hINV1 : ∀ s e,
      weightOf (m.setRelAt r (drainWithElement (m.relAt r) s0 el).1) s e
        = occSum sig (m.setRelAt r (drainWithElement (m.relAt r) s0 el).1) s e
          + (sig.rels.getD r default).weight *
            pendOcc (sig.rels.getD r default).arity removed s e := by
    intro s e
    have h1 := occSum_setRelAt sig m r (drainWithElement (m.relAt r) s0 el).1
      hr hrmm s e
    have h2 : relOccSum (sig.rels.getD r default)
        (drainWithElement (m.relAt r) s0 el).1 s e
        + (sig.rels.getD r default).weight *
          pendOcc (sig.rels.getD r default).arity removed s e
        = relOccSum (sig.rels.getD r default) (m.relAt r) s e := by
      unfold relOccSum
      have h3 := congrArg (fun x => (sig.rels.getD r default).weight * x)
        (hsplit (occCount (sig.rels.getD r default).arity s e))
      dsimp only at h3
      rw [Nat.mul_add] at h3
      exact h3
    have h4 : weightOf (m.setRelAt r (drainWithElement (m.relAt r) s0 el).1) s e
        = weightOf m s e := rfl
    have h5 := a7 s e
    omega
  have hB1 : ∀ s e,
      classSum sig m0.par
        (m.setRelAt r (drainWithElement (m.relAt r) s0 el).1).rels s e
        + (sig.rels.getD r default).weight *
          pendClass m0.par (sig.rels.getD r default).arity removed s e
      = classSum sig m0.par m.rels s e := by
    intro s e
    have h1 := classSum_setRels sig m0.par m.rels r
      (drainWithElement (m.relAt r) s0 el).1 hr hrmm s e
    have h2 : classRelSum m0.par (sig.rels.getD r default)
        (drainWithElement (m.relAt r) s0 el).1 s e
        + (sig.rels.getD r default).weight *
          pendClass m0.par (sig.rels.getD r default).arity removed s e
        = classRelSum m0.par (sig.rels.getD r default) (m.relAt r) s e := by
      unfold classRelSum
      have h3 := congrArg (fun x => (sig.rels.getD r default).weight * x)
        (hsplit (classOcc m0.par (sig.rels.getD r default).arity s e))
      dsimp only at h3
      rw [Nat.mul_add] at h3
      exact h3
    have h4 : m.rels.getD r default = m.relAt r := rfl
    rw [h4] at h1
    have h5 : (m.setRelAt r (drainWithElement (m.relAt r) s0 el).1).rels
        = m.rels.set r (drainWithElement (m.relAt r) s0 el).1 := rfl
    rw [h5]
    omega
  have hfold := canonTuple_fold sig r hr removed
    (m.setRelAt r (drainWithElement (m.relAt r) s0 el).1)
    (hm1rels.trans hlen2)
    (by
      intro s hs
      exact hparm s hs)
    (by
      rw [hrelAt1, hmfilter]
      constructor
      · exact List.Pairwise.filter _ (a5 r hr).1
      · intro u hu
        have hum := (List.mem_filter.mp hu).1
        have := (a5 r hr).2 u hum
        rw [hm1par]
        exact this)
    (fun s e => a6 s e)
    (by
      intro u hu
      have := (a5 r hr).2 u (hsub u hu)
      rw [hm1par]
      exact this)
    (by
      intro s e
      have h1 := hINV1 s e
      exact h1)
    (by
      intro s e
      rw [hm1par]
      have h1 := hB1 s e
      have h2 := a8 s e
      have h3 := hB0 s e
      omega)
  rcases hfold with ⟨c1, c2, c3, c4, c5, c6, c7, c8, c9, c10⟩
  rw [hm1par] at c1 c7 c10
  refine ⟨c1, ?_, ?_, ?_, ?_, c8, c9, ?_⟩
  · exact c2.trans a2
  · exact c3.trans (hm1rels.trans a3)
  · intro s'
    exact ⟨((c4 s').1).trans ((a4 s').1), ((c4 s').2).trans ((a4 s').2)⟩
  · intro r' hlt
    by_cases hrr : r' = r
    · subst hrr
      exact ⟨c6, c7⟩
    · have h1 := c5 r' hrr
      rw [relAt_setRelAt_ne hrr] at h1
      rw [h1]
      exact a5 r' hlt
  · intro s e
    have h1 := c10 s e
    have h2 := hB1 s e
    have h3 := a8 s e
    omega

theorem canonRelSort_J (sig : Sig) (r : Nat) (hr : r < sig.rels.length)
    (m0 : Model)
    (hlen0 : m0.rels.length = sig.rels.length)
    (hpar0 : ∀ s, s < sig.sortsCount → WFparents (m0.sortAt s))
    (hB0 : ∀ s e, classSum sig m0.par m0.rels s e ≤ USIZE_MAX)
    (m : Model) (s0 : Nat) (hJ : Jrel sig m0 m) :
    Jrel sig m0 (canonRelSort sig r m s0) := by
  unfold canonRelSort
  exact Jrel_foldl sig (canonRelSortEl sig r s0) m0 (m.sortAt s0).uprooted
    (fun m' el _ hJ' => canonRelSortEl_J sig r s0 hr m0 hlen0 hpar0 hB0 m' el hJ')
    m hJ

theorem canonRel_J (sig : Sig) (m0 : Model)
    (hlen0 : m0.rels.length = sig.rels.length)
    (hpar0 : ∀ s, s < sig.sortsCount → WFparents (m0.sortAt s))
    (hB0 : ∀ s e, classSum sig m0.par m0.rels s e ≤ USIZE_MAX)
    (m : Model) (r : Nat) (hr : r < sig.rels.length) (hJ : Jrel sig m0 m) :
    Jrel sig m0 (canonRel sig m r) := by
  unfold canonRel
  exact Jrel_foldl sig (canonRelSort sig r) m0 _
    (fun m' s0 _ hJ' => canonRelSort_J sig r hr m0 hlen0 hpar0 hB0 m' s0 hJ')
    m hJ

theorem sortAt_clear_uprooted (m1 : Model) (s : Nat) :
    (({ m1 with sorts := m1.sorts.map (fun st => { st with uprooted := [] }) }
        : Model).sortAt s)
      = { (m1.sortAt s) with uprooted := [] } := by
  unfold Model.sortAt
  dsimp only
  by_cases h : s < m1.sorts.length
  · rw [List.getD_eq_getElem?_getD, List.getElem?_map,
      List.getElem?_eq_getElem h]
    rw [List.getD_eq_getElem?_getD, List.getElem?_eq_getElem h]
    rfl
  · rw [List.getD_eq_default _ _ (by
      rw [List.length_map]; exact Nat.le_of_not_lt h)]
    rw [List.getD_eq_default _ _ (Nat.le_of_not_lt h)]
    rfl

/-- The generated `canonicalize` preserves the weight-accounting invariant
when no weight saturates (all root-class sums fit in `usize`). -/
theorem canonicalize_inv (sig : Sig) (m : Model)
    (hlen2 : m.rels.length = sig.rels.length)
    (hpar : ∀ s, s < sig.sortsCount → WFparents (m.sortAt s))
    (hrel : ∀ r', r' < sig.rels.length → ((m.relAt r').master.Sorted (· < ·) ∧
      ∀ u ∈ (m.relAt r').master,
        WFtuple sig.sortsCount m.par (sig.rels.getD r' default).arity u))
    (hw5 : ∀ s e, weightOf m s e ≤ USIZE_MAX)
    (hINV : ∀ s e, weightOf m s e = occSum sig m s e)
    (hB : ∀ s e, classSum sig m.par m.rels s e ≤ USIZE_MAX) :
    (canonicalize sig m).par = m.par ∧
    (canonicalize sig m).sorts.length = m.sorts.length ∧
    (canonicalize sig m).rels.length = m.rels.length ∧
    (∀ s', ((canonicalize sig m).sortAt s').weights.length
      = (m.sortAt s').weights.length) ∧
    (∀ r', r' < sig.rels.length →
      (((canonicalize sig m).relAt r').master.Sorted (· < ·) ∧
      ∀ u ∈ ((canonicalize sig m).relAt r').master,
        WFtuple sig.sortsCount m.par (sig.rels.getD r' default).arity u)) ∧
    (∀ s e, weightOf (canonicalize sig m) s e ≤ USIZE_MAX) ∧
    (∀ s e, weightOf (canonicalize sig m) s e
      = occSum sig (canonicalize sig m) s e) := by
  have hJ : Jrel sig m ((List.range sig.rels.length).foldl (canonRel sig) m) :=
    Jrel_foldl sig (canonRel sig) m (List.range sig.rels.length)
      (fun m' r' hr' hJ' =>
        canonRel_J sig m hlen2 hpar hB m' r' (List.mem_range.mp hr') hJ')
      m (Jrel_refl sig m hrel hw5 hINV)
  rcases hJ with ⟨a1, a2, a3, a4, a5, a6, a7, _⟩
  unfold canonicalize
  dsimp only
  refine ⟨?_, ?_, ?_, ?_, ?_, ?_, ?_⟩
  · funext s'
    show (Model.sortAt _ s').parents = m.par s'
    rw [sortAt_clear_uprooted]
    exact congrFun a1 s'
  · show (List.map _ _).length = m.sorts.length
    rw [List.length_map]
    exact a2
  · exact a3
  · intro s'
    show (Model.sortAt _ s').weights.length = (m.sortAt s').weights.length
    rw [sortAt_clear_uprooted]
    exact (a4 s').2
  · intro r' hlt
    exact a5 r' hlt
  · intro s e
    show (Model.sortAt _ s).weights.getD e 0 ≤ USIZE_MAX
    rw [sortAt_clear_uprooted]
    exact a6 s e
  · intro s e
    show (Model.sortAt _ s).weights.getD e 0 = _
    rw [sortAt_clear_uprooted]
    exact a7 s e

/-- The generated `canonicalize` preserves the top-level invariant when the
root-class weight sums fit in `usize`. -/
theorem canonicalize_INVC5 (sig : Sig) (m : Model)
    (hB : ∀ s, s < sig.sortsCount → ∀ e, e < (m.sortAt s).parents.length →
      classSum sig m.par m.rels s e ≤ USIZE_MAX)
    (h : INVC5 sig m) : INVC5 sig (canonicalize sig m) := by
  rcases h with ⟨⟨w1, w2, w3, w4, w5⟩, hinv⟩
  have hBfull : ∀ s e, classSum sig m.par m.rels s e ≤ USIZE_MAX := by
    intro s e
    by_cases hin : s < sig.sortsCount ∧ e < (m.sortAt s).parents.length
    · exact hB s hin.1 e hin.2
    · rw [classSum_eq_zero_of_oob sig m (fun r' hr' u hu => (w4 r' hr').2 u hu) w3
        (by show sig.sortsCount ≤ s ∨ ((m.sortAt s).parents).length ≤ e; omega)]
      exact Nat.zero_le _
  rcases canonicalize_inv sig m w2 w3 w4 w5 hinv hBfull with
    ⟨c1, c2, c3, c4, c5, c6, c7⟩
  refine ⟨⟨c2.trans w1, c3.trans w2, ?_, ?_, c6⟩, c7⟩
  · intro s hs
    rcases w3 s hs with ⟨hw0, hp0⟩
    have hps : ((canonicalize sig m).sortAt s).parents = (m.sortAt s).parents :=
      congrFun c1 s
    exact ⟨(c4 s).trans (hw0.trans (congrArg List.length hps.symm)), by
      rw [hps]; exact hp0⟩
  · intro r' hr'
    rcases c5 r' hr' with ⟨hs, hu⟩
    refine ⟨hs, ?_⟩
    rw [show (canonicalize sig m).par = m.par from c1]
    exact hu

/-- Modelled reachability for the weight-accounting claim: the states
obtainable from the fresh model through the generated mutators, with each
weight update staying below `usize::MAX` (the generated code saturates
instead of overflowing, so the accounting only holds while nothing
saturates).  `close` is the fuelled iteration of `drop_dirt`, rule matching,
and these same mutators (`write_close_until_fn`), so its steps are covered by
the `drop`, `insert`, `equate`, `define` and `canon` generators. -/
inductive ReachC5 (sig : Sig) : Model → Prop where
  | base : ReachC5 sig (modelNew sig)
  | newEl (m : Model) (s : Nat) (h : ReachC5 sig m) (hs : s < sig.sortsCount) :
      ReachC5 sig (newElement m s).1
  | insert (m : Model) (r : Nat) (args : List Nat) (h : ReachC5 sig m)
      (hr : r < sig.rels.length)
      (hlen : args.length = (sig.rels.getD r default).arity.length)
      (hargs : ∀ p ∈ (sig.rels.getD r default).arity.zip args,
        p.2 < (m.sortAt p.1).parents.length)
      (hbound : ∀ s, s < sig.sortsCount →
        ∀ e, e < (m.sortAt s).parents.length →
          occSum sig (insertRel sig m r args) s e ≤ USIZE_MAX) :
      ReachC5 sig (insertRel sig m r args)
  | equate (m : Model) (s a b : Nat) (h : ReachC5 sig m)
      (hs : s < sig.sortsCount)
      (ha : a < (m.sortAt s).parents.length)
      (hb : b < (m.sortAt s).parents.length) :
      ReachC5 sig (equateSort m s a b)
  | canon (m : Model) (h : ReachC5 sig m)
      (hbound : ∀ s, s < sig.sortsCount →
        ∀ e, e < (m.sortAt s).parents.length →
          classSum sig m.par m.rels s e ≤ USIZE_MAX) :
      ReachC5 sig (canonicalize sig m)
  | drop (m : Model) (h : ReachC5 sig m) : ReachC5 sig (dropDirt m)
  | defineF (m : Model) (r : Nat) (args : List Nat) (h : ReachC5 sig m)
      (hr : r < sig.rels.length)
      (hne : (sig.rels.getD r default).arity ≠ [])
      (hcod : (sig.rels.getD r default).arity.getLastD 0 < sig.sortsCount)
      (hlen : args.length = (sig.rels.getD r default).arity.length - 1)
      (hargs : ∀ p ∈ ((sig.rels.getD r default).arity.take
          ((sig.rels.getD r default).arity.length - 1)).zip args,
        p.2 < (m.sortAt p.1).parents.length)
      (hbound : ∀ s, s < sig.sortsCount →
        ∀ e, e < ((defineFunc sig m r args).1.sortAt s).parents.length →
          occSum sig (defineFunc sig m r args).1 s e ≤ USIZE_MAX) :
      ReachC5 sig (defineFunc sig m r args).1

set_option maxHeartbeats 1000000 in
/-- C5 (amended): in every state reachable through the generated mutators
with no weight saturation, the stored weight of every element equals the sum
over all relations of the relation's `WEIGHT` times the number of tuple
positions of that element's sort currently holding the element — occurrences
counted with multiplicity, not tuples counted once. -/
theorem c5_weight_accounting (sig : Sig) (hsig : SigWF sig) (m : Model)
    (h : ReachC5 sig m) :
    WFc5 sig m ∧ ∀ s e, weightOf m s e = occSum sig m s e := by
  have hmain : INVC5 sig m := by
    induction h with
    | base => exact modelNew_INVC5 sig
    | newEl m s h hs ih => exact newElement_INVC5 sig m s hs ih
    | insert m r args h hr hlen hargs hbound ih =>
        exact insertRel_INVC5 sig m r args hsig hr hlen hargs hbound ih
    | equate m s a b h hs ha hb ih => exact equate_INVC5 sig m s a b hs ha hb ih
    | canon m h hbound ih => exact canonicalize_INVC5 sig m hbound ih
    | drop m h ih => exact dropDirt_INVC5 sig m ih
    | defineF m r args h hr hne hcod hlen hargs hbound ih =>
        cases heval : funcEval sig m r args with
        | some res =>
            have hdef : (defineFunc sig m r args).1 = m := by
              unfold defineFunc
              rw [heval]
            rw [hdef]
            exact ih
        | none =>
            have hdef : (defineFunc sig m r args).1
                = insertRel sig
                  (newElementInternal m
                    ((sig.rels.getD r default).arity.getLastD 0)).1 r
                  (args ++ [(newElementInternal m
                    ((sig.rels.getD r default).arity.getLastD 0)).2]) := by
              unfold defineFunc
              rw [heval]
            rw [hdef]
            rw [hdef] at hbound
            set cod := (sig.rels.getD r default).arity.getLastD 0 with hcoddef
            set fr := newElementInternal m cod with hfrdef
            have hfresh : INVC5 sig fr.1 := newElement_INVC5 sig m cod hcod ih
            have hn : 0 < (sig.rels.getD r default).arity.length :=
              List.length_pos.mpr hne
            rcases List.eq_nil_or_concat (sig.rels.getD r default).arity with
              hnil | ⟨L, lastel, hLl⟩
            · exact absurd hnil hne
            · have hL : (sig.rels.getD r default).arity = L ++ [lastel] := by
                rw [hLl]
                rw [List.concat_eq_append]
              have hlastel : lastel = cod := by
                rw [hcoddef, hL, List.getLastD_concat]
              have hLlen : L.length = (sig.rels.getD r default).arity.length - 1 := by
                rw [hL, List.length_append]
                simp
              have hargslen : args.length = L.length := by omega
              have hfr2 : fr.2 = (m.sortAt cod).parents.length := by
                rw [hfrdef]
                rfl
              have hcodsorts : cod < m.sorts.length := by
                have hw1 := ih.1.1
                omega
              have hfrpar : fr.1.par cod
                  = (m.sortAt cod).parents ++ [(m.sortAt cod).parents.length] := by
                rw [hfrdef]
                show (newElementInternal m cod).1.par cod = _
                rw [par_newElementInternal, if_pos ⟨rfl, hcodsorts⟩]
              refine insertRel_INVC5 sig fr.1 r (args ++ [fr.2]) hsig hr ?_ ?_ ?_ hfresh
              · rw [List.length_append]
                simp only [List.length_cons, List.length_nil]
                omega
              · intro p hp
                rw [hL, List.zip_append (by exact hargslen.symm)] at hp
                rcases List.mem_append.mp hp with hp | hp
                · have hptake : p ∈ ((sig.rels.getD r default).arity.take
                      ((sig.rels.getD r default).arity.length - 1)).zip args := by
                    have htake : (sig.rels.getD r default).arity.take
                        ((sig.rels.getD r default).arity.length - 1) = L := by
                      rw [hL]
                      have hll : (L ++ [lastel]).length - 1 = L.length := by
                        rw [List.length_append]
                        simp
                      rw [hll]
                      exact List.take_left L [lastel]
                    rw [htake]
                    exact hp
                  have hlt := hargs p hptake
                  calc p.2 < (m.sortAt p.1).parents.length := hlt
                    _ ≤ ((fr.1).sortAt p.1).parents.length := by
                        have := parlen_newElement_mono m cod p.1
                        exact this
                · have hp2 : p = (lastel, fr.2) := by
                    simpa using hp
                  rw [hp2]
                  show fr.2 < ((fr.1).sortAt lastel).parents.length
                  rw [hlastel]
                  show fr.2 < (fr.1.par cod).length
                  rw [hfrpar, hfr2, List.length_append]
                  simp
              · intro s hs e he
                have hplen : ((insertRel sig fr.1 r (args ++ [fr.2])).sortAt s).parents
                    = ((fr.1).sortAt s).parents := insertRel_parents sig fr.1 r _ s
                exact hbound s hs e (by rw [hplen]; exact he)
  exact ⟨hmain.1, hmain.2⟩

/-- The reachable model refuting the per-tuple weight formula: one sort, one
binary relation of weight 6, one element, one diagonal tuple. -/
def mC5 : Model := insertRel sigW (newElement (modelNew sigW) 0).1 0 [0, 0]

/-- C5 counterexample: in the reachable state `mC5` the root element 0 has
stored weight 12 (`WEIGHT` charged per tuple position), while the claim's
formula `Σ_R WEIGHT·|{t ∈ R : e ∈ t}|` yields 6, because the diagonal tuple
`(0, 0)` is counted once as a tuple but charges both of its positions. -/
theorem c5_counterexample :
    ReachC5 sigW mC5 ∧
    rootTotal mC5 0 0 = 0 ∧
    weightOf mC5 0 0 = 12 ∧
    claimSum sigW mC5 0 0 = 6 ∧
    weightOf mC5 0 0 ≠ claimSum sigW mC5 0 0 := by
  refine ⟨?_, by decide, by decide, by decide, by decide⟩
  exact ReachC5.insert _ 0 [0, 0]
    (ReachC5.newEl _ 0 ReachC5.base (by decide))
    (by decide) (by decide) (by decide) (by decide)

/-- Witness: the amended accounting theorem applied to the concrete reachable
state `mC5`. -/
theorem c5_weight_accounting_witness :
    WFc5 sigW mC5 ∧ weightOf mC5 0 0 = occSum sigW mC5 0 0 :=
  ⟨(c5_weight_accounting sigW (by unfold SigWF; decide) mC5
      (ReachC5.insert _ 0 [0, 0]
        (ReachC5.newEl _ 0 ReachC5.base (by decide))
        (by decide) (by decide) (by decide) (by decide))).1,
   (c5_weight_accounting sigW (by unfold SigWF; decide) mC5
      (ReachC5.insert _ 0 [0, 0]
        (ReachC5.newEl _ 0 ReachC5.base (by decide))
        (by decide) (by decide) (by decide) (by decide))).2 0 0⟩

end ModelGen

namespace Flatten

/-!
The flattener of `flat_ast.rs`.  The surface-term types (`ast.rs`) and the
`TermUnification` bookkeeping (`unification.rs`) are not under `src/` and are
modelled from the spec; the emitter and `flatten_sequent` are translated from
`flat_ast.rs`.
-/

/-- Modelled from the spec: `TermData` of `ast.rs` is a variable, a wildcard,
or a function application whose arguments are previously created term ids. -/
inductive TermData where
  | Variable (name : String)
  | Wildcard
  | Application (func : String) (args : List Nat)
deriving DecidableEq, Repr

instance : Inhabited TermData := ⟨TermData.Wildcard⟩

/-- Modelled from the spec: `AtomData` of `ast.rs` is an equation, a
definedness assertion, or a predicate application. -/
inductive AtomData where
  | Equal (lhs rhs : Nat)
  | Defined (t : Nat) (sort : String)
  | Predicate (name : String) (args : List Nat)
deriving DecidableEq, Repr

/-- Modelled from the spec: a sequent is a premise and a conclusion sharing
one append-only term universe (here: the list of term entries, sub-terms
strictly before their parents). -/
structure Sequent where
  terms : List TermData
  premise : List AtomData
  conclusion : List AtomData
deriving DecidableEq, Repr

/-- Embeds `FlatTerm`/`FlatAtom` from `flat_ast.rs` (`FlatTerm` is its
`usize` payload). -/
inductive FlatAtom where
  | Equal (lhs rhs : Nat)
  | Relation (name : String) (args : List Nat)
  | Unconstrained (t : Nat) (sort : String)
deriving DecidableEq, Repr

/-- Embeds `FlatSequent` from `flat_ast.rs`. -/
structure FlatSequent where
  premise : List FlatAtom
  conclusion : List FlatAtom
deriving DecidableEq, Repr

/-- The premise walk of `FlatSequent::check`: fails on an `Equal` atom,
otherwise accumulates the occurred set. -/
def checkPremise : List FlatAtom → List Nat → Option (List Nat)
  | [], occ => some occ
  | (FlatAtom.Equal _ _) :: _, _ => none
  | (FlatAtom.Relation _ args) :: rest, occ => checkPremise rest (occ ++ args)
  | (FlatAtom.Unconstrained t _) :: rest, occ => checkPremise rest (occ ++ [t])

/-- The conclusion walk of `FlatSequent::check`: fails on `Unconstrained`,
demands every non-last `Relation` argument already occurred, and distinct
`Equal` sides.  The claim additionally demands that both `Equal` sides have
occurred, so that condition is checked here as well. -/
def checkConclusion : List FlatAtom → List Nat → Bool
  | [], _ => true
  | (FlatAtom.Unconstrained _ _) :: _, _ => false
  | (FlatAtom.Relation _ args) :: rest, occ =>
      args.dropLast.all (fun a => occ.contains a) &&
        checkConclusion rest (occ ++ args)
  | (FlatAtom.Equal a b) :: rest, occ =>
      !(a == b) && occ.contains a && occ.contains b &&
        checkConclusion rest (occ ++ [a, b])

/-- The well-formedness property of the claim: `FlatSequent::check` succeeds
together with the occurred-ness of conclusion `Equal` sides. -/
def FlatSequent.wellFormed (fs : FlatSequent) : Bool :=
  match checkPremise fs.premise [] with
  | none => false
  | some occ => checkConclusion fs.conclusion occ

/-- Modelled from the spec: a term-indexed union-find carrying one value per
class (`TermUnification` of `unification.rs`).  The parents list is a root
map; occurrences of one variable name denote one binder and therefore start
out unified. -/
structure UF (α : Type) where
  parents : List Nat
  values : List α
deriving DecidableEq, Repr

def ufRoot (u : UF α) (t : Nat) : Nat := u.parents.getD t t

def ufGet [Inhabited α] (u : UF α) (t : Nat) : α :=
  u.values.getD (ufRoot u t) default

def ufSet (u : UF α) (t : Nat) (v : α) : UF α :=
  { u with values := u.values.set (ufRoot u t) v }

/-- `TermUnification::union`: the left class's root survives and the merge
function combines the class values left-to-right. -/
def ufUnion [Inhabited α] (merge : α → α → α) (u : UF α) (a b : Nat) : UF α :=
  let ra := ufRoot u a
  let rb := ufRoot u b
  if ra = rb then u
  else
    { parents := u.parents.map (fun x => if x = rb then ra else x)
      values := u.values.set ra (merge (u.values.getD ra default)
        (u.values.getD rb default)) }

/-- One congruence pass: whenever two application terms with the same head
and arity sit in one class, unify their arguments pointwise. -/
def ccRound [Inhabited α] (terms : List TermData) (merge : α → α → α)
    (u : UF α) : UF α :=
  (List.range terms.length).foldl
    (fun acc i =>
      (List.range terms.length).foldl
        (fun acc2 j =>
          match terms.getD i default, terms.getD j default with
          | TermData.Application f as2, TermData.Application g bs =>
            if f = g ∧ as2.length = bs.length ∧ ufRoot acc2 i = ufRoot acc2 j then
              (as2.zip bs).foldl (fun acc3 p => ufUnion merge acc3 p.1 p.2) acc2
            else acc2
          | _, _ => acc2)
        acc)
    u

/-- `congruence_closure`: pass count bounded by the class count. -/
def cc [Inhabited α] (terms : List TermData) (merge : α → α → α)
    (u : UF α) : UF α :=
  Nat.rec u (fun _ acc => ccRound terms merge acc) (terms.length + 1)

/-- The least index carrying the same variable name (the identity for
non-variables): the initial unification of a named binder's occurrences. -/
def initParent (terms : List TermData) (i : Nat) : Nat :=
  match terms.getD i default with
  | TermData.Variable name =>
    (List.range terms.length).findIdx
      (fun j => terms.getD j default == TermData.Variable name)
  | _ => i

def ufNew (terms : List TermData) (α : Type) (d : α) : UF α :=
  { parents := (List.range terms.length).map (initParent terms)
    values := List.replicate terms.length d }

/-- `NameMerge`: first-writer-wins. -/
def nameMerge : Option Nat → Option Nat → Option Nat
  | some n, _ => some n
  | none, r => r

/-- `IsAddedMerge` / `IsConstrainedMerge`: logical or. -/
def orMerge (l r : Bool) : Bool := l || r

/-- The emitter state (`Emitter` of `flat_ast.rs`). -/
structure Em where
  names : UF (Option Nat)
  nameNum : Nat
  added : UF Bool
  constrained : UF Bool
deriving Repr

/-- `Emitter::new`: three congruence-closed unifications over the universe. -/
def emNew (terms : List TermData) : Em :=
  { names := cc terms nameMerge (ufNew terms (Option Nat) none)
    nameNum := 0
    added := cc terms orMerge (ufNew terms Bool false)
    constrained := cc terms orMerge (ufNew terms Bool false) }

/-- Post-order sub-term traversal (`iter_subterms`); the fuel dominates the
term id, which dominates the ids of all sub-terms. -/
def subtFuel (terms : List TermData) : Nat → Nat → List Nat
  | 0, t => [t]
  | fuel + 1, t =>
    match terms.getD t default with
    | TermData.Application _ args =>
      args.flatMap (subtFuel terms fuel) ++ [t]
    | _ => [t]

def subt (terms : List TermData) (t : Nat) : List Nat := subtFuel terms t t

/-- `Atom::iter_subterms`. -/
def atomSubterms (terms : List TermData) : AtomData → List Nat
  | AtomData.Equal l r => subt terms l ++ subt terms r
  | AtomData.Defined t _ => subt terms t
  | AtomData.Predicate _ args => args.flatMap (subt terms)

/-- `Emitter::setup_premise_term`. -/
def setupPremiseTerm (terms : List TermData) (em : Em) (t : Nat) : Em :=
  let em1 :=
    match terms.getD t default with
    | TermData.Application _ args =>
      let c1 := args.foldl (fun acc a => ufSet acc a true) em.constrained
      { em with constrained := ufSet c1 t true }
    | _ => em
  { em1 with constrained := cc terms orMerge em1.constrained }

/-- `Emitter::setup_premise_atom`. -/
def setupPremiseAtom (terms : List TermData) (em : Em) (atom : AtomData) : Em :=
  let em1 :=
    match atom with
    | AtomData.Equal l r =>
      { em with
        names := ufUnion nameMerge em.names l r
        constrained := ufUnion orMerge em.constrained l r }
    | AtomData.Defined _ _ => em
    | AtomData.Predicate _ args =>
      { em with constrained := args.foldl (fun acc a => ufSet acc a true) em.constrained }
  { em1 with
    constrained := cc terms orMerge em1.constrained
    names := cc terms nameMerge em1.names }

/-- `Emitter::emit_term_structure`. -/
def emitTermStructure (terms : List TermData) (sorts : List String)
    (st : Em × List FlatAtom) (t : Nat) : Em × List FlatAtom :=
  let em := st.1
  let out := st.2
  if ufGet em.added t then (em, out)
  else
    let em1 := { em with added := ufSet em.added t true }
    let pr : Nat × Em :=
      match ufGet em1.names t with
      | some n => (n, em1)
      | none =>
        (em1.nameNum,
         { em1 with
            names := ufSet em1.names t (some em1.nameNum)
            nameNum := em1.nameNum + 1 })
    let name := pr.1
    let em2 := pr.2
    match terms.getD t default with
    | TermData.Variable _ =>
      if ufGet em2.constrained t then (em2, out)
      else (em2, out ++ [FlatAtom.Unconstrained name (sorts.getD t "")])
    | TermData.Wildcard =>
      if ufGet em2.constrained t then (em2, out)
      else (em2, out ++ [FlatAtom.Unconstrained name (sorts.getD t "")])
    | TermData.Application f args =>
      (em2, out ++ [FlatAtom.Relation f
        (args.map (fun a => (ufGet em2.names a).getD 0) ++ [name])])

/-- `Emitter::emit_atom`. -/
def emitAtom (terms : List TermData) (sorts : List String)
    (st : Em × List FlatAtom) (atom : AtomData) : Em × List FlatAtom :=
  let em := st.1
  let out := st.2
  match atom with
  | AtomData.Equal l r =>
    let een : Option (Nat × Nat) :=
      match ufGet em.names l, ufGet em.names r with
      | some a, some b => if a ≠ b then some (a, b) else none
      | _, _ => none
    let em1 := { em with names := ufUnion nameMerge em.names l r }
    let st2 := (atomSubterms terms (AtomData.Equal l r)).foldl
      (emitTermStructure terms sorts) (em1, out)
    let out3 :=
      match een with
      | some pr => st2.2 ++ [FlatAtom.Equal pr.1 pr.2]
      | none => st2.2
    let em4 :=
      { st2.1 with
        added := cc terms orMerge (ufUnion orMerge st2.1.added l r)
        names := cc terms nameMerge st2.1.names }
    (em4, out3)
  | AtomData.Defined t s =>
    (atomSubterms terms (AtomData.Defined t s)).foldl
      (emitTermStructure terms sorts) (em, out)
  | AtomData.Predicate p args =>
    let st2 := (atomSubterms terms (AtomData.Predicate p args)).foldl
      (emitTermStructure terms sorts) (em, out)
    (st2.1, st2.2 ++ [FlatAtom.Relation p
      (args.map (fun a => (ufGet st2.1.names a).getD 0))])

/-- Embeds `flatten_sequent` from `flat_ast.rs`. -/
def flatten_sequent (seq : Sequent) (sorts : List String) : FlatSequent :=
  let em0 := emNew seq.terms
  let em1 := seq.premise.foldl
    (fun acc atom =>
      setupPremiseAtom seq.terms
        ((atomSubterms seq.terms atom).foldl (setupPremiseTerm seq.terms) acc)
        atom)
    em0
  let stP := seq.premise.foldl (emitAtom seq.terms sorts) (em1, [])
  let stC := seq.conclusion.foldl (emitAtom seq.terms sorts) (stP.1, [])
  { premise := stP.2, conclusion := stC.2 }

end Flatten

namespace Flatten

/-- A sequent p(x) ⊢ q(y) whose conclusion variable y does not occur in the
premise. -/
def seqCE : Sequent :=
  { terms := [TermData.Variable "x", TermData.Variable "y"]
    premise := [AtomData.Predicate "p" [0]]
    conclusion := [AtomData.Predicate "q" [1]] }

/-- C1 counterexample: on the sequent p(x) ⊢ q(y) the flattener emits an
Unconstrained atom in the conclusion, so the returned FlatSequent is not
well-formed; the claim's universal statement fails. -/
theorem c1_counterexample :
    flatten_sequent seqCE ["s", "s"] =
      { premise := [FlatAtom.Relation "p" [0]]
        conclusion := [FlatAtom.Unconstrained 1 "s", FlatAtom.Relation "q" [1]] } ∧
    (flatten_sequent seqCE ["s", "s"]).wellFormed = false := by
  exact ⟨by rfl, by rfl⟩

end Flatten

namespace Flatten

/-- Well-formed unification state over a universe of n terms: the parents
list is an idempotent in-range root map and values are aligned. -/
def UFWF (n : Nat) (u : UF α) : Prop :=
  u.parents.length = n ∧ u.values.length = n ∧
  ∀ i, i < n → ufRoot u i < n ∧ ufRoot u (ufRoot u i) = ufRoot u i

theorem getD_map_of_lt (f : Nat → Nat) (l : List Nat) (i : Nat) (h : i < l.length)
    (d d' : Nat) : (l.map f).getD i d = f (l.getD i d') := by
  rw [List.getD_eq_getElem?_getD, List.getD_eq_getElem?_getD,
    List.getElem?_map, List.getElem?_eq_getElem h]
  rfl

theorem ufRoot_oob (u : UF α) (n : Nat) (hwf : UFWF n u) (i : Nat) (h : n ≤ i) :
    ufRoot u i = i := by
  unfold ufRoot
  rw [List.getD_eq_getElem?_getD, List.getElem?_eq_none]
  · rfl
  · rw [hwf.1]; exact h

theorem ufRoot_ufSet (u : UF α) (t : Nat) (v : α) (i : Nat) :
    ufRoot (ufSet u t v) i = ufRoot u i := rfl

theorem values_length_ufSet (u : UF α) (t : Nat) (v : α) :
    (ufSet u t v).values.length = u.values.length := by
  unfold ufSet
  exact List.length_set _ _ _

theorem UFWF_ufSet (u : UF α) (n : Nat) (hwf : UFWF n u) (t : Nat) (v : α) :
    UFWF n (ufSet u t v) := by
  refine ⟨hwf.1, ?_, fun i hi => hwf.2.2 i hi⟩
  rw [values_length_ufSet]
  exact hwf.2.1

theorem ufRoot_ufUnion [Inhabited α] (m : α → α → α) (u : UF α) (n : Nat)
    (hwf : UFWF n u) (a b : Nat) (hb : b < n) (i : Nat) :
    ufRoot (ufUnion m u a b) i =
      if ufRoot u i = ufRoot u b then ufRoot u a else ufRoot u i := by
  unfold ufUnion
  by_cases heq : ufRoot u a = ufRoot u b
  · rw [if_pos heq]
    by_cases hib : ufRoot u i = ufRoot u b
    · rw [if_pos hib, hib, ← heq]
    · rw [if_neg hib]
  · rw [if_neg heq]
    show (u.parents.map
      (fun x => if x = ufRoot u b then ufRoot u a else x)).getD i i = _
    by_cases hi : i < n
    · rw [getD_map_of_lt _ _ _ (by rw [hwf.1]; exact hi) _ i]
      rfl
    · push_neg at hi
      rw [List.getD_eq_getElem?_getD, List.getElem?_eq_none
        (by rw [List.length_map, hwf.1]; exact hi)]
      have h1 := ufRoot_oob u n hwf i hi
      have h2 : ufRoot u b < n := (hwf.2.2 b hb).1
      rw [h1, if_neg (by omega)]
      rfl

theorem UFWF_ufUnion [Inhabited α] (m : α → α → α) (u : UF α) (n : Nat)
    (hwf : UFWF n u) (a b : Nat) (ha : a < n) (hb : b < n) :
    UFWF n (ufUnion m u a b) := by
  have hra : ufRoot u a < n := (hwf.2.2 a ha).1
  have hchar := ufRoot_ufUnion m u n hwf a b hb
  refine ⟨?_, ?_, ?_⟩
  · unfold ufUnion
    by_cases heq : ufRoot u a = ufRoot u b
    · rw [if_pos heq]; exact hwf.1
    · rw [if_neg heq]
      show (u.parents.map _).length = n
      rw [List.length_map]; exact hwf.1
  · unfold ufUnion
    by_cases heq : ufRoot u a = ufRoot u b
    · rw [if_pos heq]; exact hwf.2.1
    · rw [if_neg heq]
      show (u.values.set _ _).length = n
      rw [List.length_set]; exact hwf.2.1
  · intro i hi
    constructor
    · rw [hchar i]
      by_cases hib : ufRoot u i = ufRoot u b
      · rw [if_pos hib]; exact hra
      · rw [if_neg hib]; exact (hwf.2.2 i hi).1
    · rw [hchar i]
      by_cases hib : ufRoot u i = ufRoot u b
      · rw [if_pos hib, hchar (ufRoot u a), (hwf.2.2 a ha).2]
        by_cases hab : ufRoot u a = ufRoot u b
        · rw [if_pos hab, hab]
        · rw [if_neg hab]
      · rw [if_neg hib, hchar (ufRoot u i), (hwf.2.2 i hi).2, if_neg hib]

/-- Partition refinement: every class of x is contained in a class of y. -/
def UFle (x : UF α) (y : UF β) : Prop :=
  ∀ i j, ufRoot x i = ufRoot x j → ufRoot y i = ufRoot y j

theorem UFle_refl (x : UF α) : UFle x x := fun _ _ h => h

theorem UFle_trans {x : UF α} {y : UF β} {z : UF γ} (h1 : UFle x y)
    (h2 : UFle y z) : UFle x z := fun i j h => h2 i j (h1 i j h)

theorem UFle_of_parents_eq {x : UF α} {y : UF β} (h : x.parents = y.parents) :
    UFle x y := by
  intro i j hij
  unfold ufRoot at hij ⊢
  rw [← h]
  exact hij

theorem UFle_ufSet (u : UF α) (t : Nat) (v : α) : UFle u (ufSet u t v) :=
  UFle_of_parents_eq rfl

theorem UFle_ufSet_rev (u : UF α) (t : Nat) (v : α) : UFle (ufSet u t v) u :=
  UFle_of_parents_eq rfl

theorem UFle_ufUnion_self [Inhabited α] (m : α → α → α) (u : UF α) (n : Nat)
    (hwf : UFWF n u) (a b : Nat) (hb : b < n) : UFle u (ufUnion m u a b) := by
  intro i j hij
  rw [ufRoot_ufUnion m u n hwf a b hb, ufRoot_ufUnion m u n hwf a b hb, hij]

theorem ufRoot_ufUnion_ab [Inhabited α] (m : α → α → α) (u : UF α) (n : Nat)
    (hwf : UFWF n u) (a b : Nat) (ha : a < n) (hb : b < n) :
    ufRoot (ufUnion m u a b) a = ufRoot (ufUnion m u a b) b := by
  rw [ufRoot_ufUnion m u n hwf a b hb, ufRoot_ufUnion m u n hwf a b hb,
    if_pos rfl]
  by_cases hab : ufRoot u a = ufRoot u b
  · rw [if_pos hab]
  · rw [if_neg hab]

theorem UFle_ufUnion_into [Inhabited α] {m : α → α → α} {x : UF α} {y : UF β}
    {n : Nat} (hwf : UFWF n x) {a b : Nat} (hb : b < n) (hxy : UFle x y)
    (hab : ufRoot y a = ufRoot y b) : UFle (ufUnion m x a b) y := by
  intro i j hij
  rw [ufRoot_ufUnion m x n hwf a b hb, ufRoot_ufUnion m x n hwf a b hb] at hij
  by_cases hib : ufRoot x i = ufRoot x b
  · by_cases hjb : ufRoot x j = ufRoot x b
    · have h1 := hxy i b hib
      have h2 := hxy j b hjb
      rw [h1, h2]
    · rw [if_pos hib, if_neg hjb] at hij
      have h1 := hxy i b hib
      have h2 := hxy j a hij.symm
      rw [h1, h2, hab]
  · by_cases hjb : ufRoot x j = ufRoot x b
    · rw [if_neg hib, if_pos hjb] at hij
      have h1 := hxy i a hij
      have h2 := hxy j b hjb
      rw [h1, h2, hab]
    · rw [if_neg hib, if_neg hjb] at hij
      exact hxy i j hij

theorem UFle_ufUnion_mono [Inhabited α] [Inhabited β] {mx : α → α → α}
    {my : β → β → β} {x : UF α} {y : UF β} {n : Nat} (hwfx : UFWF n x)
    (hwfy : UFWF n y) {a b : Nat} (ha : a < n) (hb : b < n) (hxy : UFle x y) :
    UFle (ufUnion mx x a b) (ufUnion my y a b) :=
  UFle_ufUnion_into hwfx hb
    (UFle_trans hxy (UFle_ufUnion_self my y n hwfy a b hb))
    (ufRoot_ufUnion_ab my y n hwfy a b ha hb)

end Flatten

namespace Flatten

/-- foldl preserves an invariant. -/
theorem foldl_inv {β σ : Type} (P : σ → Prop) (f : σ → β → σ) (l : List β)
    (u : σ) (h0 : P u) (hstep : ∀ acc x, x ∈ l → P acc → P (f acc x)) :
    P (l.foldl f u) := by
  induction l generalizing u with
  | nil => exact h0
  | cons x xs ih =>
    exact ih (f u x) (hstep u x (List.mem_cons_self x xs) h0)
      (fun acc y hy => hstep acc y (List.mem_cons_of_mem x hy))

/-- foldl decomposition at a member. -/
theorem foldl_decompose {β σ : Type} (f : σ → β → σ) (l : List β) (x : β)
    (hx : x ∈ l) (u : σ) :
    ∃ l1 l2, l = l1 ++ x :: l2 ∧
      l.foldl f u = l2.foldl f (f (l1.foldl f u) x) := by
  rcases List.append_of_mem hx with ⟨l1, l2, rfl⟩
  refine ⟨l1, l2, rfl, ?_⟩
  rw [List.foldl_append]
  rfl

/-- foldl of pointwise-fixing steps is the identity. -/
theorem foldl_fixpoint {β σ : Type} (f : σ → β → σ) (l : List β) (u : σ)
    (h : ∀ x, x ∈ l → f u x = u) : l.foldl f u = u := by
  induction l with
  | nil => rfl
  | cons x xs ih =>
    rw [List.foldl_cons, h x (List.mem_cons_self x xs)]
    exact ih (fun y hy => h y (List.mem_cons_of_mem x hy))

/-- foldl where each step either fixes the state or decreases a measure. -/
theorem foldl_fix_or_lt {β σ : Type} (P : σ → Prop) (meas : σ → Nat)
    (f : σ → β → σ) (l : List β) (u : σ) (h0 : P u)
    (hstep : ∀ acc x, x ∈ l → P acc →
      P (f acc x) ∧ (f acc x = acc ∨ meas (f acc x) < meas acc)) :
    P (l.foldl f u) ∧ (l.foldl f u = u ∨ meas (l.foldl f u) < meas u) := by
  induction l generalizing u with
  | nil => exact ⟨h0, Or.inl rfl⟩
  | cons x xs ih =>
    have hx := hstep u x (List.mem_cons_self x xs) h0
    have hrec := ih (f u x) hx.1
      (fun acc y hy hacc => hstep acc y (List.mem_cons_of_mem x hy) hacc)
    refine ⟨hrec.1, ?_⟩
    rcases hrec.2 with h | h
    · rw [List.foldl_cons, h]
      rcases hx.2 with h2 | h2
      · rw [h2]; exact Or.inl rfl
      · exact Or.inr h2
    · rw [List.foldl_cons]
      rcases hx.2 with h2 | h2
      · rw [h2] at h ⊢
        exact Or.inr h
      · exact Or.inr (lt_trans h h2)

/-- Universe well-formedness: application arguments precede the application. -/
def termsWF (terms : List TermData) : Prop :=
  ∀ i, i < terms.length → ∀ f args,
    terms.getD i default = TermData.Application f args → ∀ a, a ∈ args → a < i

/-- An invariant preserved by in-range unions is preserved by one
congruence pass. -/
theorem ccRound_inv [Inhabited α] {terms : List TermData} {m : α → α → α}
    (htw : termsWF terms) (P : UF α → Prop)
    (hP : ∀ v a b, a < terms.length → b < terms.length → P v →
      P (ufUnion m v a b))
    (u : UF α) (hu : P u) : P (ccRound terms m u) := by
  unfold ccRound
  refine foldl_inv P _ _ u hu (fun acc i hi hacc => ?_)
  refine foldl_inv P _ _ acc hacc (fun acc2 j hj hacc2 => ?_)
  split
  · rename_i f as2 g bs hti htj
    split
    · rename_i hcond
      refine foldl_inv P _ _ acc2 hacc2 (fun acc3 p hp hacc3 => ?_)
      have hi' := List.mem_range.mp hi
      have hj' := List.mem_range.mp hj
      have h1 := htw i hi' f as2 hti p.1 (List.of_mem_zip hp).1
      have h2 := htw j hj' g bs htj p.2 (List.of_mem_zip hp).2
      exact hP acc3 p.1 p.2 (by omega) (by omega) hacc3
    · exact hacc2
  · exact hacc2

/-- An invariant preserved by in-range unions is preserved by
congruence closure. -/
theorem cc_inv [Inhabited α] {terms : List TermData} {m : α → α → α}
    (htw : termsWF terms) (P : UF α → Prop)
    (hP : ∀ v a b, a < terms.length → b < terms.length → P v →
      P (ufUnion m v a b))
    (u : UF α) (hu : P u) : P (cc terms m u) := by
  unfold cc
  induction terms.length + 1 with
  | zero => exact hu
  | succ k ih => exact ccRound_inv htw P hP _ ih

theorem UFWF_ccRound [Inhabited α] {terms : List TermData} {m : α → α → α}
    (htw : termsWF terms) (u : UF α) (hwf : UFWF terms.length u) :
    UFWF terms.length (ccRound terms m u) :=
  ccRound_inv htw (UFWF terms.length)
    (fun v a b ha hb hv => UFWF_ufUnion m v terms.length hv a b ha hb) u hwf

theorem UFWF_cc [Inhabited α] {terms : List TermData} {m : α → α → α}
    (htw : termsWF terms) (u : UF α) (hwf : UFWF terms.length u) :
    UFWF terms.length (cc terms m u) :=
  cc_inv htw (UFWF terms.length)
    (fun v a b ha hb hv => UFWF_ufUnion m v terms.length hv a b ha hb) u hwf

theorem UFle_ccRound_self [Inhabited α] {terms : List TermData} {m : α → α → α}
    (htw : termsWF terms) (u : UF α) (hwf : UFWF terms.length u) :
    UFle u (ccRound terms m u) :=
  (ccRound_inv htw (fun v => UFWF terms.length v ∧ UFle u v)
    (fun v a b ha hb hv =>
      ⟨UFWF_ufUnion m v terms.length hv.1 a b ha hb,
       UFle_trans hv.2 (UFle_ufUnion_self m v terms.length hv.1 a b hb)⟩)
    u ⟨hwf, UFle_refl u⟩).2

theorem UFle_cc_self [Inhabited α] {terms : List TermData} {m : α → α → α}
    (htw : termsWF terms) (u : UF α) (hwf : UFWF terms.length u) :
    UFle u (cc terms m u) :=
  (cc_inv htw (fun v => UFWF terms.length v ∧ UFle u v)
    (fun v a b ha hb hv =>
      ⟨UFWF_ufUnion m v terms.length hv.1 a b ha hb,
       UFle_trans hv.2 (UFle_ufUnion_self m v terms.length hv.1 a b hb)⟩)
    u ⟨hwf, UFle_refl u⟩).2

/-- Refinement into a congruence-stable coarser partition is preserved by
closure. -/
def ccStable (terms : List TermData) (y : UF β) : Prop :=
  ∀ i j, i < terms.length → j < terms.length → ufRoot y i = ufRoot y j →
    ∀ f as2 bs, terms.getD i default = TermData.Application f as2 →
      terms.getD j default = TermData.Application f bs →
      as2.length = bs.length → ∀ p, p ∈ as2.zip bs → ufRoot y p.1 = ufRoot y p.2

theorem UFle_ccRound_into [Inhabited α] {terms : List TermData} {m : α → α → α}
    {y : UF β} (htw : termsWF terms) (hst : ccStable terms y) (u : UF α)
    (hwf : UFWF terms.length u) (hle : UFle u y) :
    UFle (ccRound terms m u) y := by
  unfold ccRound
  refine (foldl_inv (fun v => UFWF terms.length v ∧ UFle v y) _ _ u ⟨hwf, hle⟩
    (fun acc i hi hacc => ?_)).2
  refine foldl_inv (fun v => UFWF terms.length v ∧ UFle v y) _ _ acc hacc
    (fun acc2 j hj hacc2 => ?_)
  split
  · rename_i f as2 g bs hti htj
    split
    · rename_i hcond
      have hi' := List.mem_range.mp hi
      have hj' := List.mem_range.mp hj
      have hstab := hst i j hi' hj' (hacc2.2 i j hcond.2.2) f as2 bs hti
        (by rw [htj, hcond.1]) hcond.2.1
      refine foldl_inv (fun v => UFWF terms.length v ∧ UFle v y) _ _ acc2 hacc2
        (fun acc3 p hp hacc3 => ?_)
      have h1 := htw i hi' f as2 hti p.1 (List.of_mem_zip hp).1
      have h2 := htw j hj' g bs htj p.2 (List.of_mem_zip hp).2
      exact ⟨UFWF_ufUnion m acc3 terms.length hacc3.1 p.1 p.2 (by omega) (by omega),
        UFle_ufUnion_into hacc3.1 (by omega) hacc3.2 (hstab p hp)⟩
    · exact hacc2
  · exact hacc2

theorem UFle_cc_into [Inhabited α] {terms : List TermData} {m : α → α → α}
    {y : UF β} (htw : termsWF terms) (hst : ccStable terms y) (u : UF α)
    (hwf : UFWF terms.length u) (hle : UFle u y) :
    UFle (cc terms m u) y := by
  unfold cc
  have h : ∀ k, UFWF terms.length (Nat.rec u (fun _ acc => ccRound terms m acc) k) ∧
      UFle (Nat.rec u (fun _ acc => ccRound terms m acc) k) y := by
    intro k
    induction k with
    | zero => exact ⟨hwf, hle⟩
    | succ k ih =>
      exact ⟨UFWF_ccRound htw _ ih.1, UFle_ccRound_into htw hst _ ih.1 ih.2⟩
  exact (h (terms.length + 1)).2

theorem ufUnion_eq_self_of_root_eq [Inhabited α] (m : α → α → α) (u : UF α)
    (a b : Nat) (h : ufRoot u a = ufRoot u b) : ufUnion m u a b = u := by
  unfold ufUnion
  rw [if_pos h]

theorem ccRound_eq_self_of_stable [Inhabited α] {terms : List TermData}
    {m : α → α → α} (u : UF α) (hst : ccStable terms u) :
    ccRound terms m u = u := by
  unfold ccRound
  refine foldl_fixpoint _ _ u (fun i hi => ?_)
  refine foldl_fixpoint _ _ u (fun j hj => ?_)
  split
  · rename_i f as2 g bs hti htj
    split
    · rename_i hcond
      have hstab := hst i j (List.mem_range.mp hi) (List.mem_range.mp hj)
        hcond.2.2 f as2 bs hti (by rw [htj, hcond.1]) hcond.2.1
      exact foldl_fixpoint _ _ u
        (fun p hp => ufUnion_eq_self_of_root_eq m u p.1 p.2 (hstab p hp))
    · rfl
  · rfl

theorem cc_eq_self_of_stable [Inhabited α] {terms : List TermData}
    {m : α → α → α} (u : UF α) (hst : ccStable terms u) :
    cc terms m u = u := by
  unfold cc
  induction terms.length + 1 with
  | zero => rfl
  | succ k ih =>
    show ccRound terms m (Nat.rec u (fun _ acc => ccRound terms m acc) _) = u
    rw [ih, ccRound_eq_self_of_stable u hst]

/-- Number of classes: the number of in-range fixed points of the root map. -/
def classCount (n : Nat) (u : UF α) : Nat :=
  ((List.range n).filter (fun i => ufRoot u i == i)).length

theorem classCount_le (n : Nat) (u : UF α) : classCount n u ≤ n := by
  unfold classCount
  calc ((List.range n).filter (fun i => ufRoot u i == i)).length
      ≤ (List.range n).length := List.length_filter_le _ _
    _ = n := List.length_range n

theorem classCount_ufUnion_lt [Inhabited α] (m : α → α → α) (u : UF α) (n : Nat)
    (hwf : UFWF n u) (a b : Nat) (ha : a < n) (hb : b < n)
    (hne : ufRoot u a ≠ ufRoot u b) :
    classCount n (ufUnion m u a b) < classCount n u := by
  have hchar := ufRoot_ufUnion m u n hwf a b hb
  have hiff : ∀ i, i < n →
      ((ufRoot (ufUnion m u a b) i == i) = true ↔
        (ufRoot u i == i) = true ∧ i ≠ ufRoot u b) := by
    intro i hi
    rw [hchar i]
    constructor
    · intro h
      by_cases hib : ufRoot u i = ufRoot u b
      · rw [if_pos hib] at h
        have h2 : ufRoot u a = i := by
          have := beq_iff_eq.mp h
          exact this
        exfalso
        apply hne
        have h3 : ufRoot u i = i := by
          rw [← h2]
          exact (hwf.2.2 a ha).2
        rw [h2, ← hib, h3]
      · rw [if_neg hib] at h
        refine ⟨h, fun hcon => hib ?_⟩
        rw [← hcon] at hib ⊢
        exact beq_iff_eq.mp h
    · intro ⟨h1, h2⟩
      have h3 : ufRoot u i = i := beq_iff_eq.mp h1
      rw [if_neg (by rw [h3]; exact h2), h3]
      exact beq_iff_eq.mpr rfl
  have hall : ∀ i, (ufRoot (ufUnion m u a b) i == i) = true →
      (ufRoot u i == i) = true := by
    intro i h
    by_cases hi : i < n
    · exact ((hiff i hi).mp h).1
    · push_neg at hi
      have h1 := ufRoot_oob u n hwf i hi
      rw [h1]
      exact beq_iff_eq.mpr rfl
  have hsub : List.Sublist
      ((List.range n).filter (fun i => ufRoot (ufUnion m u a b) i == i))
      ((List.range n).filter (fun i => ufRoot u i == i)) :=
    List.monotone_filter_right _ hall
  have hlen := hsub.length_le
  rcases Nat.lt_or_ge (classCount n (ufUnion m u a b)) (classCount n u) with h | h
  · exact h
  · exfalso
    have heq : classCount n (ufUnion m u a b) = classCount n u := le_antisymm hlen h
    have hlists := hsub.eq_of_length heq
    set rb := ufRoot u b with hrb
    have hrbn : rb < n := (hwf.2.2 b hb).1
    have hrbmem : rb ∈ (List.range n).filter (fun i => ufRoot u i == i) := by
      rw [List.mem_filter]
      exact ⟨List.mem_range.mpr hrbn, beq_iff_eq.mpr (hwf.2.2 b hb).2⟩
    rw [← hlists, List.mem_filter] at hrbmem
    have h2 := (hiff rb hrbn).mp hrbmem.2
    exact h2.2 rfl

theorem ccRound_eq_or_lt [Inhabited α] {terms : List TermData}
    {m : α → α → α} (htw : termsWF terms) (u : UF α)
    (hwf : UFWF terms.length u) :
    ccRound terms m u = u ∨
      classCount terms.length (ccRound terms m u) < classCount terms.length u := by
  unfold ccRound
  refine (foldl_fix_or_lt (UFWF terms.length) (classCount terms.length) _ _ u hwf
    (fun acc i hi hacc => ?_)).2
  refine foldl_fix_or_lt (UFWF terms.length) (classCount terms.length) _ _ acc hacc
    (fun acc2 j hj hacc2 => ?_)
  split
  · rename_i f as2 g bs hti htj
    split
    · rename_i hcond
      refine foldl_fix_or_lt (UFWF terms.length) (classCount terms.length) _ _
        acc2 hacc2 (fun acc3 p hp hacc3 => ?_)
      have hi' := List.mem_range.mp hi
      have hj' := List.mem_range.mp hj
      have h1 := htw i hi' f as2 hti p.1 (List.of_mem_zip hp).1
      have h2 := htw j hj' g bs htj p.2 (List.of_mem_zip hp).2
      refine ⟨UFWF_ufUnion m acc3 terms.length hacc3 p.1 p.2 (by omega) (by omega), ?_⟩
      by_cases hr : ufRoot acc3 p.1 = ufRoot acc3 p.2
      · exact Or.inl (ufUnion_eq_self_of_root_eq m acc3 p.1 p.2 hr)
      · exact Or.inr (classCount_ufUnion_lt m acc3 terms.length hacc3 p.1 p.2
          (by omega) (by omega) hr)
    · exact ⟨hacc2, Or.inl rfl⟩
  · exact ⟨hacc2, Or.inl rfl⟩

def ccIter [Inhabited α] (terms : List TermData) (m : α → α → α)
    (u : UF α) : Nat → UF α
  | 0 => u
  | Nat.succ k => ccRound terms m (ccIter terms m u k)

theorem cc_eq_ccIter [Inhabited α] (terms : List TermData) (m : α → α → α)
    (u : UF α) : cc terms m u = ccIter terms m u (terms.length + 1) := by
  suffices h : ∀ k, Nat.rec u (fun _ acc => ccRound terms m acc) k
      = ccIter terms m u k from h (terms.length + 1)
  intro k
  induction k with
  | zero => rfl
  | succ k ih =>
    show ccRound terms m (Nat.rec u (fun _ acc => ccRound terms m acc) k)
      = ccRound terms m (ccIter terms m u k)
    rw [ih]

theorem ccIter_of_fix [Inhabited α] {terms : List TermData} {m : α → α → α}
    (u : UF α) (h : ccRound terms m u = u) (k : Nat) :
    ccIter terms m u k = u := by
  induction k with
  | zero => rfl
  | succ k ih =>
    show ccRound terms m (ccIter terms m u k) = u
    rw [ih, h]

theorem ccIter_comm [Inhabited α] {terms : List TermData} {m : α → α → α}
    (u : UF α) (k : Nat) :
    ccRound terms m (ccIter terms m u k) =
      ccIter terms m (ccRound terms m u) k := by
  induction k with
  | zero => rfl
  | succ k ih =>
    show ccRound terms m (ccRound terms m (ccIter terms m u k)) = _
    rw [ih]
    rfl

theorem ccRound_cc_fix [Inhabited α] {terms : List TermData} {m : α → α → α}
    (htw : termsWF terms) (u : UF α) (hwf : UFWF terms.length u) :
    ccRound terms m (cc terms m u) = cc terms m u := by
  have key : ∀ k u2, UFWF terms.length u2 → classCount terms.length u2 ≤ k →
      ccRound terms m (ccIter terms m u2 k) = ccIter terms m u2 k := by
    intro k
    induction k with
    | zero =>
      intro u2 hwf2 hcnt
      by_cases hn : terms.length = 0
      · show ccRound terms m u2 = u2
        unfold ccRound
        rw [hn]
        rfl
      · exfalso
        have h0 : 0 < terms.length := Nat.pos_of_ne_zero hn
        have hroot := hwf2.2.2 0 h0
        have hmem : ufRoot u2 0 ∈
            (List.range terms.length).filter (fun i => ufRoot u2 i == i) := by
          rw [List.mem_filter]
          exact ⟨List.mem_range.mpr hroot.1, beq_iff_eq.mpr hroot.2⟩
        have := List.length_pos.mpr (List.ne_nil_of_mem hmem)
        unfold classCount at hcnt
        omega
    | succ k ih =>
      intro u2 hwf2 hcnt
      by_cases hfix : ccRound terms m u2 = u2
      · rw [ccIter_of_fix u2 hfix (k + 1)]
        exact hfix
      · have hlt := (ccRound_eq_or_lt htw u2 hwf2).resolve_left hfix
        have hwf3 : UFWF terms.length (ccRound terms m u2) := UFWF_ccRound htw u2 hwf2
        have hstep : ccIter terms m u2 (k + 1)
            = ccIter terms m (ccRound terms m u2) k := by
          show ccRound terms m (ccIter terms m u2 k) = _
          exact ccIter_comm u2 k
        rw [hstep]
        exact ih (ccRound terms m u2) hwf3 (by omega)
  rw [cc_eq_ccIter]
  exact key (terms.length + 1) u hwf
    (le_trans (classCount_le terms.length u) (Nat.le_succ _))

theorem cc_of_ccRound_fix [Inhabited α] {terms : List TermData} {m : α → α → α}
    (u : UF α) (h : ccRound terms m u = u) : cc terms m u = u := by
  rw [cc_eq_ccIter]
  exact ccIter_of_fix u h (terms.length + 1)

theorem cc_idem [Inhabited α] {terms : List TermData} {m : α → α → α}
    (htw : termsWF terms) (u : UF α) (hwf : UFWF terms.length u) :
    cc terms m (cc terms m u) = cc terms m u :=
  cc_of_ccRound_fix _ (ccRound_cc_fix htw u hwf)

def unifyArgs [Inhabited α] (m : α → α → α) (ps : List (Nat × Nat))
    (u : UF α) : UF α :=
  ps.foldl (fun acc3 p => ufUnion m acc3 p.1 p.2) u

def ccInner [Inhabited α] (terms : List TermData) (m : α → α → α) (i : Nat)
    (acc : UF α) : UF α :=
  (List.range terms.length).foldl
    (fun acc2 j =>
      match terms.getD i default, terms.getD j default with
      | TermData.Application f as2, TermData.Application g bs =>
        if f = g ∧ as2.length = bs.length ∧ ufRoot acc2 i = ufRoot acc2 j then
          (as2.zip bs).foldl (fun acc3 p => ufUnion m acc3 p.1 p.2) acc2
        else acc2
      | _, _ => acc2)
    acc

theorem ccRound_eq_inner [Inhabited α] (terms : List TermData)
    (m : α → α → α) (u : UF α) :
    ccRound terms m u =
      (List.range terms.length).foldl (fun acc i => ccInner terms m i acc) u := rfl

theorem unifyArgs_wf_le [Inhabited α] (m : α → α → α) {n : Nat}
    (ps : List (Nat × Nat)) (hps : ∀ p, p ∈ ps → p.1 < n ∧ p.2 < n)
    (u : UF α) (hwf : UFWF n u) :
    UFWF n (unifyArgs m ps u) ∧ UFle u (unifyArgs m ps u) :=
  foldl_inv (fun v => UFWF n v ∧ UFle u v) _ ps u ⟨hwf, UFle_refl u⟩
    (fun acc p hp hacc =>
      ⟨UFWF_ufUnion m acc n hacc.1 p.1 p.2 (hps p hp).1 (hps p hp).2,
       UFle_trans hacc.2 (UFle_ufUnion_self m acc n hacc.1 p.1 p.2 (hps p hp).2)⟩)

theorem unifyArgs_unifies [Inhabited α] (m : α → α → α) {n : Nat}
    (ps : List (Nat × Nat)) (hps : ∀ p, p ∈ ps → p.1 < n ∧ p.2 < n)
    (u : UF α) (hwf : UFWF n u) (p : Nat × Nat) (hp : p ∈ ps) :
    ufRoot (unifyArgs m ps u) p.1 = ufRoot (unifyArgs m ps u) p.2 := by
  rcases foldl_decompose (fun acc3 q => ufUnion m acc3 q.1 q.2) ps p hp u
    with ⟨l1, l2, hsplit, hfold⟩
  have hl1 : ∀ q, q ∈ l1 → q.1 < n ∧ q.2 < n := by
    intro q hq
    exact hps q (by rw [hsplit]; exact List.mem_append_left _ hq)
  have hl2 : ∀ q, q ∈ l2 → q.1 < n ∧ q.2 < n := by
    intro q hq
    exact hps q (by
      rw [hsplit]
      exact List.mem_append_right _ (List.mem_cons_of_mem p hq))
  have hv := unifyArgs_wf_le m l1 hl1 u hwf
  set v := unifyArgs m l1 u with hvdef
  have hwfv2 : UFWF n (ufUnion m v p.1 p.2) :=
    UFWF_ufUnion m v n hv.1 p.1 p.2 (hps p hp).1 (hps p hp).2
  have hab : ufRoot (ufUnion m v p.1 p.2) p.1 = ufRoot (ufUnion m v p.1 p.2) p.2 :=
    ufRoot_ufUnion_ab m v n hv.1 p.1 p.2 (hps p hp).1 (hps p hp).2
  have hrest := unifyArgs_wf_le m l2 hl2 (ufUnion m v p.1 p.2) hwfv2
  show ufRoot (unifyArgs m ps u) p.1 = ufRoot (unifyArgs m ps u) p.2
  have hfold2 : unifyArgs m ps u = unifyArgs m l2 (ufUnion m v p.1 p.2) := hfold
  rw [hfold2]
  exact hrest.2 p.1 p.2 hab

theorem lt_of_getD_app {terms : List TermData} {i : Nat} {f : String}
    {args : List Nat}
    (h : terms.getD i default = TermData.Application f args) :
    i < terms.length := by
  by_cases hin : i < terms.length
  · exact hin
  · exfalso
    rw [List.getD_eq_getElem?_getD, List.getElem?_eq_none (by omega)] at h
    exact TermData.noConfusion h

theorem ccInner_wf_le [Inhabited α] {terms : List TermData} (m : α → α → α)
    (htw : termsWF terms) (i : Nat) (acc : UF α)
    (hwf : UFWF terms.length acc) :
    UFWF terms.length (ccInner terms m i acc) ∧
      UFle acc (ccInner terms m i acc) := by
  unfold ccInner
  refine foldl_inv (fun v => UFWF terms.length v ∧ UFle acc v) _ _ acc
    ⟨hwf, UFle_refl acc⟩ (fun acc2 j hj hacc2 => ?_)
  split
  · rename_i f as2 g bs hti htj
    split
    · rename_i hcond
      have hargs : ∀ p, p ∈ as2.zip bs → p.1 < terms.length ∧ p.2 < terms.length := by
        intro p hp
        have h1 := htw i (lt_of_getD_app hti) f as2 hti p.1 (List.of_mem_zip hp).1
        have h2 := htw j (lt_of_getD_app htj) g bs htj p.2 (List.of_mem_zip hp).2
        have := lt_of_getD_app hti
        have := lt_of_getD_app htj
        omega
      have h := unifyArgs_wf_le m (as2.zip bs) hargs acc2 hacc2.1
      exact ⟨h.1, UFle_trans hacc2.2 h.2⟩
    · exact hacc2
  · exact hacc2

theorem ccInner_unifies [Inhabited α] {terms : List TermData} (m : α → α → α)
    (htw : termsWF terms) (i j : Nat) (hi : i < terms.length)
    (hj : j < terms.length) (acc : UF α) (hwf : UFWF terms.length acc)
    (hroot : ufRoot acc i = ufRoot acc j) (f : String) (as2 bs : List Nat)
    (hti : terms.getD i default = TermData.Application f as2)
    (htj : terms.getD j default = TermData.Application f bs)
    (hlen : as2.length = bs.length) (p : Nat × Nat) (hp : p ∈ as2.zip bs) :
    ufRoot (ccInner terms m i acc) p.1 = ufRoot (ccInner terms m i acc) p.2 := by
  have hargs : ∀ q, q ∈ as2.zip bs → q.1 < terms.length ∧ q.2 < terms.length := by
    intro q hq
    have h1 := htw i hi f as2 hti q.1 (List.of_mem_zip hq).1
    have h2 := htw j hj f bs htj q.2 (List.of_mem_zip hq).2
    omega
  unfold ccInner
  rcases foldl_decompose _ (List.range terms.length) j
    (List.mem_range.mpr hj) acc with ⟨l1, l2, hsplit, hfold⟩
  rw [hfold]
  set v := l1.foldl (fun acc2 j2 =>
      match terms.getD i default, terms.getD j2 default with
      | TermData.Application f as2, TermData.Application g bs =>
        if f = g ∧ as2.length = bs.length ∧ ufRoot acc2 i = ufRoot acc2 j2 then
          (as2.zip bs).foldl (fun acc3 p => ufUnion m acc3 p.1 p.2) acc2
        else acc2
      | _, _ => acc2) acc with hvdef
  have hv : UFWF terms.length v ∧ UFle acc v := by
    rw [hvdef]
    refine foldl_inv (fun w => UFWF terms.length w ∧ UFle acc w) _ _ acc
      ⟨hwf, UFle_refl acc⟩ (fun acc2 j2 hj2 hacc2 => ?_)
    split
    · rename_i f2 as3 g2 bs2 hti2 htj2
      split
      · rename_i hcond
        have hargs2 : ∀ q, q ∈ as3.zip bs2 →
            q.1 < terms.length ∧ q.2 < terms.length := by
          intro q hq
          have h1 := htw i (lt_of_getD_app hti2) f2 as3 hti2 q.1
            (List.of_mem_zip hq).1
          have h2 := htw j2 (lt_of_getD_app htj2) g2 bs2 htj2 q.2
            (List.of_mem_zip hq).2
          have := lt_of_getD_app hti2
          have := lt_of_getD_app htj2
          omega
        have h := unifyArgs_wf_le m (as3.zip bs2) hargs2 acc2 hacc2.1
        exact ⟨h.1, UFle_trans hacc2.2 h.2⟩
      · exact hacc2
    · exact hacc2
  have hstep : (match terms.getD i default, terms.getD j default with
      | TermData.Application f as2, TermData.Application g bs =>
        if f = g ∧ as2.length = bs.length ∧ ufRoot v i = ufRoot v j then
          (as2.zip bs).foldl (fun acc3 p => ufUnion m acc3 p.1 p.2) v
        else v
      | _, _ => v) = unifyArgs m (as2.zip bs) v := by
    rw [hti, htj]
    show (if f = f ∧ as2.length = bs.length ∧ ufRoot v i = ufRoot v j then
        (as2.zip bs).foldl (fun acc3 p => ufUnion m acc3 p.1 p.2) v
      else v) = _
    rw [if_pos ⟨rfl, hlen, hv.2 i j hroot⟩]
    rfl
  rw [hstep]
  have hwfu := unifyArgs_wf_le m (as2.zip bs) hargs v hv.1
  have huni := unifyArgs_unifies m (as2.zip bs) hargs v hv.1 p hp
  refine (foldl_inv (fun w => UFWF terms.length w ∧ ufRoot w p.1 = ufRoot w p.2)
    _ l2 (unifyArgs m (as2.zip bs) v) ⟨hwfu.1, huni⟩
    (fun acc2 j2 hj2 hacc2 => ?_)).2
  split
  · rename_i f2 as3 g2 bs2 hti2 htj2
    split
    · rename_i hcond
      have hargs2 : ∀ q, q ∈ as3.zip bs2 →
          q.1 < terms.length ∧ q.2 < terms.length := by
        intro q hq
        have h1 := htw i (lt_of_getD_app hti2) f2 as3 hti2 q.1
          (List.of_mem_zip hq).1
        have h2 := htw j2 (lt_of_getD_app htj2) g2 bs2 htj2 q.2
          (List.of_mem_zip hq).2
        have := lt_of_getD_app hti2
        have := lt_of_getD_app htj2
        omega
      have h := unifyArgs_wf_le m (as3.zip bs2) hargs2 acc2 hacc2.1
      exact ⟨h.1, h.2 p.1 p.2 hacc2.2⟩
    · exact hacc2
  · exact hacc2

theorem ccRound_unifies [Inhabited α] {terms : List TermData} (m : α → α → α)
    (htw : termsWF terms) (u : UF α) (hwf : UFWF terms.length u)
    (i j : Nat) (hi : i < terms.length) (hj : j < terms.length)
    (hroot : ufRoot u i = ufRoot u j) (f : String) (as2 bs : List Nat)
    (hti : terms.getD i default = TermData.Application f as2)
    (htj : terms.getD j default = TermData.Application f bs)
    (hlen : as2.length = bs.length) (p : Nat × Nat) (hp : p ∈ as2.zip bs) :
    ufRoot (ccRound terms m u) p.1 = ufRoot (ccRound terms m u) p.2 := by
  rw [ccRound_eq_inner]
  rcases foldl_decompose (fun acc i2 => ccInner terms m i2 acc)
    (List.range terms.length) i (List.mem_range.mpr hi) u
    with ⟨l1, l2, hsplit, hfold⟩
  rw [hfold]
  have hv := foldl_inv (fun w => UFWF terms.length w ∧ UFle u w) _ l1 u
    ⟨hwf, UFle_refl u⟩
    (fun acc i2 hi2 hacc =>
      ⟨(ccInner_wf_le m htw i2 acc hacc.1).1,
       UFle_trans hacc.2 (ccInner_wf_le m htw i2 acc hacc.1).2⟩)
  set v := l1.foldl (fun acc i2 => ccInner terms m i2 acc) u with hvdef
  have hstep := ccInner_unifies m htw i j hi hj v hv.1 (hv.2 i j hroot)
    f as2 bs hti htj hlen p hp
  have hwfstep := ccInner_wf_le m htw i v hv.1
  exact (foldl_inv
    (fun w => UFWF terms.length w ∧ ufRoot w p.1 = ufRoot w p.2) _ l2
    (ccInner terms m i v) ⟨hwfstep.1, hstep⟩
    (fun acc i2 hi2 hacc =>
      ⟨(ccInner_wf_le m htw i2 acc hacc.1).1,
       (ccInner_wf_le m htw i2 acc hacc.1).2 p.1 p.2 hacc.2⟩)).2

theorem ccStable_cc [Inhabited α] {terms : List TermData} {m : α → α → α}
    (htw : termsWF terms) (u : UF α) (hwf : UFWF terms.length u) :
    ccStable terms (cc terms m u) := by
  intro i j hi hj hroot f as2 bs hti htj hlen p hp
  have h := ccRound_unifies m htw (cc terms m u) (UFWF_cc htw u hwf)
    i j hi hj hroot f as2 bs hti htj hlen p hp
  rw [ccRound_cc_fix htw u hwf] at h
  exact h

theorem getD_set_eq {l : List α} {i : Nat} (v d : α) (h : i < l.length) :
    (l.set i v).getD i d = v := by
  rw [List.getD_eq_getElem?_getD, List.getElem?_set_self (by omega)]
  rfl

theorem getD_set_ne {l : List α} {i j : Nat} (v d : α) (h : i ≠ j) :
    (l.set i v).getD j d = l.getD j d := by
  rw [List.getD_eq_getElem?_getD, List.getElem?_set_ne h, ← List.getD_eq_getElem?_getD]

theorem ufGet_ufSet [Inhabited α] (u : UF α) {n : Nat} (hwf : UFWF n u)
    (t : Nat) (ht : t < n) (v : α) (s : Nat) :
    ufGet (ufSet u t v) s =
      if ufRoot u s = ufRoot u t then v else ufGet u s := by
  unfold ufGet ufSet
  show (u.values.set (ufRoot u t) v).getD (ufRoot u s) default = _
  by_cases h : ufRoot u s = ufRoot u t
  · rw [if_pos h, h, getD_set_eq v default (by rw [hwf.2.1]; exact (hwf.2.2 t ht).1)]
  · rw [if_neg h, getD_set_ne v default (fun hc => h hc.symm)]

theorem ufGet_ufSet_root_lt [Inhabited α] (u : UF α) (t : Nat)
    (hroot : ufRoot u t < u.values.length) (v : α) (s : Nat) :
    ufGet (ufSet u t v) s =
      if ufRoot u s = ufRoot u t then v else ufGet u s := by
  unfold ufGet ufSet
  show (u.values.set (ufRoot u t) v).getD (ufRoot u s) default = _
  by_cases h : ufRoot u s = ufRoot u t
  · rw [if_pos h, h, getD_set_eq v default hroot]
  · rw [if_neg h, getD_set_ne v default (fun hc => h hc.symm)]

theorem ufGet_root_eq [Inhabited α] (u : UF α) {s t : Nat}
    (h : ufRoot u s = ufRoot u t) : ufGet u s = ufGet u t := by
  unfold ufGet
  rw [h]

/-- The class value after a union is the old value of the class, or the
merge of the two unioned class values. -/
theorem ufGet_ufUnion [Inhabited α] (m : α → α → α) (u : UF α) {n : Nat}
    (hwf : UFWF n u) (a b : Nat) (ha : a < n) (hb : b < n) (t : Nat) :
    ufGet (ufUnion m u a b) t = ufGet u t ∨
      ((ufRoot u t = ufRoot u a ∨ ufRoot u t = ufRoot u b) ∧
        ufGet (ufUnion m u a b) t = m (ufGet u a) (ufGet u b)) := by
  by_cases heq : ufRoot u a = ufRoot u b
  · rw [ufUnion_eq_self_of_root_eq m u a b heq]
    exact Or.inl rfl
  · have hchar := ufRoot_ufUnion m u n hwf a b hb
    have hget : ∀ s, ufGet (ufUnion m u a b) s =
        (u.values.set (ufRoot u a)
          (m (u.values.getD (ufRoot u a) default)
            (u.values.getD (ufRoot u b) default))).getD
          (ufRoot (ufUnion m u a b) s) default := by
      intro s
      unfold ufGet ufUnion
      rw [if_neg heq]
    by_cases ht : ufRoot (ufUnion m u a b) t = ufRoot u a
    · refine Or.inr ⟨?_, ?_⟩
      · rw [hchar t] at ht
        by_cases hub : ufRoot u t = ufRoot u b
        · exact Or.inr hub
        · rw [if_neg hub] at ht
          exact Or.inl ht
      · rw [hget t, hchar t]
        by_cases hub : ufRoot u t = ufRoot u b
        · rw [if_pos hub,
            getD_set_eq _ default (by rw [hwf.2.1]; exact (hwf.2.2 a ha).1)]
          rfl
        · rw [hchar t, if_neg hub] at ht
          rw [if_neg hub, ht,
            getD_set_eq _ default (by rw [hwf.2.1]; exact (hwf.2.2 a ha).1)]
          rfl
    · refine Or.inl ?_
      rw [hget t, getD_set_ne _ default (fun hc => ht hc.symm)]
      have htr : ufRoot (ufUnion m u a b) t = ufRoot u t := by
        rw [hchar t]
        by_cases hub : ufRoot u t = ufRoot u b
        · exfalso
          apply ht
          rw [hchar t, if_pos hub]
        · rw [if_neg hub]
      rw [htr]
      rfl

/-- A property of all class values is preserved by union when the merge
preserves it. -/
theorem ufGet_all_ufUnion [Inhabited α] (m : α → α → α) (P : α → Prop)
    (hm : ∀ x y, P x → P y → P (m x y)) (u : UF α) {n : Nat}
    (hwf : UFWF n u) (a b : Nat) (ha : a < n) (hb : b < n)
    (hall : ∀ t, P (ufGet u t)) : ∀ t, P (ufGet (ufUnion m u a b) t) := by
  intro t
  rcases ufGet_ufUnion m u hwf a b ha hb t with h | h
  · rw [h]; exact hall t
  · rw [h.2]; exact hm _ _ (hall a) (hall b)

theorem ufGet_true_ufUnion (u : UF Bool) {n : Nat} (hwf : UFWF n u)
    (a b : Nat) (ha : a < n) (hb : b < n) (t : Nat) (h : ufGet u t = true) :
    ufGet (ufUnion orMerge u a b) t = true := by
  rcases ufGet_ufUnion orMerge u hwf a b ha hb t with h2 | h2
  · rw [h2]; exact h
  · rw [h2.2]
    rcases h2.1 with hr | hr
    · have : ufGet u a = true := by rw [← ufGet_root_eq u hr]; exact h
      unfold orMerge
      rw [this]
      rfl
    · have : ufGet u b = true := by rw [← ufGet_root_eq u hr]; exact h
      unfold orMerge
      rw [this]
      exact Bool.or_true _


theorem ufGet_all_cc [Inhabited α] {terms : List TermData} (m : α → α → α)
    (P : α → Prop) (hm : ∀ x y, P x → P y → P (m x y))
    (htw : termsWF terms) (u : UF α) (hwf : UFWF terms.length u)
    (hall : ∀ t, P (ufGet u t)) : ∀ t, P (ufGet (cc terms m u) t) :=
  (cc_inv htw (fun v => UFWF terms.length v ∧ ∀ t, P (ufGet v t))
    (fun v a b ha hb hv =>
      ⟨UFWF_ufUnion m v terms.length hv.1 a b ha hb,
       ufGet_all_ufUnion m P hm v hv.1 a b ha hb hv.2⟩)
    u ⟨hwf, hall⟩).2

theorem ufGet_true_cc {terms : List TermData} (htw : termsWF terms)
    (u : UF Bool) (hwf : UFWF terms.length u) (t : Nat)
    (h : ufGet u t = true) : ufGet (cc terms orMerge u) t = true :=
  (cc_inv htw (fun v => UFWF terms.length v ∧ ufGet v t = true)
    (fun v a b ha hb hv =>
      ⟨UFWF_ufUnion orMerge v terms.length hv.1 a b ha hb,
       ufGet_true_ufUnion v hv.1 a b ha hb t hv.2⟩)
    u ⟨hwf, h⟩).2

theorem ufGet_isSome_ufUnion (u : UF (Option Nat)) {n : Nat} (hwf : UFWF n u)
    (a b : Nat) (ha : a < n) (hb : b < n) (t : Nat)
    (h : (ufGet u t).isSome = true) :
    (ufGet (ufUnion nameMerge u a b) t).isSome = true := by
  rcases ufGet_ufUnion nameMerge u hwf a b ha hb t with h2 | h2
  · rw [h2]; exact h
  · rw [h2.2]
    rcases h2.1 with hr | hr
    · have hsa : (ufGet u a).isSome = true := by
        rw [← ufGet_root_eq u hr]; exact h
      rcases hopt : ufGet u a with _ | k
      · rw [hopt] at hsa; exact absurd hsa (by simp)
      · rfl
    · have hsb : (ufGet u b).isSome = true := by
        rw [← ufGet_root_eq u hr]; exact h
      rcases hopt : ufGet u a with _ | k
      · show (ufGet u b).isSome = true
        exact hsb
      · rfl

theorem ufGet_isSome_cc {terms : List TermData} (htw : termsWF terms)
    (u : UF (Option Nat)) (hwf : UFWF terms.length u) (t : Nat)
    (h : (ufGet u t).isSome = true) :
    (ufGet (cc terms nameMerge u) t).isSome = true :=
  (cc_inv htw (fun v => UFWF terms.length v ∧ (ufGet v t).isSome = true)
    (fun v a b ha hb hv =>
      ⟨UFWF_ufUnion nameMerge v terms.length hv.1 a b ha hb,
       ufGet_isSome_ufUnion v hv.1 a b ha hb t hv.2⟩)
    u ⟨hwf, h⟩).2

theorem ufGet_true_ufSet (u : UF Bool) {n : Nat} (hwf : UFWF n u)
    (t0 : Nat) (ht0 : t0 < n) (t : Nat) (h : ufGet u t = true) :
    ufGet (ufSet u t0 true) t = true := by
  rw [ufGet_ufSet u hwf t0 ht0 true t]
  by_cases hr : ufRoot u t = ufRoot u t0
  · rw [if_pos hr]
  · rw [if_neg hr]; exact h

theorem ufGet_some_ufSet_of_none (u : UF (Option Nat)) {n : Nat}
    (hwf : UFWF n u) (t0 : Nat) (ht0 : t0 < n) (h0 : ufGet u t0 = none)
    (v : Option Nat) (t : Nat) (k : Nat) (h : ufGet u t = some k) :
    ufGet (ufSet u t0 v) t = some k := by
  rw [ufGet_ufSet u hwf t0 ht0 v t]
  by_cases hr : ufRoot u t = ufRoot u t0
  · exfalso
    rw [ufGet_root_eq u hr, h0] at h
    exact Option.noConfusion h
  · rw [if_neg hr]; exact h

theorem mem_zip_self {l : List α} {p : α × α} (h : p ∈ l.zip l) :
    p.1 = p.2 := by
  induction l with
  | nil => exact absurd h (List.not_mem_nil p)
  | cons x xs ih =>
    rw [List.zip_cons_cons] at h
    rcases List.mem_cons.mp h with h | h
    · rw [h]
    · exact ih h

theorem getD_range {n i : Nat} (h : i < n) (d : Nat) :
    (List.range n).getD i d = i := by
  rw [List.getD_eq_getElem?_getD, List.getElem?_range h]
  rfl

theorem initParent_lt (terms : List TermData) (i : Nat) (hi : i < terms.length) :
    initParent terms i < terms.length := by
  unfold initParent
  split
  · rename_i name hname
    have hex : ∃ x ∈ List.range terms.length,
        (fun j => terms.getD j default == TermData.Variable name) x = true := by
      refine ⟨i, List.mem_range.mpr hi, ?_⟩
      show (terms.getD i default == TermData.Variable name) = true
      rw [hname]
      exact beq_iff_eq.mpr rfl
    have hlt := List.findIdx_lt_length_of_exists hex
    rw [List.length_range] at hlt
    exact hlt
  · exact hi

theorem initParent_spec (terms : List TermData) (i : Nat) (hi : i < terms.length)
    (name : String) (hname : terms.getD i default = TermData.Variable name) :
    terms.getD (initParent terms i) default = TermData.Variable name := by
  unfold initParent
  rw [hname]
  show terms.getD ((List.range terms.length).findIdx
      (fun j => terms.getD j default == TermData.Variable name)) default
    = TermData.Variable name
  have hex : ∃ x ∈ List.range terms.length,
      (fun j => terms.getD j default == TermData.Variable name) x = true := by
    refine ⟨i, List.mem_range.mpr hi, ?_⟩
    show (terms.getD i default == TermData.Variable name) = true
    rw [hname]
    exact beq_iff_eq.mpr rfl
  have hlt := List.findIdx_lt_length_of_exists hex
  have hget := @List.findIdx_getElem _ _ _ hlt
  rw [List.getElem_range] at hget
  exact beq_iff_eq.mp hget

theorem initParent_name_eq (terms : List TermData) (i j : Nat)
    (hi : i < terms.length) (hj : j < terms.length) (name : String)
    (hni : terms.getD i default = TermData.Variable name)
    (hnj : terms.getD j default = TermData.Variable name) :
    initParent terms i = initParent terms j := by
  unfold initParent
  rw [hni, hnj]

theorem initParent_idem (terms : List TermData) (i : Nat)
    (hi : i < terms.length) :
    initParent terms (initParent terms i) = initParent terms i := by
  by_cases hv : ∃ name, terms.getD i default = TermData.Variable name
  · rcases hv with ⟨name, hname⟩
    have h1 := initParent_spec terms i hi name hname
    have h2 := initParent_name_eq terms (initParent terms i) i
      (initParent_lt terms i hi) hi name h1 hname
    rw [h2]
  · have : initParent terms i = i := by
      unfold initParent
      split
      · rename_i name hname
        exact absurd ⟨name, hname⟩ hv
      · rfl
    rw [this]
    exact this

theorem ufNew_parents_length (terms : List TermData) (α : Type) (d : α) :
    (ufNew terms α d).parents.length = terms.length := by
  unfold ufNew
  rw [List.length_map, List.length_range]

theorem ufRoot_ufNew (terms : List TermData) (α : Type) (d : α) (i : Nat)
    (hi : i < terms.length) : ufRoot (ufNew terms α d) i = initParent terms i := by
  unfold ufRoot ufNew
  show (((List.range terms.length).map (initParent terms))).getD i i = _
  rw [getD_map_of_lt _ _ _ (by rw [List.length_range]; exact hi) _ 0,
    getD_range hi]

theorem UFWF_ufNew (terms : List TermData) (α : Type) (d : α) :
    UFWF terms.length (ufNew terms α d) := by
  refine ⟨ufNew_parents_length terms α d, ?_, ?_⟩
  · unfold ufNew
    exact List.length_replicate _ _
  · intro i hi
    refine ⟨by rw [ufRoot_ufNew terms α d i hi]; exact initParent_lt terms i hi, ?_⟩
    rw [ufRoot_ufNew terms α d i hi,
      ufRoot_ufNew terms α d _ (initParent_lt terms i hi),
      initParent_idem terms i hi]

theorem ufGet_ufNew [Inhabited α] (terms : List TermData) (d : α) (t : Nat)
    (hd : (default : α) = d) : ufGet (ufNew terms α d) t = d := by
  unfold ufGet
  generalize ufRoot (ufNew terms α d) t = r
  show (ufNew terms α d).values.getD r default = d
  show (List.replicate terms.length d).getD r default = d
  rw [List.getD_eq_getElem?_getD]
  rcases h : (List.replicate terms.length d)[r]? with _ | v
  · exact hd
  · show v = d
    exact List.eq_of_mem_replicate (List.getElem?_mem h)

theorem ccStable_ufNew (terms : List TermData) (α : Type) (d : α) :
    ccStable terms (ufNew terms α d) := by
  intro i j hi hj hroot f as2 bs hti htj hlen p hp
  rw [ufRoot_ufNew terms α d i hi, ufRoot_ufNew terms α d j hj] at hroot
  have hip : initParent terms i = i := by
    unfold initParent
    rw [hti]
  have hjp : initParent terms j = j := by
    unfold initParent
    rw [htj]
  rw [hip, hjp] at hroot
  subst hroot
  rw [hti] at htj
  cases htj
  rw [mem_zip_self hp]

theorem cc_ufNew [Inhabited α] (terms : List TermData) (m : α → α → α) (d : α) :
    cc terms m (ufNew terms α d) = ufNew terms α d :=
  cc_eq_self_of_stable _ (ccStable_ufNew terms α d)

theorem emNew_names (terms : List TermData) :
    (emNew terms).names = ufNew terms (Option Nat) none := by
  unfold emNew
  rw [cc_ufNew]

theorem emNew_added (terms : List TermData) :
    (emNew terms).added = ufNew terms Bool false := by
  unfold emNew
  show cc terms orMerge (ufNew terms Bool false) = _
  exact cc_ufNew terms orMerge false

theorem emNew_constrained (terms : List TermData) :
    (emNew terms).constrained = ufNew terms Bool false := by
  unfold emNew
  show cc terms orMerge (ufNew terms Bool false) = _
  exact cc_ufNew terms orMerge false

theorem emNew_nameNum (terms : List TermData) : (emNew terms).nameNum = 0 := rfl

theorem flatMap_congr {f g : α → List β} {l : List α}
    (h : ∀ a, a ∈ l → f a = g a) : l.flatMap f = l.flatMap g := by
  induction l with
  | nil => rfl
  | cons x xs ih =>
    rw [List.flatMap_cons, List.flatMap_cons, h x (List.mem_cons_self x xs),
      ih (fun a ha => h a (List.mem_cons_of_mem x ha))]

theorem mem_subtFuel_le {terms : List TermData} (htw : termsWF terms) :
    ∀ fuel t s, s ∈ subtFuel terms fuel t → s ≤ t := by
  intro fuel
  induction fuel with
  | zero =>
    intro t s hs
    unfold subtFuel at hs
    rcases List.mem_singleton.mp hs with rfl
    exact Nat.le_refl s
  | succ fuel ih =>
    intro t s hs
    unfold subtFuel at hs
    split at hs
    · rename_i f args hdata
      rcases List.mem_append.mp hs with hs | hs
      · rcases List.mem_flatMap.mp hs with ⟨a, ha, hmem⟩
        have h1 := ih a s hmem
        have h2 := htw t (lt_of_getD_app hdata) f args hdata a ha
        omega
      · rcases List.mem_singleton.mp hs with rfl
        exact Nat.le_refl s
    · rcases List.mem_singleton.mp hs with rfl
      exact Nat.le_refl s

theorem self_mem_subtFuel (terms : List TermData) (fuel t : Nat) :
    t ∈ subtFuel terms fuel t := by
  cases fuel with
  | zero => exact List.mem_singleton.mpr rfl
  | succ fuel =>
    unfold subtFuel
    split
    · exact List.mem_append_right _ (List.mem_singleton.mpr rfl)
    · exact List.mem_singleton.mpr rfl

theorem self_mem_subt (terms : List TermData) (t : Nat) :
    t ∈ subt terms t := self_mem_subtFuel terms t t

theorem mem_subt_le {terms : List TermData} (htw : termsWF terms) (t s : Nat)
    (hs : s ∈ subt terms t) : s ≤ t := mem_subtFuel_le htw t t s hs

theorem args_empty_of_zero {terms : List TermData} (htw : termsWF terms)
    {f : String} {args : List Nat}
    (h : terms.getD 0 default = TermData.Application f args) : args = [] := by
  rw [List.eq_nil_iff_forall_not_mem]
  intro a ha
  have := htw 0 (lt_of_getD_app h) f args h a ha
  omega

theorem subtFuel_congr {terms : List TermData} (htw : termsWF terms) :
    ∀ fuel1 fuel2 t, t ≤ fuel1 → t ≤ fuel2 →
      subtFuel terms fuel1 t = subtFuel terms fuel2 t := by
  intro fuel1
  induction fuel1 with
  | zero =>
    intro fuel2 t h1 h2
    have : t = 0 := Nat.le_zero.mp h1
    subst this
    cases fuel2 with
    | zero => rfl
    | succ fuel2 =>
      show subtFuel terms 0 0 = subtFuel terms (fuel2 + 1) 0
      unfold subtFuel
      split
      · rename_i f args hdata
        rw [args_empty_of_zero htw hdata]
        rfl
      · rfl
  | succ fuel1 ih =>
    intro fuel2 t h1 h2
    cases fuel2 with
    | zero =>
      have : t = 0 := Nat.le_zero.mp h2
      subst this
      show subtFuel terms (fuel1 + 1) 0 = subtFuel terms 0 0
      unfold subtFuel
      split
      · rename_i f args hdata
        rw [args_empty_of_zero htw hdata]
        rfl
      · rfl
    | succ fuel2 =>
      show subtFuel terms (fuel1 + 1) t = subtFuel terms (fuel2 + 1) t
      unfold subtFuel
      split
      · rename_i f args hdata
        have hlt := lt_of_getD_app hdata
        have : args.flatMap (subtFuel terms fuel1)
            = args.flatMap (subtFuel terms fuel2) := by
          apply flatMap_congr
          intro a ha
          have := htw t hlt f args hdata a ha
          exact ih fuel2 a (by omega) (by omega)
        rw [this]
      · rfl

theorem subt_expand {terms : List TermData} (htw : termsWF terms) (t : Nat)
    {f : String} {args : List Nat}
    (hdata : terms.getD t default = TermData.Application f args) :
    subt terms t = args.flatMap (subt terms) ++ [t] := by
  cases t with
  | zero =>
    show subtFuel terms 0 0 = _
    rw [args_empty_of_zero htw hdata]
    rfl
  | succ k =>
    show subtFuel terms (k + 1) (k + 1) = _
    unfold subtFuel
    rw [hdata]
    show args.flatMap (subtFuel terms k) ++ [k + 1] = _
    have : args.flatMap (subtFuel terms k) = args.flatMap (subt terms) := by
      apply flatMap_congr
      intro a ha
      have := htw (k + 1) (lt_of_getD_app hdata) f args hdata a ha
      exact subtFuel_congr htw k a a (by omega) (Nat.le_refl a)
    rw [this]

theorem subt_nonapp {terms : List TermData} (t : Nat)
    (h : ∀ f args, terms.getD t default ≠ TermData.Application f args) :
    subt terms t = [t] := by
  cases t with
  | zero =>
    rfl
  | succ k =>
    show subtFuel terms (k + 1) (k + 1) = _
    unfold subtFuel
    split
    · rename_i f args hdata
      exact absurd hdata (h f args)
    · rfl

def flatAtomNames : FlatAtom → List Nat
  | FlatAtom.Equal a b => [a, b]
  | FlatAtom.Relation _ args => args
  | FlatAtom.Unconstrained t _ => [t]

def occList (out : List FlatAtom) : List Nat := out.flatMap flatAtomNames

theorem occList_append (l1 l2 : List FlatAtom) :
    occList (l1 ++ l2) = occList l1 ++ occList l2 := by
  unfold occList
  exact List.flatMap_append l1 l2 flatAtomNames

def noEq (out : List FlatAtom) : Prop :=
  ∀ l r, FlatAtom.Equal l r ∉ out

theorem noEq_append {l1 l2 : List FlatAtom} (h1 : noEq l1) (h2 : noEq l2) :
    noEq (l1 ++ l2) := by
  intro l r hmem
  rcases List.mem_append.mp hmem with h | h
  · exact h1 l r h
  · exact h2 l r h

theorem checkPremise_of_noEq (out : List FlatAtom) (hne : noEq out) (occ : List Nat) :
    checkPremise out occ = some (occ ++ occList out) := by
  induction out generalizing occ with
  | nil =>
    show some occ = some (occ ++ occList [])
    rw [show occList [] = [] from rfl, List.append_nil]
  | cons a rest ih =>
    cases a with
    | Equal l r => exact absurd (List.mem_cons_self _ _) (hne l r)
    | Relation p args =>
      show checkPremise rest (occ ++ args) = _
      rw [ih (fun l r hm => hne l r (List.mem_cons_of_mem _ hm)) (occ ++ args)]
      unfold occList
      rw [List.flatMap_cons, ← List.append_assoc]
      rfl
    | Unconstrained t s =>
      show checkPremise rest (occ ++ [t]) = _
      rw [ih (fun l r hm => hne l r (List.mem_cons_of_mem _ hm)) (occ ++ [t])]
      unfold occList
      rw [List.flatMap_cons, ← List.append_assoc]
      rfl

theorem checkConclusion_append (l1 l2 : List FlatAtom) (occ : List Nat)
    (h1 : checkConclusion l1 occ = true)
    (h2 : checkConclusion l2 (occ ++ occList l1) = true) :
    checkConclusion (l1 ++ l2) occ = true := by
  induction l1 generalizing occ with
  | nil =>
    rw [List.nil_append]
    rw [show occList [] = [] from rfl, List.append_nil] at h2
    exact h2
  | cons a rest ih =>
    cases a with
    | Equal x y =>
      show (!(x == y) && occ.contains x && occ.contains y &&
        checkConclusion (rest ++ l2) (occ ++ [x, y])) = true
      unfold checkConclusion at h1
      rw [Bool.and_eq_true, Bool.and_eq_true, Bool.and_eq_true] at h1
      rw [Bool.and_eq_true, Bool.and_eq_true, Bool.and_eq_true]
      refine ⟨⟨⟨h1.1.1.1, h1.1.1.2⟩, h1.1.2⟩, ?_⟩
      apply ih (occ ++ [x, y]) h1.2
      unfold occList at h2 ⊢
      rw [List.flatMap_cons, ← List.append_assoc] at h2
      exact h2
    | Relation p args =>
      show (args.dropLast.all (fun a => occ.contains a) &&
        checkConclusion (rest ++ l2) (occ ++ args)) = true
      unfold checkConclusion at h1
      rw [Bool.and_eq_true] at h1
      rw [Bool.and_eq_true]
      refine ⟨h1.1, ?_⟩
      apply ih (occ ++ args) h1.2
      unfold occList at h2 ⊢
      rw [List.flatMap_cons, ← List.append_assoc] at h2
      exact h2
    | Unconstrained t s =>
      exact absurd h1 (by
        unfold checkConclusion
        exact Bool.false_ne_true)

def markedDirectly (terms : List TermData) (premise : List AtomData)
    (u : Nat) : Prop :=
  (∃ atom ∈ premise, ∃ A, A ∈ atomSubterms terms atom ∧ ∃ f args,
     terms.getD A default = TermData.Application f args ∧ (u ∈ args ∨ u = A)) ∨
  (∃ p args, AtomData.Predicate p args ∈ premise ∧ u ∈ args)

theorem ufRoot_eq_ufUnion_iff [Inhabited α] (m : α → α → α) (u : UF α)
    {n : Nat} (hwf : UFWF n u) (a b : Nat) (hb : b < n) (i j : Nat) :
    (ufRoot (ufUnion m u a b) i = ufRoot (ufUnion m u a b) j) ↔
      (ufRoot u i = ufRoot u j ∨
        (ufRoot u i = ufRoot u a ∧ ufRoot u j = ufRoot u b) ∨
        (ufRoot u i = ufRoot u b ∧ ufRoot u j = ufRoot u a)) := by
  rw [ufRoot_ufUnion m u n hwf a b hb, ufRoot_ufUnion m u n hwf a b hb]
  by_cases hib : ufRoot u i = ufRoot u b
  · rw [if_pos hib]
    by_cases hjb : ufRoot u j = ufRoot u b
    · rw [if_pos hjb]
      constructor
      · intro h
        exact Or.inl (by rw [hib, hjb])
      · intro h
        rfl
    · rw [if_neg hjb]
      constructor
      · intro h
        exact Or.inr (Or.inr ⟨hib, h.symm⟩)
      · intro h
        rcases h with h | h | h
        · exact absurd (by rw [← h]; exact hib) hjb
        · exact absurd h.2 hjb
        · exact h.2.symm
  · rw [if_neg hib]
    by_cases hjb : ufRoot u j = ufRoot u b
    · rw [if_pos hjb]
      constructor
      · intro h
        exact Or.inr (Or.inl ⟨h, hjb⟩)
      · intro h
        rcases h with h | h | h
        · exact absurd (by rw [h]; exact hjb) hib
        · exact h.1
        · exact absurd h.1 hib
    · rw [if_neg hjb]
      constructor
      · intro h
        exact Or.inl h
      · intro h
        rcases h with h | h | h
        · exact h
        · exact absurd h.2 hjb
        · exact absurd h.1 hib

theorem ufGet_true_ufUnion_iff (u : UF Bool) {n : Nat} (hwf : UFWF n u)
    (a b : Nat) (ha : a < n) (hb : b < n) (hta : ufGet u a = true)
    (htb : ufGet u b = true) (t : Nat) :
    ufGet (ufUnion orMerge u a b) t = true ↔ ufGet u t = true := by
  constructor
  · intro h
    rcases ufGet_ufUnion orMerge u hwf a b ha hb t with h2 | h2
    · rw [← h2]
      exact h
    · rcases h2.1 with hr | hr
      · rw [ufGet_root_eq u hr]
        exact hta
      · rw [ufGet_root_eq u hr]
        exact htb
  · exact ufGet_true_ufUnion u hwf a b ha hb t

theorem ufUnion_parents_eq [Inhabited α] [Inhabited β] (mx : α → α → α)
    (my : β → β → β) (x : UF α) (y : UF β) (h : x.parents = y.parents)
    (a b : Nat) : (ufUnion mx x a b).parents = (ufUnion my y a b).parents := by
  have hroots : ∀ i, ufRoot x i = ufRoot y i := by
    intro i
    unfold ufRoot
    rw [h]
  unfold ufUnion
  by_cases heq : ufRoot x a = ufRoot x b
  · rw [if_pos heq, if_pos (by rw [← hroots a, ← hroots b]; exact heq)]
    exact h
  · rw [if_neg heq, if_neg (by rw [← hroots a, ← hroots b]; exact heq)]
    show x.parents.map _ = y.parents.map _
    rw [h, hroots a, hroots b]

theorem unifyArgs_parents_eq [Inhabited α] [Inhabited β] (mx : α → α → α)
    (my : β → β → β) (ps : List (Nat × Nat)) :
    ∀ (x : UF α) (y : UF β), x.parents = y.parents →
      (ps.foldl (fun acc3 p => ufUnion mx acc3 p.1 p.2) x).parents =
        (ps.foldl (fun acc3 p => ufUnion my acc3 p.1 p.2) y).parents := by
  induction ps with
  | nil => intro x y h; exact h
  | cons p rest ih =>
    intro x y h
    exact ih _ _ (ufUnion_parents_eq mx my x y h p.1 p.2)

theorem ccInner_parents_eq [Inhabited α] [Inhabited β] {terms : List TermData}
    (mx : α → α → α) (my : β → β → β) (i : Nat) (x : UF α) (y : UF β)
    (h : x.parents = y.parents) :
    (ccInner terms mx i x).parents = (ccInner terms my i y).parents := by
  unfold ccInner
  have key : ∀ (l : List Nat) (x2 : UF α) (y2 : UF β), x2.parents = y2.parents →
      (l.foldl (fun acc2 j =>
        match terms.getD i default, terms.getD j default with
        | TermData.Application f as2, TermData.Application g bs =>
          if f = g ∧ as2.length = bs.length ∧ ufRoot acc2 i = ufRoot acc2 j then
            (as2.zip bs).foldl (fun acc3 p => ufUnion mx acc3 p.1 p.2) acc2
          else acc2
        | _, _ => acc2) x2).parents =
      (l.foldl (fun acc2 j =>
        match terms.getD i default, terms.getD j default with
        | TermData.Application f as2, TermData.Application g bs =>
          if f = g ∧ as2.length = bs.length ∧ ufRoot acc2 i = ufRoot acc2 j then
            (as2.zip bs).foldl (fun acc3 p => ufUnion my acc3 p.1 p.2) acc2
          else acc2
        | _, _ => acc2) y2).parents := by
    intro l
    induction l with
    | nil => intro x2 y2 h2; exact h2
    | cons j rest ih =>
      intro x2 y2 h2
      apply ih
      dsimp only
      have hroots : ∀ t2, ufRoot x2 t2 = ufRoot y2 t2 := by
        intro t2
        unfold ufRoot
        rw [h2]
      cases hdi : terms.getD i default with
      | Variable v => exact h2
      | Wildcard => exact h2
      | Application f as2 =>
        cases hdj : terms.getD j default with
        | Variable v => exact h2
        | Wildcard => exact h2
        | Application g bs =>
          show (if f = g ∧ as2.length = bs.length ∧ ufRoot x2 i = ufRoot x2 j then
              (as2.zip bs).foldl (fun acc3 p => ufUnion mx acc3 p.1 p.2) x2
            else x2).parents =
            (if f = g ∧ as2.length = bs.length ∧ ufRoot y2 i = ufRoot y2 j then
              (as2.zip bs).foldl (fun acc3 p => ufUnion my acc3 p.1 p.2) y2
            else y2).parents
          by_cases hcond : f = g ∧ as2.length = bs.length ∧ ufRoot x2 i = ufRoot x2 j
          · rw [if_pos hcond, if_pos (by
              refine ⟨hcond.1, hcond.2.1, ?_⟩
              rw [← hroots i, ← hroots j]
              exact hcond.2.2)]
            exact unifyArgs_parents_eq mx my (as2.zip bs) x2 y2 h2
          · rw [if_neg hcond, if_neg (by
              intro hc
              exact hcond ⟨hc.1, hc.2.1, by
                rw [hroots i, hroots j]
                exact hc.2.2⟩)]
            exact h2
  exact key (List.range terms.length) x y h

theorem ccRound_parents_eq [Inhabited α] [Inhabited β] {terms : List TermData}
    (mx : α → α → α) (my : β → β → β) (x : UF α) (y : UF β)
    (h : x.parents = y.parents) :
    (ccRound terms mx x).parents = (ccRound terms my y).parents := by
  rw [ccRound_eq_inner, ccRound_eq_inner]
  have key : ∀ (l : List Nat) (x2 : UF α) (y2 : UF β), x2.parents = y2.parents →
      (l.foldl (fun acc i => ccInner terms mx i acc) x2).parents =
        (l.foldl (fun acc i => ccInner terms my i acc) y2).parents := by
    intro l
    induction l with
    | nil => intro x2 y2 h2; exact h2
    | cons i rest ih =>
      intro x2 y2 h2
      exact ih _ _ (ccInner_parents_eq mx my i x2 y2 h2)
  exact key (List.range terms.length) x y h

theorem cc_parents_eq [Inhabited α] [Inhabited β] {terms : List TermData}
    (mx : α → α → α) (my : β → β → β) (x : UF α) (y : UF β)
    (h : x.parents = y.parents) :
    (cc terms mx x).parents = (cc terms my y).parents := by
  rw [cc_eq_ccIter, cc_eq_ccIter]
  induction terms.length + 1 with
  | zero => exact h
  | succ k ih =>
    show (ccRound terms mx (ccIter terms mx x k)).parents
      = (ccRound terms my (ccIter terms my y k)).parents
    exact ccRound_parents_eq mx my _ _ ih

def TriggerPair (terms : List TermData) (v : UF α) (a b : Nat) : Prop :=
  ∃ i j f as2 bs, i < terms.length ∧ j < terms.length ∧
    ufRoot v i = ufRoot v j ∧
    terms.getD i default = TermData.Application f as2 ∧
    terms.getD j default = TermData.Application f bs ∧
    as2.length = bs.length ∧ (a, b) ∈ as2.zip bs

theorem ccRound_inv2 [Inhabited α] {terms : List TermData} {m : α → α → α}
    (htw : termsWF terms) (P : UF α → Prop)
    (hPwf : ∀ v, P v → UFWF terms.length v)
    (hP : ∀ v a b, P v → TriggerPair terms v a b → P (ufUnion m v a b))
    (u : UF α) (hu : P u) : P (ccRound terms m u) := by
  unfold ccRound
  refine foldl_inv P _ _ u hu (fun acc i hi hacc => ?_)
  refine foldl_inv P _ _ acc hacc (fun acc2 j hj hacc2 => ?_)
  split
  · rename_i f as2 g bs hti htj
    split
    · rename_i hcond
      rcases hcond with ⟨hfg, hlen, hroot⟩
      subst hfg
      have hargs : ∀ p, p ∈ as2.zip bs → p.1 < terms.length ∧ p.2 < terms.length := by
        intro p hp
        have h1 := htw i (lt_of_getD_app hti) f as2 hti p.1 (List.of_mem_zip hp).1
        have h2 := htw j (lt_of_getD_app htj) f bs htj p.2 (List.of_mem_zip hp).2
        have := lt_of_getD_app hti
        have := lt_of_getD_app htj
        omega
      refine (foldl_inv (fun v => P v ∧ ufRoot v i = ufRoot v j) _ _ acc2
        ⟨hacc2, hroot⟩ (fun acc3 p hp hacc3 => ?_)).1
      refine ⟨hP acc3 p.1 p.2 hacc3.1
        ⟨i, j, f, as2, bs, lt_of_getD_app hti, lt_of_getD_app htj,
          hacc3.2, hti, htj, hlen, hp⟩, ?_⟩
      exact UFle_ufUnion_self m acc3 terms.length (hPwf acc3 hacc3.1)
        p.1 p.2 (hargs p hp).2 i j hacc3.2
    · exact hacc2
  · exact hacc2

theorem cc_inv2 [Inhabited α] {terms : List TermData} {m : α → α → α}
    (htw : termsWF terms) (P : UF α → Prop)
    (hPwf : ∀ v, P v → UFWF terms.length v)
    (hP : ∀ v a b, P v → TriggerPair terms v a b → P (ufUnion m v a b))
    (u : UF α) (hu : P u) : P (cc terms m u) := by
  rw [cc_eq_ccIter]
  induction terms.length + 1 with
  | zero => exact hu
  | succ k ih => exact ccRound_inv2 htw P hPwf hP _ ih

/-- The emitter state after marking t added. -/
def emA (em : Em) (t : Nat) : Em := { em with added := ufSet em.added t true }

/-- The emitter state after marking t added and assigning it the next fresh
name. -/
def emF (em : Em) (t : Nat) : Em :=
  { em with
    added := ufSet em.added t true
    names := ufSet em.names t (some em.nameNum)
    nameNum := em.nameNum + 1 }

theorem emit_skip {em : Em} {out : List FlatAtom} {t : Nat}
    (terms : List TermData) (sorts : List String)
    (h : ufGet em.added t = true) :
    emitTermStructure terms sorts (em, out) t = (em, out) := by
  unfold emitTermStructure
  rw [if_pos h]

theorem emit_var_named_con {em : Em} {out : List FlatAtom} {t : Nat}
    (terms : List TermData) (sorts : List String) (v : String) {n0 : Nat}
    (h : ufGet em.added t = false) (hn : ufGet em.names t = some n0)
    (hd : terms.getD t default = TermData.Variable v ∨
      terms.getD t default = TermData.Wildcard)
    (hc : ufGet em.constrained t = true) :
    emitTermStructure terms sorts (em, out) t = (emA em t, out) := by
  unfold emitTermStructure
  rw [if_neg (by rw [h]; exact Bool.false_ne_true)]
  dsimp only
  rw [hn]
  dsimp only
  rcases hd with hd | hd <;> rw [hd] <;> dsimp only <;> rw [hc] <;>
    rw [if_pos rfl] <;> rfl
theorem emit_var_named_uncon {em : Em} {out : List FlatAtom} {t : Nat}
    (terms : List TermData) (sorts : List String) (v : String) {n0 : Nat}
    (h : ufGet em.added t = false) (hn : ufGet em.names t = some n0)
    (hd : terms.getD t default = TermData.Variable v ∨
      terms.getD t default = TermData.Wildcard)
    (hc : ufGet em.constrained t = false) :
    emitTermStructure terms sorts (em, out) t =
      (emA em t, out ++ [FlatAtom.Unconstrained n0 (sorts.getD t "")]) := by
  unfold emitTermStructure
  rw [if_neg (by rw [h]; exact Bool.false_ne_true)]
  dsimp only
  rw [hn]
  dsimp only
  rcases hd with hd | hd <;> rw [hd] <;> dsimp only <;> rw [hc] <;>
    rw [if_neg Bool.false_ne_true] <;> rfl

theorem emit_app_named {em : Em} {out : List FlatAtom} {t : Nat}
    (terms : List TermData) (sorts : List String) {n0 : Nat} {f : String}
    {args : List Nat}
    (h : ufGet em.added t = false) (hn : ufGet em.names t = some n0)
    (hd : terms.getD t default = TermData.Application f args) :
    emitTermStructure terms sorts (em, out) t =
      (emA em t, out ++ [FlatAtom.Relation f
        (args.map (fun a => (ufGet em.names a).getD 0) ++ [n0])]) := by
  unfold emitTermStructure
  rw [if_neg (by rw [h]; exact Bool.false_ne_true)]
  dsimp only
  rw [hn]
  dsimp only
  rw [hd]
  rfl

theorem emit_var_fresh_con {em : Em} {out : List FlatAtom} {t : Nat}
    (terms : List TermData) (sorts : List String) (v : String)
    (h : ufGet em.added t = false) (hn : ufGet em.names t = none)
    (hd : terms.getD t default = TermData.Variable v ∨
      terms.getD t default = TermData.Wildcard)
    (hc : ufGet em.constrained t = true) :
    emitTermStructure terms sorts (em, out) t = (emF em t, out) := by
  unfold emitTermStructure
  rw [if_neg (by rw [h]; exact Bool.false_ne_true)]
  dsimp only
  rw [hn]
  dsimp only
  rcases hd with hd | hd <;> rw [hd] <;> dsimp only <;> rw [hc] <;>
    rw [if_pos rfl] <;> rfl

theorem emit_var_fresh_uncon {em : Em} {out : List FlatAtom} {t : Nat}
    (terms : List TermData) (sorts : List String) (v : String)
    (h : ufGet em.added t = false) (hn : ufGet em.names t = none)
    (hd : terms.getD t default = TermData.Variable v ∨
      terms.getD t default = TermData.Wildcard)
    (hc : ufGet em.constrained t = false) :
    emitTermStructure terms sorts (em, out) t =
      (emF em t, out ++ [FlatAtom.Unconstrained em.nameNum (sorts.getD t "")]) := by
  unfold emitTermStructure
  rw [if_neg (by rw [h]; exact Bool.false_ne_true)]
  dsimp only
  rw [hn]
  dsimp only
  rcases hd with hd | hd <;> rw [hd] <;> dsimp only <;> rw [hc] <;>
    rw [if_neg Bool.false_ne_true] <;> rfl

theorem emit_app_fresh {em : Em} {out : List FlatAtom} {t : Nat}
    (terms : List TermData) (sorts : List String) {f : String}
    {args : List Nat}
    (h : ufGet em.added t = false) (hn : ufGet em.names t = none)
    (hd : terms.getD t default = TermData.Application f args) :
    emitTermStructure terms sorts (em, out) t =
      (emF em t, out ++ [FlatAtom.Relation f
        (args.map (fun a =>
          (ufGet (ufSet em.names t (some em.nameNum)) a).getD 0) ++
          [em.nameNum])]) := by
  unfold emitTermStructure
  rw [if_neg (by rw [h]; exact Bool.false_ne_true)]
  dsimp only
  rw [hn]
  dsimp only
  rw [hd]
  rfl

/-- Applications sharing a class with another term are either alone or
already processed. -/
def SepInv (terms : List TermData) (added : UF Bool) : Prop :=
  ∀ A f args, terms.getD A default = TermData.Application f args →
    ∀ t2, ufRoot added A = ufRoot added t2 → A = t2 ∨ ufGet added A = true

/-- Arguments of processed applications are processed. -/
def AppArgsInv (terms : List TermData) (added : UF Bool) : Prop :=
  ∀ A f args, terms.getD A default = TermData.Application f args →
    ufGet added A = true → ∀ a, a ∈ args → ufGet added a = true

/-- Every processed application has its structure atom in the output,
phrased over the current names. -/
def AppRelInv (terms : List TermData) (em : Em) (out : List FlatAtom) : Prop :=
  ∀ A f args, terms.getD A default = TermData.Application f args →
    ufGet em.added A = true →
    FlatAtom.Relation f (args.map (fun a => (ufGet em.names a).getD 0)
      ++ [(ufGet em.names A).getD 0]) ∈ out

/-- Monotone evolution of the emitter state. -/
def EmStep (em em2 : Em) : Prop :=
  (∀ t k, ufGet em.names t = some k → ufGet em2.names t = some k) ∧
  (∀ t, ufGet em.added t = true → ufGet em2.added t = true)

theorem EmStep_refl (em : Em) : EmStep em em := ⟨fun _ _ h => h, fun _ h => h⟩

theorem EmStep_trans {em em2 em3 : Em} (h1 : EmStep em em2)
    (h2 : EmStep em2 em3) : EmStep em em3 :=
  ⟨fun t k h => h2.1 t k (h1.1 t k h), fun t h => h2.2 t (h1.2 t h)⟩

/-- The premise-phase invariant relative to the setup-end state. -/
structure PremInv (terms : List TermData) (em1 em : Em)
    (out : List FlatAtom) : Prop where
  wfn : UFWF terms.length em.names
  wfa : UFWF terms.length em.added
  wfc : UFWF terms.length em.constrained
  par_eq : em.names.parents = em1.names.parents
  con_eq : em.constrained = em1.constrained
  le_an : UFle em.added em.names
  sep : SepInv terms em.added
  appargs : AppArgsInv terms em.added
  apprel : AppRelInv terms em out
  named : ∀ t, ufGet em.added t = true → (ufGet em.names t).isSome = true
  occ : ∀ t k, ufGet em.names t = some k →
    k ∈ occList out ∨ ufGet em.constrained t = true
  noeq : noEq out
  le_init : UFle (ufNew terms Bool false) em.added

theorem ccStable_of_parents_eq {terms : List TermData} {x : UF α} {y : UF β}
    (h : x.parents = y.parents) (hst : ccStable terms y) : ccStable terms x := by
  have hroots : ∀ i, ufRoot x i = ufRoot y i := by
    intro i
    unfold ufRoot
    rw [h]
  intro i j hi hj hroot f as2 bs hti htj hlen p hp
  rw [hroots p.1, hroots p.2]
  exact hst i j hi hj (by rw [← hroots i, ← hroots j]; exact hroot)
    f as2 bs hti htj hlen p hp

theorem SepInv_mono {terms : List TermData} {added added2 : UF Bool}
    (hpar : added2.parents = added.parents)
    (hmono : ∀ s, ufGet added s = true → ufGet added2 s = true)
    (hsep : SepInv terms added) : SepInv terms added2 := by
  intro A f args hdata t2 hroot
  have hroots : ∀ i, ufRoot added2 i = ufRoot added i := by
    intro i
    unfold ufRoot
    rw [hpar]
  rcases hsep A f args hdata t2 (by rw [← hroots A, ← hroots t2]; exact hroot)
    with h | h
  · exact Or.inl h
  · exact Or.inr (hmono A h)

theorem emA_added_get {em : Em} {n : Nat} (hwf : UFWF n em.added) {t : Nat}
    (ht : t < n) (s : Nat) :
    ufGet (emA em t).added s =
      if ufRoot em.added s = ufRoot em.added t then true else ufGet em.added s := by
  show ufGet (ufSet em.added t true) s = _
  exact ufGet_ufSet em.added hwf t ht true s

theorem emF_names_get {em : Em} {n : Nat} (hwf : UFWF n em.names) {t : Nat}
    (ht : t < n) (s : Nat) :
    ufGet (emF em t).names s =
      if ufRoot em.names s = ufRoot em.names t then some em.nameNum
      else ufGet em.names s := by
  show ufGet (ufSet em.names t (some em.nameNum)) s = _
  exact ufGet_ufSet em.names hwf t ht (some em.nameNum) s

theorem emF_names_stable {em : Em} {n : Nat} (hwf : UFWF n em.names) {t : Nat}
    (ht : t < n) (hnone : ufGet em.names t = none) (s : Nat) (k : Nat)
    (h : ufGet em.names s = some k) : ufGet (emF em t).names s = some k := by
  rw [emF_names_get hwf ht s]
  by_cases hr : ufRoot em.names s = ufRoot em.names t
  · exfalso
    rw [ufGet_root_eq em.names hr, hnone] at h
    exact Option.noConfusion h
  · rw [if_neg hr]
    exact h

theorem prem_step_named {terms : List TermData} {em1 em : Em}
    {out : List FlatAtom}
    (hpc : em1.constrained.parents = em1.names.parents)
    (hinv : PremInv terms em1 em out) (t : Nat) (ht : t < terms.length)
    (hargs : ∀ f args, terms.getD t default = TermData.Application f args →
      ∀ a, a ∈ args → ufGet em.added a = true)
    {n0 : Nat} (hn : ufGet em.names t = some n0)
    (newAtoms : List FlatAtom) (hNoeq : noEq newAtoms)
    (hAppNew : ∀ f args, terms.getD t default = TermData.Application f args →
      FlatAtom.Relation f (args.map (fun a => (ufGet em.names a).getD 0)
        ++ [n0]) ∈ newAtoms) :
    PremInv terms em1 (emA em t) (out ++ newAtoms) ∧ EmStep em (emA em t) ∧
      ufGet (emA em t).added t = true := by
  have haddget := emA_added_get hinv.wfa ht
  have hmono : ∀ s, ufGet em.added s = true → ufGet (emA em t).added s = true :=
    fun s hs => ufGet_true_ufSet em.added hinv.wfa t ht s hs
  have haddt : ufGet (emA em t).added t = true := by
    rw [haddget t, if_pos rfl]
  refine ⟨?_, ⟨fun s k h => h, hmono⟩, haddt⟩
  refine ⟨hinv.wfn, UFWF_ufSet em.added terms.length hinv.wfa t true,
    hinv.wfc, hinv.par_eq, hinv.con_eq,
    UFle_trans (UFle_of_parents_eq rfl) hinv.le_an,
    SepInv_mono (show (emA em t).added.parents = em.added.parents from rfl)
      hmono hinv.sep, ?_, ?_, ?_, ?_, ?_,
    UFle_trans hinv.le_init (UFle_of_parents_eq rfl)⟩
  · intro A f args hdata htrue a ha
    rw [haddget A] at htrue
    by_cases hr : ufRoot em.added A = ufRoot em.added t
    · rcases hinv.sep A f args hdata t hr with heq | hold
      · subst heq
        exact hmono a (hargs f args hdata a ha)
      · exact hmono a (hinv.appargs A f args hdata hold a ha)
    · rw [if_neg hr] at htrue
      exact hmono a (hinv.appargs A f args hdata htrue a ha)
  · intro A f args hdata htrue
    show FlatAtom.Relation f (args.map (fun a => (ufGet em.names a).getD 0)
      ++ [(ufGet em.names A).getD 0]) ∈ out ++ newAtoms
    rw [haddget A] at htrue
    by_cases hr : ufRoot em.added A = ufRoot em.added t
    · rcases hinv.sep A f args hdata t hr with heq | hold
      · subst heq
        have h1 := hAppNew f args hdata
        rw [show (ufGet em.names A).getD 0 = n0 from by rw [hn]; rfl]
        exact List.mem_append_right _ h1
      · exact List.mem_append_left _ (hinv.apprel A f args hdata hold)
    · rw [if_neg hr] at htrue
      exact List.mem_append_left _ (hinv.apprel A f args hdata htrue)
  · intro s htrue
    rw [haddget s] at htrue
    by_cases hr : ufRoot em.added s = ufRoot em.added t
    · have hrn := hinv.le_an s t hr
      show (ufGet em.names s).isSome = true
      rw [ufGet_root_eq em.names hrn, hn]
      rfl
    · rw [if_neg hr] at htrue
      exact hinv.named s htrue
  · intro s k h
    rcases hinv.occ s k h with h2 | h2
    · exact Or.inl (by rw [occList_append]; exact List.mem_append_left _ h2)
    · exact Or.inr h2
  · exact noEq_append hinv.noeq hNoeq

theorem prem_step_fresh {terms : List TermData} {em1 em : Em}
    {out : List FlatAtom}
    (hpc : em1.constrained.parents = em1.names.parents)
    (hinv : PremInv terms em1 em out) (t : Nat) (ht : t < terms.length)
    (hargs : ∀ f args, terms.getD t default = TermData.Application f args →
      ∀ a, a ∈ args → ufGet em.added a = true)
    (hn : ufGet em.names t = none)
    (newAtoms : List FlatAtom) (hNoeq : noEq newAtoms)
    (hOccNew : em.nameNum ∈ occList newAtoms ∨ ufGet em.constrained t = true)
    (hAppNew : ∀ f args, terms.getD t default = TermData.Application f args →
      FlatAtom.Relation f (args.map (fun a =>
        (ufGet (ufSet em.names t (some em.nameNum)) a).getD 0)
        ++ [em.nameNum]) ∈ newAtoms) :
    PremInv terms em1 (emF em t) (out ++ newAtoms) ∧ EmStep em (emF em t) ∧
      ufGet (emF em t).added t = true := by
  have haddget : ∀ s, ufGet (emF em t).added s =
      if ufRoot em.added s = ufRoot em.added t then true else ufGet em.added s := by
    intro s
    show ufGet (ufSet em.added t true) s = _
    exact ufGet_ufSet em.added hinv.wfa t ht true s
  have hmono : ∀ s, ufGet em.added s = true → ufGet (emF em t).added s = true := by
    intro s hs
    rw [haddget s]
    by_cases hr : ufRoot em.added s = ufRoot em.added t
    · rw [if_pos hr]
    · rw [if_neg hr]; exact hs
  have hnget : ∀ s, ufGet (emF em t).names s =
      if ufRoot em.names s = ufRoot em.names t then some em.nameNum
      else ufGet em.names s := emF_names_get hinv.wfn ht
  have hnstable : ∀ s k, ufGet em.names s = some k →
      ufGet (emF em t).names s = some k :=
    fun s k h => emF_names_stable hinv.wfn ht hn s k h
  have haddt : ufGet (emF em t).added t = true := by
    rw [haddget t, if_pos rfl]
  have hconpar : em.constrained.parents = em.names.parents := by
    rw [show em.constrained = em1.constrained from hinv.con_eq, hpc,
      ← hinv.par_eq]
  have hconroots : ∀ i, ufRoot em.constrained i = ufRoot em.names i := by
    intro i
    unfold ufRoot
    rw [hconpar]
  refine ⟨?_, ⟨hnstable, hmono⟩, haddt⟩
  refine ⟨UFWF_ufSet em.names terms.length hinv.wfn t (some em.nameNum),
    UFWF_ufSet em.added terms.length hinv.wfa t true,
    hinv.wfc, hinv.par_eq, hinv.con_eq,
    UFle_trans (UFle_of_parents_eq rfl)
      (UFle_trans hinv.le_an (UFle_of_parents_eq rfl)),
    SepInv_mono (show (emF em t).added.parents = em.added.parents from rfl)
      hmono hinv.sep, ?_, ?_, ?_, ?_, ?_,
    UFle_trans hinv.le_init (UFle_of_parents_eq rfl)⟩
  · intro A f args hdata htrue a ha
    rw [haddget A] at htrue
    by_cases hr : ufRoot em.added A = ufRoot em.added t
    · rcases hinv.sep A f args hdata t hr with heq | hold
      · subst heq
        exact hmono a (hargs f args hdata a ha)
      · exact hmono a (hinv.appargs A f args hdata hold a ha)
    · rw [if_neg hr] at htrue
      exact hmono a (hinv.appargs A f args hdata htrue a ha)
  · intro A f args hdata htrue
    show FlatAtom.Relation f (args.map (fun a => (ufGet (emF em t).names a).getD 0)
      ++ [(ufGet (emF em t).names A).getD 0]) ∈ out ++ newAtoms
    rw [haddget A] at htrue
    by_cases hr : ufRoot em.added A = ufRoot em.added t
    · rcases hinv.sep A f args hdata t hr with heq | hold
      · subst heq
        have h1 := hAppNew f args hdata
        have hselfname : (ufGet (emF em A).names A).getD 0 = em.nameNum := by
          rw [hnget A, if_pos rfl]
          rfl
        rw [hselfname]
        exact List.mem_append_right _ h1
      · have hold2 := hinv.apprel A f args hdata hold
        have hAn : (ufGet em.names A).isSome = true := hinv.named A hold
        rcases hAv : ufGet em.names A with _ | kA
        · rw [hAv] at hAn
          exact absurd hAn (by simp)
        · have hmapeq : args.map (fun a => (ufGet (emF em t).names a).getD 0)
              = args.map (fun a => (ufGet em.names a).getD 0) := by
            apply List.map_congr_left
            intro a ha
            have haa : ufGet em.added a = true := hinv.appargs A f args hdata hold a ha
            have han : (ufGet em.names a).isSome = true := hinv.named a haa
            rcases hav : ufGet em.names a with _ | ka
            · rw [hav] at han
              exact absurd han (by simp)
            · rw [hnstable a ka hav]
          rw [hmapeq, hnstable A kA hAv]
          rw [hAv] at hold2
          exact List.mem_append_left _ hold2
    · rw [if_neg hr] at htrue
      have hold2 := hinv.apprel A f args hdata htrue
      have hAn : (ufGet em.names A).isSome = true := hinv.named A htrue
      rcases hAv : ufGet em.names A with _ | kA
      · rw [hAv] at hAn
        exact absurd hAn (by simp)
      · have hmapeq : args.map (fun a => (ufGet (emF em t).names a).getD 0)
            = args.map (fun a => (ufGet em.names a).getD 0) := by
          apply List.map_congr_left
          intro a ha
          have haa : ufGet em.added a = true := hinv.appargs A f args hdata htrue a ha
          have han : (ufGet em.names a).isSome = true := hinv.named a haa
          rcases hav : ufGet em.names a with _ | ka
          · rw [hav] at han
            exact absurd han (by simp)
          · rw [hnstable a ka hav]
        rw [hmapeq, hnstable A kA hAv]
        rw [hAv] at hold2
        exact List.mem_append_left _ hold2
  · intro s htrue
    rw [haddget s] at htrue
    by_cases hr : ufRoot em.added s = ufRoot em.added t
    · have hrn := hinv.le_an s t hr
      show (ufGet (emF em t).names s).isSome = true
      rw [hnget s, if_pos (by
        rw [show ufRoot em.names s = ufRoot em.names t from hrn])]
      rfl
    · rw [if_neg hr] at htrue
      have h2 := hinv.named s htrue
      rcases hv : ufGet em.names s with _ | k
      · rw [hv] at h2
        exact absurd h2 (by simp)
      · rw [hnstable s k hv]
        rfl
  · intro s k h
    rw [hnget s] at h
    by_cases hr : ufRoot em.names s = ufRoot em.names t
    · rw [if_pos hr] at h
      have hk : k = em.nameNum := by
        injection h with h2
        exact h2.symm
      subst hk
      rcases hOccNew with h2 | h2
      · exact Or.inl (by rw [occList_append]; exact List.mem_append_right _ h2)
      · refine Or.inr ?_
        show ufGet em.constrained s = true
        have hcr : ufRoot em.constrained s = ufRoot em.constrained t := by
          rw [hconroots s, hconroots t]
          exact hr
        rw [ufGet_root_eq em.constrained hcr]
        exact h2
    · rw [if_neg hr] at h
      rcases hinv.occ s k h with h2 | h2
      · exact Or.inl (by rw [occList_append]; exact List.mem_append_left _ h2)
      · exact Or.inr h2
  · exact noEq_append hinv.noeq hNoeq

theorem emit_step_prem (terms : List TermData) (sorts : List String)
    {em1 em : Em} {out : List FlatAtom}
    (hpc : em1.constrained.parents = em1.names.parents)
    (hinv : PremInv terms em1 em out) (t : Nat) (ht : t < terms.length)
    (hargs : ∀ f args, terms.getD t default = TermData.Application f args →
      ∀ a, a ∈ args → ufGet em.added a = true) :
    PremInv terms em1 (emitTermStructure terms sorts (em, out) t).1
      (emitTermStructure terms sorts (em, out) t).2 ∧
    EmStep em (emitTermStructure terms sorts (em, out) t).1 ∧
    ufGet (emitTermStructure terms sorts (em, out) t).1.added t = true := by
  cases hadd : ufGet em.added t with
  | true =>
    rw [emit_skip terms sorts hadd]
    exact ⟨hinv, EmStep_refl em, hadd⟩
  | false =>
    rcases hn : ufGet em.names t with _ | n0
    · rcases hdata : terms.getD t default with v | _ | ⟨f, args⟩
      · cases hc : ufGet em.constrained t with
        | true =>
          rw [emit_var_fresh_con terms sorts v hadd hn (Or.inl hdata) hc]
          have h := prem_step_fresh hpc hinv t ht hargs hn []
            (fun l r hm => absurd hm (List.not_mem_nil _))
            (Or.inr hc)
            (fun f2 args2 hd2 => absurd (hdata ▸ hd2) (by intro hcon; cases hcon))
          rw [List.append_nil] at h
          exact h
        | false =>
          rw [emit_var_fresh_uncon terms sorts v hadd hn (Or.inl hdata) hc]
          exact prem_step_fresh hpc hinv t ht hargs hn
            [FlatAtom.Unconstrained em.nameNum (sorts.getD t "")]
            (fun l r hm => by
              rcases List.mem_singleton.mp hm with h
              exact FlatAtom.noConfusion h)
            (Or.inl (List.mem_singleton.mpr rfl))
            (fun f2 args2 hd2 => absurd (hdata ▸ hd2) (by intro hcon; cases hcon))
      · cases hc : ufGet em.constrained t with
        | true =>
          rw [emit_var_fresh_con terms sorts "" hadd hn (Or.inr hdata) hc]
          have h := prem_step_fresh hpc hinv t ht hargs hn []
            (fun l r hm => absurd hm (List.not_mem_nil _))
            (Or.inr hc)
            (fun f2 args2 hd2 => absurd (hdata ▸ hd2) (by intro hcon; cases hcon))
          rw [List.append_nil] at h
          exact h
        | false =>
          rw [emit_var_fresh_uncon terms sorts "" hadd hn (Or.inr hdata) hc]
          exact prem_step_fresh hpc hinv t ht hargs hn
            [FlatAtom.Unconstrained em.nameNum (sorts.getD t "")]
            (fun l r hm => by
              rcases List.mem_singleton.mp hm with h
              exact FlatAtom.noConfusion h)
            (Or.inl (List.mem_singleton.mpr rfl))
            (fun f2 args2 hd2 => absurd (hdata ▸ hd2) (by intro hcon; cases hcon))
      · rw [emit_app_fresh terms sorts hadd hn hdata]
        refine prem_step_fresh hpc hinv t ht hargs hn
          [FlatAtom.Relation f (args.map (fun a =>
            (ufGet (ufSet em.names t (some em.nameNum)) a).getD 0) ++ [em.nameNum])]
          (fun l r hm => by
            rcases List.mem_singleton.mp hm with h
            exact FlatAtom.noConfusion h)
          (Or.inl ?_)
          (fun f2 args2 hd2 => ?_)
        · show em.nameNum ∈ occList [FlatAtom.Relation f _]
          unfold occList
          rw [List.flatMap_cons]
          refine List.mem_append_left _ ?_
          show em.nameNum ∈ args.map _ ++ [em.nameNum]
          exact List.mem_append_right _ (List.mem_singleton.mpr rfl)
        · rw [hdata] at hd2
          injection hd2 with h1 h2
          subst h1
          subst h2
          exact List.mem_singleton.mpr rfl
    · rcases hdata : terms.getD t default with v | _ | ⟨f, args⟩
      · cases hc : ufGet em.constrained t with
        | true =>
          rw [emit_var_named_con terms sorts v hadd hn (Or.inl hdata) hc]
          have h := prem_step_named hpc hinv t ht hargs hn []
            (fun l r hm => absurd hm (List.not_mem_nil _))
            (fun f2 args2 hd2 => absurd (hdata ▸ hd2) (by intro hcon; cases hcon))
          rw [List.append_nil] at h
          exact h
        | false =>
          rw [emit_var_named_uncon terms sorts v hadd hn (Or.inl hdata) hc]
          exact prem_step_named hpc hinv t ht hargs hn
            [FlatAtom.Unconstrained n0 (sorts.getD t "")]
            (fun l r hm => by
              rcases List.mem_singleton.mp hm with h
              exact FlatAtom.noConfusion h)
            (fun f2 args2 hd2 => absurd (hdata ▸ hd2) (by intro hcon; cases hcon))
      · cases hc : ufGet em.constrained t with
        | true =>
          rw [emit_var_named_con terms sorts "" hadd hn (Or.inr hdata) hc]
          have h := prem_step_named hpc hinv t ht hargs hn []
            (fun l r hm => absurd hm (List.not_mem_nil _))
            (fun f2 args2 hd2 => absurd (hdata ▸ hd2) (by intro hcon; cases hcon))
          rw [List.append_nil] at h
          exact h
        | false =>
          rw [emit_var_named_uncon terms sorts "" hadd hn (Or.inr hdata) hc]
          exact prem_step_named hpc hinv t ht hargs hn
            [FlatAtom.Unconstrained n0 (sorts.getD t "")]
            (fun l r hm => by
              rcases List.mem_singleton.mp hm with h
              exact FlatAtom.noConfusion h)
            (fun f2 args2 hd2 => absurd (hdata ▸ hd2) (by intro hcon; cases hcon))
      · rw [emit_app_named terms sorts hadd hn hdata]
        refine prem_step_named hpc hinv t ht hargs hn
          [FlatAtom.Relation f (args.map (fun a =>
            (ufGet em.names a).getD 0) ++ [n0])]
          (fun l r hm => by
            rcases List.mem_singleton.mp hm with h
            exact FlatAtom.noConfusion h)
          (fun f2 args2 hd2 => ?_)
        rw [hdata] at hd2
        injection hd2 with h1 h2
        subst h1
        subst h2
        exact List.mem_singleton.mpr rfl

theorem emit_subt_prem (terms : List TermData) (sorts : List String)
    (htw : termsWF terms) {em1 : Em}
    (hpc : em1.constrained.parents = em1.names.parents) :
    ∀ t, t < terms.length → ∀ em out, PremInv terms em1 em out →
      PremInv terms em1
        ((subt terms t).foldl (emitTermStructure terms sorts) (em, out)).1
        ((subt terms t).foldl (emitTermStructure terms sorts) (em, out)).2 ∧
      EmStep em ((subt terms t).foldl (emitTermStructure terms sorts) (em, out)).1 ∧
      (∀ s, s ∈ subt terms t →
        ufGet ((subt terms t).foldl (emitTermStructure terms sorts) (em, out)).1.added s
          = true) := by
  intro t
  induction t using Nat.strong_induction_on with
  | _ t ih =>
    intro ht em out hinv
    rcases hdata : terms.getD t default with v | _ | ⟨f, args⟩
    · have hsub : subt terms t = [t] := subt_nonapp t (by
        intro f2 args2 hcon
        rw [hdata] at hcon
        exact TermData.noConfusion hcon)
      rw [hsub]
      have hstep := emit_step_prem terms sorts hpc hinv t ht (by
        intro f2 args2 hcon
        rw [hdata] at hcon
        exact absurd hcon (by intro h2; cases h2))
      refine ⟨hstep.1, hstep.2.1, ?_⟩
      intro s hs
      rcases List.mem_singleton.mp hs with rfl
      exact hstep.2.2
    · have hsub : subt terms t = [t] := subt_nonapp t (by
        intro f2 args2 hcon
        rw [hdata] at hcon
        exact TermData.noConfusion hcon)
      rw [hsub]
      have hstep := emit_step_prem terms sorts hpc hinv t ht (by
        intro f2 args2 hcon
        rw [hdata] at hcon
        exact absurd hcon (by intro h2; cases h2))
      refine ⟨hstep.1, hstep.2.1, ?_⟩
      intro s hs
      rcases List.mem_singleton.mp hs with rfl
      exact hstep.2.2
    · have hsub : subt terms t = args.flatMap (subt terms) ++ [t] :=
        subt_expand htw t hdata
      have hargslt : ∀ a, a ∈ args → a < t := fun a ha => htw t ht f args hdata a ha
      have hchunks : ∀ (as2 : List Nat), (∀ a, a ∈ as2 → a < t) →
          ∀ em2 out2, PremInv terms em1 em2 out2 →
          PremInv terms em1
            ((as2.flatMap (subt terms)).foldl (emitTermStructure terms sorts) (em2, out2)).1
            ((as2.flatMap (subt terms)).foldl (emitTermStructure terms sorts) (em2, out2)).2 ∧
          EmStep em2
            ((as2.flatMap (subt terms)).foldl (emitTermStructure terms sorts) (em2, out2)).1 ∧
          (∀ a, a ∈ as2 → ∀ s, s ∈ subt terms a →
            ufGet ((as2.flatMap (subt terms)).foldl
              (emitTermStructure terms sorts) (em2, out2)).1.added s = true) := by
        intro as2
        induction as2 with
        | nil =>
          intro hlt em2 out2 hinv2
          exact ⟨hinv2, EmStep_refl em2, fun a ha => absurd ha (List.not_mem_nil a)⟩
        | cons a rest ih2 =>
          intro hlt em2 out2 hinv2
          rw [List.flatMap_cons, List.foldl_append]
          have ha := hlt a (List.mem_cons_self a rest)
          have h1 := ih a ha (by omega) em2 out2 hinv2
          set st1 := (subt terms a).foldl (emitTermStructure terms sorts) (em2, out2)
            with hst1
          have h2 := ih2 (fun a2 ha2 => hlt a2 (List.mem_cons_of_mem a ha2))
            st1.1 st1.2 h1.1
          refine ⟨?_, ?_, ?_⟩
          · exact h2.1
          · exact EmStep_trans h1.2.1 h2.2.1
          · intro a2 ha2 s hs
            rcases List.mem_cons.mp ha2 with rfl | ha2
            · exact h2.2.1.2 s (h1.2.2 s hs)
            · exact h2.2.2 a2 ha2 s hs
      have hch := hchunks args hargslt em out hinv
      rw [hsub, List.foldl_append]
      set stc := (args.flatMap (subt terms)).foldl (emitTermStructure terms sorts)
        (em, out) with hstc
      have hargadded : ∀ f2 args2, terms.getD t default = TermData.Application f2 args2 →
          ∀ a, a ∈ args2 → ufGet stc.1.added a = true := by
        intro f2 args2 hd2 a ha
        rw [hdata] at hd2
        injection hd2 with hf hargs2
        subst hf
        subst hargs2
        exact hch.2.2 a ha a (self_mem_subt terms a)
      have hstep := emit_step_prem terms sorts hpc hch.1 t ht hargadded
      have hstep2 : (List.foldl (emitTermStructure terms sorts) stc [t])
          = emitTermStructure terms sorts stc t := by
        rw [List.foldl_cons]
        rfl
      have hpair : (emitTermStructure terms sorts stc t)
          = (emitTermStructure terms sorts (stc.1, stc.2) t) := by
        rfl
      rw [hstep2, hpair]
      refine ⟨hstep.1, EmStep_trans hch.2.1 hstep.2.1, ?_⟩
      intro s hs
      rcases List.mem_append.mp hs with hs | hs
      · rcases List.mem_flatMap.mp hs with ⟨a, ha, hmem⟩
        exact hstep.2.1.2 s (hch.2.2 a ha s hmem)
      · rcases List.mem_singleton.mp hs with rfl
        exact hstep.2.2

theorem SepInv_union_bothTrue {terms : List TermData} {added : UF Bool}
    (hwf : UFWF terms.length added) {l r : Nat} (hl : l < terms.length)
    (hr : r < terms.length) (htl : ufGet added l = true)
    (htr : ufGet added r = true) (hsep : SepInv terms added) :
    SepInv terms (ufUnion orMerge added l r) ∧
      (∀ s, ufGet (ufUnion orMerge added l r) s = true ↔ ufGet added s = true) := by
  have hiff := ufGet_true_ufUnion_iff added hwf l r hl hr htl htr
  refine ⟨?_, hiff⟩
  intro A f args hdata t2 hroot
  rw [ufRoot_eq_ufUnion_iff orMerge added hwf l r hr A t2] at hroot
  rcases hroot with h | h | h
  · rcases hsep A f args hdata t2 h with h2 | h2
    · exact Or.inl h2
    · exact Or.inr ((hiff A).mpr h2)
  · refine Or.inr ((hiff A).mpr ?_)
    rw [ufGet_root_eq added h.1]
    exact htl
  · refine Or.inr ((hiff A).mpr ?_)
    rw [ufGet_root_eq added h.1]
    exact htr

/-- The processed-set facts survive the congruence closure of the added
unification. -/
theorem added_cc_pack {terms : List TermData} (htw : termsWF terms)
    (added0 : UF Bool) (u : UF Bool)
    (h : UFWF terms.length u ∧ SepInv terms u ∧ AppArgsInv terms u ∧
      (∀ s, ufGet u s = true ↔ ufGet added0 s = true)) :
    UFWF terms.length (cc terms orMerge u) ∧
      SepInv terms (cc terms orMerge u) ∧
      AppArgsInv terms (cc terms orMerge u) ∧
      (∀ s, ufGet (cc terms orMerge u) s = true ↔ ufGet added0 s = true) := by
  refine cc_inv2 htw (fun v => UFWF terms.length v ∧ SepInv terms v ∧
    AppArgsInv terms v ∧ (∀ s, ufGet v s = true ↔ ufGet added0 s = true))
    (fun v hv => hv.1) ?_ u h
  intro v a b hv htrig
  rcases htrig with ⟨i, j, f, as2, bs, hi, hj, hroot, hti, htj, hlen, hp⟩
  by_cases hab : ufRoot v a = ufRoot v b
  · rw [ufUnion_eq_self_of_root_eq orMerge v a b hab]
    exact hv
  · have hij : i ≠ j := by
      intro hcon
      subst hcon
      rw [hti] at htj
      cases htj
      have hab2 : a = b := mem_zip_self hp
      rw [hab2] at hab
      exact hab rfl
    have htri : ufGet v i = true := by
      rcases hv.2.1 i f as2 hti j hroot with h2 | h2
      · exact absurd h2 hij
      · exact h2
    have htrj : ufGet v j = true := by
      rcases hv.2.1 j f bs htj i hroot.symm with h2 | h2
      · exact absurd h2 (fun hcon => hij hcon.symm)
      · exact h2
    have hta : ufGet v a = true :=
      hv.2.2.1 i f as2 hti htri a (List.of_mem_zip hp).1
    have htb : ufGet v b = true :=
      hv.2.2.1 j f bs htj htrj b (List.of_mem_zip hp).2
    have ha : a < terms.length := by
      have := htw i hi f as2 hti a (List.of_mem_zip hp).1
      omega
    have hb : b < terms.length := by
      have := htw j hj f bs htj b (List.of_mem_zip hp).2
      omega
    have hpack := SepInv_union_bothTrue hv.1 ha hb hta htb hv.2.1
    refine ⟨UFWF_ufUnion orMerge v terms.length hv.1 a b ha hb, hpack.1, ?_, ?_⟩
    · intro A f2 args2 hdata htrue a2 ha2
      rw [hpack.2 A] at htrue
      rw [hpack.2 a2]
      exact hv.2.2.1 A f2 args2 hdata htrue a2 ha2
    · intro s
      rw [hpack.2 s]
      exact hv.2.2.2 s

theorem ufRoot_eq_of_parents_eq {x : UF α} {y : UF β}
    (h : x.parents = y.parents) (i : Nat) : ufRoot x i = ufRoot y i := by
  unfold ufRoot
  rw [h]

def atomTermsLt (n : Nat) : AtomData → Prop
  | AtomData.Equal l r => l < n ∧ r < n
  | AtomData.Defined t _ => t < n
  | AtomData.Predicate _ args => ∀ a, a ∈ args → a < n

theorem emitAtom_defined (terms : List TermData) (sorts : List String)
    (em : Em) (out : List FlatAtom) (t : Nat) (s : String) :
    emitAtom terms sorts (em, out) (AtomData.Defined t s) =
      (subt terms t).foldl (emitTermStructure terms sorts) (em, out) := rfl

theorem emitAtom_pred (terms : List TermData) (sorts : List String)
    (em : Em) (out : List FlatAtom) (p : String) (args : List Nat) :
    emitAtom terms sorts (em, out) (AtomData.Predicate p args) =
      (((args.flatMap (subt terms)).foldl (emitTermStructure terms sorts)
          (em, out)).1,
       ((args.flatMap (subt terms)).foldl (emitTermStructure terms sorts)
          (em, out)).2 ++
        [FlatAtom.Relation p (args.map (fun a =>
          (ufGet ((args.flatMap (subt terms)).foldl
            (emitTermStructure terms sorts) (em, out)).1.names a).getD 0))]) := rfl

theorem emitAtom_equal (terms : List TermData) (sorts : List String)
    (em : Em) (out : List FlatAtom) (l r : Nat) :
    emitAtom terms sorts (em, out) (AtomData.Equal l r) =
      ({ ((subt terms l ++ subt terms r).foldl (emitTermStructure terms sorts)
            ({ em with names := ufUnion nameMerge em.names l r }, out)).1 with
          added := cc terms orMerge (ufUnion orMerge
            ((subt terms l ++ subt terms r).foldl (emitTermStructure terms sorts)
              ({ em with names := ufUnion nameMerge em.names l r }, out)).1.added l r)
          names := cc terms nameMerge
            ((subt terms l ++ subt terms r).foldl (emitTermStructure terms sorts)
              ({ em with names := ufUnion nameMerge em.names l r }, out)).1.names },
       match (match ufGet em.names l, ufGet em.names r with
        | some a, some b => if a ≠ b then some (a, b) else none
        | _, _ => none) with
       | some pr => ((subt terms l ++ subt terms r).foldl
           (emitTermStructure terms sorts)
           ({ em with names := ufUnion nameMerge em.names l r }, out)).2 ++
           [FlatAtom.Equal pr.1 pr.2]
       | none => ((subt terms l ++ subt terms r).foldl
           (emitTermStructure terms sorts)
           ({ em with names := ufUnion nameMerge em.names l r }, out)).2) := rfl

theorem een_none_of_root_eq (em : Em) (l r : Nat)
    (h : ufRoot em.names l = ufRoot em.names r) :
    (match ufGet em.names l, ufGet em.names r with
      | some a, some b => if a ≠ b then some (a, b) else none
      | _, _ => none) = none := by
  rw [ufGet_root_eq em.names h]
  rcases ufGet em.names r with _ | a
  · rfl
  · show (if a ≠ a then some (a, a) else none) = none
    rw [if_neg (fun hc => hc rfl)]

theorem PremInv_push {terms : List TermData} {em1 em : Em} {out : List FlatAtom}
    (hinv : PremInv terms em1 em out) (newAtoms : List FlatAtom)
    (hnoeq : noEq newAtoms) : PremInv terms em1 em (out ++ newAtoms) := by
  refine ⟨hinv.wfn, hinv.wfa, hinv.wfc, hinv.par_eq, hinv.con_eq, hinv.le_an,
    hinv.sep, hinv.appargs, ?_, hinv.named, ?_, noEq_append hinv.noeq hnoeq,
    hinv.le_init⟩
  · intro A f args hdata htrue
    exact List.mem_append_left _ (hinv.apprel A f args hdata htrue)
  · intro s k h
    rcases hinv.occ s k h with h2 | h2
    · exact Or.inl (by rw [occList_append]; exact List.mem_append_left _ h2)
    · exact Or.inr h2

theorem emit_subtlist_prem (terms : List TermData) (sorts : List String)
    (htw : termsWF terms) {em1 : Em}
    (hpc : em1.constrained.parents = em1.names.parents) :
    ∀ (as2 : List Nat), (∀ a, a ∈ as2 → a < terms.length) →
    ∀ em out, PremInv terms em1 em out →
      PremInv terms em1
        ((as2.flatMap (subt terms)).foldl (emitTermStructure terms sorts) (em, out)).1
        ((as2.flatMap (subt terms)).foldl (emitTermStructure terms sorts) (em, out)).2 ∧
      EmStep em
        ((as2.flatMap (subt terms)).foldl (emitTermStructure terms sorts) (em, out)).1 ∧
      (∀ a, a ∈ as2 → ∀ s, s ∈ subt terms a →
        ufGet ((as2.flatMap (subt terms)).foldl
          (emitTermStructure terms sorts) (em, out)).1.added s = true) := by
  intro as2
  induction as2 with
  | nil =>
    intro hlt em out hinv
    exact ⟨hinv, EmStep_refl em, fun a ha => absurd ha (List.not_mem_nil a)⟩
  | cons a rest ih =>
    intro hlt em out hinv
    rw [List.flatMap_cons, List.foldl_append]
    have ha := hlt a (List.mem_cons_self a rest)
    have h1 := emit_subt_prem terms sorts htw hpc a ha em out hinv
    set st1 := (subt terms a).foldl (emitTermStructure terms sorts) (em, out)
      with hst1
    have h2 := ih (fun a2 ha2 => hlt a2 (List.mem_cons_of_mem a ha2))
      st1.1 st1.2 h1.1
    refine ⟨?_, ?_, ?_⟩
    · exact h2.1
    · exact EmStep_trans h1.2.1 h2.2.1
    · intro a2 ha2 s hs
      rcases List.mem_cons.mp ha2 with rfl | ha2
      · exact h2.2.1.2 s (h1.2.2 s hs)
      · exact h2.2.2 a2 ha2 s hs

theorem emit_atom_prem (terms : List TermData) (sorts : List String)
    (htw : termsWF terms) {em1 : Em} (hstab1 : ccStable terms em1.names)
    (hpc : em1.constrained.parents = em1.names.parents)
    {em : Em} {out : List FlatAtom} (hinv : PremInv terms em1 em out)
    (atom : AtomData) (hat : atomTermsLt terms.length atom)
    (heq : ∀ l r, atom = AtomData.Equal l r →
      ufRoot em1.names l = ufRoot em1.names r) :
    PremInv terms em1 (emitAtom terms sorts (em, out) atom).1
      (emitAtom terms sorts (em, out) atom).2 ∧
    EmStep em (emitAtom terms sorts (em, out) atom).1 ∧
    (∀ s, s ∈ atomSubterms terms atom →
      ufGet (emitAtom terms sorts (em, out) atom).1.added s = true) := by
  cases atom with
  | Defined t s0 =>
    rw [emitAtom_defined]
    have h := emit_subt_prem terms sorts htw hpc t hat em out hinv
    exact ⟨h.1, h.2.1, h.2.2⟩
  | Predicate p args =>
    rw [emitAtom_pred]
    have h := emit_subtlist_prem terms sorts htw hpc args hat em out hinv
    refine ⟨PremInv_push h.1 _ (fun l2 r2 hm => by
      rcases List.mem_singleton.mp hm with h2
      exact FlatAtom.noConfusion h2), h.2.1, ?_⟩
    intro s hs
    rcases List.mem_flatMap.mp hs with ⟨a, ha, hmem⟩
    exact h.2.2 a ha s hmem
  | Equal l r =>
    rw [emitAtom_equal]
    have hroot_em : ufRoot em.names l = ufRoot em.names r := by
      rw [ufRoot_eq_of_parents_eq hinv.par_eq l,
        ufRoot_eq_of_parents_eq hinv.par_eq r]
      exact heq l r rfl
    have heen := een_none_of_root_eq em l r hroot_em
    rw [heen]
    have hun : ufUnion nameMerge em.names l r = em.names :=
      ufUnion_eq_self_of_root_eq _ _ _ _ hroot_em
    rw [hun]
    have hem : { em with names := em.names } = em := rfl
    rw [hem]
    have hsplit : (subt terms l ++ subt terms r).foldl
        (emitTermStructure terms sorts) (em, out)
        = (subt terms r).foldl (emitTermStructure terms sorts)
          ((subt terms l).foldl (emitTermStructure terms sorts) (em, out)) := by
      rw [List.foldl_append]
    rw [hsplit]
    have h1 := emit_subt_prem terms sorts htw hpc l hat.1 em out hinv
    set F1 := (subt terms l).foldl (emitTermStructure terms sorts) (em, out)
      with hF1
    have h2 := emit_subt_prem terms sorts htw hpc r hat.2 F1.1 F1.2 h1.1
    have hpair : (F1.1, F1.2) = F1 := rfl
    rw [hpair] at h2
    set F := (subt terms r).foldl (emitTermStructure terms sorts) F1 with hF
    have hFinv : PremInv terms em1 F.1 F.2 := h2.1
    have hstepF : EmStep em F.1 := EmStep_trans h1.2.1 h2.2.1
    have hladd : ufGet F.1.added l = true :=
      h2.2.1.2 l (h1.2.2 l (self_mem_subt terms l))
    have hradd : ufGet F.1.added r = true :=
      h2.2.2 r (self_mem_subt terms r)
    have hstabF : ccStable terms F.1.names :=
      ccStable_of_parents_eq hFinv.par_eq hstab1
    have hccn : cc terms nameMerge F.1.names = F.1.names :=
      cc_eq_self_of_stable _ hstabF
    rw [hccn]
    have hFroot : ufRoot F.1.names l = ufRoot F.1.names r := by
      rw [ufRoot_eq_of_parents_eq hFinv.par_eq l,
        ufRoot_eq_of_parents_eq hFinv.par_eq r]
      exact heq l r rfl
    have hupack := SepInv_union_bothTrue hFinv.wfa hat.1 hat.2 hladd hradd
      hFinv.sep
    have hwfu : UFWF terms.length (ufUnion orMerge F.1.added l r) :=
      UFWF_ufUnion orMerge F.1.added terms.length hFinv.wfa l r hat.1 hat.2
    have happu : AppArgsInv terms (ufUnion orMerge F.1.added l r) := by
      intro A f args hdata htrue a ha
      rw [hupack.2 A] at htrue
      rw [hupack.2 a]
      exact hFinv.appargs A f args hdata htrue a ha
    have hccpack := added_cc_pack htw F.1.added (ufUnion orMerge F.1.added l r)
      ⟨hwfu, hupack.1, happu, hupack.2⟩
    have hle4 : UFle (cc terms orMerge (ufUnion orMerge F.1.added l r))
        F.1.names :=
      UFle_cc_into htw hstabF _ hwfu
        (UFle_ufUnion_into hFinv.wfa hat.2 hFinv.le_an hFroot)
    have hleinit : UFle (ufNew terms Bool false)
        (cc terms orMerge (ufUnion orMerge F.1.added l r)) :=
      UFle_trans hFinv.le_init
        (UFle_trans (UFle_ufUnion_self orMerge F.1.added terms.length
          hFinv.wfa l r hat.2) (UFle_cc_self htw _ hwfu))
    refine ⟨⟨hFinv.wfn, hccpack.1, hFinv.wfc, hFinv.par_eq, hFinv.con_eq,
      hle4, hccpack.2.1, hccpack.2.2.1, ?_, ?_, ?_, ?_, hleinit⟩, ?_, ?_⟩
    · intro A f args hdata htrue
      have h3 : ufGet F.1.added A = true := (hccpack.2.2.2 A).mp htrue
      exact hFinv.apprel A f args hdata h3
    · intro s htrue
      exact hFinv.named s ((hccpack.2.2.2 s).mp htrue)
    · intro s k h
      exact hFinv.occ s k h
    · exact hFinv.noeq
    · refine EmStep_trans hstepF ⟨fun s k h => h, fun s h => ?_⟩
      exact (hccpack.2.2.2 s).mpr h
    · intro s hs
      show ufGet (cc terms orMerge (ufUnion orMerge F.1.added l r)) s = true
      refine (hccpack.2.2.2 s).mpr ?_
      rcases List.mem_append.mp hs with hs | hs
      · exact h2.2.1.2 s (h1.2.2 s hs)
      · exact h2.2.2 s hs

/-- The setup-phase invariant. -/
structure SetupInv (terms : List TermData) (premise : List AtomData)
    (em : Em) : Prop where
  wfn : UFWF terms.length em.names
  wfc : UFWF terms.length em.constrained
  added_eq : em.added = ufNew terms Bool false
  namenum : em.nameNum = 0
  nonames : ∀ t, ufGet em.names t = none
  par_cn : em.constrained.parents = em.names.parents
  stab : ccStable terms em.names
  sound : ∀ t, ufGet em.constrained t = true →
    ∃ u, markedDirectly terms premise u ∧
      ufRoot em.constrained u = ufRoot em.constrained t

theorem SetupInv_base (terms : List TermData) (premise : List AtomData) :
    SetupInv terms premise (emNew terms) := by
  refine ⟨?_, ?_, emNew_added terms, rfl, ?_, ?_, ?_, ?_⟩
  · rw [emNew_names]
    exact UFWF_ufNew terms (Option Nat) none
  · rw [emNew_constrained]
    exact UFWF_ufNew terms Bool false
  · intro t
    rw [emNew_names]
    exact ufGet_ufNew terms none t rfl
  · rw [emNew_names, emNew_constrained]
    rfl
  · rw [emNew_names]
    exact ccStable_ufNew terms (Option Nat) none
  · intro t h
    rw [emNew_constrained] at h
    rw [ufGet_ufNew terms false t rfl] at h
    exact absurd h Bool.false_ne_true

/-- Writing true at a marked in-range term preserves soundness. -/
theorem sound_ufSet {terms : List TermData} {premise : List AtomData}
    {con : UF Bool} (hwf : UFWF terms.length con) {a : Nat}
    (ha : a < terms.length) (hmark : markedDirectly terms premise a)
    (hsound : ∀ t, ufGet con t = true →
      ∃ u, markedDirectly terms premise u ∧ ufRoot con u = ufRoot con t) :
    ∀ t, ufGet (ufSet con a true) t = true →
      ∃ u, markedDirectly terms premise u ∧
        ufRoot (ufSet con a true) u = ufRoot (ufSet con a true) t := by
  intro t h
  rw [ufGet_ufSet con hwf a ha true t] at h
  by_cases hr : ufRoot con t = ufRoot con a
  · exact ⟨a, hmark, by
      rw [ufRoot_ufSet, ufRoot_ufSet, hr]⟩
  · rw [if_neg hr] at h
    rcases hsound t h with ⟨u, hu, hru⟩
    exact ⟨u, hu, by rw [ufRoot_ufSet, ufRoot_ufSet]; exact hru⟩

/-- An or-valued union preserves soundness. -/
theorem sound_ufUnion {terms : List TermData} {premise : List AtomData}
    {con : UF Bool} (hwf : UFWF terms.length con) {a b : Nat}
    (ha : a < terms.length) (hb : b < terms.length)
    (hsound : ∀ t, ufGet con t = true →
      ∃ u, markedDirectly terms premise u ∧ ufRoot con u = ufRoot con t) :
    ∀ t, ufGet (ufUnion orMerge con a b) t = true →
      ∃ u, markedDirectly terms premise u ∧
        ufRoot (ufUnion orMerge con a b) u = ufRoot (ufUnion orMerge con a b) t := by
  intro t h
  have hco : UFle con (ufUnion orMerge con a b) :=
    UFle_ufUnion_self orMerge con terms.length hwf a b hb
  rcases ufGet_ufUnion orMerge con hwf a b ha hb t with h2 | h2
  · rw [h2] at h
    rcases hsound t h with ⟨u, hu, hru⟩
    exact ⟨u, hu, hco u t hru⟩
  · rw [h2.2] at h
    have hor : ufGet con a = true ∨ ufGet con b = true := by
      rcases hva : ufGet con a with _ | _
      · rcases hvb : ufGet con b with _ | _
        · exfalso
          unfold orMerge at h
          rw [hva, hvb] at h
          exact Bool.false_ne_true h
        · exact Or.inr rfl
      · exact Or.inl rfl
    have habu : ufRoot (ufUnion orMerge con a b) a
        = ufRoot (ufUnion orMerge con a b) b :=
      ufRoot_ufUnion_ab orMerge con terms.length hwf a b ha hb
    have htab : ufRoot (ufUnion orMerge con a b) t
        = ufRoot (ufUnion orMerge con a b) a := by
      rcases h2.1 with hr | hr
      · exact (hco t a hr).symm.symm ▸ (hco t a hr)
      · rw [hco t b hr]
        exact habu.symm
    rcases hor with hv | hv
    · rcases hsound a hv with ⟨u, hu, hru⟩
      exact ⟨u, hu, by rw [hco u a hru]; exact htab.symm⟩
    · rcases hsound b hv with ⟨u, hu, hru⟩
      exact ⟨u, hu, by rw [hco u b hru, ← habu]; exact htab.symm⟩

theorem sound_cc {terms : List TermData} {premise : List AtomData}
    (htw : termsWF terms) (con : UF Bool) (hwf : UFWF terms.length con)
    (hsound : ∀ t, ufGet con t = true →
      ∃ u, markedDirectly terms premise u ∧ ufRoot con u = ufRoot con t) :
    ∀ t, ufGet (cc terms orMerge con) t = true →
      ∃ u, markedDirectly terms premise u ∧
        ufRoot (cc terms orMerge con) u = ufRoot (cc terms orMerge con) t := by
  have h := cc_inv htw (fun v => UFWF terms.length v ∧
    ∀ t, ufGet v t = true → ∃ u, markedDirectly terms premise u ∧
      ufRoot v u = ufRoot v t)
    (fun v a b ha hb hv =>
      ⟨UFWF_ufUnion orMerge v terms.length hv.1 a b ha hb,
       sound_ufUnion hv.1 ha hb hv.2⟩)
    con ⟨hwf, hsound⟩
  exact h.2

theorem setupPremiseTerm_nonapp (terms : List TermData) (em : Em) (t : Nat)
    (h : ∀ f args, terms.getD t default ≠ TermData.Application f args) :
    setupPremiseTerm terms em t =
      { em with constrained := cc terms orMerge em.constrained } := by
  unfold setupPremiseTerm
  split
  · rename_i f args hdata
    exact absurd hdata (h f args)
  · rfl

theorem setupPremiseTerm_app (terms : List TermData) (em : Em) (t : Nat)
    {f : String} {args : List Nat}
    (hd : terms.getD t default = TermData.Application f args) :
    setupPremiseTerm terms em t =
      { em with constrained := (cc terms orMerge
        (ufSet (args.foldl (fun acc a => ufSet acc a true) em.constrained)
          t true)) } := by
  unfold setupPremiseTerm
  rw [hd]

theorem setupPremiseAtom_equal (terms : List TermData) (em : Em) (l r : Nat) :
    setupPremiseAtom terms em (AtomData.Equal l r) =
      { em with
        names := cc terms nameMerge (ufUnion nameMerge em.names l r)
        constrained := (cc terms orMerge
          (ufUnion orMerge em.constrained l r)) } := rfl

theorem setupPremiseAtom_defined (terms : List TermData) (em : Em) (t : Nat)
    (s : String) :
    setupPremiseAtom terms em (AtomData.Defined t s) =
      { em with
        names := cc terms nameMerge em.names
        constrained := cc terms orMerge em.constrained } := rfl

theorem setupPremiseAtom_pred (terms : List TermData) (em : Em) (p : String)
    (args : List Nat) :
    setupPremiseAtom terms em (AtomData.Predicate p args) =
      { em with
        names := cc terms nameMerge em.names
        constrained := (cc terms orMerge
          (args.foldl (fun acc a => ufSet acc a true) em.constrained)) } := rfl

/-- The constrained closure is the identity while the constrained partition
matches the stable names partition. -/
theorem cc_con_id {terms : List TermData} {em : Em}
    (hpar : em.constrained.parents = em.names.parents)
    (hstab : ccStable terms em.names) :
    cc terms orMerge em.constrained = em.constrained :=
  cc_eq_self_of_stable _ (ccStable_of_parents_eq hpar hstab)

theorem writes_fold_parents (con : UF Bool) (as2 : List Nat) :
    (as2.foldl (fun acc a => ufSet acc a true) con).parents = con.parents := by
  induction as2 generalizing con with
  | nil => rfl
  | cons a rest ih => exact ih (ufSet con a true)

theorem writes_fold_wf {n : Nat} (con : UF Bool) (hwf : UFWF n con)
    (as2 : List Nat) :
    UFWF n (as2.foldl (fun acc a => ufSet acc a true) con) :=
  foldl_inv (UFWF n) _ as2 con hwf
    (fun acc a ha hacc => UFWF_ufSet acc n hacc a true)

theorem writes_fold_sound {terms : List TermData} {premise : List AtomData}
    (con : UF Bool) (hwf : UFWF terms.length con) (as2 : List Nat)
    (hlt : ∀ a, a ∈ as2 → a < terms.length)
    (hmark : ∀ a, a ∈ as2 → markedDirectly terms premise a)
    (hsound : ∀ t, ufGet con t = true →
      ∃ u, markedDirectly terms premise u ∧ ufRoot con u = ufRoot con t) :
    ∀ t, ufGet (as2.foldl (fun acc a => ufSet acc a true) con) t = true →
      ∃ u, markedDirectly terms premise u ∧
        ufRoot (as2.foldl (fun acc a => ufSet acc a true) con) u =
          ufRoot (as2.foldl (fun acc a => ufSet acc a true) con) t := by
  have h := foldl_inv (fun v => UFWF terms.length v ∧
    ∀ t, ufGet v t = true → ∃ u, markedDirectly terms premise u ∧
      ufRoot v u = ufRoot v t) _ as2 con ⟨hwf, hsound⟩
    (fun acc a ha hacc =>
      ⟨UFWF_ufSet acc terms.length hacc.1 a true,
       sound_ufSet hacc.1 (hlt a ha) (hmark a ha) hacc.2⟩)
  exact h.2

theorem writes_fold_true {n : Nat} (con : UF Bool) (hwf : UFWF n con)
    (as2 : List Nat) (hlt : ∀ a, a ∈ as2 → a < n) (x : Nat)
    (hx : ufGet con x = true) :
    ufGet (as2.foldl (fun acc a => ufSet acc a true) con) x = true := by
  have h := foldl_inv (fun v => UFWF n v ∧ ufGet v x = true) _ as2 con
    ⟨hwf, hx⟩
    (fun acc a ha hacc =>
      ⟨UFWF_ufSet acc n hacc.1 a true,
       ufGet_true_ufSet acc hacc.1 a (hlt a ha) x hacc.2⟩)
  exact h.2

theorem writes_fold_marks {n : Nat} (con : UF Bool) (hwf : UFWF n con)
    (as2 : List Nat) (hlt : ∀ a, a ∈ as2 → a < n) :
    ∀ a, a ∈ as2 →
      ufGet (as2.foldl (fun acc a => ufSet acc a true) con) a = true := by
  intro a ha
  rcases foldl_decompose (fun acc a2 => ufSet acc a2 true) as2 a ha con
    with ⟨l1, l2, hsplit, hfold⟩
  rw [hfold]
  set v := l1.foldl (fun acc a2 => ufSet acc a2 true) con with hv
  have hwfv : UFWF n v := writes_fold_wf con hwf l1
  have hva : ufGet (ufSet v a true) a = true := by
    rw [ufGet_ufSet v hwfv a (hlt a ha) true a, if_pos rfl]
  have hwfva : UFWF n (ufSet v a true) := UFWF_ufSet v n hwfv a true
  exact writes_fold_true (ufSet v a true) hwfva l2
    (fun a2 ha2 => hlt a2 (by
      rw [hsplit]
      exact List.mem_append_right _ (List.mem_cons_of_mem a ha2))) a hva

theorem setupTerm_inv {terms : List TermData} {premise : List AtomData}
    (htw : termsWF terms) (em : Em) (t : Nat)
    (hinv : SetupInv terms premise em) (ht : t < terms.length)
    (hmark : ∀ f args, terms.getD t default = TermData.Application f args →
      (∀ a, a ∈ args → markedDirectly terms premise a) ∧
        markedDirectly terms premise t) :
    SetupInv terms premise (setupPremiseTerm terms em t) ∧
    (∀ x, ufGet em.constrained x = true →
      ufGet (setupPremiseTerm terms em t).constrained x = true) ∧
    (setupPremiseTerm terms em t).names = em.names ∧
    (∀ f args, terms.getD t default = TermData.Application f args →
      (∀ a, a ∈ args → ufGet (setupPremiseTerm terms em t).constrained a = true) ∧
        ufGet (setupPremiseTerm terms em t).constrained t = true) := by
  rcases hdt : terms.getD t default with v | _ | ⟨f, args⟩
  · rw [setupPremiseTerm_nonapp terms em t (by
      intro f2 args2 hcon
      rw [hdt] at hcon
      exact TermData.noConfusion hcon)]
    rw [cc_con_id hinv.par_cn hinv.stab]
    refine ⟨hinv, fun x h => h, rfl, ?_⟩
    intro f2 args2 hcon
    exact absurd hcon (by intro h2; cases h2)
  · rw [setupPremiseTerm_nonapp terms em t (by
      intro f2 args2 hcon
      rw [hdt] at hcon
      exact TermData.noConfusion hcon)]
    rw [cc_con_id hinv.par_cn hinv.stab]
    refine ⟨hinv, fun x h => h, rfl, ?_⟩
    intro f2 args2 hcon
    exact absurd hcon (by intro h2; cases h2)
  · rw [setupPremiseTerm_app terms em t hdt]
    have hargslt : ∀ a, a ∈ args → a < terms.length := by
      intro a ha
      have := htw t ht f args hdt a ha
      omega
    have hwf1 : UFWF terms.length
        (args.foldl (fun acc a => ufSet acc a true) em.constrained) :=
      writes_fold_wf em.constrained hinv.wfc args
    have hwf2 : UFWF terms.length
        (ufSet (args.foldl (fun acc a => ufSet acc a true) em.constrained)
          t true) :=
      UFWF_ufSet _ terms.length hwf1 t true
    have hpar2 : (ufSet (args.foldl (fun acc a => ufSet acc a true)
        em.constrained) t true).parents = em.names.parents := by
      show (args.foldl (fun acc a => ufSet acc a true)
        em.constrained).parents = em.names.parents
      rw [writes_fold_parents]
      exact hinv.par_cn
    have hccid : cc terms orMerge
        (ufSet (args.foldl (fun acc a => ufSet acc a true) em.constrained)
          t true) =
        ufSet (args.foldl (fun acc a => ufSet acc a true) em.constrained)
          t true :=
      cc_eq_self_of_stable _ (ccStable_of_parents_eq hpar2 hinv.stab)
    rw [show (cc terms orMerge
        (ufSet (args.foldl (fun acc a => ufSet acc a true) em.constrained)
          t true)) =
        ufSet (args.foldl (fun acc a => ufSet acc a true) em.constrained)
          t true from hccid]
    have hmk := hmark f args hdt
    have hsound1 := writes_fold_sound em.constrained hinv.wfc args hargslt
      hmk.1 hinv.sound
    have hsound2 := sound_ufSet hwf1 ht hmk.2 hsound1
    refine ⟨⟨hinv.wfn, hwf2, hinv.added_eq, hinv.namenum, hinv.nonames,
      hpar2, hinv.stab, hsound2⟩, ?_, rfl, ?_⟩
    · intro x hx
      exact ufGet_true_ufSet _ hwf1 t ht x
        (writes_fold_true em.constrained hinv.wfc args hargslt x hx)
    · intro f2 args2 hcon
      injection hcon with h1 h2
      subst h1
      subst h2
      constructor
      · intro a ha
        exact ufGet_true_ufSet _ hwf1 t ht a
          (writes_fold_marks em.constrained hinv.wfc args hargslt a ha)
      · show ufGet (ufSet (args.foldl (fun acc a => ufSet acc a true)
          em.constrained) t true) t = true
        rw [ufGet_ufSet _ hwf1 t ht true t, if_pos rfl]

theorem setupAtom_inv {terms : List TermData} {premise : List AtomData}
    (htw : termsWF terms) (em : Em) (atom : AtomData)
    (hinv : SetupInv terms premise em) (hat : atomTermsLt terms.length atom)
    (hmarkp : ∀ p args, atom = AtomData.Predicate p args →
      ∀ a, a ∈ args → markedDirectly terms premise a) :
    SetupInv terms premise (setupPremiseAtom terms em atom) ∧
    (∀ x, ufGet em.constrained x = true →
      ufGet (setupPremiseAtom terms em atom).constrained x = true) ∧
    UFle em.names (setupPremiseAtom terms em atom).names ∧
    (∀ l r, atom = AtomData.Equal l r →
      ufRoot (setupPremiseAtom terms em atom).names l =
        ufRoot (setupPremiseAtom terms em atom).names r) ∧
    (∀ p args, atom = AtomData.Predicate p args →
      ∀ a, a ∈ args → ufGet (setupPremiseAtom terms em atom).constrained a = true) := by
  cases atom with
  | Defined t s0 =>
    rw [setupPremiseAtom_defined]
    rw [cc_con_id hinv.par_cn hinv.stab, cc_eq_self_of_stable em.names hinv.stab]
    have hem : { em with names := em.names, constrained := em.constrained } = em := rfl
    rw [hem]
    exact ⟨hinv, fun x h => h, UFle_refl em.names,
      fun l r hcon => AtomData.noConfusion hcon,
      fun p args hcon => AtomData.noConfusion hcon⟩
  | Predicate p args =>
    rw [setupPremiseAtom_pred]
    rw [cc_eq_self_of_stable em.names hinv.stab]
    have hargslt : ∀ a, a ∈ args → a < terms.length := hat
    have hpar2 : (args.foldl (fun acc a => ufSet acc a true)
        em.constrained).parents = em.names.parents := by
      rw [writes_fold_parents]
      exact hinv.par_cn
    have hccid : cc terms orMerge
        (args.foldl (fun acc a => ufSet acc a true) em.constrained) =
        args.foldl (fun acc a => ufSet acc a true) em.constrained :=
      cc_eq_self_of_stable _ (ccStable_of_parents_eq hpar2 hinv.stab)
    rw [hccid]
    have hmk : ∀ a, a ∈ args → markedDirectly terms premise a :=
      hmarkp p args rfl
    refine ⟨⟨hinv.wfn, writes_fold_wf em.constrained hinv.wfc args,
      hinv.added_eq, hinv.namenum, hinv.nonames, hpar2, hinv.stab,
      writes_fold_sound em.constrained hinv.wfc args hargslt hmk hinv.sound⟩,
      ?_, UFle_refl em.names, fun l r hcon => AtomData.noConfusion hcon, ?_⟩
    · intro x hx
      exact writes_fold_true em.constrained hinv.wfc args hargslt x hx
    · intro p2 args2 hcon
      injection hcon with h1 h2
      subst h1
      subst h2
      intro a ha
      exact writes_fold_marks em.constrained hinv.wfc args hargslt a ha
  | Equal l r =>
    rw [setupPremiseAtom_equal]
    have hl := hat.1
    have hr := hat.2
    have hwfu_n : UFWF terms.length (ufUnion nameMerge em.names l r) :=
      UFWF_ufUnion nameMerge em.names terms.length hinv.wfn l r hl hr
    have hwfu_c : UFWF terms.length (ufUnion orMerge em.constrained l r) :=
      UFWF_ufUnion orMerge em.constrained terms.length hinv.wfc l r hl hr
    have hwf_ncc : UFWF terms.length
        (cc terms nameMerge (ufUnion nameMerge em.names l r)) :=
      UFWF_cc htw _ hwfu_n
    have hstab2 : ccStable terms
        (cc terms nameMerge (ufUnion nameMerge em.names l r)) :=
      ccStable_cc htw _ hwfu_n
    have hpar_u : (ufUnion orMerge em.constrained l r).parents =
        (ufUnion nameMerge em.names l r).parents :=
      ufUnion_parents_eq orMerge nameMerge em.constrained em.names
        hinv.par_cn l r
    have hpar2 : (cc terms orMerge (ufUnion orMerge em.constrained l r)).parents =
        (cc terms nameMerge (ufUnion nameMerge em.names l r)).parents :=
      cc_parents_eq orMerge nameMerge _ _ hpar_u
    have hsound2 := sound_cc htw (ufUnion orMerge em.constrained l r) hwfu_c
      (sound_ufUnion hinv.wfc hl hr hinv.sound)
    have hnones : ∀ t, ufGet (cc terms nameMerge
        (ufUnion nameMerge em.names l r)) t = none := by
      have h1 : ∀ t, ufGet (ufUnion nameMerge em.names l r) t = none :=
        ufGet_all_ufUnion nameMerge (fun v => v = none)
          (fun x y hx hy => by
            unfold nameMerge
            rw [hx, hy])
          em.names hinv.wfn l r hl hr hinv.nonames
      exact ufGet_all_cc nameMerge (fun v => v = none)
        (fun x y hx hy => by
          unfold nameMerge
          rw [hx, hy])
        htw _ hwfu_n h1
    have hle_n : UFle em.names
        (cc terms nameMerge (ufUnion nameMerge em.names l r)) :=
      UFle_trans (UFle_ufUnion_self nameMerge em.names terms.length hinv.wfn l r hr)
        (UFle_cc_self htw _ hwfu_n)
    refine ⟨⟨hwf_ncc, UFWF_cc htw _ hwfu_c, hinv.added_eq, hinv.namenum,
      hnones, hpar2, hstab2, hsound2⟩, ?_, hle_n, ?_,
      fun p args hcon => AtomData.noConfusion hcon⟩
    · intro x hx
      exact ufGet_true_cc htw _ hwfu_c x
        (ufGet_true_ufUnion em.constrained hinv.wfc l r hl hr x hx)
    · intro l2 r2 hcon
      injection hcon with h1 h2
      subst h1
      subst h2
      show ufRoot (cc terms nameMerge (ufUnion nameMerge em.names l r)) l = _
      have h1 := ufRoot_ufUnion_ab nameMerge em.names terms.length hinv.wfn
        l r hl hr
      exact UFle_cc_self htw _ hwfu_n l r h1

/-- The markings contributed by one premise atom. -/
def markedAt (terms : List TermData) (atom : AtomData) (u : Nat) : Prop :=
  (∃ A, A ∈ atomSubterms terms atom ∧ ∃ f args,
     terms.getD A default = TermData.Application f args ∧ (u ∈ args ∨ u = A)) ∨
  (∃ p args, atom = AtomData.Predicate p args ∧ u ∈ args)

def setupStep (terms : List TermData) (acc : Em) (atom : AtomData) : Em :=
  setupPremiseAtom terms
    ((atomSubterms terms atom).foldl (setupPremiseTerm terms) acc) atom

theorem mem_atomSubterms_lt {terms : List TermData} (htw : termsWF terms)
    (atom : AtomData) (hat : atomTermsLt terms.length atom) (s : Nat)
    (hs : s ∈ atomSubterms terms atom) : s < terms.length := by
  cases atom with
  | Equal l r =>
    rcases List.mem_append.mp hs with h | h
    · have := mem_subt_le htw l s h
      have := hat.1
      omega
    · have := mem_subt_le htw r s h
      have := hat.2
      omega
  | Defined t s0 =>
    have := mem_subt_le htw t s hs
    have : t < terms.length := hat
    omega
  | Predicate p args =>
    rcases List.mem_flatMap.mp hs with ⟨a, ha, hmem⟩
    have := mem_subt_le htw a s hmem
    have := hat a ha
    omega

theorem setup_subt_loop {terms : List TermData} {premise : List AtomData}
    (htw : termsWF terms) (atom : AtomData) (hmem : atom ∈ premise)
    (hat : atomTermsLt terms.length atom) :
    ∀ em, SetupInv terms premise em →
      SetupInv terms premise
        ((atomSubterms terms atom).foldl (setupPremiseTerm terms) em) ∧
      (∀ x, ufGet em.constrained x = true →
        ufGet ((atomSubterms terms atom).foldl
          (setupPremiseTerm terms) em).constrained x = true) ∧
      ((atomSubterms terms atom).foldl (setupPremiseTerm terms) em).names
        = em.names ∧
      (∀ t, t ∈ atomSubterms terms atom →
        ∀ f args, terms.getD t default = TermData.Application f args →
          (∀ a, a ∈ args → ufGet ((atomSubterms terms atom).foldl
            (setupPremiseTerm terms) em).constrained a = true) ∧
          ufGet ((atomSubterms terms atom).foldl
            (setupPremiseTerm terms) em).constrained t = true) := by
  intro em hinv
  have hstepfact : ∀ (acc : Em) t, t ∈ atomSubterms terms atom →
      SetupInv terms premise acc →
      SetupInv terms premise (setupPremiseTerm terms acc t) ∧
      (∀ x, ufGet acc.constrained x = true →
        ufGet (setupPremiseTerm terms acc t).constrained x = true) ∧
      (setupPremiseTerm terms acc t).names = acc.names ∧
      (∀ f args, terms.getD t default = TermData.Application f args →
        (∀ a, a ∈ args →
          ufGet (setupPremiseTerm terms acc t).constrained a = true) ∧
        ufGet (setupPremiseTerm terms acc t).constrained t = true) := by
    intro acc t htm hacc
    have ht := mem_atomSubterms_lt htw atom hat t htm
    exact setupTerm_inv htw acc t hacc ht (fun f args hdata =>
      ⟨fun a ha => Or.inl ⟨atom, hmem, t, htm, f, args, hdata, Or.inl ha⟩,
       Or.inl ⟨atom, hmem, t, htm, f, args, hdata, Or.inr rfl⟩⟩)
  have hmain := foldl_inv (fun acc => SetupInv terms premise acc ∧
      (∀ x, ufGet em.constrained x = true → ufGet acc.constrained x = true) ∧
      acc.names = em.names) _ (atomSubterms terms atom) em
    ⟨hinv, fun x h => h, rfl⟩
    (fun acc t htm hacc =>
      ⟨(hstepfact acc t htm hacc.1).1,
       fun x h => (hstepfact acc t htm hacc.1).2.1 x (hacc.2.1 x h),
       by rw [(hstepfact acc t htm hacc.1).2.2.1, hacc.2.2]⟩)
  refine ⟨hmain.1, hmain.2.1, hmain.2.2, ?_⟩
  intro t htm f args hdata
  rcases foldl_decompose (setupPremiseTerm terms) (atomSubterms terms atom)
    t htm em with ⟨l1, l2, hsplit, hfold⟩
  rw [hfold]
  have hl1 : ∀ s, s ∈ l1 → s ∈ atomSubterms terms atom := by
    intro s hs
    rw [hsplit]
    exact List.mem_append_left _ hs
  have hl2 : ∀ s, s ∈ l2 → s ∈ atomSubterms terms atom := by
    intro s hs
    rw [hsplit]
    exact List.mem_append_right _ (List.mem_cons_of_mem t hs)
  have hpre := foldl_inv (fun acc => SetupInv terms premise acc) _ l1 em hinv
    (fun acc s hs hacc => (hstepfact acc s (hl1 s hs) hacc).1)
  set v := l1.foldl (setupPremiseTerm terms) em with hv
  have hstep := hstepfact v t htm hpre
  have hmarks := hstep.2.2.2 f args hdata
  have hsuffix := foldl_inv (fun acc => SetupInv terms premise acc ∧
      (∀ a, a ∈ args → ufGet acc.constrained a = true) ∧
      ufGet acc.constrained t = true) _ l2 (setupPremiseTerm terms v t)
    ⟨hstep.1, hmarks.1, hmarks.2⟩
    (fun acc s hs hacc =>
      ⟨(hstepfact acc s (hl2 s hs) hacc.1).1,
       fun a ha => (hstepfact acc s (hl2 s hs) hacc.1).2.1 a (hacc.2.1 a ha),
       (hstepfact acc s (hl2 s hs) hacc.1).2.1 t hacc.2.2⟩)
  exact ⟨hsuffix.2.1, hsuffix.2.2⟩

theorem setupStep_inv {terms : List TermData} {premise : List AtomData}
    (htw : termsWF terms) (atom : AtomData) (hmem : atom ∈ premise)
    (hat : atomTermsLt terms.length atom) :
    ∀ em, SetupInv terms premise em →
      SetupInv terms premise (setupStep terms em atom) ∧
      (∀ x, ufGet em.constrained x = true →
        ufGet (setupStep terms em atom).constrained x = true) ∧
      UFle em.names (setupStep terms em atom).names ∧
      (∀ l r, atom = AtomData.Equal l r →
        ufRoot (setupStep terms em atom).names l =
          ufRoot (setupStep terms em atom).names r) ∧
      (∀ u, markedAt terms atom u →
        ufGet (setupStep terms em atom).constrained u = true) := by
  intro em hinv
  unfold setupStep
  have hloop := setup_subt_loop htw atom hmem hat em hinv
  set v := (atomSubterms terms atom).foldl (setupPremiseTerm terms) em with hv
  have hatm := setupAtom_inv htw v atom hloop.1 hat
    (fun p args hcon a ha => Or.inr ⟨p, args, by rw [← hcon]; exact hmem, ha⟩)
  refine ⟨hatm.1, ?_, ?_, hatm.2.2.2.1, ?_⟩
  · intro x hx
    exact hatm.2.1 x (hloop.2.1 x hx)
  · rw [show em.names = v.names from hloop.2.2.1.symm]
    exact hatm.2.2.1
  · intro u hu
    rcases hu with ⟨A, hA, f, args, hdata, hor⟩ | ⟨p, args, hcon, ha⟩
    · have hmk := hloop.2.2.2 A hA f args hdata
      rcases hor with h | h
      · exact hatm.2.1 u (hmk.1 u h)
      · subst h
        exact hatm.2.1 u hmk.2
    · subst hcon
      exact hatm.2.2.2.2 p args rfl u ha

theorem markedDirectly_iff {terms : List TermData} {premise : List AtomData}
    (u : Nat) : markedDirectly terms premise u ↔
      ∃ atom, atom ∈ premise ∧ markedAt terms atom u := by
  constructor
  · intro h
    rcases h with ⟨atom, hmem, A, hA, f, args, hdata, hor⟩ | ⟨p, args, hmem, ha⟩
    · exact ⟨atom, hmem, Or.inl ⟨A, hA, f, args, hdata, hor⟩⟩
    · exact ⟨AtomData.Predicate p args, hmem, Or.inr ⟨p, args, rfl, ha⟩⟩
  · intro h
    rcases h with ⟨atom, hmem, h⟩
    rcases h with ⟨A, hA, f, args, hdata, hor⟩ | ⟨p, args, hcon, ha⟩
    · exact Or.inl ⟨atom, hmem, A, hA, f, args, hdata, hor⟩
    · subst hcon
      exact Or.inr ⟨p, args, hmem, ha⟩

theorem setup_fold {terms : List TermData} {premise : List AtomData}
    (htw : termsWF terms)
    (hats : ∀ atom, atom ∈ premise → atomTermsLt terms.length atom) :
    SetupInv terms premise (premise.foldl (setupStep terms) (emNew terms)) ∧
    (∀ atom, atom ∈ premise → ∀ l r, atom = AtomData.Equal l r →
      ufRoot (premise.foldl (setupStep terms) (emNew terms)).names l =
        ufRoot (premise.foldl (setupStep terms) (emNew terms)).names r) ∧
    (∀ u, markedDirectly terms premise u →
      ufGet (premise.foldl (setupStep terms) (emNew terms)).constrained u
        = true) := by
  have hbase := SetupInv_base terms premise
  refine ⟨?_, ?_, ?_⟩
  · exact foldl_inv (SetupInv terms premise) _ premise (emNew terms) hbase
      (fun acc atom hmem hacc =>
        (setupStep_inv htw atom hmem (hats atom hmem) acc hacc).1)
  · intro atom hmem l r hcon
    subst hcon
    rcases foldl_decompose (setupStep terms) premise (AtomData.Equal l r)
      hmem (emNew terms) with ⟨l1, l2, hsplit, hfold⟩
    rw [hfold]
    have hl1 : ∀ a, a ∈ l1 → a ∈ premise := by
      intro a ha
      rw [hsplit]
      exact List.mem_append_left _ ha
    have hl2 : ∀ a, a ∈ l2 → a ∈ premise := by
      intro a ha
      rw [hsplit]
      exact List.mem_append_right _ (List.mem_cons_of_mem _ ha)
    have hpre := foldl_inv (SetupInv terms premise) _ l1 (emNew terms) hbase
      (fun acc a ha hacc =>
        (setupStep_inv htw a (hl1 a ha) (hats a (hl1 a ha)) acc hacc).1)
    set v := l1.foldl (setupStep terms) (emNew terms) with hv
    have hstep := setupStep_inv htw (AtomData.Equal l r) hmem
      (hats _ hmem) v hpre
    have hroot := hstep.2.2.2.1 l r rfl
    have hsuffix := foldl_inv (fun acc => SetupInv terms premise acc ∧
        ufRoot acc.names l = ufRoot acc.names r) _ l2
      (setupStep terms v (AtomData.Equal l r)) ⟨hstep.1, hroot⟩
      (fun acc a ha hacc =>
        ⟨(setupStep_inv htw a (hl2 a ha) (hats a (hl2 a ha)) acc hacc.1).1,
         (setupStep_inv htw a (hl2 a ha) (hats a (hl2 a ha)) acc hacc.1).2.2.1
           l r hacc.2⟩)
    exact hsuffix.2
  · intro u hu
    rcases (markedDirectly_iff u).mp hu with ⟨atom, hmem, hat2⟩
    rcases foldl_decompose (setupStep terms) premise atom hmem (emNew terms)
      with ⟨l1, l2, hsplit, hfold⟩
    rw [hfold]
    have hl1 : ∀ a, a ∈ l1 → a ∈ premise := by
      intro a ha
      rw [hsplit]
      exact List.mem_append_left _ ha
    have hl2 : ∀ a, a ∈ l2 → a ∈ premise := by
      intro a ha
      rw [hsplit]
      exact List.mem_append_right _ (List.mem_cons_of_mem _ ha)
    have hpre := foldl_inv (SetupInv terms premise) _ l1 (emNew terms) hbase
      (fun acc a ha hacc =>
        (setupStep_inv htw a (hl1 a ha) (hats a (hl1 a ha)) acc hacc).1)
    set v := l1.foldl (setupStep terms) (emNew terms) with hv
    have hstep := setupStep_inv htw atom hmem (hats _ hmem) v hpre
    have htrue := hstep.2.2.2.2 u hat2
    have hsuffix := foldl_inv (fun acc => SetupInv terms premise acc ∧
        ufGet acc.constrained u = true) _ l2 (setupStep terms v atom)
      ⟨hstep.1, htrue⟩
      (fun acc a ha hacc =>
        ⟨(setupStep_inv htw a (hl2 a ha) (hats a (hl2 a ha)) acc hacc.1).1,
         (setupStep_inv htw a (hl2 a ha) (hats a (hl2 a ha)) acc hacc.1).2.1
           u hacc.2⟩)
    exact hsuffix.2

end Flatten

namespace Flatten

/-- An index holding a non-variable is its own initial parent. -/
theorem initParent_nonvar (terms : List TermData) (i : Nat)
    (h : ∀ name, terms.getD i default ≠ TermData.Variable name) :
    initParent terms i = i := by
  unfold initParent
  split
  · rename_i name hname
    exact absurd hname (h name)
  · rfl

/-- In the fresh union-find, application indices are alone in their class. -/
theorem SepInv_ufNew (terms : List TermData) :
    SepInv terms (ufNew terms Bool false) := by
  intro A f args hdata t2 hroot
  left
  have hAlt : A < terms.length := by
    by_contra hge
    rw [List.getD_eq_default _ _ (Nat.le_of_not_lt hge)] at hdata
    exact TermData.noConfusion hdata
  have hAroot : ufRoot (ufNew terms Bool false) A = A := by
    rw [ufRoot_ufNew terms Bool false A hAlt]
    exact initParent_nonvar terms A (fun name h => by rw [hdata] at h; exact TermData.noConfusion h)
  by_cases ht2 : t2 < terms.length
  · rw [ufRoot_ufNew terms Bool false t2 ht2, hAroot] at hroot
    cases hv : terms.getD t2 default with
    | Variable name =>
      have hspec := initParent_spec terms t2 ht2 name hv
      rw [← hroot, hdata] at hspec
      exact TermData.noConfusion hspec
    | Wildcard =>
      rw [initParent_nonvar terms t2
        (fun name h => by rw [hv] at h; exact TermData.noConfusion h)] at hroot
      exact hroot
    | Application g bs =>
      rw [initParent_nonvar terms t2
        (fun name h => by rw [hv] at h; exact TermData.noConfusion h)] at hroot
      exact hroot
  · rw [ufRoot_oob _ terms.length (UFWF_ufNew terms Bool false) t2
      (Nat.le_of_not_lt ht2), hAroot] at hroot
    exact hroot

/-- Setup only coarsens the name partition from the initial one. -/
theorem setup_names_le {terms : List TermData} {premise : List AtomData}
    (htw : termsWF terms)
    (hats : ∀ atom, atom ∈ premise → atomTermsLt terms.length atom) :
    UFle (ufNew terms (Option Nat) none)
      (premise.foldl (setupStep terms) (emNew terms)).names := by
  have h := foldl_inv (fun acc => SetupInv terms premise acc ∧
      UFle (ufNew terms (Option Nat) none) acc.names) _ premise (emNew terms)
    ⟨SetupInv_base terms premise, by rw [emNew_names]; exact UFle_refl _⟩
    (fun acc atom hmem hacc =>
      ⟨(setupStep_inv htw atom hmem (hats atom hmem) acc hacc.1).1,
       UFle_trans hacc.2
         (setupStep_inv htw atom hmem (hats atom hmem) acc hacc.1).2.2.1⟩)
  exact h.2

/-- The premise-phase invariant holds at the end of setup with empty output. -/
theorem PremInv_base {terms : List TermData} {premise : List AtomData}
    (htw : termsWF terms)
    (hats : ∀ atom, atom ∈ premise → atomTermsLt terms.length atom) :
    PremInv terms (premise.foldl (setupStep terms) (emNew terms))
      (premise.foldl (setupStep terms) (emNew terms)) [] := by
  have S := (setup_fold htw hats).1
  refine ⟨S.wfn, ?_, S.wfc, rfl, rfl, ?_, ?_, ?_, ?_, ?_, ?_, ?_, ?_⟩
  · rw [S.added_eq]
    exact UFWF_ufNew terms Bool false
  · rw [S.added_eq]
    exact UFle_trans (UFle_of_parents_eq
      (show (ufNew terms Bool false).parents
        = (ufNew terms (Option Nat) none).parents from rfl))
      (setup_names_le htw hats)
  · rw [S.added_eq]
    exact SepInv_ufNew terms
  · intro A f args hdata htrue
    rw [S.added_eq, ufGet_ufNew terms false _ rfl] at htrue
    exact absurd htrue Bool.false_ne_true
  · intro A f args hdata htrue
    rw [S.added_eq, ufGet_ufNew terms false _ rfl] at htrue
    exact absurd htrue Bool.false_ne_true
  · intro t htrue
    rw [S.added_eq, ufGet_ufNew terms false _ rfl] at htrue
    exact absurd htrue Bool.false_ne_true
  · intro t k h
    rw [S.nonames t] at h
    exact Option.noConfusion h
  · intro l r h
    exact List.not_mem_nil _ h
  · rw [S.added_eq]
    exact UFle_refl _

end Flatten

namespace Flatten

/-- The emitter state at the end of the setup pass. -/
def setupEnd (terms : List TermData) (premise : List AtomData) : Em :=
  premise.foldl (setupStep terms) (emNew terms)

/-- The emitter state and output at the end of the premise emission pass. -/
def premEnd (terms : List TermData) (sorts : List String)
    (premise : List AtomData) : Em × List FlatAtom :=
  premise.foldl (emitAtom terms sorts) (setupEnd terms premise, [])

/-- Emitting a term never removes output atoms. -/
theorem emitTermStructure_out_mono (terms : List TermData) (sorts : List String)
    (em : Em) (out : List FlatAtom) (t : Nat) {x : FlatAtom} (hx : x ∈ out) :
    x ∈ (emitTermStructure terms sorts (em, out) t).2 := by
  by_cases hT : ufGet em.added t = true
  · rw [emit_skip terms sorts hT]
    exact hx
  · have hF : ufGet em.added t = false := by
      cases hb : ufGet em.added t
      · rfl
      · exact absurd hb hT
    cases hn : ufGet em.names t with
    | some n0 =>
      cases hd : terms.getD t default with
      | Variable v =>
        by_cases hc : ufGet em.constrained t = true
        · rw [emit_var_named_con terms sorts v hF hn (Or.inl hd) hc]
          exact hx
        · have hc2 : ufGet em.constrained t = false := by
            cases hb : ufGet em.constrained t
            · rfl
            · exact absurd hb hc
          rw [emit_var_named_uncon terms sorts v hF hn (Or.inl hd) hc2]
          exact List.mem_append_left _ hx
      | Wildcard =>
        by_cases hc : ufGet em.constrained t = true
        · rw [emit_var_named_con terms sorts "" hF hn (Or.inr hd) hc]
          exact hx
        · have hc2 : ufGet em.constrained t = false := by
            cases hb : ufGet em.constrained t
            · rfl
            · exact absurd hb hc
          rw [emit_var_named_uncon terms sorts "" hF hn (Or.inr hd) hc2]
          exact List.mem_append_left _ hx
      | Application f args =>
        rw [emit_app_named terms sorts hF hn hd]
        exact List.mem_append_left _ hx
    | none =>
      cases hd : terms.getD t default with
      | Variable v =>
        by_cases hc : ufGet em.constrained t = true
        · rw [emit_var_fresh_con terms sorts v hF hn (Or.inl hd) hc]
          exact hx
        · have hc2 : ufGet em.constrained t = false := by
            cases hb : ufGet em.constrained t
            · rfl
            · exact absurd hb hc
          rw [emit_var_fresh_uncon terms sorts v hF hn (Or.inl hd) hc2]
          exact List.mem_append_left _ hx
      | Wildcard =>
        by_cases hc : ufGet em.constrained t = true
        · rw [emit_var_fresh_con terms sorts "" hF hn (Or.inr hd) hc]
          exact hx
        · have hc2 : ufGet em.constrained t = false := by
            cases hb : ufGet em.constrained t
            · rfl
            · exact absurd hb hc
          rw [emit_var_fresh_uncon terms sorts "" hF hn (Or.inr hd) hc2]
          exact List.mem_append_left _ hx
      | Application f args =>
        rw [emit_app_fresh terms sorts hF hn hd]
        exact List.mem_append_left _ hx

/-- Folding term emission never removes output atoms. -/
theorem emit_fold_out_mono (terms : List TermData) (sorts : List String)
    (l : List Nat) :
    ∀ st : Em × List FlatAtom, ∀ x ∈ st.2,
      x ∈ (l.foldl (emitTermStructure terms sorts) st).2 := by
  induction l with
  | nil =>
    intro st x hx
    exact hx
  | cons a rest ih =>
    intro st x hx
    rw [List.foldl_cons]
    exact ih _ x (emitTermStructure_out_mono terms sorts st.1 st.2 a hx)

/-- Emitting an atom never removes output atoms. -/
theorem emitAtom_out_mono (terms : List TermData) (sorts : List String)
    (st : Em × List FlatAtom) (atom : AtomData) {x : FlatAtom} (hx : x ∈ st.2) :
    x ∈ (emitAtom terms sorts st atom).2 := by
  cases atom with
  | Defined t s =>
    show x ∈ (emitAtom terms sorts (st.1, st.2) (AtomData.Defined t s)).2
    rw [emitAtom_defined]
    exact emit_fold_out_mono terms sorts _ _ x hx
  | Predicate p args =>
    show x ∈ (emitAtom terms sorts (st.1, st.2) (AtomData.Predicate p args)).2
    rw [emitAtom_pred]
    exact List.mem_append_left _ (emit_fold_out_mono terms sorts _ _ x hx)
  | Equal l r =>
    show x ∈ (emitAtom terms sorts (st.1, st.2) (AtomData.Equal l r)).2
    rw [emitAtom_equal]
    cases heen : (match ufGet st.1.names l, ufGet st.1.names r with
      | some a, some b => if a ≠ b then some (a, b) else none
      | _, _ => none) with
    | none =>
      exact emit_fold_out_mono terms sorts _ _ x hx
    | some pr =>
      exact List.mem_append_left _ (emit_fold_out_mono terms sorts _ _ x hx)

/-- The premise invariant survives emitting any list of premise atoms. -/
theorem premise_cont (terms : List TermData) (sorts : List String)
    {premise : List AtomData} (htw : termsWF terms)
    (hats : ∀ atom, atom ∈ premise → atomTermsLt terms.length atom)
    {l2 : List AtomData} (hl2 : ∀ a, a ∈ l2 → a ∈ premise) :
    ∀ st : Em × List FlatAtom,
      PremInv terms (setupEnd terms premise) st.1 st.2 →
      PremInv terms (setupEnd terms premise)
        (l2.foldl (emitAtom terms sorts) st).1
        (l2.foldl (emitAtom terms sorts) st).2 ∧
      EmStep st.1 (l2.foldl (emitAtom terms sorts) st).1 := by
  intro st hst
  have S : SetupInv terms premise (setupEnd terms premise) :=
    (setup_fold htw hats).1
  have heqs := (setup_fold htw hats).2.1
  exact foldl_inv (fun acc : Em × List FlatAtom =>
      PremInv terms (setupEnd terms premise) acc.1 acc.2 ∧
      EmStep st.1 acc.1) _ l2 st ⟨hst, EmStep_refl _⟩
    (fun acc atom hmem hacc => by
      have h2 := emit_atom_prem terms sorts htw S.stab S.par_cn hacc.1 atom
        (hats atom (hl2 atom hmem))
        (fun l r hcon => heqs atom (hl2 atom hmem) l r hcon)
      exact ⟨h2.1, EmStep_trans hacc.2 h2.2.1⟩)

/-- The premise invariant holds at the end of the premise pass. -/
theorem premise_fold (terms : List TermData) (sorts : List String)
    {premise : List AtomData} (htw : termsWF terms)
    (hats : ∀ atom, atom ∈ premise → atomTermsLt terms.length atom) :
    PremInv terms (setupEnd terms premise)
      (premEnd terms sorts premise).1 (premEnd terms sorts premise).2 ∧
    EmStep (setupEnd terms premise) (premEnd terms sorts premise).1 :=
  premise_cont terms sorts htw hats (fun _ ha => ha)
    (setupEnd terms premise, []) (PremInv_base htw hats)

/-- Every subterm of a premise atom is processed at the end of the
premise pass. -/
theorem premise_subterms_added (terms : List TermData) (sorts : List String)
    {premise : List AtomData} (htw : termsWF terms)
    (hats : ∀ atom, atom ∈ premise → atomTermsLt terms.length atom) :
    ∀ atom, atom ∈ premise → ∀ s, s ∈ atomSubterms terms atom →
      ufGet (premEnd terms sorts premise).1.added s = true := by
  intro atom hmem s hs
  rcases foldl_decompose (emitAtom terms sorts) premise atom hmem
    (setupEnd terms premise, []) with ⟨l1, l2, hsplit, hfold⟩
  show ufGet (premise.foldl (emitAtom terms sorts)
    (setupEnd terms premise, [])).1.added s = true
  rw [hfold]
  have hl1 : ∀ a, a ∈ l1 → a ∈ premise := by
    intro a ha
    rw [hsplit]
    exact List.mem_append_left _ ha
  have hl2 : ∀ a, a ∈ l2 → a ∈ premise := by
    intro a ha
    rw [hsplit]
    exact List.mem_append_right _ (List.mem_cons_of_mem _ ha)
  have hpre := premise_cont terms sorts htw hats hl1
    (setupEnd terms premise, []) (PremInv_base htw hats)
  have S : SetupInv terms premise (setupEnd terms premise) :=
    (setup_fold htw hats).1
  have heqs := (setup_fold htw hats).2.1
  have hstep := emit_atom_prem terms sorts htw S.stab S.par_cn hpre.1 atom
    (hats atom hmem) (fun l r hcon => heqs atom hmem l r hcon)
  have hmid := hstep.2.2 s hs
  have hsuf := premise_cont terms sorts htw hats hl2 _ hstep.1
  exact hsuf.2.2 s hmid

/-- Every premise Predicate atom has its Relation atom, read through the
final names, in the premise output. -/
theorem premise_predrel (terms : List TermData) (sorts : List String)
    {premise : List AtomData} (htw : termsWF terms)
    (hats : ∀ atom, atom ∈ premise → atomTermsLt terms.length atom) :
    ∀ p args, AtomData.Predicate p args ∈ premise →
      FlatAtom.Relation p (args.map (fun a =>
          (ufGet (premEnd terms sorts premise).1.names a).getD 0))
        ∈ (premEnd terms sorts premise).2 := by
  intro p args hmem
  rcases foldl_decompose (emitAtom terms sorts) premise
    (AtomData.Predicate p args) hmem (setupEnd terms premise, [])
    with ⟨l1, l2, hsplit, hfold⟩
  have hl1 : ∀ a, a ∈ l1 → a ∈ premise := by
    intro a ha
    rw [hsplit]
    exact List.mem_append_left _ ha
  have hl2 : ∀ a, a ∈ l2 → a ∈ premise := by
    intro a ha
    rw [hsplit]
    exact List.mem_append_right _ (List.mem_cons_of_mem _ ha)
  have hpre := premise_cont terms sorts htw hats hl1
    (setupEnd terms premise, []) (PremInv_base htw hats)
  have S : SetupInv terms premise (setupEnd terms premise) :=
    (setup_fold htw hats).1
  have heqs := (setup_fold htw hats).2.1
  have hstep := emit_atom_prem terms sorts htw S.stab S.par_cn hpre.1
    (AtomData.Predicate p args) (hats _ hmem)
    (fun l r hcon => AtomData.noConfusion hcon)
  set Q := l1.foldl (emitAtom terms sorts) (setupEnd terms premise, [])
    with hQ
  have hchar : emitAtom terms sorts Q (AtomData.Predicate p args) =
      (((args.flatMap (subt terms)).foldl (emitTermStructure terms sorts)
          (Q.1, Q.2)).1,
       ((args.flatMap (subt terms)).foldl (emitTermStructure terms sorts)
          (Q.1, Q.2)).2 ++
        [FlatAtom.Relation p (args.map (fun a =>
          (ufGet ((args.flatMap (subt terms)).foldl
            (emitTermStructure terms sorts) (Q.1, Q.2)).1.names a).getD 0))]) :=
    emitAtom_pred terms sorts Q.1 Q.2 p args
  set mid := (args.flatMap (subt terms)).foldl (emitTermStructure terms sorts)
    (Q.1, Q.2) with hmid
  have hsuf := premise_cont terms sorts htw hats hl2 _ hstep.1
  have hxmem : FlatAtom.Relation p (args.map (fun a =>
      (ufGet mid.1.names a).getD 0)) ∈
      (emitAtom terms sorts Q (AtomData.Predicate p args)).2 := by
    rw [hchar]
    exact List.mem_append_right _ (List.mem_singleton.mpr rfl)
  have hend : FlatAtom.Relation p (args.map (fun a =>
      (ufGet mid.1.names a).getD 0)) ∈
      (l2.foldl (emitAtom terms sorts)
        (emitAtom terms sorts Q (AtomData.Predicate p args))).2 :=
    foldl_inv (fun acc : Em × List FlatAtom =>
        FlatAtom.Relation p (args.map (fun a =>
          (ufGet mid.1.names a).getD 0)) ∈ acc.2) _ l2 _ hxmem
      (fun acc a ha hacc => emitAtom_out_mono terms sorts acc a hacc)
  have hnames : ∀ a, a ∈ args →
      (ufGet (premEnd terms sorts premise).1.names a).getD 0
        = (ufGet mid.1.names a).getD 0 := by
    intro a ha
    have hsub : a ∈ atomSubterms terms (AtomData.Predicate p args) :=
      List.mem_flatMap.mpr ⟨a, ha, self_mem_subt terms a⟩
    have hadd := hstep.2.2 a hsub
    have hadd2 : ufGet mid.1.added a = true := hadd
    have hsome := hstep.1.named a hadd
    rcases Option.isSome_iff_exists.mp (by
      show (ufGet mid.1.names a).isSome = true
      exact hsome) with ⟨k, hk⟩
    have hk2 : ufGet (l2.foldl (emitAtom terms sorts)
        (emitAtom terms sorts Q (AtomData.Predicate p args))).1.names a
        = some k := hsuf.2.1 a k hk
    show (ufGet (premise.foldl (emitAtom terms sorts)
      (setupEnd terms premise, [])).1.names a).getD 0 = _
    rw [hfold, hk2, hk]
  have hmapeq : args.map (fun a =>
      (ufGet (premEnd terms sorts premise).1.names a).getD 0)
      = args.map (fun a => (ufGet mid.1.names a).getD 0) :=
    List.map_congr_left hnames
  rw [hmapeq]
  show FlatAtom.Relation p (args.map (fun a =>
      (ufGet mid.1.names a).getD 0)) ∈
    (premise.foldl (emitAtom terms sorts) (setupEnd terms premise, [])).2
  rw [hfold]
  exact hend

end Flatten

namespace Flatten

/-- Every name assigned by the end of the premise pass occurs in the
premise output. -/
theorem premise_names_occurred (terms : List TermData) (sorts : List String)
    {premise : List AtomData} (htw : termsWF terms)
    (hats : ∀ atom, atom ∈ premise → atomTermsLt terms.length atom) :
    ∀ t k, ufGet (premEnd terms sorts premise).1.names t = some k →
      k ∈ occList (premEnd terms sorts premise).2 := by
  intro t k hk
  have hP := (premise_fold terms sorts htw hats).1
  rcases hP.occ t k hk with h | hcon
  · exact h
  have S : SetupInv terms premise (setupEnd terms premise) :=
    (setup_fold htw hats).1
  rw [hP.con_eq] at hcon
  rcases S.sound t hcon with ⟨u, hmark, hroot⟩
  have hrootn : ufRoot (premEnd terms sorts premise).1.names u
      = ufRoot (premEnd terms sorts premise).1.names t := by
    have h1 : ufRoot (setupEnd terms premise).names u
        = ufRoot (setupEnd terms premise).names t := by
      rw [← ufRoot_eq_of_parents_eq S.par_cn u,
          ← ufRoot_eq_of_parents_eq S.par_cn t]
      exact hroot
    rw [ufRoot_eq_of_parents_eq hP.par_eq u,
        ufRoot_eq_of_parents_eq hP.par_eq t]
    exact h1
  have hku : ufGet (premEnd terms sorts premise).1.names u = some k :=
    (ufGet_root_eq _ hrootn).trans hk
  rcases hmark with ⟨atom, hmem, A, hA, f, args, hdata, hor⟩ | ⟨p, args, hmem, ha⟩
  · have hadd : ufGet (premEnd terms sorts premise).1.added A = true :=
      premise_subterms_added terms sorts htw hats atom hmem A hA
    have hrel := hP.apprel A f args hdata hadd
    refine List.mem_flatMap.mpr ⟨_, hrel, ?_⟩
    show k ∈ args.map (fun a =>
        (ufGet (premEnd terms sorts premise).1.names a).getD 0)
      ++ [(ufGet (premEnd terms sorts premise).1.names A).getD 0]
    rcases hor with h | h
    · exact List.mem_append_left _
        (List.mem_map.mpr ⟨u, h, by rw [hku]; rfl⟩)
    · rw [h] at hku
      refine List.mem_append_right _ ?_
      rw [hku]
      exact List.mem_singleton.mpr rfl
  · have hrel := premise_predrel terms sorts htw hats p args hmem
    refine List.mem_flatMap.mpr ⟨_, hrel, ?_⟩
    show k ∈ args.map (fun a =>
        (ufGet (premEnd terms sorts premise).1.names a).getD 0)
    exact List.mem_map.mpr ⟨u, ha, by rw [hku]; rfl⟩

/-- Every term constrained by the setup pass has a name by the end of the
premise pass. -/
theorem premise_constrained_named (terms : List TermData) (sorts : List String)
    {premise : List AtomData} (htw : termsWF terms)
    (hats : ∀ atom, atom ∈ premise → atomTermsLt terms.length atom) :
    ∀ t, ufGet (setupEnd terms premise).constrained t = true →
      (ufGet (premEnd terms sorts premise).1.names t).isSome = true := by
  intro t hcon
  have hP := (premise_fold terms sorts htw hats).1
  have S : SetupInv terms premise (setupEnd terms premise) :=
    (setup_fold htw hats).1
  rcases S.sound t hcon with ⟨u, hmark, hroot⟩
  have huadd : ufGet (premEnd terms sorts premise).1.added u = true := by
    rcases hmark with ⟨atom, hmem, A, hA, f, args, hdata, hor⟩ |
      ⟨p, args, hmem, ha⟩
    · have hAadd : ufGet (premEnd terms sorts premise).1.added A = true :=
        premise_subterms_added terms sorts htw hats atom hmem A hA
      rcases hor with h | h
      · exact hP.appargs A f args hdata hAadd u h
      · rw [h]
        exact hAadd
    · have hsub : u ∈ atomSubterms terms (AtomData.Predicate p args) :=
        List.mem_flatMap.mpr ⟨u, ha, self_mem_subt terms u⟩
      exact premise_subterms_added terms sorts htw hats
        (AtomData.Predicate p args) hmem u hsub
  have hu := hP.named u huadd
  have hrootn : ufRoot (premEnd terms sorts premise).1.names u
      = ufRoot (premEnd terms sorts premise).1.names t := by
    have h1 : ufRoot (setupEnd terms premise).names u
        = ufRoot (setupEnd terms premise).names t := by
      rw [← ufRoot_eq_of_parents_eq S.par_cn u,
          ← ufRoot_eq_of_parents_eq S.par_cn t]
      exact hroot
    rw [ufRoot_eq_of_parents_eq hP.par_eq u,
        ufRoot_eq_of_parents_eq hP.par_eq t]
    exact h1
  rw [← ufGet_root_eq _ hrootn]
  exact hu

end Flatten

namespace Flatten

/-- The conclusion-phase invariant relative to the premise-end state. -/
structure ConcInv (terms : List TermData) (emP : Em) (premOut : List FlatAtom)
    (em : Em) (outC : List FlatAtom) : Prop where
  wfn : UFWF terms.length em.names
  wfa : UFWF terms.length em.added
  wfc : UFWF terms.length em.constrained
  con_eq : em.constrained = emP.constrained
  le_an : UFle em.added em.names
  sep : SepInv terms em.added
  appargs : AppArgsInv terms em.added
  named : ∀ t, ufGet em.added t = true → (ufGet em.names t).isSome = true
  cnamed : ∀ t, ufGet em.constrained t = true → (ufGet em.names t).isSome = true
  occ2 : ∀ t k, ufGet em.names t = some k →
    k ∈ occList premOut ++ occList outC
  addmono : ∀ t, ufGet emP.added t = true → ufGet em.added t = true
  addle : UFle emP.added em.added
  chk : checkConclusion outC (occList premOut) = true

/-- One conclusion-phase term emission step preserves the invariant when the
term is not an unprocessed fresh variable or wildcard. -/
theorem conc_step (terms : List TermData) (sorts : List String)
    {emP : Em} {premOut : List FlatAtom} {em : Em} {outC : List FlatAtom}
    (hinv : ConcInv terms emP premOut em outC) (t : Nat) (ht : t < terms.length)
    (hargs : ∀ f args, terms.getD t default = TermData.Application f args →
      ∀ a, a ∈ args → ufGet em.added a = true)
    (hvar : ∀ v, terms.getD t default = TermData.Variable v →
      ufGet em.added t = true)
    (hwild : terms.getD t default ≠ TermData.Wildcard) :
    ConcInv terms emP premOut (emitTermStructure terms sorts (em, outC) t).1
      (emitTermStructure terms sorts (em, outC) t).2 ∧
    EmStep em (emitTermStructure terms sorts (em, outC) t).1 ∧
    ufGet (emitTermStructure terms sorts (em, outC) t).1.added t = true := by
  cases hadd : ufGet em.added t with
  | true =>
    rw [emit_skip terms sorts hadd]
    exact ⟨hinv, EmStep_refl em, hadd⟩
  | false =>
    rcases hdata : terms.getD t default with v | _ | ⟨f, args⟩
    · exact absurd (hvar v hdata) (by rw [hadd]; exact Bool.false_ne_true)
    · exact absurd hdata hwild
    · have hargadded := hargs f args hdata
      have hargnames : ∀ a, a ∈ args → ∃ k, ufGet em.names a = some k :=
        fun a ha => Option.isSome_iff_exists.mp (hinv.named a (hargadded a ha))
      have haddget := emA_added_get hinv.wfa ht
      have hmono : ∀ s, ufGet em.added s = true →
          ufGet (emA em t).added s = true :=
        fun s hs => ufGet_true_ufSet em.added hinv.wfa t ht s hs
      rcases hn : ufGet em.names t with _ | n0
      · rw [emit_app_fresh terms sorts hadd hn hdata]
        have hnget := emF_names_get hinv.wfn ht
        have hnstable := emF_names_stable hinv.wfn ht hn
        have haddt : ufGet (emF em t).added t = true := by
          have h := emA_added_get hinv.wfa ht t
          show ufGet (ufSet em.added t true) t = true
          rw [ufGet_ufSet em.added hinv.wfa t ht true t, if_pos rfl]
        have hargvals : ∀ a, a ∈ args →
            (ufGet (ufSet em.names t (some em.nameNum)) a)
              = ufGet em.names a := by
          intro a ha
          rcases hargnames a ha with ⟨k, hk⟩
          rw [ufGet_ufSet em.names hinv.wfn t ht (some em.nameNum) a]
          by_cases hr : ufRoot em.names a = ufRoot em.names t
          · rw [ufGet_root_eq em.names hr, hn] at hk
            exact Option.noConfusion hk
          · rw [if_neg hr]
        have haddgetF : ∀ s, ufGet (emF em t).added s =
            if ufRoot em.added s = ufRoot em.added t then true
            else ufGet em.added s := by
          intro s
          show ufGet (ufSet em.added t true) s = _
          exact ufGet_ufSet em.added hinv.wfa t ht true s
        have hmonoF : ∀ s, ufGet em.added s = true →
            ufGet (emF em t).added s = true := by
          intro s hs
          rw [haddgetF s]
          by_cases hr : ufRoot em.added s = ufRoot em.added t
          · rw [if_pos hr]
          · rw [if_neg hr]
            exact hs
        refine ⟨?_, ⟨fun s k h => hnstable s k h, hmonoF⟩, haddt⟩
        refine ⟨UFWF_ufSet em.names terms.length hinv.wfn t (some em.nameNum),
          UFWF_ufSet em.added terms.length hinv.wfa t true,
          hinv.wfc, hinv.con_eq,
          UFle_trans (UFle_of_parents_eq rfl)
            (UFle_trans hinv.le_an (UFle_of_parents_eq rfl)),
          SepInv_mono (show (emF em t).added.parents = em.added.parents from rfl)
            hmonoF hinv.sep, ?_, ?_, ?_, ?_, ?_, ?_, ?_⟩
        · intro A f2 args2 hdata2 htrue a ha
          rw [haddgetF A] at htrue
          by_cases hr : ufRoot em.added A = ufRoot em.added t
          · rcases hinv.sep A f2 args2 hdata2 t hr with heq | hold
            · subst heq
              rw [hdata] at hdata2
              injection hdata2 with h1 h2
              subst h1
              subst h2
              exact hmonoF a (hargadded a ha)
            · exact hmonoF a (hinv.appargs A f2 args2 hdata2 hold a ha)
          · rw [if_neg hr] at htrue
            exact hmonoF a (hinv.appargs A f2 args2 hdata2 htrue a ha)
        · intro s htrue
          rw [haddgetF s] at htrue
          by_cases hr : ufRoot em.added s = ufRoot em.added t
          · have hrn := hinv.le_an s t hr
            show (ufGet (emF em t).names s).isSome = true
            rw [hnget s, if_pos (by
              rw [show ufRoot em.names s = ufRoot em.names t from hrn])]
            rfl
          · rw [if_neg hr] at htrue
            have h2 := hinv.named s htrue
            rcases hv2 : ufGet em.names s with _ | k
            · rw [hv2] at h2
              exact absurd h2 (by simp)
            · rw [hnstable s k hv2]
              rfl
        · intro s hcs
          have h2 := hinv.cnamed s hcs
          rcases hv2 : ufGet em.names s with _ | k
          · rw [hv2] at h2
            exact absurd h2 (by simp)
          · rw [hnstable s k hv2]
            rfl
        · intro s k h
          rw [hnget s] at h
          by_cases hr : ufRoot em.names s = ufRoot em.names t
          · rw [if_pos hr] at h
            have hk : k = em.nameNum := by
              injection h with h2
              exact h2.symm
            subst hk
            refine List.mem_append_right _ ?_
            rw [occList_append]
            refine List.mem_append_right _ ?_
            unfold occList
            rw [List.flatMap_cons]
            refine List.mem_append_left _ ?_
            show em.nameNum ∈ args.map _ ++ [em.nameNum]
            exact List.mem_append_right _ (List.mem_singleton.mpr rfl)
          · rw [if_neg hr] at h
            rcases List.mem_append.mp (hinv.occ2 s k h) with h2 | h2
            · exact List.mem_append_left _ h2
            · refine List.mem_append_right _ ?_
              rw [occList_append]
              exact List.mem_append_left _ h2
        · exact fun s h => hmonoF s (hinv.addmono s h)
        · exact UFle_trans hinv.addle (UFle_of_parents_eq rfl)
        · refine checkConclusion_append outC _ _ hinv.chk ?_
          show (((args.map (fun a =>
              (ufGet (ufSet em.names t (some em.nameNum)) a).getD 0))
              ++ [em.nameNum]).dropLast.all
            (fun a => (occList premOut ++ occList outC).contains a) &&
            checkConclusion [] _) = true
          rw [List.dropLast_concat, Bool.and_eq_true]
          refine ⟨List.all_eq_true.mpr ?_, rfl⟩
          intro x hx
          rcases List.mem_map.mp hx with ⟨a, ha, hax⟩
          rcases hargnames a ha with ⟨k, hk⟩
          have hxk : x = k := by
            rw [← hax, hargvals a ha, hk]
            rfl
          rw [hxk]
          exact List.elem_eq_true_of_mem (hinv.occ2 a k hk)
      · rw [emit_app_named terms sorts hadd hn hdata]
        have haddt : ufGet (emA em t).added t = true := by
          rw [haddget t, if_pos rfl]
        refine ⟨?_, ⟨fun s k h => h, hmono⟩, haddt⟩
        refine ⟨hinv.wfn, UFWF_ufSet em.added terms.length hinv.wfa t true,
          hinv.wfc, hinv.con_eq,
          UFle_trans (UFle_of_parents_eq rfl) hinv.le_an,
          SepInv_mono (show (emA em t).added.parents = em.added.parents from rfl)
            hmono hinv.sep, ?_, ?_, hinv.cnamed, ?_, ?_, ?_, ?_⟩
        · intro A f2 args2 hdata2 htrue a ha
          rw [haddget A] at htrue
          by_cases hr : ufRoot em.added A = ufRoot em.added t
          · rcases hinv.sep A f2 args2 hdata2 t hr with heq | hold
            · subst heq
              rw [hdata] at hdata2
              injection hdata2 with h1 h2
              subst h1
              subst h2
              exact hmono a (hargadded a ha)
            · exact hmono a (hinv.appargs A f2 args2 hdata2 hold a ha)
          · rw [if_neg hr] at htrue
            exact hmono a (hinv.appargs A f2 args2 hdata2 htrue a ha)
        · intro s htrue
          rw [haddget s] at htrue
          by_cases hr : ufRoot em.added s = ufRoot em.added t
          · have hrn := hinv.le_an s t hr
            show (ufGet em.names s).isSome = true
            rw [ufGet_root_eq em.names hrn, hn]
            rfl
          · rw [if_neg hr] at htrue
            exact hinv.named s htrue
        · intro s k h
          rcases List.mem_append.mp (hinv.occ2 s k h) with h2 | h2
          · exact List.mem_append_left _ h2
          · refine List.mem_append_right _ ?_
            rw [occList_append]
            exact List.mem_append_left _ h2
        · exact fun s h => hmono s (hinv.addmono s h)
        · exact UFle_trans hinv.addle (UFle_of_parents_eq rfl)
        · refine checkConclusion_append outC _ _ hinv.chk ?_
          show (((args.map (fun a => (ufGet em.names a).getD 0))
              ++ [n0]).dropLast.all
            (fun a => (occList premOut ++ occList outC).contains a) &&
            checkConclusion [] _) = true
          rw [List.dropLast_concat, Bool.and_eq_true]
          refine ⟨List.all_eq_true.mpr ?_, rfl⟩
          intro x hx
          rcases List.mem_map.mp hx with ⟨a, ha, hax⟩
          rcases hargnames a ha with ⟨k, hk⟩
          have hxk : x = k := by
            rw [← hax, hk]
            rfl
          rw [hxk]
          exact List.elem_eq_true_of_mem (hinv.occ2 a k hk)

end Flatten

namespace Flatten

/-- Conclusion-phase emission of a full subterm tree preserves the invariant
provided every variable below is premise-processed and no wildcard occurs. -/
theorem conc_subt (terms : List TermData) (sorts : List String)
    (htw : termsWF terms) {emP : Em} {premOut : List FlatAtom} :
    ∀ t, t < terms.length →
      ∀ em outC, ConcInv terms emP premOut em outC →
      (∀ s, s ∈ subt terms t →
        (∀ v, terms.getD s default = TermData.Variable v →
          ufGet emP.added s = true) ∧
        terms.getD s default ≠ TermData.Wildcard) →
      ConcInv terms emP premOut
        ((subt terms t).foldl (emitTermStructure terms sorts) (em, outC)).1
        ((subt terms t).foldl (emitTermStructure terms sorts) (em, outC)).2 ∧
      EmStep em
        ((subt terms t).foldl (emitTermStructure terms sorts) (em, outC)).1 ∧
      (∀ s, s ∈ subt terms t →
        ufGet ((subt terms t).foldl
          (emitTermStructure terms sorts) (em, outC)).1.added s = true) := by
  intro t
  induction t using Nat.strong_induction_on with
  | _ t ih =>
    intro ht em outC hinv hcov
    rcases hdata : terms.getD t default with v | _ | ⟨f, args⟩
    · have hsub : subt terms t = [t] := subt_nonapp t (by
        intro f2 args2 hcon
        rw [hdata] at hcon
        exact TermData.noConfusion hcon)
      rw [hsub]
      have hc := hcov t (self_mem_subt terms t)
      have hstep := conc_step terms sorts hinv t ht
        (by
          intro f2 args2 hcon
          rw [hdata] at hcon
          exact absurd hcon (by intro h2; cases h2))
        (fun v2 hd2 => hinv.addmono t (hc.1 v2 hd2))
        hc.2
      refine ⟨hstep.1, hstep.2.1, ?_⟩
      intro s hs
      rcases List.mem_singleton.mp hs with rfl
      exact hstep.2.2
    · exact absurd hdata (hcov t (self_mem_subt terms t)).2
    · have hsub : subt terms t = args.flatMap (subt terms) ++ [t] :=
        subt_expand htw t hdata
      have hargslt : ∀ a, a ∈ args → a < t :=
        fun a ha => htw t ht f args hdata a ha
      have hcovargs : ∀ a, a ∈ args → ∀ s, s ∈ subt terms a →
          (∀ v, terms.getD s default = TermData.Variable v →
            ufGet emP.added s = true) ∧
          terms.getD s default ≠ TermData.Wildcard := by
        intro a ha s hs
        refine hcov s ?_
        rw [hsub]
        exact List.mem_append_left _ (List.mem_flatMap.mpr ⟨a, ha, hs⟩)
      have hchunks : ∀ (as2 : List Nat), (∀ a, a ∈ as2 → a < t) →
          (∀ a, a ∈ as2 → ∀ s, s ∈ subt terms a →
            (∀ v, terms.getD s default = TermData.Variable v →
              ufGet emP.added s = true) ∧
            terms.getD s default ≠ TermData.Wildcard) →
          ∀ em2 out2, ConcInv terms emP premOut em2 out2 →
          ConcInv terms emP premOut
            ((as2.flatMap (subt terms)).foldl
              (emitTermStructure terms sorts) (em2, out2)).1
            ((as2.flatMap (subt terms)).foldl
              (emitTermStructure terms sorts) (em2, out2)).2 ∧
          EmStep em2
            ((as2.flatMap (subt terms)).foldl
              (emitTermStructure terms sorts) (em2, out2)).1 ∧
          (∀ a, a ∈ as2 → ∀ s, s ∈ subt terms a →
            ufGet ((as2.flatMap (subt terms)).foldl
              (emitTermStructure terms sorts) (em2, out2)).1.added s = true) := by
        intro as2
        induction as2 with
        | nil =>
          intro hlt hcv em2 out2 hinv2
          exact ⟨hinv2, EmStep_refl em2, fun a ha => absurd ha (List.not_mem_nil a)⟩
        | cons a rest ih2 =>
          intro hlt hcv em2 out2 hinv2
          rw [List.flatMap_cons, List.foldl_append]
          have ha := hlt a (List.mem_cons_self a rest)
          have h1 := ih a ha (by omega) em2 out2 hinv2
            (hcv a (List.mem_cons_self a rest))
          set st1 := (subt terms a).foldl (emitTermStructure terms sorts)
            (em2, out2) with hst1
          have h2 := ih2 (fun a2 ha2 => hlt a2 (List.mem_cons_of_mem a ha2))
            (fun a2 ha2 => hcv a2 (List.mem_cons_of_mem a ha2))
            st1.1 st1.2 h1.1
          refine ⟨h2.1, EmStep_trans h1.2.1 h2.2.1, ?_⟩
          intro a2 ha2 s hs
          rcases List.mem_cons.mp ha2 with rfl | ha2
          · exact h2.2.1.2 s (h1.2.2 s hs)
          · exact h2.2.2 a2 ha2 s hs
      have hch := hchunks args hargslt hcovargs em outC hinv
      rw [hsub, List.foldl_append]
      set stc := (args.flatMap (subt terms)).foldl
        (emitTermStructure terms sorts) (em, outC) with hstc
      have hargadded : ∀ f2 args2,
          terms.getD t default = TermData.Application f2 args2 →
          ∀ a, a ∈ args2 → ufGet stc.1.added a = true := by
        intro f2 args2 hd2 a ha
        rw [hdata] at hd2
        injection hd2 with hf hargs2
        subst hf
        subst hargs2
        exact hch.2.2 a ha a (self_mem_subt terms a)
      have hstep := conc_step terms sorts hch.1 t ht hargadded
        (by
          intro v2 hd2
          rw [hdata] at hd2
          exact absurd hd2 (by intro h2; cases h2))
        (by
          intro hcon
          rw [hdata] at hcon
          exact TermData.noConfusion hcon)
      have hstep2 : (List.foldl (emitTermStructure terms sorts) stc [t])
          = emitTermStructure terms sorts stc t := by
        rw [List.foldl_cons]
        rfl
      have hpair : (emitTermStructure terms sorts stc t)
          = (emitTermStructure terms sorts (stc.1, stc.2) t) := by
        rfl
      rw [hstep2, hpair]
      refine ⟨hstep.1, EmStep_trans hch.2.1 hstep.2.1, ?_⟩
      intro s hs
      rcases List.mem_append.mp hs with hs | hs
      · rcases List.mem_flatMap.mp hs with ⟨a, ha, hmem⟩
        exact hstep.2.1.2 s (hch.2.2 a ha s hmem)
      · rcases List.mem_singleton.mp hs with rfl
        exact hstep.2.2

/-- Conclusion-phase emission over a list of argument subterm trees. -/
theorem conc_subtlist (terms : List TermData) (sorts : List String)
    (htw : termsWF terms) {emP : Em} {premOut : List FlatAtom} :
    ∀ (as2 : List Nat), (∀ a, a ∈ as2 → a < terms.length) →
      (∀ a, a ∈ as2 → ∀ s, s ∈ subt terms a →
        (∀ v, terms.getD s default = TermData.Variable v →
          ufGet emP.added s = true) ∧
        terms.getD s default ≠ TermData.Wildcard) →
      ∀ em outC, ConcInv terms emP premOut em outC →
      ConcInv terms emP premOut
        ((as2.flatMap (subt terms)).foldl
          (emitTermStructure terms sorts) (em, outC)).1
        ((as2.flatMap (subt terms)).foldl
          (emitTermStructure terms sorts) (em, outC)).2 ∧
      EmStep em
        ((as2.flatMap (subt terms)).foldl
          (emitTermStructure terms sorts) (em, outC)).1 ∧
      (∀ a, a ∈ as2 → ∀ s, s ∈ subt terms a →
        ufGet ((as2.flatMap (subt terms)).foldl
          (emitTermStructure terms sorts) (em, outC)).1.added s = true) := by
  intro as2
  induction as2 with
  | nil =>
    intro hlt hcv em outC hinv
    exact ⟨hinv, EmStep_refl em, fun a ha => absurd ha (List.not_mem_nil a)⟩
  | cons a rest ih =>
    intro hlt hcv em outC hinv
    rw [List.flatMap_cons, List.foldl_append]
    have ha := hlt a (List.mem_cons_self a rest)
    have h1 := conc_subt terms sorts htw a ha em outC hinv
      (hcv a (List.mem_cons_self a rest))
    set st1 := (subt terms a).foldl (emitTermStructure terms sorts) (em, outC)
      with hst1
    have h2 := ih (fun a2 ha2 => hlt a2 (List.mem_cons_of_mem a ha2))
      (fun a2 ha2 => hcv a2 (List.mem_cons_of_mem a ha2)) st1.1 st1.2 h1.1
    refine ⟨h2.1, EmStep_trans h1.2.1 h2.2.1, ?_⟩
    intro a2 ha2 s hs
    rcases List.mem_cons.mp ha2 with rfl | ha2
    · exact h2.2.1.2 s (h1.2.2 s hs)
    · exact h2.2.2 a2 ha2 s hs

end Flatten

namespace Flatten

/-- A term emission step leaves the state unchanged or applies emA or emF. -/
theorem emitTermStructure_em_cases (terms : List TermData) (sorts : List String)
    (em : Em) (out : List FlatAtom) (t : Nat) :
    (emitTermStructure terms sorts (em, out) t).1 = em ∨
    (emitTermStructure terms sorts (em, out) t).1 = emA em t ∨
    (emitTermStructure terms sorts (em, out) t).1 = emF em t := by
  by_cases hT : ufGet em.added t = true
  · rw [emit_skip terms sorts hT]
    exact Or.inl rfl
  · have hF : ufGet em.added t = false := by
      cases hb : ufGet em.added t
      · rfl
      · exact absurd hb hT
    cases hn : ufGet em.names t with
    | some n0 =>
      cases hd : terms.getD t default with
      | Variable v =>
        by_cases hc : ufGet em.constrained t = true
        · rw [emit_var_named_con terms sorts v hF hn (Or.inl hd) hc]
          exact Or.inr (Or.inl rfl)
        · have hc2 : ufGet em.constrained t = false := by
            cases hb : ufGet em.constrained t
            · rfl
            · exact absurd hb hc
          rw [emit_var_named_uncon terms sorts v hF hn (Or.inl hd) hc2]
          exact Or.inr (Or.inl rfl)
      | Wildcard =>
        by_cases hc : ufGet em.constrained t = true
        · rw [emit_var_named_con terms sorts "" hF hn (Or.inr hd) hc]
          exact Or.inr (Or.inl rfl)
        · have hc2 : ufGet em.constrained t = false := by
            cases hb : ufGet em.constrained t
            · rfl
            · exact absurd hb hc
          rw [emit_var_named_uncon terms sorts "" hF hn (Or.inr hd) hc2]
          exact Or.inr (Or.inl rfl)
      | Application f args =>
        rw [emit_app_named terms sorts hF hn hd]
        exact Or.inr (Or.inl rfl)
    | none =>
      cases hd : terms.getD t default with
      | Variable v =>
        by_cases hc : ufGet em.constrained t = true
        · rw [emit_var_fresh_con terms sorts v hF hn (Or.inl hd) hc]
          exact Or.inr (Or.inr rfl)
        · have hc2 : ufGet em.constrained t = false := by
            cases hb : ufGet em.constrained t
            · rfl
            · exact absurd hb hc
          rw [emit_var_fresh_uncon terms sorts v hF hn (Or.inl hd) hc2]
          exact Or.inr (Or.inr rfl)
      | Wildcard =>
        by_cases hc : ufGet em.constrained t = true
        · rw [emit_var_fresh_con terms sorts "" hF hn (Or.inr hd) hc]
          exact Or.inr (Or.inr rfl)
        · have hc2 : ufGet em.constrained t = false := by
            cases hb : ufGet em.constrained t
            · rfl
            · exact absurd hb hc
          rw [emit_var_fresh_uncon terms sorts "" hF hn (Or.inr hd) hc2]
          exact Or.inr (Or.inr rfl)
      | Application f args =>
        rw [emit_app_fresh terms sorts hF hn hd]
        exact Or.inr (Or.inr rfl)

/-- Term emission never changes the name partition. -/
theorem emitTermStructure_names_parents (terms : List TermData)
    (sorts : List String) (st : Em × List FlatAtom) (t : Nat) :
    (emitTermStructure terms sorts st t).1.names.parents
      = st.1.names.parents := by
  rcases emitTermStructure_em_cases terms sorts st.1 st.2 t with h | h | h <;>
    rw [show (emitTermStructure terms sorts st t).1
      = (emitTermStructure terms sorts (st.1, st.2) t).1 from rfl, h] <;> rfl

/-- Folded term emission never changes the name partition. -/
theorem emit_fold_names_parents (terms : List TermData) (sorts : List String)
    (l : List Nat) :
    ∀ st : Em × List FlatAtom,
      (l.foldl (emitTermStructure terms sorts) st).1.names.parents
        = st.1.names.parents := by
  induction l with
  | nil =>
    intro st
    rfl
  | cons a rest ih =>
    intro st
    rw [List.foldl_cons, ih (emitTermStructure terms sorts st a),
      emitTermStructure_names_parents terms sorts st a]

/-- When the Equal bookkeeping yields a pair, both sides were named with
distinct names. -/
theorem een_some (em : Em) (l r : Nat) {pr : Nat × Nat}
    (h : (match ufGet em.names l, ufGet em.names r with
      | some a, some b => if a ≠ b then some (a, b) else none
      | _, _ => none) = some pr) :
    ufGet em.names l = some pr.1 ∧ ufGet em.names r = some pr.2 ∧
      pr.1 ≠ pr.2 := by
  rcases hvl : ufGet em.names l with _ | a
  · rw [hvl] at h
    exact Option.noConfusion h
  · rcases hvr : ufGet em.names r with _ | b
    · rw [hvl, hvr] at h
      exact Option.noConfusion h
    · rw [hvl, hvr] at h
      have h2 : (if a ≠ b then some (a, b) else none) = some pr := h
      by_cases hab : a ≠ b
      · rw [if_pos hab] at h2
        injection h2 with h3
        rw [← h3]
        exact ⟨rfl, rfl, hab⟩
      · rw [if_neg hab] at h2
        exact Option.noConfusion h2

/-- The closing added-union and congruence passes of a conclusion Equal atom
preserve the invariant. -/
theorem conc_equal_final (terms : List TermData) (htw : termsWF terms)
    {emP : Em} {premOut : List FlatAtom} {F1e : Em} {outE : List FlatAtom}
    (hFinv : ConcInv terms emP premOut F1e outE) {l r : Nat}
    (hl : l < terms.length) (hr : r < terms.length)
    (hladd : ufGet F1e.added l = true) (hradd : ufGet F1e.added r = true)
    (hFroot : ufRoot F1e.names l = ufRoot F1e.names r) :
    ConcInv terms emP premOut
      { F1e with added := cc terms orMerge (ufUnion orMerge F1e.added l r)
                 names := cc terms nameMerge F1e.names } outE := by
  have hupack := SepInv_union_bothTrue hFinv.wfa hl hr hladd hradd hFinv.sep
  have hwfu : UFWF terms.length (ufUnion orMerge F1e.added l r) :=
    UFWF_ufUnion orMerge F1e.added terms.length hFinv.wfa l r hl hr
  have happu : AppArgsInv terms (ufUnion orMerge F1e.added l r) := by
    intro A f args hdata htrue a ha
    rw [hupack.2 A] at htrue
    rw [hupack.2 a]
    exact hFinv.appargs A f args hdata htrue a ha
  have hccpack := added_cc_pack htw F1e.added (ufUnion orMerge F1e.added l r)
    ⟨hwfu, hupack.1, happu, hupack.2⟩
  have hstabE : ccStable terms (cc terms nameMerge F1e.names) :=
    ccStable_cc htw F1e.names hFinv.wfn
  have hrootcc : ufRoot (cc terms nameMerge F1e.names) l
      = ufRoot (cc terms nameMerge F1e.names) r :=
    UFle_cc_self htw F1e.names hFinv.wfn l r hFroot
  have hocc := ufGet_all_cc nameMerge
    (fun o => ∀ k, o = some k → k ∈ occList premOut ++ occList outE)
    (fun x y hx hy => by
      cases x with
      | none => exact hy
      | some a => exact hx)
    htw F1e.names hFinv.wfn (fun t2 k hk => hFinv.occ2 t2 k hk)
  refine ⟨UFWF_cc htw F1e.names hFinv.wfn, hccpack.1, hFinv.wfc, hFinv.con_eq,
    ?_, hccpack.2.1, hccpack.2.2.1, ?_, ?_, ?_, ?_, ?_, hFinv.chk⟩
  · exact UFle_cc_into htw hstabE _ hwfu
      (UFle_ufUnion_into hFinv.wfa hr
        (UFle_trans hFinv.le_an (UFle_cc_self htw F1e.names hFinv.wfn))
        hrootcc)
  · intro s htrue
    exact ufGet_isSome_cc htw F1e.names hFinv.wfn s
      (hFinv.named s ((hccpack.2.2.2 s).mp htrue))
  · intro s hcs
    exact ufGet_isSome_cc htw F1e.names hFinv.wfn s (hFinv.cnamed s hcs)
  · intro t2 k hk
    exact hocc t2 k hk
  · intro s h
    exact (hccpack.2.2.2 s).mpr (hFinv.addmono s h)
  · exact UFle_trans hFinv.addle
      (UFle_trans (UFle_ufUnion_self orMerge F1e.added terms.length
        hFinv.wfa l r hr) (UFle_cc_self htw _ hwfu))

end Flatten

namespace Flatten

/-- Conclusion-phase emission of one atom preserves the invariant. -/
theorem conc_atom (terms : List TermData) (sorts : List String)
    (htw : termsWF terms) {emP : Em} {premOut : List FlatAtom}
    {em : Em} {outC : List FlatAtom}
    (hinv : ConcInv terms emP premOut em outC)
    (atom : AtomData) (hat : atomTermsLt terms.length atom)
    (hcov : ∀ s, s ∈ atomSubterms terms atom →
      (∀ v, terms.getD s default = TermData.Variable v →
        ufGet emP.added s = true) ∧
      terms.getD s default ≠ TermData.Wildcard) :
    ConcInv terms emP premOut (emitAtom terms sorts (em, outC) atom).1
      (emitAtom terms sorts (em, outC) atom).2 := by
  cases atom with
  | Defined t s0 =>
    rw [emitAtom_defined]
    exact (conc_subt terms sorts htw t hat em outC hinv hcov).1
  | Predicate p args =>
    rw [emitAtom_pred]
    have hcov2 : ∀ a, a ∈ args → ∀ s, s ∈ subt terms a →
        (∀ v, terms.getD s default = TermData.Variable v →
          ufGet emP.added s = true) ∧
        terms.getD s default ≠ TermData.Wildcard :=
      fun a ha s hs => hcov s (List.mem_flatMap.mpr ⟨a, ha, hs⟩)
    have h := conc_subtlist terms sorts htw args hat hcov2 em outC hinv
    set mid := (args.flatMap (subt terms)).foldl (emitTermStructure terms sorts)
      (em, outC) with hmid
    have hargnames : ∀ a, a ∈ args → ∃ k, ufGet mid.1.names a = some k := by
      intro a ha
      exact Option.isSome_iff_exists.mp
        (h.1.named a (h.2.2 a ha a (self_mem_subt terms a)))
    refine ⟨h.1.wfn, h.1.wfa, h.1.wfc, h.1.con_eq, h.1.le_an, h.1.sep,
      h.1.appargs, h.1.named, h.1.cnamed, ?_, h.1.addmono, h.1.addle, ?_⟩
    · intro t k hk
      rcases List.mem_append.mp (h.1.occ2 t k hk) with h2 | h2
      · exact List.mem_append_left _ h2
      · refine List.mem_append_right _ ?_
        rw [occList_append]
        exact List.mem_append_left _ h2
    · refine checkConclusion_append mid.2 _ _ h.1.chk ?_
      show ((args.map (fun a => (ufGet mid.1.names a).getD 0)).dropLast.all
        (fun a => (occList premOut ++ occList mid.2).contains a) &&
        checkConclusion [] _) = true
      rw [Bool.and_eq_true]
      refine ⟨List.all_eq_true.mpr ?_, rfl⟩
      intro x hx
      have hx2 : x ∈ args.map (fun a => (ufGet mid.1.names a).getD 0) :=
        List.dropLast_subset _ hx
      rcases List.mem_map.mp hx2 with ⟨a, ha, hax⟩
      rcases hargnames a ha with ⟨k, hk⟩
      have hxk : x = k := by
        rw [← hax, hk]
        rfl
      rw [hxk]
      exact List.elem_eq_true_of_mem (h.1.occ2 a k hk)
  | Equal l r =>
    rw [emitAtom_equal]
    have hl := hat.1
    have hr := hat.2
    have hA : ConcInv terms emP premOut
        { em with names := ufUnion nameMerge em.names l r } outC := by
      have hocc := ufGet_all_ufUnion nameMerge
        (fun o => ∀ k, o = some k → k ∈ occList premOut ++ occList outC)
        (fun x y hx hy => by
          cases x with
          | none => exact hy
          | some a => exact hx)
        em.names hinv.wfn l r hl hr (fun t2 k hk => hinv.occ2 t2 k hk)
      exact ⟨UFWF_ufUnion nameMerge em.names terms.length hinv.wfn l r hl hr,
        hinv.wfa, hinv.wfc, hinv.con_eq,
        UFle_trans hinv.le_an
          (UFle_ufUnion_self nameMerge em.names terms.length hinv.wfn l r hr),
        hinv.sep, hinv.appargs,
        fun t2 ht2 => ufGet_isSome_ufUnion em.names hinv.wfn l r hl hr t2
          (hinv.named t2 ht2),
        fun t2 ht2 => ufGet_isSome_ufUnion em.names hinv.wfn l r hl hr t2
          (hinv.cnamed t2 ht2),
        fun t2 k hk => hocc t2 k hk,
        hinv.addmono, hinv.addle, hinv.chk⟩
    have hcovl : ∀ s, s ∈ subt terms l →
        (∀ v, terms.getD s default = TermData.Variable v →
          ufGet emP.added s = true) ∧
        terms.getD s default ≠ TermData.Wildcard :=
      fun s hs => hcov s (List.mem_append_left _ hs)
    have hcovr : ∀ s, s ∈ subt terms r →
        (∀ v, terms.getD s default = TermData.Variable v →
          ufGet emP.added s = true) ∧
        terms.getD s default ≠ TermData.Wildcard :=
      fun s hs => hcov s (List.mem_append_right _ hs)
    have hsplit : (subt terms l ++ subt terms r).foldl
        (emitTermStructure terms sorts)
        ({ em with names := ufUnion nameMerge em.names l r }, outC)
      = (subt terms r).foldl (emitTermStructure terms sorts)
          ((subt terms l).foldl (emitTermStructure terms sorts)
            ({ em with names := ufUnion nameMerge em.names l r }, outC)) := by
      rw [List.foldl_append]
    rw [hsplit]
    have h1 := conc_subt terms sorts htw l hl _ outC hA hcovl
    set F1 := (subt terms l).foldl (emitTermStructure terms sorts)
      ({ em with names := ufUnion nameMerge em.names l r }, outC) with hF1
    have h2 := conc_subt terms sorts htw r hr F1.1 F1.2 h1.1 hcovr
    have hpair : (F1.1, F1.2) = F1 := rfl
    rw [hpair] at h2
    set F := (subt terms r).foldl (emitTermStructure terms sorts) F1 with hF
    have hFinv : ConcInv terms emP premOut F.1 F.2 := h2.1
    have hladd : ufGet F.1.added l = true :=
      h2.2.1.2 l (h1.2.2 l (self_mem_subt terms l))
    have hradd : ufGet F.1.added r = true := h2.2.2 r (self_mem_subt terms r)
    have hparF : F.1.names.parents
        = (ufUnion nameMerge em.names l r).parents := by
      rw [hF]
      rw [emit_fold_names_parents terms sorts (subt terms r) F1]
      rw [hF1]
      rw [emit_fold_names_parents terms sorts (subt terms l)
        ({ em with names := ufUnion nameMerge em.names l r }, outC)]
    have hFroot : ufRoot F.1.names l = ufRoot F.1.names r := by
      rw [ufRoot_eq_of_parents_eq hparF l, ufRoot_eq_of_parents_eq hparF r]
      exact ufRoot_ufUnion_ab nameMerge em.names terms.length hinv.wfn l r hl hr
    have houtsub : ∀ x : FlatAtom, x ∈ outC → x ∈ F.2 := by
      intro x hx
      rw [hF]
      refine emit_fold_out_mono terms sorts (subt terms r) F1 x ?_
      rw [hF1]
      exact emit_fold_out_mono terms sorts (subt terms l) _ x hx
    cases heen : (match ufGet em.names l, ufGet em.names r with
      | some a, some b => if a ≠ b then some (a, b) else none
      | _, _ => none) with
    | none =>
      exact conc_equal_final terms htw hFinv hl hr hladd hradd hFroot
    | some pr =>
      have hpr := een_some em l r heen
      have hprmem1 : pr.1 ∈ occList premOut ++ occList F.2 := by
        rcases List.mem_append.mp (hinv.occ2 l pr.1 hpr.1) with h3 | h3
        · exact List.mem_append_left _ h3
        · refine List.mem_append_right _ ?_
          rcases List.mem_flatMap.mp h3 with ⟨a0, ha0, hk2⟩
          exact List.mem_flatMap.mpr ⟨a0, houtsub a0 ha0, hk2⟩
      have hprmem2 : pr.2 ∈ occList premOut ++ occList F.2 := by
        rcases List.mem_append.mp (hinv.occ2 r pr.2 hpr.2.1) with h3 | h3
        · exact List.mem_append_left _ h3
        · refine List.mem_append_right _ ?_
          rcases List.mem_flatMap.mp h3 with ⟨a0, ha0, hk2⟩
          exact List.mem_flatMap.mpr ⟨a0, houtsub a0 ha0, hk2⟩
      have hC : ConcInv terms emP premOut F.1
          (F.2 ++ [FlatAtom.Equal pr.1 pr.2]) := by
        refine ⟨hFinv.wfn, hFinv.wfa, hFinv.wfc, hFinv.con_eq, hFinv.le_an,
          hFinv.sep, hFinv.appargs, hFinv.named, hFinv.cnamed, ?_,
          hFinv.addmono, hFinv.addle, ?_⟩
        · intro t2 k hk
          rcases List.mem_append.mp (hFinv.occ2 t2 k hk) with h3 | h3
          · exact List.mem_append_left _ h3
          · refine List.mem_append_right _ ?_
            rw [occList_append]
            exact List.mem_append_left _ h3
        · refine checkConclusion_append F.2 _ _ hFinv.chk ?_
          show (!(pr.1 == pr.2) &&
            (occList premOut ++ occList F.2).contains pr.1 &&
            (occList premOut ++ occList F.2).contains pr.2 &&
            checkConclusion [] _) = true
          rw [Bool.and_eq_true, Bool.and_eq_true, Bool.and_eq_true]
          refine ⟨⟨⟨?_, ?_⟩, ?_⟩, rfl⟩
          · simp [hpr.2.2]
          · exact List.elem_eq_true_of_mem hprmem1
          · exact List.elem_eq_true_of_mem hprmem2
      exact conc_equal_final terms htw hC hl hr hladd hradd hFroot

end Flatten

namespace Flatten

/-- The conclusion-phase invariant holds at the start of the conclusion
pass. -/
theorem ConcInv_base (terms : List TermData) (sorts : List String)
    {premise : List AtomData} (htw : termsWF terms)
    (hats : ∀ atom, atom ∈ premise → atomTermsLt terms.length atom) :
    ConcInv terms (premEnd terms sorts premise).1
      (premEnd terms sorts premise).2
      (premEnd terms sorts premise).1 [] := by
  have hP := (premise_fold terms sorts htw hats).1
  refine ⟨hP.wfn, hP.wfa, hP.wfc, rfl, hP.le_an, hP.sep, hP.appargs,
    hP.named, ?_, ?_, fun t h => h, UFle_refl _, rfl⟩
  · intro t hc
    refine premise_constrained_named terms sorts htw hats t ?_
    rw [← hP.con_eq]
    exact hc
  · intro t k hk
    exact List.mem_append_left _
      (premise_names_occurred terms sorts htw hats t k hk)

/-- The conclusion-phase invariant holds at the end of the conclusion
pass. -/
theorem conc_fold (terms : List TermData) (sorts : List String)
    {premise conclusion : List AtomData} (htw : termsWF terms)
    (hats : ∀ atom, atom ∈ premise → atomTermsLt terms.length atom)
    (hatc : ∀ atom, atom ∈ conclusion → atomTermsLt terms.length atom)
    (hcov : ∀ atom, atom ∈ conclusion → ∀ s, s ∈ atomSubterms terms atom →
      (∀ v, terms.getD s default = TermData.Variable v →
        ufGet (premEnd terms sorts premise).1.added s = true) ∧
      terms.getD s default ≠ TermData.Wildcard) :
    ConcInv terms (premEnd terms sorts premise).1
      (premEnd terms sorts premise).2
      (conclusion.foldl (emitAtom terms sorts)
        ((premEnd terms sorts premise).1, [])).1
      (conclusion.foldl (emitAtom terms sorts)
        ((premEnd terms sorts premise).1, [])).2 :=
  foldl_inv (fun acc : Em × List FlatAtom =>
      ConcInv terms (premEnd terms sorts premise).1
        (premEnd terms sorts premise).2 acc.1 acc.2)
    _ conclusion ((premEnd terms sorts premise).1, [])
    (ConcInv_base terms sorts htw hats)
    (fun acc atom hmem hacc =>
      conc_atom terms sorts htw hacc atom (hatc atom hmem)
        (fun s hs => hcov atom hmem s hs))

end Flatten

namespace Flatten

/-- The flattener unfolds into the setup, premise and conclusion passes. -/
theorem flatten_sequent_eq (seq : Sequent) (sorts : List String) :
    flatten_sequent seq sorts =
      { premise := (premEnd seq.terms sorts seq.premise).2
        conclusion := (seq.conclusion.foldl (emitAtom seq.terms sorts)
          ((premEnd seq.terms sorts seq.premise).1, [])).2 } := rfl

/-- The claim corrected: for a sequent with well-founded application
structure, in-range atoms, no conclusion wildcards, and every conclusion
variable occurring in the premise, the flattened sequent passes the full
well-formedness check: the premise holds no Equal atom, the conclusion
holds no Unconstrained atom, all non-last arguments of conclusion Relation
atoms occurred earlier, and conclusion Equal atoms have distinct sides
that both occurred earlier. -/
theorem c1_flatten_wellFormed (seq : Sequent) (sorts : List String)
    (htw : termsWF seq.terms)
    (hatp : ∀ atom, atom ∈ seq.premise → atomTermsLt seq.terms.length atom)
    (hatc : ∀ atom, atom ∈ seq.conclusion → atomTermsLt seq.terms.length atom)
    (hcov : ∀ atom, atom ∈ seq.conclusion →
      ∀ s, s ∈ atomSubterms seq.terms atom →
      (∀ v, seq.terms.getD s default = TermData.Variable v →
        ∃ atomp, atomp ∈ seq.premise ∧
          ∃ u, u ∈ atomSubterms seq.terms atomp ∧
            seq.terms.getD u default = TermData.Variable v) ∧
      seq.terms.getD s default ≠ TermData.Wildcard) :
    (flatten_sequent seq sorts).wellFormed = true := by
  have hP := (premise_fold seq.terms sorts htw hatp).1
  have hcov2 : ∀ atom, atom ∈ seq.conclusion →
      ∀ s, s ∈ atomSubterms seq.terms atom →
      (∀ v, seq.terms.getD s default = TermData.Variable v →
        ufGet (premEnd seq.terms sorts seq.premise).1.added s = true) ∧
      seq.terms.getD s default ≠ TermData.Wildcard := by
    intro atom hmem s hs
    refine ⟨?_, (hcov atom hmem s hs).2⟩
    intro v hdata
    rcases (hcov atom hmem s hs).1 v hdata with ⟨atomp, hmemp, u, hu, hudata⟩
    have hslt : s < seq.terms.length :=
      mem_atomSubterms_lt htw atom (hatc atom hmem) s hs
    have hult : u < seq.terms.length :=
      mem_atomSubterms_lt htw atomp (hatp atomp hmemp) u hu
    have hip : initParent seq.terms s = initParent seq.terms u :=
      initParent_name_eq seq.terms s u hslt hult v hdata hudata
    have hroot0 : ufRoot (ufNew seq.terms Bool false) s
        = ufRoot (ufNew seq.terms Bool false) u := by
      rw [ufRoot_ufNew seq.terms Bool false s hslt,
        ufRoot_ufNew seq.terms Bool false u hult]
      exact hip
    have hrootP : ufRoot (premEnd seq.terms sorts seq.premise).1.added s
        = ufRoot (premEnd seq.terms sorts seq.premise).1.added u :=
      hP.le_init s u hroot0
    have huadd : ufGet (premEnd seq.terms sorts seq.premise).1.added u = true :=
      premise_subterms_added seq.terms sorts htw hatp atomp hmemp u hu
    rw [ufGet_root_eq _ hrootP]
    exact huadd
  have hC := conc_fold seq.terms sorts htw hatp hatc hcov2
  rw [flatten_sequent_eq seq sorts]
  unfold FlatSequent.wellFormed
  rw [checkPremise_of_noEq _ hP.noeq []]
  show checkConclusion _ ([] ++ occList (premEnd seq.terms sorts seq.premise).2)
    = true
  rw [List.nil_append]
  exact hC.chk

/-- A covered sequent p(x) ⊢ q(x) over two occurrences of one variable. -/
def seqW : Sequent :=
  { terms := [TermData.Variable "x", TermData.Variable "x"]
    premise := [AtomData.Predicate "p" [0]]
    conclusion := [AtomData.Predicate "q" [1]] }

theorem c1_flatten_wellFormed_witness :
    (flatten_sequent seqW ["s", "s"]).wellFormed = true := by
  refine c1_flatten_wellFormed seqW ["s", "s"] ?_ ?_ ?_ ?_
  · intro i hi f args hdata
    rcases i with _ | i
    · exact TermData.noConfusion hdata
    rcases i with _ | i
    · exact TermData.noConfusion hdata
    · have h2 : i + 2 < 2 := hi
      omega
  · intro atom hmem
    rcases List.mem_singleton.mp hmem with rfl
    show ∀ a, a ∈ [(0 : Nat)] → a < seqW.terms.length
    decide
  · intro atom hmem
    rcases List.mem_singleton.mp hmem with rfl
    show ∀ a, a ∈ [(1 : Nat)] → a < seqW.terms.length
    decide
  · intro atom hmem s hs
    rcases List.mem_singleton.mp hmem with rfl
    have hs2 : s ∈ [1] := hs
    rcases List.mem_singleton.mp hs2 with rfl
    refine ⟨?_, ?_⟩
    · intro v hdata
      have hv : v = "x" := by
        have hd2 : TermData.Variable "x" = TermData.Variable v := hdata
        injection hd2 with h2
        exact h2.symm
      refine ⟨AtomData.Predicate "p" [0], List.mem_singleton.mpr rfl, 0, ?_, ?_⟩
      · show (0 : Nat) ∈ [0]
        exact List.mem_singleton.mpr rfl
      · rw [hv]
        rfl
    · intro hcon
      exact TermData.noConfusion hcon

end Flatten
